import Mathlib

/-!
# Secure metadata cache and partial coalescing buffer

A shallow embedding of `src/mem/security/metadata_cache.{hh,cc}`: the set-associative
metadata cache (`lookup`, `insert`, `findVictim`, `evict`), the partial coalescing buffer
(`coalescePartial`, `flushPCB`, `sendToNVMain`) and the overflow path (`sendToPLUB`);
further down, the port towards the NVM, the latency functions of
`src/mem/nvmain_control.{hh,cc}` and the constructor of
`src/dev/security/aes_ctr_generator.cc`.

Conventions of the embedding.

* `Addr`, `Tick` and `uint64_t` values are natural numbers; every place where the C++
  computes in 64 bits and could wrap is written with an explicit `% 2 ^ 64`.
* `std::vector` and C arrays are lists; `xs[i]` is `List.getD`, a store is `List.set`.
  An access outside the bounds is undefined behaviour in the C++; theorems that depend on
  an access state the bound as a hypothesis.
* `uint8_t data[64]` of a PCB entry is a list of 64 bytes; `memcpy` of a `uint64_t` is the
  little-endian byte encoding.
* `std::map<Addr, PCBEntry>` is an association list kept in ascending key order, which is
  the order in which `flushPCB` iterates.
* `curTick()` is passed to every operation as the argument `now`.
* `statistics::Scalar` counters are natural numbers.
-/

namespace MetadataCache

/-! ## Data model -/

/-- Cache line of `metadata_cache.hh`: `valid`, `tag`, `data[8]`, `lastAccess`, `dirty`. -/
structure CacheLine where
  valid : Bool
  tag : Nat
  data : List Nat
  lastAccess : Nat
  dirty : Bool
deriving DecidableEq, Repr

/-- Constructor `CacheLine()`: invalid, clean, tag 0, eight zero words. -/
def CacheLine.init : CacheLine :=
  { valid := false, tag := 0, data := List.replicate 8 0, lastAccess := 0, dirty := false }

/-- Cache set: the ways and the (unused) clock hand. -/
structure CacheSet where
  ways : List CacheLine
  clockHand : Int
deriving DecidableEq, Repr

/-- Constructor `CacheSet(numWays)`. -/
def CacheSet.init (numWays : Nat) : CacheSet :=
  { ways := List.replicate numWays CacheLine.init, clockHand := 0 }

/-- Staging entry of the coalescing buffer: `baseAddr`, `data[64]`, `validMask`,
`lastUpdate`, `dirty`. -/
structure PCBEntry where
  baseAddr : Nat
  data : List Nat
  validMask : Nat
  lastUpdate : Nat
  dirty : Bool
deriving DecidableEq, Repr

/-- Constructor `PCBEntry()`: base 0, mask 0, 64 zero bytes, clean. -/
def PCBEntry.init : PCBEntry :=
  { baseAddr := 0, data := List.replicate 64 0, validMask := 0, lastUpdate := 0,
    dirty := false }

/-- Method `isFull`: `validMask == 0xFF`. -/
def PCBEntry.isFull (e : PCBEntry) : Bool := e.validMask == 0xFF

/-- Builtin `__builtin_popcount` on a 32-bit argument. -/
def popcount (m : Nat) : Nat :=
  ((List.range 32).filter (fun i => m &&& (1 <<< i) != 0)).length

/-- Method `numPartials`: population count of the mask. -/
def PCBEntry.numPartials (e : PCBEntry) : Nat := popcount e.validMask

/-- Static `PCBEntry::getBase`: `(addr / 64) * 64`. -/
def PCBEntry.getBase (addr : Nat) : Nat := (addr / 64) * 64

/-- Scalar counters of `MetadataCacheStats`. -/
structure Stats where
  hits : Nat
  misses : Nat
  evictions : Nat
  writeQueueFull : Nat
  pcbCoalescedBlocks : Nat
  pcbPartialFlushes : Nat
  pcbOverflows : Nat
  pcbTotalPartials : Nat
  plubPartials : Nat
  nvmWrites : Nat
  nvmBytesWritten : Nat
  staleBlocksDiscarded : Nat
deriving DecidableEq, Repr

/-- All counters zero. -/
def Stats.init : Stats :=
  { hits := 0, misses := 0, evictions := 0, writeQueueFull := 0, pcbCoalescedBlocks := 0,
    pcbPartialFlushes := 0, pcbOverflows := 0, pcbTotalPartials := 0, plubPartials := 0,
    nvmWrites := 0, nvmBytesWritten := 0, staleBlocksDiscarded := 0 }

/-- Construction parameters. `numSets`, `numWays`, `writeQueueCapacity` are `int` in the
source, `blockSize` is an `Addr`. `pcbCapacity` and `flushInterval` are the in-class
constants `256` and `10000000000` of the header, kept as fields so that the properties of
the buffer are stated for any capacity. -/
structure Config where
  numSets : Nat
  numWays : Nat
  blockSize : Nat
  accessLatency : Nat
  writeQueueCapacity : Int
  pcbCapacity : Nat
  flushInterval : Nat
deriving DecidableEq, Repr

/-- The values of the header for the two in-class constants. -/
def Config.source (numSets numWays blockSize accessLatency : Nat)
    (writeQueueCapacity : Int) : Config :=
  { numSets := numSets, numWays := numWays, blockSize := blockSize,
    accessLatency := accessLatency, writeQueueCapacity := writeQueueCapacity,
    pcbCapacity := 256, flushInterval := 10000000000 }

/-- Mutable state of a `MetadataCache` object. `flushAt` is the tick for which
`flushEvent` is scheduled. -/
structure State where
  cacheSets : List CacheSet
  writeQueue : List (Nat × Nat)
  pcbMap : List (Nat × PCBEntry)
  stats : Stats
  flushAt : Nat
deriving DecidableEq, Repr

/-- State after the constructor: `numSets` sets of `numWays` invalid lines, empty queue and
buffer, zero counters. -/
def State.init (cfg : Config) : State :=
  { cacheSets := List.replicate cfg.numSets (CacheSet.init cfg.numWays),
    writeQueue := [], pcbMap := [], stats := Stats.init, flushAt := 0 }

/-- Conversion `(size_t)x` of an `int`. -/
def sizeT (x : Int) : Nat := (x % (2 ^ 64 : Int)).toNat

/-- Constant `MaxTick` of the simulator, the largest `Tick`. -/
def MaxTick : Nat := 2 ^ 64 - 1

/-! ## Byte copies -/

/-- Copy `memcpy(&bytes[pos], &v, 8)` of a `uint64_t` into a byte array. -/
def storeU64 (bytes : List Nat) (pos v : Nat) : List Nat :=
  (List.range 8).foldl (fun acc k => acc.set (pos + k) (v / 256 ^ k % 256)) bytes

/-- Copy `memcpy(&v, &bytes[pos], 8)` out of a byte array. -/
def loadU64 (bytes : List Nat) (pos : Nat) : Nat :=
  (List.range 8).foldl (fun acc k => acc + bytes.getD (pos + k) 0 * 256 ^ k) 0

/-! ## The coalescing buffer as an ordered map -/

/-- Lookup `pcbMap.find(k)`. -/
def pcbFind (m : List (Nat × PCBEntry)) (k : Nat) : Option PCBEntry :=
  match m with
  | [] => none
  | (k', e) :: t => if k' = k then some e else pcbFind t k

/-- Store of the entry reached through `pcbMap[k]`: replaces the entry of key `k`, or
inserts it at its place in key order. -/
def pcbInsert (m : List (Nat × PCBEntry)) (k : Nat) (e : PCBEntry) : List (Nat × PCBEntry) :=
  match m with
  | [] => [(k, e)]
  | (k', e') :: t =>
    if k < k' then (k, e) :: (k', e') :: t
    else if k = k' then (k, e) :: t
    else (k', e') :: pcbInsert t k e

/-- Removal `pcbMap.erase(k)`. -/
def pcbErase (m : List (Nat × PCBEntry)) (k : Nat) : List (Nat × PCBEntry) :=
  m.filter (fun p => p.1 != k)

/-! ## Operations of the buffer -/

/-- Records pushed by the loop of `sendToNVMain`: one `(baseAddr + i * 8, partial)` per set
bit `i` of the mask, `i` from 0 to 7. -/
def pushPartials (queue : List (Nat × Nat)) (entry : PCBEntry) : List (Nat × Nat) :=
  (List.range 8).foldl
    (fun q i =>
      if entry.validMask &&& (1 <<< i) != 0 then
        q ++ [((entry.baseAddr + i * 8) % 2 ^ 64, loadU64 entry.data (i * 8))]
      else q)
    queue

/-- Function `sendToNVMain`. -/
def sendToNVMain (cfg : Config) (s : State) (entry : PCBEntry) : State :=
  if s.writeQueue.length < sizeT cfg.writeQueueCapacity then
    { s with
      writeQueue := pushPartials s.writeQueue entry
      stats := { s.stats with
        nvmWrites := s.stats.nvmWrites + 1
        nvmBytesWritten := s.stats.nvmBytesWritten + 64 } }
  else
    { s with stats := { s.stats with writeQueueFull := s.stats.writeQueueFull + 1 } }

/-- Function `sendToPLUB`. -/
def sendToPLUB (cfg : Config) (s : State) (addr data : Nat) : State :=
  if s.writeQueue.length < sizeT cfg.writeQueueCapacity then
    { s with
      writeQueue := s.writeQueue ++ [(addr, data)]
      stats := { s.stats with plubPartials := s.stats.plubPartials + 1 } }
  else
    { s with stats := { s.stats with writeQueueFull := s.stats.writeQueueFull + 1 } }

/-- The entry of `coalescePartial` after the partial is merged: `baseAddr` and `lastUpdate`
are set when `baseAddr == 0`, then the 8 bytes are copied, the mask bit is set, `dirty` is
set and `lastUpdate` is touched. -/
def mergePartial (now : Nat) (entry : PCBEntry) (baseAddr offset data : Nat) : PCBEntry :=
  let entry1 : PCBEntry :=
    if entry.baseAddr = 0 then { entry with baseAddr := baseAddr, lastUpdate := now }
    else entry
  { entry1 with
    data := storeU64 entry1.data (offset * 8) data
    validMask := (entry1.validMask ||| (1 <<< offset)) % 256
    dirty := true
    lastUpdate := now }

/-- Function `coalescePartial`. -/
def coalescePartial (cfg : Config) (now : Nat) (s : State) (addr data : Nat) : State :=
  let baseAddr := PCBEntry.getBase addr
  let offset := (addr - baseAddr) / 8
  let s1 : State :=
    { s with stats := { s.stats with pcbTotalPartials := s.stats.pcbTotalPartials + 1 } }
  if s1.pcbMap.length ≥ cfg.pcbCapacity ∧ pcbFind s1.pcbMap baseAddr = none then
    let s2 := sendToPLUB cfg s1 addr data
    { s2 with stats := { s2.stats with pcbOverflows := s2.stats.pcbOverflows + 1 } }
  else
    let entry0 := (pcbFind s1.pcbMap baseAddr).getD PCBEntry.init
    let entry := mergePartial now entry0 baseAddr offset data
    let s2 : State := { s1 with pcbMap := pcbInsert s1.pcbMap baseAddr entry }
    if entry.isFull then
      let s3 := sendToNVMain cfg s2 entry
      { s3 with
        pcbMap := pcbErase s3.pcbMap baseAddr
        stats := { s3.stats with pcbCoalescedBlocks := s3.stats.pcbCoalescedBlocks + 1 } }
    else s2

/-- Body of the loop of `flushPCB` for one map entry. -/
def flushEntry (cfg : Config) (s : State) (entry : PCBEntry) : State :=
  if entry.dirty ∧ entry.numPartials > 0 then
    let s1 := sendToNVMain cfg s entry
    if entry.isFull then
      { s1 with stats := { s1.stats with
          pcbCoalescedBlocks := s1.stats.pcbCoalescedBlocks + 1 } }
    else
      { s1 with stats := { s1.stats with
          pcbPartialFlushes := s1.stats.pcbPartialFlushes + 1 } }
  else s

/-- Function `flushPCB`: every entry in key order, then `clear`, then the next flush is
scheduled. -/
def flushPCB (cfg : Config) (now : Nat) (s : State) : State :=
  let s1 := s.pcbMap.foldl (fun st p => flushEntry cfg st p.2) s
  { s1 with pcbMap := [], flushAt := (now + cfg.flushInterval) % 2 ^ 64 }

/-! ## Operations of the cache -/

/-- Function `getSetIndex`: `(addr / blockSize) % numSets`. -/
def getSetIndex (cfg : Config) (addr : Nat) : Nat := (addr / cfg.blockSize) % cfg.numSets

/-- Function `getTag`: `addr / (blockSize * numSets)`, the product taken in 64 bits. -/
def getTag (cfg : Config) (addr : Nat) : Nat :=
  addr / ((cfg.blockSize * cfg.numSets) % 2 ^ 64)

/-- Function `getOffset`: `(addr % blockSize) / 8`. -/
def getOffset (cfg : Config) (addr : Nat) : Nat := (addr % cfg.blockSize) / 8

/-- Way `set.ways[i]` of set `cacheSets[setIdx]`. -/
def getWay (s : State) (setIdx i : Nat) : CacheLine :=
  ((s.cacheSets.getD setIdx (CacheSet.init 0)).ways).getD i CacheLine.init

/-- Store into `cacheSets[setIdx].ways[i]`. -/
def setWay (s : State) (setIdx i : Nat) (line : CacheLine) : State :=
  let set := s.cacheSets.getD setIdx (CacheSet.init 0)
  { s with cacheSets := s.cacheSets.set setIdx { set with ways := set.ways.set i line } }

/-- Index reached by the scanning loops of `lookup` and `insert`: the first way `i` below
`numWays` that is valid and carries `tag`. -/
def findHit (cfg : Config) (s : State) (setIdx tag : Nat) : Option Nat :=
  (List.range cfg.numWays).find? (fun i => (getWay s setIdx i).valid && (getWay s setIdx i).tag == tag)

/-- Index reached by the second loop of `insert`: the first way below `numWays` that is not
valid. -/
def findInvalid (cfg : Config) (s : State) (setIdx : Nat) : Option Nat :=
  (List.range cfg.numWays).find? (fun i => !(getWay s setIdx i).valid)

/-- Function `lookup`: the state after the call and the value on a hit. The read
`data[offset]` is that of the code while `offset < 8`, which holds for every address when
`blockSize = 64`; with a larger block size the C++ index leaves the line's `data[8]`
(undefined behaviour), which this definition does not describe. -/
def lookup (cfg : Config) (now : Nat) (s : State) (addr : Nat) : State × Option Nat :=
  let setIdx := getSetIndex cfg addr
  let tag := getTag cfg addr
  let offset := getOffset cfg addr
  match findHit cfg s setIdx tag with
  | some i =>
    let line := getWay s setIdx i
    (setWay s setIdx i { line with lastAccess := now }, some (line.data.getD offset 0))
  | none => (s, none)

/-- Function `findVictim`: the loop keeps `(oldestTime, victim)`, starting at
`(MaxTick, 0)`. -/
def findVictim (cfg : Config) (s : State) (setIdx : Nat) : Nat :=
  ((List.range cfg.numWays).foldl
    (fun (acc : Nat × Nat) i =>
      if (getWay s setIdx i).lastAccess < acc.1 then ((getWay s setIdx i).lastAccess, i)
      else acc)
    (MaxTick, 0)).2

/-- Function `evict`. -/
def evict (cfg : Config) (now : Nat) (s : State) (setIdx wayIdx : Nat) : State :=
  let line := getWay s setIdx wayIdx
  let s1 : State :=
    if line.dirty then
      let evictAddr := ((line.tag * cfg.numSets + setIdx) % 2 ^ 64 * cfg.blockSize) % 2 ^ 64
      let s2 := (List.range 8).foldl
        (fun st i => coalescePartial cfg now st ((evictAddr + i * 8) % 2 ^ 64) (line.data.getD i 0))
        s
      { s2 with stats := { s2.stats with evictions := s2.stats.evictions + 1 } }
    else s
  setWay s1 setIdx wayIdx { getWay s1 setIdx wayIdx with valid := false }

/-- Function `insert`. The store `data[offset] = data` is that of the code while
`offset < 8`, which holds for every address when `blockSize = 64`; with a larger block size
the C++ index leaves the line's `data[8]` (undefined behaviour: the store lands on the
fields behind the array), which this definition does not describe. The statements about the
lines of the cache are made for `blockSize = 64`. -/
def insert (cfg : Config) (now : Nat) (s : State) (addr data : Nat) : State :=
  let setIdx := getSetIndex cfg addr
  let tag := getTag cfg addr
  let offset := getOffset cfg addr
  match findHit cfg s setIdx tag with
  | some i =>
    let line := getWay s setIdx i
    setWay s setIdx i
      { line with data := line.data.set offset data, dirty := true, lastAccess := now }
  | none =>
    match findInvalid cfg s setIdx with
    | some i =>
      let line := getWay s setIdx i
      setWay s setIdx i
        { line with valid := true, tag := tag, data := line.data.set offset data,
                    dirty := true, lastAccess := now }
    | none =>
      let victimWay := findVictim cfg s setIdx
      let s1 := evict cfg now s setIdx victimWay
      let line := getWay s1 setIdx victimWay
      setWay s1 setIdx victimWay
        { line with valid := true, tag := tag, data := line.data.set offset data,
                    dirty := true, lastAccess := now }

/-- Requests handled by `MemoryPort::recvTimingReq`. -/
inductive Request where
  | read (addr : Nat)
  | write (addr data : Nat)
deriving DecidableEq, Repr

/-- Function `MemoryPort::recvTimingReq`: the state after the request and the data put into
the response of a read. -/
def recvTimingReq (cfg : Config) (now : Nat) (s : State) (req : Request) :
    State × Option Nat :=
  match req with
  | Request.read addr =>
    match lookup cfg now s addr with
    | (s1, some data) =>
      ({ s1 with stats := { s1.stats with hits := s1.stats.hits + 1 } }, some data)
    | (s1, none) =>
      let s2 : State := { s1 with stats := { s1.stats with misses := s1.stats.misses + 1 } }
      (insert cfg now s2 addr 0, some 0)
  | Request.write addr data =>
    let s1 := coalescePartial cfg now s addr data
    (insert cfg now s1 addr data, none)

/-! ## Sequences of operations -/

/-- A call `coalescePartial(addr, data)` made at tick `now`. -/
structure Coalesce where
  now : Nat
  addr : Nat
  data : Nat
deriving DecidableEq, Repr

/-- The calls of a list, first to last. -/
def runCoalesce (cfg : Config) (s : State) (ops : List Coalesce) : State :=
  ops.foldl (fun st op => coalescePartial cfg op.now st op.addr op.data) s

/-- Events that drive the object: a request at the memory port (a cache read or a cache
write), and direct calls of `evict`, `coalescePartial` and `flushPCB`. -/
inductive Op where
  | request (now : Nat) (req : Request)
  | evict (now setIdx wayIdx : Nat)
  | coalesce (now addr data : Nat)
  | flush (now : Nat)
deriving DecidableEq, Repr

/-- State after one event. -/
def step (cfg : Config) (s : State) (op : Op) : State :=
  match op with
  | Op.request now req => (recvTimingReq cfg now s req).1
  | Op.evict now setIdx wayIdx => evict cfg now s setIdx wayIdx
  | Op.coalesce now addr data => coalescePartial cfg now s addr data
  | Op.flush now => flushPCB cfg now s

/-- State after a list of events, first to last. -/
def run (cfg : Config) (s : State) (ops : List Op) : State := ops.foldl (step cfg) s

/-! ## Vocabulary of the statements -/

/-- Indices of the set bits among the low 8 bits of a mask, ascending. -/
def maskBits (m : Nat) : List Nat := (List.range 8).filter (fun i => m.testBit i)

/-- The write records of an entry: `(baseAddr + 8 i, value of bytes [8 i, 8 i + 8))` for
each set bit `i` of the mask, ascending. -/
def entryRecords (e : PCBEntry) : List (Nat × Nat) :=
  (maskBits e.validMask).map (fun i => (e.baseAddr + 8 * i, loadU64 e.data (8 * i)))

/-- Entries that a flush emits: those with `dirty` set and a non-zero mask, in map order. -/
def flushed (m : List (Nat × PCBEntry)) : List PCBEntry :=
  (m.map Prod.snd).filter (fun e => e.dirty && e.validMask != 0)

/-- Number of partials staged in the buffer. -/
def stagedPartials (m : List (Nat × PCBEntry)) : Nat :=
  (m.map (fun p => (maskBits p.2.validMask).length)).sum

/-- Keys of the map strictly ascending, as `std::map` keeps them. -/
def pcbSorted (m : List (Nat × PCBEntry)) : Prop :=
  (m.map Prod.fst).Pairwise (fun a b => a < b)

/-- What the C++ types and the data model give for a staged entry: `baseAddr` is a 64-bit
address aligned to 64, `data` has 64 bytes, `validMask` is 8 bits wide. -/
def PCBEntry.Typed (e : PCBEntry) : Prop :=
  e.baseAddr % 64 = 0 ∧ e.baseAddr < 2 ^ 64 ∧ e.data.length = 64 ∧ e.validMask < 256

/-- Representation invariant of the buffer: ascending keys, and every entry is typed and
stored under its own base address. -/
def pcbWF (m : List (Nat × PCBEntry)) : Prop :=
  pcbSorted m ∧ ∀ p ∈ m, p.2.baseAddr = p.1 ∧ p.2.Typed

/-- What the C++ types give for the cache: `numSets` sets of `numWays` lines of 8 words,
every `lastAccess` a 64-bit tick. -/
def cacheWF (cfg : Config) (s : State) : Prop :=
  s.cacheSets.length = cfg.numSets ∧
  ∀ cs ∈ s.cacheSets, cs.ways.length = cfg.numWays ∧
    ∀ l ∈ cs.ways, l.data.length = 8 ∧ l.lastAccess < 2 ^ 64

/-- The entry that `coalescePartial(addr, data)` holds after its merge step: the entry found
under the base of `addr` (or a fresh one) with the partial merged in. -/
def mergedEntry (now : Nat) (s : State) (addr data : Nat) : PCBEntry :=
  mergePartial now ((pcbFind s.pcbMap (PCBEntry.getBase addr)).getD PCBEntry.init)
    (PCBEntry.getBase addr) ((addr - PCBEntry.getBase addr) / 8) data

/-- The state with `pcbTotalPartials` incremented, as at the entry of `coalescePartial`. -/
def countPartial (s : State) : State :=
  { s with stats := { s.stats with pcbTotalPartials := s.stats.pcbTotalPartials + 1 } }

/-- The calls `coalescePartial(b + 8 i, v i)` at tick `t i`, for the slots `i` of a list. -/
def slotWrites (b : Nat) (v t : Nat → Nat) (slots : List Nat) : List Coalesce :=
  slots.map (fun i => { now := t i, addr := b + 8 * i, data := v i })

/-- Progress of filling base `b` from state `s`: in `st` nothing has been queued since `s`,
only `pcbTotalPartials` has moved, by the number of slots written, and the entry under `b`
(a fresh one while nothing is staged) has exactly the slots `done` marked, each holding its
value `v`. -/
def Filling (cfg : Config) (s st : State) (b : Nat) (v : Nat → Nat) (done : List Nat) : Prop :=
  st.writeQueue = s.writeQueue
  ∧ st.stats = { s.stats with pcbTotalPartials := s.stats.pcbTotalPartials + done.length }
  ∧ (pcbFind st.pcbMap b ≠ none ∨ st.pcbMap.length < cfg.pcbCapacity)
  ∧ (((pcbFind st.pcbMap b).getD PCBEntry.init).baseAddr = b
      ∨ ((pcbFind st.pcbMap b).getD PCBEntry.init).baseAddr = 0)
  ∧ ((pcbFind st.pcbMap b).getD PCBEntry.init).data.length = 64
  ∧ ((pcbFind st.pcbMap b).getD PCBEntry.init).validMask < 256
  ∧ (∀ j, ((pcbFind st.pcbMap b).getD PCBEntry.init).validMask.testBit j = true ↔ j ∈ done)
  ∧ (∀ j ∈ done, loadU64 ((pcbFind st.pcbMap b).getD PCBEntry.init).data (8 * j) = v j)

/-- The buffer stages the value `v` for the address `a`: the entry under the base of `a` is
dirty, has the mask bit of the slot of `a` set, and holds `v` in the bytes of that slot. -/
def Holds (m : List (Nat × PCBEntry)) (a v : Nat) : Prop :=
  ∃ e, pcbFind m (PCBEntry.getBase a) = some e ∧ e.dirty = true
    ∧ e.validMask.testBit ((a - PCBEntry.getBase a) / 8) = true
    ∧ loadU64 e.data (8 * ((a - PCBEntry.getBase a) / 8)) = v

/-- Way `i` of set `setIdx` is valid and carries `tag`: the test of the scanning loops of
`lookup` and `insert`. -/
def hitAt (s : State) (setIdx tag i : Nat) : Prop :=
  (getWay s setIdx i).valid = true ∧ (getWay s setIdx i).tag = tag

/-- The calls `coalescePartial(base + 8 i, data[i])`, `i = 0 … 7` in that order, that forward
a cache line to the buffer at tick `now`. -/
def lineWrites (now base : Nat) (line : CacheLine) : List Coalesce :=
  (List.range 8).map (fun i => { now := now, addr := base + 8 * i, data := line.data.getD i 0 })

/-! ## Runs of cache operations, buffer operations and port requests -/

/-- Calls of the two cache operations `insert` and `lookup`, each at its tick. -/
inductive CacheOp where
  | insert (now addr data : Nat)
  | lookup (now addr : Nat)
deriving DecidableEq, Repr

/-- State after one cache operation. -/
def cacheStep (cfg : Config) (s : State) (op : CacheOp) : State :=
  match op with
  | CacheOp.insert now addr data => insert cfg now s addr data
  | CacheOp.lookup now addr => (lookup cfg now s addr).1

/-- State after a list of cache operations, first to last. -/
def runCache (cfg : Config) (s : State) (ops : List CacheOp) : State :=
  ops.foldl (cacheStep cfg) s

/-- Calls of the two buffer operations `coalescePartial` and `flushPCB`, each at its tick. -/
inductive PcbOp where
  | coalesce (now addr data : Nat)
  | flush (now : Nat)
deriving DecidableEq, Repr

/-- State after one buffer operation. -/
def pcbStep (cfg : Config) (s : State) (op : PcbOp) : State :=
  match op with
  | PcbOp.coalesce now addr data => coalescePartial cfg now s addr data
  | PcbOp.flush now => flushPCB cfg now s

/-- State after a list of buffer operations, first to last. -/
def runPcb (cfg : Config) (s : State) (ops : List PcbOp) : State :=
  ops.foldl (pcbStep cfg) s

/-- The value of the last `coalescePartial(a, _)` of a list of buffer operations, starting
from `acc` when there is none. -/
def lastWrittenFrom (acc : Option Nat) (ops : List PcbOp) (a : Nat) : Option Nat :=
  ops.foldl
    (fun r op =>
      match op with
      | PcbOp.coalesce _ addr data => if addr = a then some data else r
      | PcbOp.flush _ => r)
    acc

/-- The last value coalesced to `a` by a list of buffer operations. -/
def lastWritten (ops : List PcbOp) (a : Nat) : Option Nat := lastWrittenFrom none ops a

/-- The value of the last record for address `a` in a queue. -/
def lastRecord (q : List (Nat × Nat)) (a : Nat) : Option Nat :=
  ((q.filter (fun r => r.1 == a)).getLast?).map Prod.snd

/-- The slot of `a` is not staged: an entry under the base of `a`, if there is one, has the
mask bit of the slot of `a` clear. -/
def SlotFree (m : List (Nat × PCBEntry)) (a : Nat) : Prop :=
  ∀ e, pcbFind m (PCBEntry.getBase a) = some e →
    e.validMask.testBit ((a - PCBEntry.getBase a) / 8) = false

/-- The buffer and the queue agree with `lv` as the last value written to `a`: either the
value is staged, or the slot is free and the last record for `a` in the queue carries it. -/
def Tracks (s : State) (a : Nat) (lv : Option Nat) : Prop :=
  pcbWF s.pcbMap
  ∧ ((∃ v, lv = some v ∧ Holds s.pcbMap a v)
      ∨ (SlotFree s.pcbMap a ∧ lastRecord s.writeQueue a = lv))

/-- Requests at the memory port, each with its tick, handled first to last. -/
def runRequests (cfg : Config) (s : State) (reqs : List (Nat × Request)) : State :=
  reqs.foldl (fun st r => (recvTimingReq cfg r.1 st r.2).1) s

/-- Number of write requests of a list. -/
def writeCount (reqs : List (Nat × Request)) : Nat :=
  (reqs.filter (fun r => match r.2 with
    | Request.write _ _ => true
    | Request.read _ => false)).length

/-- Calls `sendToPLUB(addr, data)` for the partials of a list, first to last. -/
def runPLUB (cfg : Config) (s : State) (ps : List (Nat × Nat)) : State :=
  ps.foldl (fun st p => sendToPLUB cfg st p.1 p.2) s

/-- Formula `writeAmplification = nvmWrites / ((pcbTotalPartials * 8) / 64)` of the
statistics group, evaluated over the rationals. The denominator is zero exactly when
`pcbTotalPartials` is; the formula then has no numeric value (the simulator's floating-point
division gives `nan`, or `inf` for a positive numerator) and the result is `none`. -/
def writeAmplification (st : Stats) : Option ℚ :=
  if st.pcbTotalPartials = 0 then none
  else some ((st.nvmWrites : ℚ) / (((st.pcbTotalPartials : ℚ) * 8) / 64))

/-- Valid partials contained in the entries that a flush of map `m` counts in
`pcbPartialFlushes`: the dirty, non-empty, not full entries. -/
def partialFlushPartials (m : List (Nat × PCBEntry)) : Nat :=
  (((flushed m).filter (fun e => !e.isFull)).map (fun e => e.numPartials)).sum

/-- Total of `partialFlushPartials` over the flushes of a run of buffer operations from
state `s`. -/
def flushedPartials (cfg : Config) (s : State) (ops : List PcbOp) : Nat :=
  match ops with
  | [] => 0
  | PcbOp.flush now :: rest =>
    partialFlushPartials s.pcbMap + flushedPartials cfg (flushPCB cfg now s) rest
  | PcbOp.coalesce now addr data :: rest =>
    flushedPartials cfg (coalescePartial cfg now s addr data) rest

/-- The partials that a run of buffer operations from state `s` hands to PLUB and that PLUB
queues, in the order of their arrival. -/
def overflowed (cfg : Config) (s : State) (ops : List PcbOp) : List (Nat × Nat) :=
  match ops with
  | [] => []
  | PcbOp.coalesce now addr data :: rest =>
    if s.pcbMap.length ≥ cfg.pcbCapacity ∧ pcbFind s.pcbMap (PCBEntry.getBase addr) = none
        ∧ s.writeQueue.length < sizeT cfg.writeQueueCapacity then
      (addr, data) :: overflowed cfg (coalescePartial cfg now s addr data) rest
    else overflowed cfg (coalescePartial cfg now s addr data) rest
  | PcbOp.flush now :: rest => overflowed cfg (flushPCB cfg now s) rest

/-- Some `insert` of the list wrote the value `v` to an address with the set index, tag and
offset of `a`. -/
def insertedSame (cfg : Config) (ops : List CacheOp) (a v : Nat) : Bool :=
  ops.any (fun op =>
    match op with
    | CacheOp.insert _ addr data =>
      getSetIndex cfg addr == getSetIndex cfg a && getTag cfg addr == getTag cfg a
        && getOffset cfg addr == getOffset cfg a && data == v
    | CacheOp.lookup _ _ => false)

/-- The counters of emissions balance: every emission or overflow was either delivered to
the write queue or dropped on a full queue, and every delivered entry counts 64 bytes. -/
def Stats.Balanced (st : Stats) : Prop :=
  st.nvmBytesWritten = 64 * st.nvmWrites
  ∧ st.nvmWrites + st.plubPartials + st.writeQueueFull
      = st.pcbCoalescedBlocks + st.pcbPartialFlushes + st.pcbOverflows
  ∧ st.nvmWrites ≤ st.pcbCoalescedBlocks + st.pcbPartialFlushes
  ∧ st.plubPartials ≤ st.pcbOverflows

/-- What the C++ types and the data model give for a buffer operation: a partial has an
8-aligned 64-bit address and a 64-bit value. -/
def PcbOp.Typed (op : PcbOp) : Prop :=
  match op with
  | PcbOp.coalesce _ addr data => addr % 8 = 0 ∧ addr < 2 ^ 64 ∧ data < 2 ^ 64
  | PcbOp.flush _ => True

/-- The addresses of the 8 slots of each base of a list. -/
def blockSlots (bases : List Nat) : List Nat :=
  (bases.map (fun b => (List.range 8).map (fun i => b + 8 * i))).flatten

/-- All 8 slots of base `b` are among the addresses `done`. -/
def blockComplete (done : List Nat) (b : Nat) : Bool :=
  (List.range 8).all (fun j => done.contains (b + 8 * j))

/-- Progress of covering the slots of `bases` from the initial state: `done` are the slot
addresses written so far. Every staged entry belongs to a base that is not complete and has
exactly the written slots marked; a base that is not staged is complete or untouched; the
completed bases are counted in `pcbCoalescedBlocks` and `nvmWrites`; nothing overflowed or
was flushed. -/
def Covering (bases : List Nat) (st : State) (done : List Nat) : Prop :=
  pcbSorted st.pcbMap
  ∧ (∀ p ∈ st.pcbMap, p.1 ∈ bases ∧ p.2.validMask < 256 ∧ blockComplete done p.1 = false
      ∧ ∀ j, j < 8 → (p.2.validMask.testBit j = true ↔ p.1 + 8 * j ∈ done))
  ∧ (∀ b ∈ bases, pcbFind st.pcbMap b = none →
      blockComplete done b = true ∨ ∀ j, j < 8 → b + 8 * j ∉ done)
  ∧ st.stats.pcbCoalescedBlocks = (bases.filter (blockComplete done)).length
  ∧ st.stats.nvmWrites = (bases.filter (blockComplete done)).length
  ∧ st.stats.pcbTotalPartials = done.length
  ∧ st.stats.pcbPartialFlushes = 0
  ∧ st.stats.pcbOverflows = 0

/-! ## Vocabulary of the port, statistics and geometry statements -/

/-- Number of read requests of a list: one `lookup` is performed for each. -/
def readCount (reqs : List (Nat × Request)) : Nat :=
  (reqs.filter (fun r => match r.2 with
    | Request.read _ => true
    | Request.write _ _ => false)).length

/-- Formula `overflowRate = (pcbOverflows / pcbTotalPartials) * 100` of the statistics
group, evaluated over the rationals. -/
def overflowRate (st : Stats) : ℚ :=
  ((st.pcbOverflows : ℚ) / (st.pcbTotalPartials : ℚ)) * 100

/-- Formula `plubOverhead = (plubPartials / pcbTotalPartials) * 100` of the statistics
group, evaluated over the rationals. -/
def plubOverhead (st : Stats) : ℚ :=
  ((st.plubPartials : ℚ) / (st.pcbTotalPartials : ℚ)) * 100

/-- The calls `coalescePartial(64 i, i)` at tick `i`, for `i < n`: one partial for each of
`n` distinct bases. -/
def oneEach (n : Nat) : List Coalesce :=
  (List.range n).map (fun i => { now := i, addr := 64 * i, data := i })

/-! ## Construction -/

/-- Constructor `MetadataCache::MetadataCache`: the parameters are copied and `numSets` sets
of `numWays` ways are built. The body has no `fatal_if` and no other failing path; an
`Except.error` would be a fatal error at construction. -/
def construct (cfg : Config) : Except String State :=
  Except.ok (State.init cfg)

/-- Parameters of `AESCTRGenerator`; `latency` and `counter_latency` are `Tick`s. -/
structure AESCTRGeneratorParams where
  latency : Nat
  counterLatency : Nat
  startCounter : Nat
  keySeed : Nat
  testRequests : Nat
deriving DecidableEq, Repr

/-- Fields of an `AESCTRGenerator` after construction; `key` is the 16-byte key handed to the
cipher object. -/
structure AESCTRGenerator where
  latency : Nat
  counterLatency : Nat
  nextCounter : Nat
  keySeed : Nat
  remainingRequests : Nat
  key : List Nat
deriving DecidableEq, Repr

/-- Constructor `AESCTRGenerator::AESCTRGenerator`: `fatal_if(latency <= 0, ...)`,
`fatal_if(counterLatency < 0, ...)`, then the key bytes
`(keySeed >> (8 * (i % 8))) & 0xff`. -/
def AESCTRGenerator.construct (p : AESCTRGeneratorParams) : Except String AESCTRGenerator :=
  if p.latency ≤ 0 then Except.error "AESCTRGenerator latency must be positive."
  else if p.counterLatency < 0 then Except.error "counter_latency cannot be negative."
  else Except.ok
    { latency := p.latency, counterLatency := p.counterLatency,
      nextCounter := p.startCounter, keySeed := p.keySeed,
      remainingRequests := p.testRequests,
      key := (List.range 16).map (fun i => (p.keySeed >>> (8 * (i % 8))) &&& 0xff) }

/-! ## The port towards the NVM -/

/-- The object together with its `NVMainPort`: the cache state and the deque
`queuedPackets` of the port. A packet is identified by a number. -/
structure Device where
  cache : State
  queuedPackets : List Nat
deriving DecidableEq, Repr

/-- Function `NVMainPort::sendTimingReq`: `accepted` is the answer of
`RequestPort::sendTimingReq`, given by the peer; a refused packet is pushed at the back of
`queuedPackets`. -/
def NVMainPort.sendTimingReq (accepted : Bool) (d : Device) (pkt : Nat) : Device × Bool :=
  if accepted then (d, true)
  else ({ d with queuedPackets := d.queuedPackets ++ [pkt] }, false)

/-- Function `NVMainPort::recvTimingResp`: the response is deleted, then the head of
`queuedPackets`, if any, is sent again and popped when the peer accepts it. -/
def NVMainPort.recvTimingResp (accepted : Bool) (d : Device) (_pkt : Nat) : Device × Bool :=
  match d.queuedPackets with
  | [] => (d, true)
  | next :: _ =>
    match NVMainPort.sendTimingReq accepted d next with
    | (d1, true) => ({ d1 with queuedPackets := d1.queuedPackets.tail }, true)
    | (d1, false) => (d1, true)

/-- The loop of `NVMainPort::recvReqRetry` on the deque: while it is not empty the front
packet is sent; an accepted packet is popped, a refused one is pushed at the back by
`sendTimingReq` and ends the loop. `accepted k` is the peer's answer to attempt `k`. -/
def NVMainPort.retryLoop (accepted : Nat → Bool) (k : Nat) : List Nat → List Nat
  | [] => []
  | pkt :: t =>
    if accepted k then NVMainPort.retryLoop accepted (k + 1) t else (pkt :: t) ++ [pkt]

/-- Function `NVMainPort::recvReqRetry`. -/
def NVMainPort.recvReqRetry (accepted : Nat → Bool) (d : Device) : Device :=
  { d with queuedPackets := NVMainPort.retryLoop accepted 0 d.queuedPackets }

/-! ## The NVM controller (`src/mem/nvmain_control.{hh,cc}`) -/

/-- The fields of a simulator `Packet` that `NVMainControl` reads. `headerDelay` and
`payloadDelay` are 32-bit unsigned fields of the simulator's packet class. -/
structure Packet where
  isRead : Bool
  isWrite : Bool
  cacheResponding : Bool
  size : Nat
  headerDelay : Nat
  payloadDelay : Nat
deriving DecidableEq, Repr

/-- Counters and latency samples of `NVMainControlStats`. -/
structure NVMStats where
  numReads : Nat
  numWrites : Nat
  bytesRead : Nat
  bytesWritten : Nat
  readLatency : List Nat
  writeLatency : List Nat
deriving DecidableEq, Repr

/-- State of an `NVMainControl`: the three timing parameters, the request in flight, the
response waiting for a retry, the retry flag, and the tick for which `responseEvent` is
scheduled. The backing store reached through `access` is outside the model. -/
structure NVMainControl where
  tRCD : Nat
  tCL : Nat
  tWR : Nat
  pendingRequest : Option Packet
  retryRespPkt : Option Packet
  retryReq : Bool
  responseAt : Option Nat
  stats : NVMStats
deriving DecidableEq, Repr

/-- Constructor `NVMainControl::NVMainControl`. -/
def NVMainControl.init (tRCD tCL tWR : Nat) : NVMainControl :=
  { tRCD := tRCD, tCL := tCL, tWR := tWR, pendingRequest := none, retryRespPkt := none,
    retryReq := false, responseAt := none,
    stats := { numReads := 0, numWrites := 0, bytesRead := 0, bytesWritten := 0,
               readLatency := [], writeLatency := [] } }

/-- Function `NVMainControl::packetLatency`. -/
def NVMainControl.packetLatency (c : NVMainControl) (pkt : Packet) : Nat :=
  if pkt.isRead then (c.tRCD + c.tCL) % 2 ^ 64
  else if pkt.isWrite then c.tWR
  else 0

/-- Function `NVMainControl::recordStats`. -/
def NVMainControl.recordStats (c : NVMainControl) (pkt : Packet) (latency : Nat) :
    NVMainControl :=
  if pkt.isRead then
    { c with stats := { c.stats with
        numReads := c.stats.numReads + 1
        bytesRead := c.stats.bytesRead + pkt.size
        readLatency := c.stats.readLatency ++ [latency] } }
  else if pkt.isWrite then
    { c with stats := { c.stats with
        numWrites := c.stats.numWrites + 1
        bytesWritten := c.stats.bytesWritten + pkt.size
        writeLatency := c.stats.writeLatency ++ [latency] } }
  else c

/-- Function `NVMainControl::recvAtomic`: the controller after the call and the returned
latency; `Except.error` is a `panic`. -/
def NVMainControl.recvAtomic (c : NVMainControl) (pkt : Packet) :
    Except String (NVMainControl × Nat) :=
  if pkt.cacheResponding then
    Except.error "Should not see packets where cache is responding"
  else
    Except.ok (c.recordStats pkt (c.packetLatency pkt), c.packetLatency pkt)

/-- Function `NVMainControl::recvTimingReq` at tick `now`: the controller after the call and
the returned flag; `Except.error` is a `panic`. -/
def NVMainControl.recvTimingReq (now : Nat) (c : NVMainControl) (pkt : Packet) :
    Except String (NVMainControl × Bool) :=
  if pkt.cacheResponding then
    Except.error "Should not see packets where cache is responding"
  else if !(pkt.isRead || pkt.isWrite) then
    Except.error "NVMainControl expects read/write"
  else if c.pendingRequest.isSome || c.retryRespPkt.isSome then
    Except.ok ({ c with retryReq := true }, false)
  else
    let receiveDelay := (pkt.headerDelay + pkt.payloadDelay) % 2 ^ 32
    let pkt1 : Packet := { pkt with headerDelay := 0, payloadDelay := 0 }
    let c1 : NVMainControl := { c with pendingRequest := some pkt1 }
    let latency := (receiveDelay + c1.packetLatency pkt1) % 2 ^ 64
    let c2 := c1.recordStats pkt1 latency
    if c2.responseAt.isSome then
      Except.error "NVMainControl response event already scheduled"
    else
      Except.ok ({ c2 with responseAt := some ((now + latency) % 2 ^ 64) }, true)

/-! ## Flags of the cache lines -/

/-- The invariant of `CacheLine` stated by the spec: a line that is not valid is not
dirty. -/
def InvalidClean (s : State) : Prop :=
  ∀ S i, (getWay s S i).valid = false → (getWay s S i).dirty = false

/-- Every valid line is dirty. -/
def ValidDirty (s : State) : Prop :=
  ∀ S i, (getWay s S i).valid = true → (getWay s S i).dirty = true

/-! ## Vocabulary of the write-amplification bounds -/

/-- The slot of `a` is valid in the entry staged under the base of `a`. -/
def slotStaged (m : List (Nat × PCBEntry)) (a : Nat) : Bool :=
  match pcbFind m (PCBEntry.getBase a) with
  | some e => e.validMask.testBit ((a - PCBEntry.getBase a) / 8)
  | none => false

/-- Some `coalescePartial` of a run of buffer operations from state `s` writes a slot that is
valid in its staged entry: it overwrites a staged partial. -/
def overwrites (cfg : Config) (s : State) : List PcbOp → Bool
  | [] => false
  | PcbOp.coalesce now addr data :: rest =>
    slotStaged s.pcbMap addr || overwrites cfg (coalescePartial cfg now s addr data) rest
  | PcbOp.flush now :: rest => overwrites cfg (flushPCB cfg now s) rest

/-- Every counted partial is accounted for: it is one of at most 8 partials of an emitted
entry, or of an entry dropped on a full queue, or it is staged, or it overflowed. The staged
entries are dirty, with 8-bit masks, under ascending keys. -/
def Accounted (s : State) : Prop :=
  pcbSorted s.pcbMap
  ∧ (∀ p ∈ s.pcbMap, p.2.validMask < 256 ∧ p.2.dirty = true)
  ∧ s.stats.pcbTotalPartials
      ≤ 8 * s.stats.nvmWrites + stagedPartials s.pcbMap + s.stats.pcbOverflows
        + 8 * s.stats.writeQueueFull

/-! ## Vocabulary of the eviction outcome -/

/-- The block base `(line.tag * numSets + setIdx) * blockSize` that `evict` computes for the
line in way `wayIdx` of set `setIdx`, without 64-bit wrap. -/
def evictBase (cfg : Config) (s : State) (setIdx wayIdx : Nat) : Nat :=
  ((getWay s setIdx wayIdx).tag * cfg.numSets + setIdx) * cfg.blockSize

/-- Progress of forwarding a line to base `b` from state `s`, slots `0 … k - 1` done: nothing
has been queued since `s`, only `pcbTotalPartials` has moved, by `k`, the entries of the other
bases are as in `s`, and the entry under `b` (a fresh one while nothing is staged) has slot 7
clear and the slots below `k` marked, each holding its value `v`. -/
def Refilling (cfg : Config) (s st : State) (b : Nat) (v : Nat → Nat) (k : Nat) : Prop :=
  st.writeQueue = s.writeQueue
  ∧ st.stats = { s.stats with pcbTotalPartials := s.stats.pcbTotalPartials + k }
  ∧ (pcbFind st.pcbMap b ≠ none ∨ st.pcbMap.length < cfg.pcbCapacity)
  ∧ pcbErase st.pcbMap b = pcbErase s.pcbMap b
  ∧ (((pcbFind st.pcbMap b).getD PCBEntry.init).baseAddr = b
      ∨ ((pcbFind st.pcbMap b).getD PCBEntry.init).baseAddr = 0)
  ∧ ((pcbFind st.pcbMap b).getD PCBEntry.init).data.length = 64
  ∧ ((pcbFind st.pcbMap b).getD PCBEntry.init).validMask < 256
  ∧ ((pcbFind st.pcbMap b).getD PCBEntry.init).validMask.testBit 7 = false
  ∧ (∀ j, j < k →
      ((pcbFind st.pcbMap b).getD PCBEntry.init).validMask.testBit j = true
        ∧ loadU64 ((pcbFind st.pcbMap b).getD PCBEntry.init).data (8 * j) = v j)


/-! ## Vocabulary of the staged-entry invariant and of the frames -/

/-- The invariant of an entry staged under key `k`: it carries its own key as base address,
a multiple of 64, it is dirty, and its 8-bit mask is neither empty nor full. -/
def PCBEntry.Staged (k : Nat) (e : PCBEntry) : Prop :=
  e.baseAddr = k ∧ e.baseAddr % 64 = 0 ∧ e.dirty = true ∧ e.validMask ≠ 0
    ∧ e.validMask ≠ 0xFF ∧ e.validMask < 256

/-! ## The response path of the NVM controller -/

/-- Function `NVMainControl::trySendRetry`: the controller after the call, and whether
`port.sendRetryReq()` was called. -/
def NVMainControl.trySendRetry (c : NVMainControl) : NVMainControl × Bool :=
  if c.retryReq && c.pendingRequest.isNone && c.retryRespPkt.isNone then
    ({ c with retryReq := false }, true)
  else (c, false)

/-- Function `NVMainControl::sendResponse`, the callback of `responseEvent`, which is no
longer scheduled once it runs. `needsResponse` is the answer of `pkt->needsResponse()` and
`accepted` the answer of `port.sendTimingResp(pkt)`; the flag returned tells whether a
retry was sent to the requester. `Except.error` is the failed `assert`. -/
def NVMainControl.sendResponse (needsResponse accepted : Bool) (c : NVMainControl) :
    Except String (NVMainControl × Bool) :=
  match c.pendingRequest with
  | none => Except.error "assert(pendingRequest)"
  | some pkt =>
    let c1 : NVMainControl := { c with pendingRequest := none, responseAt := none }
    if needsResponse then
      if !accepted then Except.ok ({ c1 with retryRespPkt := some pkt }, false)
      else Except.ok c1.trySendRetry
    else Except.ok c1.trySendRetry

/-- Function `NVMainControl::recvRespRetry`; `accepted` is the answer of
`port.sendTimingResp(retryRespPkt)`. -/
def NVMainControl.recvRespRetry (accepted : Bool) (c : NVMainControl) :
    NVMainControl × Bool :=
  match c.retryRespPkt with
  | none => (c, false)
  | some _ =>
    if accepted then NVMainControl.trySendRetry { c with retryRespPkt := none }
    else (c, false)

/-- What happens to a controller: a timing request arrives at tick `now`, the response event
fires, or the peer asks for the refused response again. -/
inductive CtrlEvent where
  | request (now : Nat) (pkt : Packet)
  | fire (needsResponse accepted : Bool)
  | respRetry (accepted : Bool)
deriving DecidableEq, Repr

/-- One event on the controller. The response event fires only while it is scheduled. -/
def ctrlStep (c : NVMainControl) : CtrlEvent → Except String NVMainControl
  | CtrlEvent.request now pkt =>
    match c.recvTimingReq now pkt with
    | Except.ok (c1, _) => Except.ok c1
    | Except.error msg => Except.error msg
  | CtrlEvent.fire needsResponse accepted =>
    if c.responseAt.isSome then
      match c.sendResponse needsResponse accepted with
      | Except.ok (c1, _) => Except.ok c1
      | Except.error msg => Except.error msg
    else Except.ok c
  | CtrlEvent.respRetry accepted => Except.ok (c.recvRespRetry accepted).1

/-- A history of events, first to last; a `panic` or failed `assert` ends it. -/
def runCtrl (c : NVMainControl) : List CtrlEvent → Except String NVMainControl
  | [] => Except.ok c
  | e :: es =>
    match ctrlStep c e with
    | Except.ok c1 => runCtrl c1 es
    | Except.error msg => Except.error msg

/-- The controller holds at most one packet, and `responseEvent` is scheduled exactly while
a request is pending. -/
def NVMainControl.OneInFlight (c : NVMainControl) : Prop :=
  c.pendingRequest.isSome = c.responseAt.isSome
    ∧ (c.pendingRequest = none ∨ c.retryRespPkt = none)

/-! ## Bytes and masks -/

theorem getD_set_eq (l : List Nat) (i : Nat) (a : Nat) (h : i < l.length) :
    (l.set i a).getD i 0 = a := by
  simp [List.getD_eq_getElem?_getD, List.getElem?_set, h]

theorem getD_set_ne (l : List Nat) (i j : Nat) (a : Nat) (h : i ≠ j) :
    (l.set i a).getD j 0 = l.getD j 0 := by
  simp [List.getD_eq_getElem?_getD, List.getElem?_set, h]

theorem storeU64_eq (bs : List Nat) (pos v : Nat) :
    storeU64 bs pos v =
      ((((((((bs.set (pos + 0) (v / 256 ^ 0 % 256)).set (pos + 1) (v / 256 ^ 1 % 256)).set
        (pos + 2) (v / 256 ^ 2 % 256)).set (pos + 3) (v / 256 ^ 3 % 256)).set
        (pos + 4) (v / 256 ^ 4 % 256)).set (pos + 5) (v / 256 ^ 5 % 256)).set
        (pos + 6) (v / 256 ^ 6 % 256)).set (pos + 7) (v / 256 ^ 7 % 256)) := rfl

theorem loadU64_eq (bs : List Nat) (pos : Nat) :
    loadU64 bs pos =
      0 + bs.getD (pos + 0) 0 * 256 ^ 0 + bs.getD (pos + 1) 0 * 256 ^ 1
        + bs.getD (pos + 2) 0 * 256 ^ 2 + bs.getD (pos + 3) 0 * 256 ^ 3
        + bs.getD (pos + 4) 0 * 256 ^ 4 + bs.getD (pos + 5) 0 * 256 ^ 5
        + bs.getD (pos + 6) 0 * 256 ^ 6 + bs.getD (pos + 7) 0 * 256 ^ 7 := rfl

theorem storeU64_length (bs : List Nat) (pos v : Nat) :
    (storeU64 bs pos v).length = bs.length := by
  simp [storeU64_eq]

theorem getD_storeU64_out (bs : List Nat) (pos v p : Nat) (h : p < pos ∨ pos + 8 ≤ p) :
    (storeU64 bs pos v).getD p 0 = bs.getD p 0 := by
  rw [storeU64_eq]
  repeat rw [getD_set_ne _ _ _ _ (by omega)]

theorem getD_storeU64_in (bs : List Nat) (pos v k : Nat) (hk : k < 8)
    (h : pos + 8 ≤ bs.length) :
    (storeU64 bs pos v).getD (pos + k) 0 = v / 256 ^ k % 256 := by
  rw [storeU64_eq]
  have h8 : k = 0 ∨ k = 1 ∨ k = 2 ∨ k = 3 ∨ k = 4 ∨ k = 5 ∨ k = 6 ∨ k = 7 := by omega
  rcases h8 with rfl | rfl | rfl | rfl | rfl | rfl | rfl | rfl <;>
  · repeat rw [getD_set_ne _ _ _ _ (by omega)]
    rw [getD_set_eq _ _ _ (by simp; omega)]

theorem loadU64_storeU64_same (bs : List Nat) (pos v : Nat) (h : pos + 8 ≤ bs.length) :
    loadU64 (storeU64 bs pos v) pos = v % 2 ^ 64 := by
  rw [loadU64_eq]
  rw [getD_storeU64_in bs pos v 0 (by omega) h, getD_storeU64_in bs pos v 1 (by omega) h,
    getD_storeU64_in bs pos v 2 (by omega) h, getD_storeU64_in bs pos v 3 (by omega) h,
    getD_storeU64_in bs pos v 4 (by omega) h, getD_storeU64_in bs pos v 5 (by omega) h,
    getD_storeU64_in bs pos v 6 (by omega) h, getD_storeU64_in bs pos v 7 (by omega) h]
  norm_num
  omega

theorem loadU64_storeU64_other (bs : List Nat) (pos pos' v : Nat)
    (h : pos' + 8 ≤ pos ∨ pos + 8 ≤ pos') :
    loadU64 (storeU64 bs pos v) pos' = loadU64 bs pos' := by
  rw [loadU64_eq, loadU64_eq]
  repeat rw [getD_storeU64_out _ _ _ _ (by omega)]

theorem foldl_push_eq {α β : Type} (p : α → Bool) (f : α → β) (l : List α) (q : List β) :
    l.foldl (fun q i => if p i then q ++ [f i] else q) q = q ++ (l.filter p).map f := by
  induction l generalizing q with
  | nil => simp
  | cons a t ih =>
    simp only [List.foldl_cons, List.filter_cons]
    by_cases h : p a <;> simp [h, ih]

theorem and_shift_ne_zero (m i : Nat) : (m &&& (1 <<< i) != 0) = m.testBit i := by
  rw [Nat.one_shiftLeft]
  rcases h : m.testBit i with _ | _
  · have : m &&& 2 ^ i = 0 := by
      apply Nat.eq_of_testBit_eq
      intro j
      simp only [Nat.testBit_and, Nat.testBit_two_pow, Nat.zero_testBit]
      by_cases hj : i = j
      · subst hj; simp [h]
      · simp [hj]
    simp [this]
  · have : (m &&& 2 ^ i).testBit i = true := by
      simp [Nat.testBit_and, Nat.testBit_two_pow, h]
    have hne : m &&& 2 ^ i ≠ 0 := by
      intro h0; rw [h0] at this; simp at this
    simp [hne]

theorem maskBits_lt {m i : Nat} (h : i ∈ maskBits m) : i < 8 := by
  unfold maskBits at h
  exact List.mem_range.mp (List.mem_filter.mp h).1

theorem pushPartials_eq (q : List (Nat × Nat)) (e : PCBEntry) (hb : e.baseAddr + 56 < 2 ^ 64) :
    pushPartials q e = q ++ entryRecords e := by
  unfold pushPartials entryRecords
  rw [foldl_push_eq (fun i => e.validMask &&& (1 <<< i) != 0)
    (fun i => ((e.baseAddr + i * 8) % 2 ^ 64, loadU64 e.data (i * 8))) (List.range 8) q]
  congr 1
  have hf : (List.range 8).filter (fun i => e.validMask &&& (1 <<< i) != 0)
      = maskBits e.validMask := by
    unfold maskBits
    apply List.filter_congr
    intro i _
    exact and_shift_ne_zero _ _
  rw [hf]
  apply List.map_congr_left
  intro i hi
  have hi8 := maskBits_lt hi
  have h1 : (e.baseAddr + i * 8) % 2 ^ 64 = e.baseAddr + 8 * i := by
    rw [Nat.mod_eq_of_lt (by omega)]; omega
  rw [h1, Nat.mul_comm i 8]

theorem maskBits_length (m : Nat) (hm : m < 256) : (maskBits m).length = popcount m := by
  unfold popcount maskBits
  have hf : (List.range 32).filter (fun i => m &&& (1 <<< i) != 0)
      = (List.range 32).filter (fun i => m.testBit i) :=
    List.filter_congr (fun i _ => and_shift_ne_zero m i)
  rw [hf, show (32 : Nat) = 8 + 24 from rfl, List.range_add, List.filter_append]
  have hz : ((List.range 24).map (fun x => 8 + x)).filter (fun i => m.testBit i) = [] := by
    rw [List.filter_eq_nil_iff]
    intro i hi
    obtain ⟨j, _, rfl⟩ := List.mem_map.mp hi
    have : m < 2 ^ (8 + j) :=
      lt_of_lt_of_le hm (by
        calc 256 = 2 ^ 8 := by norm_num
          _ ≤ 2 ^ (8 + j) := Nat.pow_le_pow_right (by norm_num) (by omega))
    simp [Nat.testBit_lt_two_pow this]
  rw [hz, List.append_nil]

/-! ## The ordered map -/

theorem pcbFind_insert_same (m : List (Nat × PCBEntry)) (k : Nat) (e : PCBEntry) :
    pcbFind (pcbInsert m k e) k = some e := by
  induction m with
  | nil => simp [pcbInsert, pcbFind]
  | cons p t ih =>
    obtain ⟨k', e'⟩ := p
    unfold pcbInsert
    by_cases h1 : k < k'
    · simp [h1, pcbFind]
    · by_cases h2 : k = k'
      · simp [h2, pcbFind]
      · have h3 : ¬ k' = k := fun h => h2 h.symm
        simp [h1, h2, pcbFind, h3, ih]

theorem pcbFind_insert_other (m : List (Nat × PCBEntry)) (k k' : Nat) (e : PCBEntry)
    (h : k' ≠ k) : pcbFind (pcbInsert m k e) k' = pcbFind m k' := by
  induction m with
  | nil =>
    have h3 : ¬ k = k' := fun h' => h h'.symm
    simp [pcbInsert, pcbFind, h3]
  | cons p t ih =>
    obtain ⟨k1, e1⟩ := p
    have h3 : ¬ k = k' := fun h' => h h'.symm
    unfold pcbInsert
    by_cases h1 : k < k1
    · simp [h1, pcbFind, h3]
    · by_cases h2 : k = k1
      · subst h2
        simp [pcbFind, h3]
      · simp [h1, h2, pcbFind, ih]

theorem pcbFind_eq_none_iff (m : List (Nat × PCBEntry)) (k : Nat) :
    pcbFind m k = none ↔ k ∉ m.map Prod.fst := by
  induction m with
  | nil => simp [pcbFind]
  | cons p t ih =>
    obtain ⟨k1, e1⟩ := p
    unfold pcbFind
    by_cases h : k1 = k
    · simp [h]
    · have h' : ¬ k = k1 := fun h' => h h'.symm
      simp [h, h', ih]

theorem pcbFind_mem {m : List (Nat × PCBEntry)} {k : Nat} {e : PCBEntry}
    (h : pcbFind m k = some e) : (k, e) ∈ m := by
  induction m with
  | nil => simp [pcbFind] at h
  | cons p t ih =>
    obtain ⟨k1, e1⟩ := p
    unfold pcbFind at h
    by_cases h1 : k1 = k
    · simp [h1] at h
      simp [h1, h]
    · simp [h1] at h
      exact List.mem_cons_of_mem _ (ih h)

theorem pcbInsert_length_none (m : List (Nat × PCBEntry)) (k : Nat) (e : PCBEntry)
    (h : pcbFind m k = none) : (pcbInsert m k e).length = m.length + 1 := by
  induction m with
  | nil => simp [pcbInsert]
  | cons p t ih =>
    obtain ⟨k1, e1⟩ := p
    unfold pcbFind at h
    by_cases h1 : k1 = k
    · simp [h1] at h
    · simp [h1] at h
      have h2 : ¬ k = k1 := fun h' => h1 h'.symm
      unfold pcbInsert
      by_cases h3 : k < k1
      · simp [h3]
      · simp [h3, h2, ih h]

theorem pcbInsert_length_some (m : List (Nat × PCBEntry)) (k : Nat) (e : PCBEntry)
    (hs : pcbSorted m) (h : pcbFind m k ≠ none) : (pcbInsert m k e).length = m.length := by
  induction m with
  | nil => simp [pcbFind] at h
  | cons p t ih =>
    obtain ⟨k1, e1⟩ := p
    unfold pcbSorted at hs
    simp only [List.map_cons, List.pairwise_cons] at hs
    unfold pcbInsert
    by_cases h3 : k < k1
    · exfalso
      apply h
      rw [pcbFind_eq_none_iff]
      simp only [List.map_cons, List.mem_cons, not_or]
      refine ⟨by omega, fun hk => ?_⟩
      have := hs.1 k hk
      omega
    · by_cases h2 : k = k1
      · simp [h2]
      · have h1 : ¬ k1 = k := fun h' => h2 h'.symm
        have ht : pcbFind t k ≠ none := by
          unfold pcbFind at h
          simpa [h1] using h
        simp [h3, h2, ih hs.2 ht]

theorem pcbInsert_keys (m : List (Nat × PCBEntry)) (k : Nat) (e : PCBEntry) (x : Nat) :
    x ∈ (pcbInsert m k e).map Prod.fst ↔ x = k ∨ x ∈ m.map Prod.fst := by
  induction m with
  | nil => simp [pcbInsert]
  | cons p t ih =>
    obtain ⟨k1, e1⟩ := p
    unfold pcbInsert
    by_cases h3 : k < k1
    · simp [h3]
    · by_cases h2 : k = k1
      · subst h2
        simp
      · simp only [h3, h2, if_false, List.map_cons, List.mem_cons, ih]
        tauto

theorem pcbSorted_insert (m : List (Nat × PCBEntry)) (k : Nat) (e : PCBEntry)
    (hs : pcbSorted m) : pcbSorted (pcbInsert m k e) := by
  induction m with
  | nil => simp [pcbInsert, pcbSorted]
  | cons p t ih =>
    obtain ⟨k1, e1⟩ := p
    have hs' := hs
    unfold pcbSorted at hs
    simp only [List.map_cons, List.pairwise_cons] at hs
    unfold pcbInsert
    by_cases h3 : k < k1
    · simp only [h3, if_true]
      unfold pcbSorted
      simp only [List.map_cons, List.pairwise_cons, List.mem_cons]
      refine ⟨?_, hs⟩
      intro x hx
      rcases hx with rfl | hx
      · exact h3
      · exact lt_trans h3 (hs.1 x hx)
    · by_cases h2 : k = k1
      · subst h2
        simpa [pcbSorted] using hs
      · simp only [h3, h2, if_false]
        unfold pcbSorted
        simp only [List.map_cons, List.pairwise_cons]
        refine ⟨?_, ih hs.2⟩
        intro x hx
        rw [pcbInsert_keys] at hx
        rcases hx with rfl | hx
        · omega
        · exact hs.1 x hx

theorem pcbInsert_mem {m : List (Nat × PCBEntry)} {k : Nat} {e : PCBEntry}
    {p : Nat × PCBEntry} (h : p ∈ pcbInsert m k e) : p = (k, e) ∨ p ∈ m := by
  induction m with
  | nil => simpa [pcbInsert] using h
  | cons q t ih =>
    obtain ⟨k1, e1⟩ := q
    unfold pcbInsert at h
    by_cases h3 : k < k1
    · simp only [h3, if_true, List.mem_cons] at h
      rcases h with h | h | h
      · exact Or.inl h
      · exact Or.inr (by simp [h])
      · exact Or.inr (List.mem_cons_of_mem _ h)
    · by_cases h2 : k = k1
      · subst h2
        simp only [lt_irrefl, if_false, if_true, List.mem_cons] at h
        rcases h with h | h
        · exact Or.inl h
        · exact Or.inr (List.mem_cons_of_mem _ h)
      · simp only [h3, h2, if_false, List.mem_cons] at h
        rcases h with h | h
        · exact Or.inr (by simp [h])
        · rcases ih h with h | h
          · exact Or.inl h
          · exact Or.inr (List.mem_cons_of_mem _ h)

theorem pcbErase_length_le (m : List (Nat × PCBEntry)) (k : Nat) :
    (pcbErase m k).length ≤ m.length := by
  unfold pcbErase
  exact List.length_filter_le _ _

theorem pcbErase_mem {m : List (Nat × PCBEntry)} {k : Nat} {p : Nat × PCBEntry}
    (h : p ∈ pcbErase m k) : p ∈ m ∧ p.1 ≠ k := by
  unfold pcbErase at h
  have := List.mem_filter.mp h
  exact ⟨this.1, by simpa using this.2⟩

theorem pcbSorted_erase (m : List (Nat × PCBEntry)) (k : Nat) (hs : pcbSorted m) :
    pcbSorted (pcbErase m k) := by
  unfold pcbSorted pcbErase at *
  exact List.Pairwise.sublist ((List.filter_sublist _).map Prod.fst) hs

theorem pcbFind_erase_same (m : List (Nat × PCBEntry)) (k : Nat) :
    pcbFind (pcbErase m k) k = none := by
  rw [pcbFind_eq_none_iff]
  intro h
  obtain ⟨p, hp, hk⟩ := List.mem_map.mp h
  exact (pcbErase_mem hp).2 hk

theorem pcbFind_erase_other (m : List (Nat × PCBEntry)) (k k' : Nat) (h : k' ≠ k) :
    pcbFind (pcbErase m k) k' = pcbFind m k' := by
  induction m with
  | nil => simp [pcbErase, pcbFind]
  | cons p t ih =>
    obtain ⟨k1, e1⟩ := p
    unfold pcbErase at ih ⊢
    by_cases h1 : k1 = k
    · subst h1
      have : ¬ k1 = k' := fun h' => h h'.symm
      simp [List.filter_cons, pcbFind, this, ih]
    · simp [List.filter_cons, h1, pcbFind, ih]

theorem pcbErase_length_lt (m : List (Nat × PCBEntry)) (k : Nat) (h : pcbFind m k ≠ none) :
    (pcbErase m k).length < m.length := by
  induction m with
  | nil => simp [pcbFind] at h
  | cons p t ih =>
    obtain ⟨k1, e1⟩ := p
    unfold pcbErase at ih ⊢
    by_cases h1 : k1 = k
    · simp only [List.filter_cons, h1, bne_self_eq_false, Bool.false_eq_true, if_false,
        List.length_cons]
      have := List.length_filter_le (fun p : Nat × PCBEntry => p.1 != k) t
      omega
    · have ht : pcbFind t k ≠ none := by
        unfold pcbFind at h
        simpa [h1] using h
      simp only [List.filter_cons, bne_iff_ne, ne_eq, h1, not_false_eq_true, if_true,
        List.length_cons]
      have := ih ht
      simp only [bne_iff_ne, ne_eq] at this
      omega

/-! ## Emission of one entry (`sendToNVMain`) -/

theorem mem_maskBits (m i : Nat) : i ∈ maskBits m ↔ i < 8 ∧ m.testBit i = true := by
  unfold maskBits
  simp [List.mem_filter, List.mem_range]

theorem maskBits_pairwise (m : Nat) : (maskBits m).Pairwise (fun a b => a < b) := by
  unfold maskBits
  exact List.Pairwise.sublist (List.filter_sublist _) (List.pairwise_lt_range 8)

theorem Typed.base_room {e : PCBEntry} (h : e.Typed) : e.baseAddr + 56 < 2 ^ 64 := by
  obtain ⟨h1, h2, _, _⟩ := h
  omega

theorem loadU64_sum (bs : List Nat) (pos : Nat) :
    loadU64 bs pos = ∑ k in Finset.range 8, bs.getD (pos + k) 0 * 256 ^ k := by
  rw [loadU64_eq]
  simp [Finset.sum_range_succ]

theorem sendToNVMain_room (cfg : Config) (s : State) (e : PCBEntry)
    (hb : e.baseAddr + 56 < 2 ^ 64)
    (hq : s.writeQueue.length < sizeT cfg.writeQueueCapacity) :
    sendToNVMain cfg s e =
      { s with
        writeQueue := s.writeQueue ++ entryRecords e
        stats := { s.stats with
          nvmWrites := s.stats.nvmWrites + 1
          nvmBytesWritten := s.stats.nvmBytesWritten + 64 } } := by
  unfold sendToNVMain
  rw [if_pos hq, pushPartials_eq _ _ hb]

/-- C6. `sendToNVMain(entry)` with the write queue below capacity appends, behind the
records already queued, exactly one record `(baseAddr + 8 i, value of bytes [8 i, 8 i + 8))`
for each set bit `i` of `validMask`, in ascending `i`, which is `popcount(validMask)`
records, and counts one NVM write and 64 bytes written. -/
theorem sendToNVMain_emits (cfg : Config) (s : State) (e : PCBEntry)
    (hT : e.Typed) (hq : s.writeQueue.length < sizeT cfg.writeQueueCapacity) :
    (sendToNVMain cfg s e).writeQueue
        = s.writeQueue
          ++ (maskBits e.validMask).map (fun i => (e.baseAddr + 8 * i, loadU64 e.data (8 * i)))
      ∧ (∀ i, i ∈ maskBits e.validMask ↔ i < 8 ∧ e.validMask.testBit i = true)
      ∧ (maskBits e.validMask).Pairwise (fun a b => a < b)
      ∧ (maskBits e.validMask).length = popcount e.validMask
      ∧ (∀ i, loadU64 e.data (8 * i)
          = ∑ k in Finset.range 8, e.data.getD (8 * i + k) 0 * 256 ^ k)
      ∧ (sendToNVMain cfg s e).stats.nvmWrites = s.stats.nvmWrites + 1
      ∧ (sendToNVMain cfg s e).stats.nvmBytesWritten = s.stats.nvmBytesWritten + 64 := by
  rw [sendToNVMain_room cfg s e (Typed.base_room hT) hq]
  exact ⟨rfl, mem_maskBits _, maskBits_pairwise _, maskBits_length _ hT.2.2.2,
    fun i => loadU64_sum _ _, rfl, rfl⟩

/-- Witness of C6: an entry at base `0x40` with mask `0x05` sent to an empty queue of
capacity 4. -/
theorem sendToNVMain_emits_witness :
    (sendToNVMain (Config.source 4 4 64 1 4) (State.init (Config.source 4 4 64 1 4))
        { baseAddr := 64, data := storeU64 (List.replicate 64 0) 16 7, validMask := 5,
          lastUpdate := 0, dirty := true }).writeQueue = [(64, 0), (80, 7)] := by
  have h := (sendToNVMain_emits (Config.source 4 4 64 1 4)
    (State.init (Config.source 4 4 64 1 4))
    { baseAddr := 64, data := storeU64 (List.replicate 64 0) 16 7, validMask := 5,
      lastUpdate := 0, dirty := true }
    (by unfold PCBEntry.Typed; decide) (by decide)).1
  rw [h]
  decide

/-! ## Flush (`flushPCB`) -/

theorem maskBits_ne_nil {m : Nat} (hm : m < 256) (h0 : m ≠ 0) : maskBits m ≠ [] := by
  intro hnil
  apply h0
  apply Nat.eq_of_testBit_eq
  intro i
  rw [Nat.zero_testBit]
  by_cases hi : i < 8
  · by_contra hb
    have : i ∈ maskBits m := (mem_maskBits m i).mpr ⟨hi, by simpa using hb⟩
    rw [hnil] at this
    exact List.not_mem_nil _ this
  · have : m < 2 ^ i :=
      lt_of_lt_of_le hm (by
        calc 256 = 2 ^ 8 := by norm_num
          _ ≤ 2 ^ i := Nat.pow_le_pow_right (by norm_num) (by omega))
    exact Nat.testBit_lt_two_pow this

theorem maskBits_zero : maskBits 0 = [] := by decide

theorem numPartials_pos_iff (e : PCBEntry) (hm : e.validMask < 256) :
    e.numPartials > 0 ↔ e.validMask ≠ 0 := by
  unfold PCBEntry.numPartials
  rw [← maskBits_length _ hm]
  constructor
  · intro h h0
    rw [h0, maskBits_zero] at h
    simp at h
  · intro h
    exact List.length_pos.mpr (maskBits_ne_nil hm h)

theorem entryRecords_length (e : PCBEntry) :
    (entryRecords e).length = (maskBits e.validMask).length := by
  simp [entryRecords]

/-- One iteration of the flush loop with room in the queue, for an entry that is emitted. -/
theorem flushEntry_emit (cfg : Config) (s : State) (e : PCBEntry) (hT : e.Typed)
    (hq : s.writeQueue.length < sizeT cfg.writeQueueCapacity)
    (hd : e.dirty = true) (hm : e.validMask ≠ 0) :
    (flushEntry cfg s e).writeQueue = s.writeQueue ++ entryRecords e
      ∧ (flushEntry cfg s e).stats.pcbCoalescedBlocks
          = s.stats.pcbCoalescedBlocks + (if e.isFull then 1 else 0)
      ∧ (flushEntry cfg s e).stats.pcbPartialFlushes
          = s.stats.pcbPartialFlushes + (if e.isFull then 0 else 1)
      ∧ (flushEntry cfg s e).stats.nvmWrites = s.stats.nvmWrites + 1
      ∧ (flushEntry cfg s e).stats.writeQueueFull = s.stats.writeQueueFull
      ∧ (flushEntry cfg s e).pcbMap = s.pcbMap := by
  have hp : e.dirty = true ∧ e.numPartials > 0 :=
    ⟨hd, (numPartials_pos_iff e hT.2.2.2).mpr hm⟩
  unfold flushEntry
  rw [if_pos hp, sendToNVMain_room cfg s e (Typed.base_room hT) hq]
  by_cases hf : e.isFull = true <;> simp [hf]

/-- One iteration of the flush loop for an entry that is skipped. -/
theorem flushEntry_skip (cfg : Config) (s : State) (e : PCBEntry) (hT : e.Typed)
    (h : ¬ (e.dirty = true ∧ e.validMask ≠ 0)) : flushEntry cfg s e = s := by
  unfold flushEntry
  rw [if_neg]
  intro hp
  exact h ⟨hp.1, (numPartials_pos_iff e hT.2.2.2).mp hp.2⟩

theorem flushed_cons (p : Nat × PCBEntry) (t : List (Nat × PCBEntry)) :
    flushed (p :: t)
      = if p.2.dirty = true ∧ p.2.validMask ≠ 0 then p.2 :: flushed t else flushed t := by
  unfold flushed
  by_cases h : p.2.dirty = true ∧ p.2.validMask ≠ 0
  · have : (p.2.dirty && p.2.validMask != 0) = true := by simpa using h
    simp [List.filter_cons, this, h]
  · have : ¬ (p.2.dirty && p.2.validMask != 0) = true := by simpa using h
    simp [List.filter_cons, this, h]

theorem stagedPartials_cons (p : Nat × PCBEntry) (t : List (Nat × PCBEntry)) :
    stagedPartials (p :: t) = (maskBits p.2.validMask).length + stagedPartials t := by
  simp [stagedPartials]

/-- The flush loop over a map whose partials all fit into the queue. -/
theorem flushLoop_room (cfg : Config) (m : List (Nat × PCBEntry)) (s : State)
    (hT : ∀ p ∈ m, p.2.Typed)
    (hroom : s.writeQueue.length + stagedPartials m ≤ sizeT cfg.writeQueueCapacity) :
    (m.foldl (fun st p => flushEntry cfg st p.2) s).writeQueue
        = s.writeQueue ++ ((flushed m).map entryRecords).flatten
      ∧ (m.foldl (fun st p => flushEntry cfg st p.2) s).stats.pcbCoalescedBlocks
          = s.stats.pcbCoalescedBlocks + ((flushed m).filter (fun e => e.isFull)).length
      ∧ (m.foldl (fun st p => flushEntry cfg st p.2) s).stats.pcbPartialFlushes
          = s.stats.pcbPartialFlushes + ((flushed m).filter (fun e => !e.isFull)).length
      ∧ (m.foldl (fun st p => flushEntry cfg st p.2) s).stats.nvmWrites
          = s.stats.nvmWrites + (flushed m).length
      ∧ (m.foldl (fun st p => flushEntry cfg st p.2) s).stats.writeQueueFull
          = s.stats.writeQueueFull := by
  induction m generalizing s with
  | nil => simp [flushed]
  | cons p t ih =>
    have hTp : p.2.Typed := hT p (List.mem_cons_self _ _)
    have hTt : ∀ q ∈ t, q.2.Typed := fun q hq => hT q (List.mem_cons_of_mem _ hq)
    rw [stagedPartials_cons] at hroom
    rw [List.foldl_cons, flushed_cons]
    by_cases h : p.2.dirty = true ∧ p.2.validMask ≠ 0
    · have hne : maskBits p.2.validMask ≠ [] := maskBits_ne_nil hTp.2.2.2 h.2
      have hpos : 0 < (maskBits p.2.validMask).length := List.length_pos.mpr hne
      obtain ⟨e1, e2, e3, e4, e5, _⟩ :=
        flushEntry_emit cfg s p.2 hTp (by omega) h.1 h.2
      have hroom' : (flushEntry cfg s p.2).writeQueue.length + stagedPartials t
          ≤ sizeT cfg.writeQueueCapacity := by
        rw [e1, List.length_append, entryRecords_length]
        omega
      obtain ⟨i1, i2, i3, i4, i5⟩ := ih (flushEntry cfg s p.2) hTt hroom'
      rw [i1, i2, i3, i4, i5, e1, e2, e3, e4, e5, if_pos h]
      by_cases hf : p.2.isFull = true
      · simp [hf, List.filter_cons]
        omega
      · simp [hf, List.filter_cons]
        omega
    · rw [flushEntry_skip cfg s p.2 hTp h, if_neg h]
      exact ih s hTt (by omega)

/-- State of the buffer after the three partials `(0x0, 0xA)`, `(0x8, 0xB)`, `(0x10, 0xC)`
from the initial state. -/
theorem scenarioS2_state (c : Config) (t1 t2 t3 : Nat) (hc : 1 ≤ c.pcbCapacity) :
    runCoalesce c (State.init c) [⟨t1, 0x0, 0xA⟩, ⟨t2, 0x8, 0xB⟩, ⟨t3, 0x10, 0xC⟩]
      = { State.init c with
          pcbMap := [(0, { baseAddr := 0
                           data := storeU64 (storeU64 (storeU64 (List.replicate 64 0) 0 0xA)
                                     8 0xB) 16 0xC
                           validMask := 7, lastUpdate := t3, dirty := true })]
          stats := { Stats.init with pcbTotalPartials := 3 } } := by
  have h1 : ¬ (0 ≥ c.pcbCapacity) := by omega
  simp [runCoalesce, coalescePartial, State.init, PCBEntry.getBase, pcbFind, h1, pcbInsert,
    mergePartial, PCBEntry.init, PCBEntry.isFull, Stats.init]

/-- C5. For a buffer of typed entries and a write queue with room for all staged partials,
`flushPCB` appends, for each staged entry with `dirty` set and a non-zero mask, in map order,
the records `(baseAddr + 8 i, value i)` of the set bits `i` of its mask, counts the entry in
`pcbCoalescedBlocks` if it is full and in `pcbPartialFlushes` otherwise, and leaves the map
empty. Scenario S2: after the partials `(0x0, 0xA)`, `(0x8, 0xB)`, `(0x10, 0xC)` from the
initial state a flush gives `pcbCoalescedBlocks = 0`, `pcbPartialFlushes = 1` and the queue
`(0x0, 0xA), (0x8, 0xB), (0x10, 0xC)`. -/
theorem flushPCB_emits (cfg : Config) (now : Nat) (s : State)
    (hT : ∀ p ∈ s.pcbMap, p.2.Typed)
    (hroom : s.writeQueue.length + stagedPartials s.pcbMap ≤ sizeT cfg.writeQueueCapacity) :
    ((flushPCB cfg now s).writeQueue
        = s.writeQueue ++ ((flushed s.pcbMap).map
            (fun e => (maskBits e.validMask).map
              (fun i => (e.baseAddr + 8 * i, loadU64 e.data (8 * i))))).flatten
      ∧ (flushPCB cfg now s).stats.pcbCoalescedBlocks
          = s.stats.pcbCoalescedBlocks + ((flushed s.pcbMap).filter (fun e => e.isFull)).length
      ∧ (flushPCB cfg now s).stats.pcbPartialFlushes
          = s.stats.pcbPartialFlushes
            + ((flushed s.pcbMap).filter (fun e => !e.isFull)).length
      ∧ (flushPCB cfg now s).pcbMap = [])
    ∧ (∀ (c : Config) (t1 t2 t3 t4 : Nat), 1 ≤ c.pcbCapacity →
        3 ≤ sizeT c.writeQueueCapacity →
        (flushPCB c t4 (runCoalesce c (State.init c)
            [⟨t1, 0x0, 0xA⟩, ⟨t2, 0x8, 0xB⟩, ⟨t3, 0x10, 0xC⟩])).stats.pcbCoalescedBlocks = 0
        ∧ (flushPCB c t4 (runCoalesce c (State.init c)
            [⟨t1, 0x0, 0xA⟩, ⟨t2, 0x8, 0xB⟩, ⟨t3, 0x10, 0xC⟩])).stats.pcbPartialFlushes = 1
        ∧ (flushPCB c t4 (runCoalesce c (State.init c)
            [⟨t1, 0x0, 0xA⟩, ⟨t2, 0x8, 0xB⟩, ⟨t3, 0x10, 0xC⟩])).writeQueue
          = [(0x0, 0xA), (0x8, 0xB), (0x10, 0xC)]) := by
  constructor
  · obtain ⟨h1, h2, h3, _, _⟩ := flushLoop_room cfg s.pcbMap s hT hroom
    exact ⟨h1, h2, h3, rfl⟩
  · intro c t1 t2 t3 t4 hc hq
    rw [scenarioS2_state c t1 t2 t3 hc]
    have hq1 : 0 < sizeT c.writeQueueCapacity := by omega
    have hp : popcount 7 = 3 := by decide
    simp [flushPCB, flushEntry, PCBEntry.numPartials, hp, PCBEntry.isFull, sendToNVMain,
      State.init, hq1, Stats.init]
    simp only [pushPartials]
    decide

/-- Witness of C5: the flush of a buffer with one dirty entry of mask `0x03` and one clean
entry, into an empty queue of capacity 8. -/
theorem flushPCB_emits_witness :
    (flushPCB (Config.source 4 4 64 1 8) 0
      { State.init (Config.source 4 4 64 1 8) with
        pcbMap := [(0, { PCBEntry.init with validMask := 3, dirty := true }),
                   (64, { PCBEntry.init with baseAddr := 64 })] }).pcbMap = [] :=
  (flushPCB_emits (Config.source 4 4 64 1 8) 0
      { State.init (Config.source 4 4 64 1 8) with
        pcbMap := [(0, { PCBEntry.init with validMask := 3, dirty := true }),
                   (64, { PCBEntry.init with baseAddr := 64 })] }
      (by
        intro p hp
        simp only [List.mem_cons, List.mem_singleton, List.not_mem_nil, or_false] at hp
        rcases hp with rfl | rfl <;> (unfold PCBEntry.Typed; decide))
      (by decide)).1.2.2.2

/-! ## Admission into the buffer (`coalescePartial`) -/

/-- The overflow branch of `coalescePartial`. -/
theorem coalescePartial_overflow (cfg : Config) (now : Nat) (s : State) (addr data : Nat)
    (hfull : s.pcbMap.length ≥ cfg.pcbCapacity)
    (hnew : pcbFind s.pcbMap (PCBEntry.getBase addr) = none) :
    coalescePartial cfg now s addr data =
      { sendToPLUB cfg (countPartial s) addr data with
        stats := { (sendToPLUB cfg (countPartial s) addr data).stats with
          pcbOverflows := (sendToPLUB cfg (countPartial s) addr data).stats.pcbOverflows + 1 } } := by
  unfold coalescePartial countPartial
  simp only []
  rw [if_pos ⟨hfull, hnew⟩]

/-- The merge branch of `coalescePartial` when the merged entry is not full. -/
theorem coalescePartial_stage (cfg : Config) (now : Nat) (s : State) (addr data : Nat)
    (h : ¬ (s.pcbMap.length ≥ cfg.pcbCapacity
      ∧ pcbFind s.pcbMap (PCBEntry.getBase addr) = none))
    (hf : (mergedEntry now s addr data).isFull = false) :
    coalescePartial cfg now s addr data =
      { countPartial s with
        pcbMap := pcbInsert s.pcbMap (PCBEntry.getBase addr) (mergedEntry now s addr data) } := by
  unfold mergedEntry at hf
  unfold coalescePartial countPartial mergedEntry
  simp only []
  rw [if_neg h]
  simp [hf]

/-- The merge branch of `coalescePartial` when the merged entry is full. -/
theorem coalescePartial_full (cfg : Config) (now : Nat) (s : State) (addr data : Nat)
    (h : ¬ (s.pcbMap.length ≥ cfg.pcbCapacity
      ∧ pcbFind s.pcbMap (PCBEntry.getBase addr) = none))
    (hf : (mergedEntry now s addr data).isFull = true) :
    coalescePartial cfg now s addr data =
      { sendToNVMain cfg (countPartial s) (mergedEntry now s addr data) with
        pcbMap := pcbErase
          (pcbInsert s.pcbMap (PCBEntry.getBase addr) (mergedEntry now s addr data))
          (PCBEntry.getBase addr)
        stats := { (sendToNVMain cfg (countPartial s) (mergedEntry now s addr data)).stats with
          pcbCoalescedBlocks :=
            (sendToNVMain cfg (countPartial s)
              (mergedEntry now s addr data)).stats.pcbCoalescedBlocks + 1 } } := by
  unfold mergedEntry at hf
  unfold coalescePartial countPartial mergedEntry
  simp only []
  rw [if_neg h]
  simp only [hf, if_true]
  unfold sendToNVMain
  simp only []
  split <;> rfl

@[simp] theorem sendToNVMain_pcbMap (cfg : Config) (s : State) (e : PCBEntry) :
    (sendToNVMain cfg s e).pcbMap = s.pcbMap := by
  unfold sendToNVMain; split <;> rfl

@[simp] theorem sendToNVMain_cacheSets (cfg : Config) (s : State) (e : PCBEntry) :
    (sendToNVMain cfg s e).cacheSets = s.cacheSets := by
  unfold sendToNVMain; split <;> rfl

@[simp] theorem sendToNVMain_pcbOverflows (cfg : Config) (s : State) (e : PCBEntry) :
    (sendToNVMain cfg s e).stats.pcbOverflows = s.stats.pcbOverflows := by
  unfold sendToNVMain; split <;> rfl

@[simp] theorem sendToNVMain_plubPartials (cfg : Config) (s : State) (e : PCBEntry) :
    (sendToNVMain cfg s e).stats.plubPartials = s.stats.plubPartials := by
  unfold sendToNVMain; split <;> rfl

@[simp] theorem sendToNVMain_pcbTotalPartials (cfg : Config) (s : State) (e : PCBEntry) :
    (sendToNVMain cfg s e).stats.pcbTotalPartials = s.stats.pcbTotalPartials := by
  unfold sendToNVMain; split <;> rfl

@[simp] theorem sendToNVMain_pcbCoalescedBlocks (cfg : Config) (s : State) (e : PCBEntry) :
    (sendToNVMain cfg s e).stats.pcbCoalescedBlocks = s.stats.pcbCoalescedBlocks := by
  unfold sendToNVMain; split <;> rfl

@[simp] theorem sendToNVMain_pcbPartialFlushes (cfg : Config) (s : State) (e : PCBEntry) :
    (sendToNVMain cfg s e).stats.pcbPartialFlushes = s.stats.pcbPartialFlushes := by
  unfold sendToNVMain; split <;> rfl

@[simp] theorem sendToNVMain_evictions (cfg : Config) (s : State) (e : PCBEntry) :
    (sendToNVMain cfg s e).stats.evictions = s.stats.evictions := by
  unfold sendToNVMain; split <;> rfl

@[simp] theorem sendToPLUB_pcbMap (cfg : Config) (s : State) (addr data : Nat) :
    (sendToPLUB cfg s addr data).pcbMap = s.pcbMap := by
  unfold sendToPLUB; split <;> rfl

@[simp] theorem sendToPLUB_cacheSets (cfg : Config) (s : State) (addr data : Nat) :
    (sendToPLUB cfg s addr data).cacheSets = s.cacheSets := by
  unfold sendToPLUB; split <;> rfl

@[simp] theorem sendToPLUB_pcbOverflows (cfg : Config) (s : State) (addr data : Nat) :
    (sendToPLUB cfg s addr data).stats.pcbOverflows = s.stats.pcbOverflows := by
  unfold sendToPLUB; split <;> rfl

@[simp] theorem countPartial_pcbMap (s : State) : (countPartial s).pcbMap = s.pcbMap := rfl

@[simp] theorem countPartial_writeQueue (s : State) :
    (countPartial s).writeQueue = s.writeQueue := rfl

@[simp] theorem countPartial_cacheSets (s : State) :
    (countPartial s).cacheSets = s.cacheSets := rfl

/-- Map after `coalescePartial` in the merge branch. -/
theorem coalescePartial_merge_pcbMap (cfg : Config) (now : Nat) (s : State) (addr data : Nat)
    (h : ¬ (s.pcbMap.length ≥ cfg.pcbCapacity
      ∧ pcbFind s.pcbMap (PCBEntry.getBase addr) = none)) :
    (coalescePartial cfg now s addr data).pcbMap =
      if (mergedEntry now s addr data).isFull then
        pcbErase (pcbInsert s.pcbMap (PCBEntry.getBase addr) (mergedEntry now s addr data))
          (PCBEntry.getBase addr)
      else pcbInsert s.pcbMap (PCBEntry.getBase addr) (mergedEntry now s addr data) := by
  by_cases hf : (mergedEntry now s addr data).isFull = true
  · rw [coalescePartial_full cfg now s addr data h hf, if_pos hf]
  · have hf' : (mergedEntry now s addr data).isFull = false := by simpa using hf
    rw [coalescePartial_stage cfg now s addr data h hf', if_neg hf]

/-- Counters `pcbOverflows` and `plubPartials` after `coalescePartial` in the merge branch. -/
theorem coalescePartial_merge_counters (cfg : Config) (now : Nat) (s : State)
    (addr data : Nat)
    (h : ¬ (s.pcbMap.length ≥ cfg.pcbCapacity
      ∧ pcbFind s.pcbMap (PCBEntry.getBase addr) = none)) :
    (coalescePartial cfg now s addr data).stats.pcbOverflows = s.stats.pcbOverflows
      ∧ (coalescePartial cfg now s addr data).stats.plubPartials = s.stats.plubPartials := by
  by_cases hf : (mergedEntry now s addr data).isFull = true
  · rw [coalescePartial_full cfg now s addr data h hf]
    simp [countPartial]
  · have hf' : (mergedEntry now s addr data).isFull = false := by simpa using hf
    rw [coalescePartial_stage cfg now s addr data h hf']
    simp [countPartial]

/-- C3. With the map within its capacity, `coalescePartial(addr, data)` takes the PLUB path
(`pcbOverflows` goes up by one) exactly when the base of `addr` is not a key of the map and
the map holds `pcbCapacity` entries; then the partial is handed to `sendToPLUB`, the map is
unchanged and `pcbOverflows` is incremented by 1. Otherwise neither `pcbOverflows` nor
`plubPartials` changes. A partial whose base is staged under entry `e` is merged however
full the map is: afterwards the base holds `e` with the partial merged in, or, if that made
the entry full, the base is no longer staged. Scenario S3: with `pcbCapacity = 2`, one
partial each to `0x0`, `0x40`, `0x80` gives `pcbOverflows = 1`, `plubPartials = 1`, the
third partial in the write queue, and the staged bases `0x0`, `0x40`. -/
theorem coalescePartial_admission (cfg : Config) (now : Nat) (s : State) (addr data : Nat)
    (hcap : s.pcbMap.length ≤ cfg.pcbCapacity) :
    ((coalescePartial cfg now s addr data).stats.pcbOverflows = s.stats.pcbOverflows + 1
        ↔ (pcbFind s.pcbMap (PCBEntry.getBase addr) = none
            ∧ s.pcbMap.length = cfg.pcbCapacity))
      ∧ ((pcbFind s.pcbMap (PCBEntry.getBase addr) = none
            ∧ s.pcbMap.length = cfg.pcbCapacity) →
          coalescePartial cfg now s addr data =
            { sendToPLUB cfg (countPartial s) addr data with
              stats := { (sendToPLUB cfg (countPartial s) addr data).stats with
                pcbOverflows := s.stats.pcbOverflows + 1 } }
          ∧ (coalescePartial cfg now s addr data).pcbMap = s.pcbMap)
      ∧ (¬ (pcbFind s.pcbMap (PCBEntry.getBase addr) = none
            ∧ s.pcbMap.length = cfg.pcbCapacity) →
          (coalescePartial cfg now s addr data).stats.pcbOverflows = s.stats.pcbOverflows
          ∧ (coalescePartial cfg now s addr data).stats.plubPartials = s.stats.plubPartials)
      ∧ (∀ e, pcbFind s.pcbMap (PCBEntry.getBase addr) = some e →
          (coalescePartial cfg now s addr data).stats.pcbOverflows = s.stats.pcbOverflows
          ∧ pcbFind (coalescePartial cfg now s addr data).pcbMap (PCBEntry.getBase addr)
            = if (mergePartial now e (PCBEntry.getBase addr)
                    ((addr - PCBEntry.getBase addr) / 8) data).isFull then none
              else some (mergePartial now e (PCBEntry.getBase addr)
                    ((addr - PCBEntry.getBase addr) / 8) data))
      ∧ (∀ (c : Config) (t1 t2 t3 d1 d2 d3 : Nat), c.pcbCapacity = 2 →
          1 ≤ sizeT c.writeQueueCapacity →
          (runCoalesce c (State.init c)
              [⟨t1, 0x0, d1⟩, ⟨t2, 0x40, d2⟩, ⟨t3, 0x80, d3⟩]).stats.pcbOverflows = 1
          ∧ (runCoalesce c (State.init c)
              [⟨t1, 0x0, d1⟩, ⟨t2, 0x40, d2⟩, ⟨t3, 0x80, d3⟩]).stats.plubPartials = 1
          ∧ (runCoalesce c (State.init c)
              [⟨t1, 0x0, d1⟩, ⟨t2, 0x40, d2⟩, ⟨t3, 0x80, d3⟩]).writeQueue = [(0x80, d3)]
          ∧ (runCoalesce c (State.init c)
              [⟨t1, 0x0, d1⟩, ⟨t2, 0x40, d2⟩, ⟨t3, 0x80, d3⟩]).pcbMap.map Prod.fst
            = [0x0, 0x40]) := by
  have hcond : (s.pcbMap.length ≥ cfg.pcbCapacity
        ∧ pcbFind s.pcbMap (PCBEntry.getBase addr) = none)
      ↔ (pcbFind s.pcbMap (PCBEntry.getBase addr) = none
        ∧ s.pcbMap.length = cfg.pcbCapacity) := by
    constructor
    · rintro ⟨h1, h2⟩; exact ⟨h2, by omega⟩
    · rintro ⟨h1, h2⟩; exact ⟨by omega, h1⟩
  refine ⟨?_, ?_, ?_, ?_, ?_⟩
  · constructor
    · intro h
      by_contra hn
      have := (coalescePartial_merge_counters cfg now s addr data
        (fun hc => hn (hcond.mp hc))).1
      omega
    · intro h
      have h' := hcond.mpr h
      rw [coalescePartial_overflow cfg now s addr data h'.1 h'.2]
      simp [countPartial]
  · intro h
    have h' := hcond.mpr h
    rw [coalescePartial_overflow cfg now s addr data h'.1 h'.2]
    simp [countPartial]
  · intro h
    exact coalescePartial_merge_counters cfg now s addr data (fun hc => h (hcond.mp hc))
  · intro e he
    have hn : ¬ (s.pcbMap.length ≥ cfg.pcbCapacity
        ∧ pcbFind s.pcbMap (PCBEntry.getBase addr) = none) := by
      rintro ⟨_, h2⟩
      rw [he] at h2
      exact Option.noConfusion h2
    refine ⟨(coalescePartial_merge_counters cfg now s addr data hn).1, ?_⟩
    rw [coalescePartial_merge_pcbMap cfg now s addr data hn]
    have hm : mergedEntry now s addr data
        = mergePartial now e (PCBEntry.getBase addr)
            ((addr - PCBEntry.getBase addr) / 8) data := by
      unfold mergedEntry
      rw [he]
      rfl
    rw [hm]
    split
    · exact pcbFind_erase_same _ _
    · exact pcbFind_insert_same _ _ _
  · intro c t1 t2 t3 d1 d2 d3 hc hq
    have hq1 : 0 < sizeT c.writeQueueCapacity := by omega
    simp [runCoalesce, coalescePartial, State.init, PCBEntry.getBase, pcbFind, hc, pcbInsert,
      mergePartial, PCBEntry.init, PCBEntry.isFull, Stats.init, sendToPLUB, hq1]

/-- Witness of C3: a partial to base `0x80` offered to a buffer of capacity 2 that stages
`0x0` and `0x40`. -/
theorem coalescePartial_admission_witness :
    (coalescePartial { Config.source 4 4 64 1 8 with pcbCapacity := 2 } 0
      { State.init (Config.source 4 4 64 1 8) with
        pcbMap := [(0, { PCBEntry.init with validMask := 1, dirty := true }),
                   (64, { PCBEntry.init with baseAddr := 64, validMask := 1, dirty := true })] }
      0x80 5).stats.pcbOverflows = 1 :=
  ((coalescePartial_admission { Config.source 4 4 64 1 8 with pcbCapacity := 2 } 0
      { State.init (Config.source 4 4 64 1 8) with
        pcbMap := [(0, { PCBEntry.init with validMask := 1, dirty := true }),
                   (64, { PCBEntry.init with baseAddr := 64, validMask := 1, dirty := true })] }
      0x80 5 (by decide)).1).mpr (by decide)

/-! ## Capacity of the buffer -/

/-- Invariant carried by the capacity argument: keys ascending and at most `pcbCapacity`
entries. -/
theorem coalescePartial_bounded (cfg : Config) (now : Nat) (s : State) (addr data : Nat)
    (hs : pcbSorted s.pcbMap) (hl : s.pcbMap.length ≤ cfg.pcbCapacity) :
    pcbSorted (coalescePartial cfg now s addr data).pcbMap
      ∧ (coalescePartial cfg now s addr data).pcbMap.length ≤ cfg.pcbCapacity := by
  by_cases h : s.pcbMap.length ≥ cfg.pcbCapacity
      ∧ pcbFind s.pcbMap (PCBEntry.getBase addr) = none
  · rw [coalescePartial_overflow cfg now s addr data h.1 h.2]
    simpa using ⟨hs, hl⟩
  · rw [coalescePartial_merge_pcbMap cfg now s addr data h]
    have hins : (pcbInsert s.pcbMap (PCBEntry.getBase addr)
        (mergedEntry now s addr data)).length ≤ cfg.pcbCapacity := by
      by_cases hf : pcbFind s.pcbMap (PCBEntry.getBase addr) = none
      · rw [pcbInsert_length_none _ _ _ hf]
        have : ¬ s.pcbMap.length ≥ cfg.pcbCapacity := fun hc => h ⟨hc, hf⟩
        omega
      · rw [pcbInsert_length_some _ _ _ hs hf]
        exact hl
    have hsort := pcbSorted_insert s.pcbMap (PCBEntry.getBase addr)
      (mergedEntry now s addr data) hs
    split
    · exact ⟨pcbSorted_erase _ _ hsort, le_trans (pcbErase_length_le _ _) hins⟩
    · exact ⟨hsort, hins⟩

@[simp] theorem setWay_pcbMap (s : State) (setIdx i : Nat) (line : CacheLine) :
    (setWay s setIdx i line).pcbMap = s.pcbMap := rfl

@[simp] theorem setWay_writeQueue (s : State) (setIdx i : Nat) (line : CacheLine) :
    (setWay s setIdx i line).writeQueue = s.writeQueue := rfl

@[simp] theorem setWay_stats (s : State) (setIdx i : Nat) (line : CacheLine) :
    (setWay s setIdx i line).stats = s.stats := rfl

@[simp] theorem setWay_flushAt (s : State) (setIdx i : Nat) (line : CacheLine) :
    (setWay s setIdx i line).flushAt = s.flushAt := rfl

theorem coalesceLoop_bounded (cfg : Config) (now : Nat) (f g : Nat → Nat) (l : List Nat)
    (s : State) (hs : pcbSorted s.pcbMap) (hl : s.pcbMap.length ≤ cfg.pcbCapacity) :
    pcbSorted (l.foldl (fun st i => coalescePartial cfg now st (f i) (g i)) s).pcbMap
      ∧ (l.foldl (fun st i => coalescePartial cfg now st (f i) (g i)) s).pcbMap.length
          ≤ cfg.pcbCapacity := by
  induction l generalizing s with
  | nil => exact ⟨hs, hl⟩
  | cons a t ih =>
    rw [List.foldl_cons]
    have := coalescePartial_bounded cfg now s (f a) (g a) hs hl
    exact ih _ this.1 this.2

theorem evict_bounded (cfg : Config) (now : Nat) (s : State) (setIdx wayIdx : Nat)
    (hs : pcbSorted s.pcbMap) (hl : s.pcbMap.length ≤ cfg.pcbCapacity) :
    pcbSorted (evict cfg now s setIdx wayIdx).pcbMap
      ∧ (evict cfg now s setIdx wayIdx).pcbMap.length ≤ cfg.pcbCapacity := by
  unfold evict
  simp only [setWay_pcbMap]
  split
  · exact coalesceLoop_bounded cfg now _ _ _ s hs hl
  · exact ⟨hs, hl⟩

theorem insert_bounded (cfg : Config) (now : Nat) (s : State) (addr data : Nat)
    (hs : pcbSorted s.pcbMap) (hl : s.pcbMap.length ≤ cfg.pcbCapacity) :
    pcbSorted (insert cfg now s addr data).pcbMap
      ∧ (insert cfg now s addr data).pcbMap.length ≤ cfg.pcbCapacity := by
  unfold insert
  simp only []
  split
  · exact ⟨hs, hl⟩
  · split
    · exact ⟨hs, hl⟩
    · simp only [setWay_pcbMap]
      exact evict_bounded cfg now s _ _ hs hl

theorem lookup_pcbMap (cfg : Config) (now : Nat) (s : State) (addr : Nat) :
    (lookup cfg now s addr).1.pcbMap = s.pcbMap := by
  unfold lookup
  simp only []
  split <;> rfl

theorem step_bounded (cfg : Config) (s : State) (op : Op)
    (hs : pcbSorted s.pcbMap) (hl : s.pcbMap.length ≤ cfg.pcbCapacity) :
    pcbSorted (step cfg s op).pcbMap ∧ (step cfg s op).pcbMap.length ≤ cfg.pcbCapacity := by
  cases op with
  | request now req =>
    cases req with
    | read addr =>
      simp only [step, recvTimingReq]
      have hp := lookup_pcbMap cfg now s addr
      rcases hlk : lookup cfg now s addr with ⟨s1, _ | d⟩
      · rw [hlk] at hp
        simp only at hp
        simp only []
        apply insert_bounded
        · simpa [hp] using hs
        · simpa [hp] using hl
      · rw [hlk] at hp
        simp only at hp
        simp only []
        rw [hp]
        exact ⟨hs, hl⟩
    | write addr data =>
      simp only [step, recvTimingReq]
      have := coalescePartial_bounded cfg now s addr data hs hl
      exact insert_bounded cfg now _ addr data this.1 this.2
  | evict now setIdx wayIdx => exact evict_bounded cfg now s setIdx wayIdx hs hl
  | coalesce now addr data => exact coalescePartial_bounded cfg now s addr data hs hl
  | flush now =>
    simp only [step, flushPCB]
    exact ⟨by simp [pcbSorted], Nat.zero_le _⟩

theorem run_bounded (cfg : Config) (ops : List Op) (s : State)
    (hs : pcbSorted s.pcbMap) (hl : s.pcbMap.length ≤ cfg.pcbCapacity) :
    pcbSorted (run cfg s ops).pcbMap ∧ (run cfg s ops).pcbMap.length ≤ cfg.pcbCapacity := by
  induction ops generalizing s with
  | nil => exact ⟨hs, hl⟩
  | cons op t ih =>
    have := step_bounded cfg s op hs hl
    exact ih _ this.1 this.2

/-- C4. In every state reached from the initial state by any sequence of requests at the
memory port (cache reads and cache writes), evictions, `coalescePartial` calls and
`flushPCB` calls, the buffer map holds at most `pcbCapacity` entries. -/
theorem pcbMap_within_capacity (cfg : Config) (ops : List Op) :
    (run cfg (State.init cfg) ops).pcbMap.length ≤ cfg.pcbCapacity :=
  (run_bounded cfg ops (State.init cfg) (by simp [pcbSorted, State.init])
    (by simp [State.init])).2

/-! ## Eager emission of a completed block -/

theorem testBit_setSlot (m i j : Nat) (hm : m < 256) (hi : i < 8) :
    ((m ||| (1 <<< i)) % 256).testBit j = (m.testBit j || decide (i = j)) := by
  have h2 : (1 <<< i) < 2 ^ 8 := by
    rw [Nat.one_shiftLeft]
    exact Nat.pow_lt_pow_right (by norm_num) hi
  have hlt : m ||| (1 <<< i) < 2 ^ 8 := Nat.or_lt_two_pow (by simpa using hm) h2
  rw [Nat.mod_eq_of_lt (by simpa using hlt), Nat.testBit_or, Nat.one_shiftLeft,
    Nat.testBit_two_pow]

theorem setSlot_lt (m i : Nat) : (m ||| (1 <<< i)) % 256 < 256 := Nat.mod_lt _ (by norm_num)

theorem testBit_255 (j : Nat) : Nat.testBit 255 j = decide (j < 8) := by
  by_cases h : j < 8
  · have h8 : j = 0 ∨ j = 1 ∨ j = 2 ∨ j = 3 ∨ j = 4 ∨ j = 5 ∨ j = 6 ∨ j = 7 := by omega
    rcases h8 with rfl | rfl | rfl | rfl | rfl | rfl | rfl | rfl <;> decide
  · have : 255 < 2 ^ j :=
      lt_of_lt_of_le (by norm_num : 255 < 2 ^ 8)
        (Nat.pow_le_pow_right (by norm_num) (by omega))
    simp [Nat.testBit_lt_two_pow this, h]

theorem mask_full_iff (m : Nat) (hm : m < 256) :
    m = 255 ↔ ∀ j, j < 8 → m.testBit j = true := by
  constructor
  · rintro rfl j hj
    simp [testBit_255, hj]
  · intro h
    apply Nat.eq_of_testBit_eq
    intro j
    rw [testBit_255]
    by_cases hj : j < 8
    · simp [h j hj, hj]
    · have : m < 2 ^ j :=
        lt_of_lt_of_le (by simpa using hm : m < 2 ^ 8)
          (Nat.pow_le_pow_right (by norm_num) (by omega))
      simp [Nat.testBit_lt_two_pow this, hj]

theorem maskBits_255 : maskBits 255 = List.range 8 := by decide

theorem getBase_slot (b i : Nat) (hb : b % 64 = 0) (hi : i < 8) :
    PCBEntry.getBase (b + 8 * i) = b := by
  unfold PCBEntry.getBase
  omega

theorem offset_slot (b i : Nat) (hb : b % 64 = 0) (hi : i < 8) :
    (b + 8 * i - PCBEntry.getBase (b + 8 * i)) / 8 = i := by
  rw [getBase_slot b i hb hi]
  omega

/-- The entry built by `coalescePartial(b + 8 i, d)` from the entry staged under `b`. -/
theorem mergedEntry_slot (now : Nat) (st : State) (b i d : Nat) (hb : b % 64 = 0)
    (hi : i < 8) :
    mergedEntry now st (b + 8 * i) d
      = mergePartial now ((pcbFind st.pcbMap b).getD PCBEntry.init) b i d := by
  unfold mergedEntry
  rw [offset_slot b i hb hi, getBase_slot b i hb hi]

theorem mergePartial_baseAddr (now : Nat) (e : PCBEntry) (b i d : Nat)
    (h : e.baseAddr = b ∨ e.baseAddr = 0) : (mergePartial now e b i d).baseAddr = b := by
  unfold mergePartial
  by_cases h0 : e.baseAddr = 0
  · simp [h0]
  · rcases h with h | h
    · simp only [h0, if_false]
      exact h
    · exact absurd h h0

theorem mergePartial_data (now : Nat) (e : PCBEntry) (b i d : Nat) :
    (mergePartial now e b i d).data = storeU64 e.data (i * 8) d := by
  unfold mergePartial
  by_cases h0 : e.baseAddr = 0 <;> simp [h0]

theorem mergePartial_validMask (now : Nat) (e : PCBEntry) (b i d : Nat) :
    (mergePartial now e b i d).validMask = (e.validMask ||| (1 <<< i)) % 256 := by
  unfold mergePartial
  by_cases h0 : e.baseAddr = 0 <;> simp [h0]

theorem mergePartial_dirty (now : Nat) (e : PCBEntry) (b i d : Nat) :
    (mergePartial now e b i d).dirty = true := by
  unfold mergePartial
  by_cases h0 : e.baseAddr = 0 <;> simp [h0]

/-- What the merged entry looks like when slot `i` is written during `Filling`. -/
theorem filling_merged (cfg : Config) (s st : State) (b : Nat) (v : Nat → Nat)
    (done : List Nat) (now i : Nat) (hF : Filling cfg s st b v done)
    (hi : i < 8) (hsub : ∀ j ∈ done, j < 8) (hvi : v i < 2 ^ 64) :
    (mergePartial now ((pcbFind st.pcbMap b).getD PCBEntry.init) b i (v i)).baseAddr = b
      ∧ (mergePartial now ((pcbFind st.pcbMap b).getD PCBEntry.init) b i (v i)).data.length
          = 64
      ∧ (mergePartial now ((pcbFind st.pcbMap b).getD PCBEntry.init) b i (v i)).validMask
          < 256
      ∧ (∀ j, (mergePartial now ((pcbFind st.pcbMap b).getD PCBEntry.init) b i
            (v i)).validMask.testBit j = true ↔ j ∈ i :: done)
      ∧ (∀ j ∈ i :: done,
          loadU64 (mergePartial now ((pcbFind st.pcbMap b).getD PCBEntry.init) b i
            (v i)).data (8 * j) = v j) := by
  obtain ⟨_, _, _, hbase, hlen, hmask, hbits, hvals⟩ := hF
  refine ⟨mergePartial_baseAddr _ _ _ _ _ hbase, ?_, ?_, ?_, ?_⟩
  · rw [mergePartial_data, storeU64_length, hlen]
  · rw [mergePartial_validMask]
    exact setSlot_lt _ _
  · intro j
    rw [mergePartial_validMask, testBit_setSlot _ _ _ hmask hi, List.mem_cons,
      Bool.or_eq_true, hbits j, decide_eq_true_eq]
    constructor
    · rintro (h | h)
      · exact Or.inr h
      · exact Or.inl h.symm
    · rintro (h | h)
      · exact Or.inr h.symm
      · exact Or.inl h
  · intro j hj
    rw [mergePartial_data]
    rcases List.mem_cons.mp hj with rfl | hj
    · rw [Nat.mul_comm j 8, loadU64_storeU64_same _ _ _ (by omega), Nat.mod_eq_of_lt hvi]
    · have hj8 := hsub j hj
      by_cases hji : j = i
      · subst hji
        rw [Nat.mul_comm j 8, loadU64_storeU64_same _ _ _ (by omega), Nat.mod_eq_of_lt hvi]
      · rw [loadU64_storeU64_other _ _ _ _ (by omega)]
        exact hvals j hj

/-- Writing a slot that does not complete the block keeps `Filling`. -/
theorem filling_step (cfg : Config) (s st : State) (b : Nat) (v : Nat → Nat)
    (done : List Nat) (now i : Nat) (hb : b % 64 = 0) (hF : Filling cfg s st b v done)
    (hi : i < 8) (hsub : ∀ j ∈ done, j < 8) (hvi : v i < 2 ^ 64)
    (hmore : ∃ j, j < 8 ∧ j ∉ i :: done) :
    Filling cfg s (coalescePartial cfg now st (b + 8 * i) (v i)) b v (i :: done) := by
  obtain ⟨m1, m2, m3, m4, m5⟩ := filling_merged cfg s st b v done now i hF hi hsub hvi
  obtain ⟨hq, hst, hadm, _, _, _, _, _⟩ := hF
  have hn : ¬ (st.pcbMap.length ≥ cfg.pcbCapacity
      ∧ pcbFind st.pcbMap (PCBEntry.getBase (b + 8 * i)) = none) := by
    rw [getBase_slot b i hb hi]
    rintro ⟨h1, h2⟩
    rcases hadm with h | h
    · exact h h2
    · omega
  have hnf : (mergedEntry now st (b + 8 * i) (v i)).isFull = false := by
    rw [mergedEntry_slot now st b i (v i) hb hi]
    unfold PCBEntry.isFull
    rw [beq_eq_false_iff_ne]
    intro h255
    obtain ⟨j, hj, hjn⟩ := hmore
    exact hjn ((m4 j).mp ((mask_full_iff _ m3).mp h255 j hj))
  rw [coalescePartial_stage cfg now st _ _ hn hnf, getBase_slot b i hb hi,
    mergedEntry_slot now st b i (v i) hb hi]
  unfold Filling
  simp only [pcbFind_insert_same, Option.getD_some]
  refine ⟨hq, ?_, Or.inl (by simp), Or.inl m1, m2, m3, m4, m5⟩
  simp only [countPartial, hst, List.length_cons]
  simp [Nat.add_assoc]

/-- Writing the slot that completes the block emits it. -/
theorem filling_last (cfg : Config) (s st : State) (b : Nat) (v : Nat → Nat)
    (done : List Nat) (now i : Nat) (hb : b % 64 = 0) (hb64 : b < 2 ^ 64)
    (hF : Filling cfg s st b v done)
    (hi : i < 8) (hsub : ∀ j ∈ done, j < 8) (hvi : v i < 2 ^ 64)
    (hall : ∀ j, j < 8 → j ∈ i :: done)
    (hroom : s.writeQueue.length < sizeT cfg.writeQueueCapacity) :
    (coalescePartial cfg now st (b + 8 * i) (v i)).writeQueue
        = s.writeQueue ++ (List.range 8).map (fun j => (b + 8 * j, v j))
      ∧ pcbFind (coalescePartial cfg now st (b + 8 * i) (v i)).pcbMap b = none
      ∧ (coalescePartial cfg now st (b + 8 * i) (v i)).stats
          = { s.stats with
              pcbTotalPartials := s.stats.pcbTotalPartials + (done.length + 1)
              pcbCoalescedBlocks := s.stats.pcbCoalescedBlocks + 1
              nvmWrites := s.stats.nvmWrites + 1
              nvmBytesWritten := s.stats.nvmBytesWritten + 64 } := by
  obtain ⟨m1, m2, m3, m4, m5⟩ := filling_merged cfg s st b v done now i hF hi hsub hvi
  obtain ⟨hq, hst, hadm, _, _, _, _, _⟩ := hF
  have hn : ¬ (st.pcbMap.length ≥ cfg.pcbCapacity
      ∧ pcbFind st.pcbMap (PCBEntry.getBase (b + 8 * i)) = none) := by
    rw [getBase_slot b i hb hi]
    rintro ⟨h1, h2⟩
    rcases hadm with h | h
    · exact h h2
    · omega
  have h255 : (mergePartial now ((pcbFind st.pcbMap b).getD PCBEntry.init) b i
      (v i)).validMask = 255 :=
    (mask_full_iff _ m3).mpr (fun j hj => (m4 j).mpr (hall j hj))
  have hfull : (mergedEntry now st (b + 8 * i) (v i)).isFull = true := by
    rw [mergedEntry_slot now st b i (v i) hb hi]
    unfold PCBEntry.isFull
    rw [h255]
    rfl
  have hrec : entryRecords (mergePartial now ((pcbFind st.pcbMap b).getD PCBEntry.init) b i
      (v i)) = (List.range 8).map (fun j => (b + 8 * j, v j)) := by
    unfold entryRecords
    rw [h255, maskBits_255, m1]
    apply List.map_congr_left
    intro j hj
    rw [m5 j (hall j (List.mem_range.mp hj))]
  have hqr : (countPartial st).writeQueue.length < sizeT cfg.writeQueueCapacity := by
    rw [countPartial_writeQueue, hq]
    exact hroom
  rw [coalescePartial_full cfg now st _ _ hn hfull, getBase_slot b i hb hi,
    mergedEntry_slot now st b i (v i) hb hi,
    sendToNVMain_room cfg _ _ (by rw [m1]; omega) hqr, hrec]
  refine ⟨by simp [hq], pcbFind_erase_same _ _, ?_⟩
  simp only [countPartial, hst, Nat.add_assoc]

theorem runCoalesce_append (cfg : Config) (s : State) (l1 l2 : List Coalesce) :
    runCoalesce cfg s (l1 ++ l2) = runCoalesce cfg (runCoalesce cfg s l1) l2 := by
  unfold runCoalesce
  rw [List.foldl_append]

theorem slots_not_all (l : List Nat) (hl : l.length < 8) : ∃ j, j < 8 ∧ j ∉ l := by
  by_contra hcon
  have hsub : List.range 8 ⊆ l := by
    intro j hj
    by_contra hjn
    exact hcon ⟨j, List.mem_range.mp hj, hjn⟩
  have := (List.subperm_of_subset (List.nodup_range 8) hsub).length_le
  simp only [List.length_range] at this
  omega

theorem filling_init (cfg : Config) (s : State) (b : Nat) (v : Nat → Nat)
    (hnew : pcbFind s.pcbMap b = none) (hlen : s.pcbMap.length < cfg.pcbCapacity) :
    Filling cfg s s b v [] := by
  unfold Filling
  rw [hnew]
  refine ⟨rfl, rfl, Or.inr hlen, Or.inr rfl, by simp [PCBEntry.init], by simp [PCBEntry.init],
    ?_, ?_⟩
  · intro j
    simp [PCBEntry.init]
  · intro j hj
    exact absurd hj (List.not_mem_nil _)

/-- Writing fewer than eight slots of a base keeps `Filling`. -/
theorem filling_run (cfg : Config) (s : State) (b : Nat) (v t : Nat → Nat)
    (hb : b % 64 = 0) (l : List Nat) (done : List Nat) (st : State)
    (hF : Filling cfg s st b v done) (hsub : ∀ j ∈ done, j < 8)
    (hl : ∀ i ∈ l, i < 8 ∧ v i < 2 ^ 64) (hlen : done.length + l.length < 8) :
    Filling cfg s (runCoalesce cfg st (slotWrites b v t l)) b v (l.reverse ++ done) := by
  induction l generalizing done st with
  | nil => simpa [slotWrites, runCoalesce] using hF
  | cons i l' ih =>
    have hi := hl i (List.mem_cons_self _ _)
    simp only [List.length_cons] at hlen
    have hmore : ∃ j, j < 8 ∧ j ∉ i :: done :=
      slots_not_all (i :: done) (by simp only [List.length_cons]; omega)
    have hstep := filling_step cfg s st b v done (t i) i hb hF hi.1 hsub hi.2 hmore
    have hsub' : ∀ j ∈ i :: done, j < 8 := by
      intro j hj
      rcases List.mem_cons.mp hj with rfl | hj
      · exact hi.1
      · exact hsub j hj
    have := ih (i :: done) _ hstep hsub' (fun k hk => hl k (List.mem_cons_of_mem _ hk))
      (by simp only [List.length_cons]; omega)
    simpa [slotWrites, runCoalesce] using this

/-- C2. From a state in which base `b` is not staged, the buffer has fewer than
`pcbCapacity` entries and the write queue is below capacity, coalescing the eight partials
`b + 8 i` with values `v i` in any order, with nothing in between, leaves the write queue
untouched during the first seven calls; the eighth call appends exactly the records
`(b + 8 i, v i)` in ascending `i`, leaves `b` not staged, and the counters have changed by
`pcbCoalescedBlocks + 1`, `nvmWrites + 1`, `nvmBytesWritten + 64`, `pcbTotalPartials + 8`
and nothing else (`pcbPartialFlushes`, `pcbOverflows` unchanged). -/
theorem eager_emission (cfg : Config) (s : State) (b : Nat) (v t : Nat → Nat)
    (order : List Nat)
    (hb : b % 64 = 0) (hb64 : b < 2 ^ 64) (hv : ∀ i, i < 8 → v i < 2 ^ 64)
    (horder : order.Perm (List.range 8))
    (hnew : pcbFind s.pcbMap b = none) (hlen : s.pcbMap.length < cfg.pcbCapacity)
    (hq : s.writeQueue.length < sizeT cfg.writeQueueCapacity) :
    (∀ k, k < 8 →
        (runCoalesce cfg s ((slotWrites b v t order).take k)).writeQueue = s.writeQueue)
      ∧ (runCoalesce cfg s (slotWrites b v t order)).writeQueue
          = s.writeQueue ++ (List.range 8).map (fun i => (b + 8 * i, v i))
      ∧ pcbFind (runCoalesce cfg s (slotWrites b v t order)).pcbMap b = none
      ∧ (runCoalesce cfg s (slotWrites b v t order)).stats
          = { s.stats with
              pcbTotalPartials := s.stats.pcbTotalPartials + 8
              pcbCoalescedBlocks := s.stats.pcbCoalescedBlocks + 1
              nvmWrites := s.stats.nvmWrites + 1
              nvmBytesWritten := s.stats.nvmBytesWritten + 64 } := by
  have hlen8 : order.length = 8 := by simpa using horder.length_eq
  have hmem : ∀ i ∈ order, i < 8 ∧ v i < 2 ^ 64 := by
    intro i hi
    have : i < 8 := List.mem_range.mp (horder.subset hi)
    exact ⟨this, hv i this⟩
  have hinit := filling_init cfg s b v hnew hlen
  have hbefore : ∀ k, k < 8 →
      Filling cfg s (runCoalesce cfg s (slotWrites b v t (order.take k))) b v
        ((order.take k).reverse ++ []) := by
    intro k hk
    apply filling_run cfg s b v t hb (order.take k) [] s hinit
    · intro j hj
      exact absurd hj (List.not_mem_nil _)
    · intro i hi
      exact hmem i (List.mem_of_mem_take hi)
    · simp only [List.length_nil, List.length_take]
      omega
  have htake : ∀ k, (slotWrites b v t order).take k = slotWrites b v t (order.take k) := by
    intro k
    unfold slotWrites
    rw [List.map_take]
  refine ⟨fun k hk => ?_, ?_⟩
  · rw [htake k]
    exact (hbefore k hk).1
  · obtain ⟨x, hx⟩ : ∃ x, order.drop 7 = [x] := by
      have h1 : (order.drop 7).length = 1 := by
        rw [List.length_drop, hlen8]
      match hd : order.drop 7, h1 with
      | [x], _ => exact ⟨x, rfl⟩
    have hsplit : order = order.take 7 ++ [x] := by
      rw [← hx, List.take_append_drop]
    have hx8 := hmem x (by rw [hsplit]; simp)
    have hF7 := hbefore 7 (by norm_num)
    rw [List.append_nil] at hF7
    have hall : ∀ j, j < 8 → j ∈ x :: (order.take 7).reverse := by
      intro j hj
      have : j ∈ order := horder.symm.subset (List.mem_range.mpr hj)
      rw [hsplit] at this
      rcases List.mem_append.mp this with h | h
      · exact List.mem_cons_of_mem _ (List.mem_reverse.mpr h)
      · rw [List.mem_singleton.mp h]
        exact List.mem_cons_self _ _
    have hsub7 : ∀ j ∈ (order.take 7).reverse, j < 8 := by
      intro j hj
      exact (hmem j (List.mem_of_mem_take (List.mem_reverse.mp hj))).1
    have hlast := filling_last cfg s _ b v (order.take 7).reverse (t x) x hb hb64 hF7 hx8.1
      hsub7 hx8.2 hall hq
    have hrun : runCoalesce cfg s (slotWrites b v t order)
        = coalescePartial cfg (t x)
            (runCoalesce cfg s (slotWrites b v t (order.take 7))) (b + 8 * x) (v x) := by
      conv_lhs => rw [hsplit]
      unfold slotWrites
      rw [List.map_append, runCoalesce_append]
      rfl
    rw [hrun]
    have hl7 : (order.take 7).reverse.length + 1 = 8 := by
      rw [List.length_reverse, List.length_take, hlen8]
      rfl
    rw [hl7] at hlast
    exact hlast

/-- Witness of C2, scenario S1: the partials `0x0, 0x8, …, 0x38` with values `1 … 8` written
in ascending order into the initial state with `pcbCapacity = 8`. -/
theorem eager_emission_witness :
    (runCoalesce { Config.source 4 4 64 1 16 with pcbCapacity := 8 }
        (State.init { Config.source 4 4 64 1 16 with pcbCapacity := 8 })
        (slotWrites 0 (fun i => i + 1) (fun _ => 0) (List.range 8))).writeQueue
      = [] ++ (List.range 8).map (fun i => (0 + 8 * i, i + 1)) :=
  (eager_emission { Config.source 4 4 64 1 16 with pcbCapacity := 8 }
    (State.init { Config.source 4 4 64 1 16 with pcbCapacity := 8 }) 0
    (fun i => i + 1) (fun _ => 0) (List.range 8) (by decide) (by decide)
    (by intro i hi; simp only []; omega) (List.Perm.refl _) (by decide) (by decide)
    (by decide)).2.1

/-! ## Last writer wins -/

theorem mergePartial_typed (now : Nat) (e : PCBEntry) (b i d : Nat)
    (hbase : e.baseAddr = b ∨ e.baseAddr = 0) (hb : b % 64 = 0) (hb64 : b < 2 ^ 64)
    (hlen : e.data.length = 64) :
    (mergePartial now e b i d).baseAddr = b ∧ (mergePartial now e b i d).Typed := by
  have h1 := mergePartial_baseAddr now e b i d hbase
  refine ⟨h1, ?_, ?_, ?_, ?_⟩
  · rw [h1]; exact hb
  · rw [h1]; exact hb64
  · rw [mergePartial_data, storeU64_length, hlen]
  · rw [mergePartial_validMask]
    exact setSlot_lt _ _

theorem getBase_aligned (a : Nat) : PCBEntry.getBase a % 64 = 0 := by
  unfold PCBEntry.getBase
  omega

theorem getBase_le (a : Nat) : PCBEntry.getBase a ≤ a := by
  unfold PCBEntry.getBase
  omega

/-- The entry found under a key of a well-formed map, or a fresh entry. -/
theorem found_entry (m : List (Nat × PCBEntry)) (b : Nat) (hwf : pcbWF m) :
    (((pcbFind m b).getD PCBEntry.init).baseAddr = b
        ∨ ((pcbFind m b).getD PCBEntry.init).baseAddr = 0)
      ∧ ((pcbFind m b).getD PCBEntry.init).data.length = 64
      ∧ ((pcbFind m b).getD PCBEntry.init).validMask < 256 := by
  rcases hf : pcbFind m b with _ | e
  · simp [PCBEntry.init]
  · have := hwf.2 _ (pcbFind_mem hf)
    simp only [Option.getD_some]
    exact ⟨Or.inl this.1, this.2.2.2.1, this.2.2.2.2⟩

theorem mergedEntry_typed (now : Nat) (s : State) (addr data : Nat) (hwf : pcbWF s.pcbMap)
    (ha : addr < 2 ^ 64) :
    (mergedEntry now s addr data).baseAddr = PCBEntry.getBase addr
      ∧ (mergedEntry now s addr data).Typed := by
  obtain ⟨h1, h2, _⟩ := found_entry s.pcbMap (PCBEntry.getBase addr) hwf
  unfold mergedEntry
  exact mergePartial_typed now _ _ _ _ h1 (getBase_aligned addr)
    (lt_of_le_of_lt (getBase_le addr) ha) h2

theorem pcbWF_insert (m : List (Nat × PCBEntry)) (k : Nat) (e : PCBEntry) (hwf : pcbWF m)
    (hk : e.baseAddr = k) (hT : e.Typed) : pcbWF (pcbInsert m k e) := by
  refine ⟨pcbSorted_insert m k e hwf.1, ?_⟩
  intro p hp
  rcases pcbInsert_mem hp with rfl | hp
  · exact ⟨hk, hT⟩
  · exact hwf.2 p hp

theorem pcbWF_erase (m : List (Nat × PCBEntry)) (k : Nat) (hwf : pcbWF m) :
    pcbWF (pcbErase m k) :=
  ⟨pcbSorted_erase m k hwf.1, fun p hp => hwf.2 p (pcbErase_mem hp).1⟩

/-- The representation invariant of the buffer is kept by `coalescePartial`. -/
theorem coalescePartial_wf (cfg : Config) (now : Nat) (s : State) (addr data : Nat)
    (hwf : pcbWF s.pcbMap) (ha : addr < 2 ^ 64) :
    pcbWF (coalescePartial cfg now s addr data).pcbMap := by
  by_cases h : s.pcbMap.length ≥ cfg.pcbCapacity
      ∧ pcbFind s.pcbMap (PCBEntry.getBase addr) = none
  · rw [coalescePartial_overflow cfg now s addr data h.1 h.2]
    simpa using hwf
  · rw [coalescePartial_merge_pcbMap cfg now s addr data h]
    obtain ⟨h1, h2⟩ := mergedEntry_typed now s addr data hwf ha
    have hins := pcbWF_insert s.pcbMap _ _ hwf h1 h2
    split
    · exact pcbWF_erase _ _ hins
    · exact hins

theorem runCoalesce_wf (cfg : Config) (ops : List Coalesce) (s : State)
    (hwf : pcbWF s.pcbMap) (ha : ∀ op ∈ ops, op.addr < 2 ^ 64) :
    pcbWF (runCoalesce cfg s ops).pcbMap := by
  induction ops generalizing s with
  | nil => exact hwf
  | cons op t ih =>
    have h1 := coalescePartial_wf cfg op.now s op.addr op.data hwf
      (ha op (List.mem_cons_self _ _))
    exact ih _ h1 (fun o ho => ha o (List.mem_cons_of_mem _ ho))

theorem slot_lt (a : Nat) : (a - PCBEntry.getBase a) / 8 < 8 := by
  unfold PCBEntry.getBase
  omega

/-- A write of `v` to `a` after which the base of `a` is staged leaves `v` staged for `a`. -/
theorem holds_after_write (cfg : Config) (now : Nat) (s : State) (a v : Nat)
    (hwf : pcbWF s.pcbMap) (hv : v < 2 ^ 64)
    (hst : pcbFind (coalescePartial cfg now s a v).pcbMap (PCBEntry.getBase a) ≠ none) :
    Holds (coalescePartial cfg now s a v).pcbMap a v := by
  by_cases h : s.pcbMap.length ≥ cfg.pcbCapacity
      ∧ pcbFind s.pcbMap (PCBEntry.getBase a) = none
  · exfalso
    rw [coalescePartial_overflow cfg now s a v h.1 h.2] at hst
    simp only [sendToPLUB_pcbMap, countPartial_pcbMap] at hst
    exact hst h.2
  · rw [coalescePartial_merge_pcbMap cfg now s a v h] at hst ⊢
    by_cases hf : (mergedEntry now s a v).isFull = true
    · exfalso
      rw [if_pos hf] at hst
      exact hst (pcbFind_erase_same _ _)
    · rw [if_neg hf]
      obtain ⟨_, h2, h3⟩ := found_entry s.pcbMap (PCBEntry.getBase a) hwf
      refine ⟨mergedEntry now s a v, pcbFind_insert_same _ _ _, ?_, ?_, ?_⟩
      · exact mergePartial_dirty _ _ _ _ _
      · unfold mergedEntry
        rw [mergePartial_validMask, testBit_setSlot _ _ _ h3 (slot_lt a)]
        simp
      · unfold mergedEntry
        have := slot_lt a
        rw [mergePartial_data, Nat.mul_comm _ 8, loadU64_storeU64_same _ _ _ (by omega),
          Nat.mod_eq_of_lt hv]

/-- A write to another 8-aligned address after which the base of `a` is still staged keeps
the value staged for `a`. -/
theorem holds_step (cfg : Config) (now : Nat) (s : State) (a v a' d : Nat)
    (hwf : pcbWF s.pcbMap) (ha : a % 8 = 0) (ha' : a' % 8 = 0) (hne : a' ≠ a)
    (hH : Holds s.pcbMap a v)
    (hst : pcbFind (coalescePartial cfg now s a' d).pcbMap (PCBEntry.getBase a) ≠ none) :
    Holds (coalescePartial cfg now s a' d).pcbMap a v := by
  obtain ⟨e, he, hd, hbit, hval⟩ := hH
  by_cases h : s.pcbMap.length ≥ cfg.pcbCapacity
      ∧ pcbFind s.pcbMap (PCBEntry.getBase a') = none
  · rw [coalescePartial_overflow cfg now s a' d h.1 h.2]
    simp only [sendToPLUB_pcbMap, countPartial_pcbMap]
    exact ⟨e, he, hd, hbit, hval⟩
  · rw [coalescePartial_merge_pcbMap cfg now s a' d h] at hst ⊢
    by_cases hb : PCBEntry.getBase a' = PCBEntry.getBase a
    · by_cases hf : (mergedEntry now s a' d).isFull = true
      · exfalso
        rw [if_pos hf, hb] at hst
        exact hst (pcbFind_erase_same _ _)
      · rw [if_neg hf, hb]
        have hm : mergedEntry now s a' d
            = mergePartial now e (PCBEntry.getBase a) ((a' - PCBEntry.getBase a) / 8) d := by
          unfold mergedEntry
          rw [hb, he]
          rfl
        have hmask := (hwf.2 _ (pcbFind_mem he)).2.2.2.2
        have hslot : (a' - PCBEntry.getBase a) / 8 ≠ (a - PCBEntry.getBase a) / 8 := by
          have h1 := getBase_le a
          have h2 : PCBEntry.getBase a ≤ a' := by rw [← hb]; exact getBase_le a'
          have h3 := getBase_aligned a
          intro hc
          apply hne
          omega
        have hs' : (a' - PCBEntry.getBase a) / 8 < 8 := by rw [← hb]; exact slot_lt a'
        have hs := slot_lt a
        refine ⟨mergedEntry now s a' d, pcbFind_insert_same _ _ _, ?_, ?_, ?_⟩
        · rw [hm]; exact mergePartial_dirty _ _ _ _ _
        · rw [hm, mergePartial_validMask, testBit_setSlot _ _ _ hmask hs', hbit]
          simp
        · rw [hm, mergePartial_data, loadU64_storeU64_other _ _ _ _ (by omega)]
          exact hval
    · have hb' : PCBEntry.getBase a ≠ PCBEntry.getBase a' := fun hc => hb hc.symm
      refine ⟨e, ?_, hd, hbit, hval⟩
      split
      · rw [pcbFind_erase_other _ _ _ hb', pcbFind_insert_other _ _ _ _ hb']
        exact he
      · rw [pcbFind_insert_other _ _ _ _ hb']
        exact he

theorem runCoalesce_snoc (cfg : Config) (s : State) (l : List Coalesce) (op : Coalesce) :
    runCoalesce cfg s (l ++ [op])
      = coalescePartial cfg op.now (runCoalesce cfg s l) op.addr op.data := by
  rw [runCoalesce_append]
  rfl

/-- The value stays staged through a run of writes to other addresses during which the base
stays staged. -/
theorem holds_run (cfg : Config) (a v : Nat) (ha : a % 8 = 0) (post : List Coalesce)
    (s : State) (hwf : pcbWF s.pcbMap) (hH : Holds s.pcbMap a v)
    (hpost : ∀ op ∈ post, op.addr % 8 = 0 ∧ op.addr ≠ a ∧ op.addr < 2 ^ 64)
    (hst : ∀ k, k ≤ post.length →
      pcbFind (runCoalesce cfg s (post.take k)).pcbMap (PCBEntry.getBase a) ≠ none) :
    Holds (runCoalesce cfg s post).pcbMap a v := by
  induction post generalizing s with
  | nil => exact hH
  | cons op t ih =>
    have hop := hpost op (List.mem_cons_self _ _)
    have h1 := hst 1 (by simp)
    simp only [List.take_succ_cons, List.take_zero] at h1
    have hH' := holds_step cfg op.now s a v op.addr op.data hwf ha hop.1 hop.2.1 hH h1
    have hwf' := coalescePartial_wf cfg op.now s op.addr op.data hwf hop.2.2
    apply ih _ hwf' hH' (fun o ho => hpost o (List.mem_cons_of_mem _ ho))
    intro k hk
    have := hst (k + 1) (by simp only [List.length_cons]; omega)
    simpa [runCoalesce] using this

/-- An entry of another block emits no record for `a`. -/
theorem records_other (e : PCBEntry) (a : Nat) (hal : e.baseAddr % 64 = 0)
    (hne : e.baseAddr ≠ PCBEntry.getBase a) :
    (entryRecords e).filter (fun r => r.1 == a) = [] := by
  rw [List.filter_eq_nil_iff]
  intro r hr
  unfold entryRecords at hr
  obtain ⟨j, hj, rfl⟩ := List.mem_map.mp hr
  have hj8 := maskBits_lt hj
  simp only [beq_iff_eq]
  intro hc
  apply hne
  unfold PCBEntry.getBase
  omega

theorem filter_beq_of_mem_nodup (l : List Nat) (i : Nat) (hn : l.Nodup) (hi : i ∈ l) :
    l.filter (fun j => j == i) = [i] := by
  rw [List.filter_beq, List.count_eq_one_of_mem hn hi]
  rfl

/-- The entry of the block of `a` that holds `v` in the slot of `a` emits exactly the
record `(a, v)` for `a`. -/
theorem records_same (e : PCBEntry) (a v : Nat) (ha : a % 8 = 0)
    (hb : e.baseAddr = PCBEntry.getBase a)
    (hbit : e.validMask.testBit ((a - PCBEntry.getBase a) / 8) = true)
    (hval : loadU64 e.data (8 * ((a - PCBEntry.getBase a) / 8)) = v) :
    (entryRecords e).filter (fun r => r.1 == a) = [(a, v)] := by
  have hs := slot_lt a
  have hle := getBase_le a
  have hal := getBase_aligned a
  unfold entryRecords
  rw [List.filter_map]
  have hc : (maskBits e.validMask).filter
        ((fun r : Nat × Nat => r.1 == a)
          ∘ fun i => (e.baseAddr + 8 * i, loadU64 e.data (8 * i)))
      = (maskBits e.validMask).filter (fun j => j == (a - PCBEntry.getBase a) / 8) := by
    apply List.filter_congr
    intro j hj
    have hj8 := maskBits_lt hj
    simp only [Function.comp, hb]
    rw [Bool.eq_iff_iff, beq_iff_eq, beq_iff_eq]
    constructor <;> intro h <;> omega
  rw [hc, filter_beq_of_mem_nodup _ _
    ((maskBits_pairwise e.validMask).imp (fun h => Nat.ne_of_lt h))
    ((mem_maskBits _ _).mpr ⟨hs, hbit⟩)]
  simp only [List.map_cons, List.map_nil, hval, hb]
  congr 2
  omega

/-- A flush of entries of other blocks emits no record for `a`. -/
theorem flush_records_other (m : List (Nat × PCBEntry)) (a : Nat)
    (h : ∀ p ∈ m, p.2.baseAddr % 64 = 0 ∧ p.2.baseAddr ≠ PCBEntry.getBase a) :
    (((flushed m).map entryRecords).flatten).filter (fun r => r.1 == a) = [] := by
  induction m with
  | nil => simp [flushed]
  | cons p t ih =>
    have hp := h p (List.mem_cons_self _ _)
    have ht := ih (fun q hq => h q (List.mem_cons_of_mem _ hq))
    rw [flushed_cons]
    split
    · rw [List.map_cons, List.flatten_cons, List.filter_append, ht,
        records_other p.2 a hp.1 hp.2]
      rfl
    · exact ht

/-- A flush of a well-formed buffer that holds `v` for `a` emits exactly one record for
`a`, the record `(a, v)`. -/
theorem flush_records_same (m : List (Nat × PCBEntry)) (a v : Nat) (ha : a % 8 = 0)
    (hwf : pcbWF m) (hH : Holds m a v) :
    (((flushed m).map entryRecords).flatten).filter (fun r => r.1 == a) = [(a, v)] := by
  induction m with
  | nil =>
    obtain ⟨e, he, _⟩ := hH
    simp [pcbFind] at he
  | cons p t ih =>
    obtain ⟨k, e1⟩ := p
    obtain ⟨e, he, hd, hbit, hval⟩ := hH
    have hp := hwf.2 (k, e1) (List.mem_cons_self _ _)
    have hsorted := hwf.1
    unfold pcbSorted at hsorted
    simp only [List.map_cons, List.pairwise_cons] at hsorted
    have hwft : pcbWF t := ⟨hsorted.2, fun q hq => hwf.2 q (List.mem_cons_of_mem _ hq)⟩
    unfold pcbFind at he
    rw [flushed_cons]
    by_cases hk : k = PCBEntry.getBase a
    · simp only [hk, if_true, Option.some.injEq] at he
      subst he
      have hm0 : e1.validMask ≠ 0 := by
        intro h0
        rw [h0, Nat.zero_testBit] at hbit
        exact Bool.noConfusion hbit
      have hrest : (((flushed t).map entryRecords).flatten).filter (fun r => r.1 == a)
          = [] := by
        apply flush_records_other
        intro q hq
        have hq' := hwf.2 q (List.mem_cons_of_mem _ hq)
        refine ⟨hq'.2.1, ?_⟩
        rw [hq'.1]
        have := hsorted.1 q.1 (List.mem_map_of_mem Prod.fst hq)
        omega
      rw [if_pos ⟨hd, hm0⟩, List.map_cons, List.flatten_cons, List.filter_append, hrest,
        records_same e1 a v ha (by rw [hp.1]; exact hk) hbit hval]
      rfl
    · simp only [hk, if_false] at he
      have iht := ih hwft ⟨e, he, hd, hbit, hval⟩
      split
      · rw [List.map_cons, List.flatten_cons, List.filter_append, iht,
          records_other e1 a hp.2.1 (by rw [hp.1]; exact hk)]
        rfl
      · exact iht

/-- C1. Last writer wins at flush. Take any run of `coalescePartial` calls from a well-formed
buffer in which `w` is the last call that writes the 8-aligned address `w.addr` (the calls
`post` after it go to other 8-aligned addresses), such that the base of `w.addr` is staged
after `w` and after every later call. Then a following `flushPCB` with room in the write
queue appends records of which exactly one is for `w.addr`, and it carries `w.data`.
Example: `coalesce(0x8, 0x11)`, `coalesce(0x8, 0x22)`, flush leaves the queue
`[(0x8, 0x22)]`. -/
theorem last_writer_wins (cfg : Config) (s0 : State) (pre post : List Coalesce)
    (w : Coalesce) (now : Nat)
    (hwf : pcbWF s0.pcbMap)
    (hpre : ∀ op ∈ pre, op.addr < 2 ^ 64)
    (hw : w.addr < 2 ^ 64 ∧ w.addr % 8 = 0 ∧ w.data < 2 ^ 64)
    (hpost : ∀ op ∈ post, op.addr % 8 = 0 ∧ op.addr ≠ w.addr ∧ op.addr < 2 ^ 64)
    (hstaged : ∀ k, k ≤ post.length →
      pcbFind (runCoalesce cfg s0 (pre ++ w :: post.take k)).pcbMap
        (PCBEntry.getBase w.addr) ≠ none)
    (hroom : (runCoalesce cfg s0 (pre ++ w :: post)).writeQueue.length
        + stagedPartials (runCoalesce cfg s0 (pre ++ w :: post)).pcbMap
      ≤ sizeT cfg.writeQueueCapacity) :
    (∃ recs : List (Nat × Nat),
        (flushPCB cfg now (runCoalesce cfg s0 (pre ++ w :: post))).writeQueue
          = (runCoalesce cfg s0 (pre ++ w :: post)).writeQueue ++ recs
        ∧ recs.filter (fun r => r.1 == w.addr) = [(w.addr, w.data)])
      ∧ (∀ (c : Config) (t1 t2 t3 : Nat), 1 ≤ c.pcbCapacity →
          1 ≤ sizeT c.writeQueueCapacity →
          (flushPCB c t3 (runCoalesce c (State.init c)
            [⟨t1, 0x8, 0x11⟩, ⟨t2, 0x8, 0x22⟩])).writeQueue = [(0x8, 0x22)]) := by
  constructor
  · have hsplit : ∀ l, runCoalesce cfg s0 (pre ++ w :: l)
        = runCoalesce cfg (coalescePartial cfg w.now (runCoalesce cfg s0 pre) w.addr w.data)
            l := by
      intro l
      rw [runCoalesce_append]
      rfl
    have hwf1 := runCoalesce_wf cfg pre s0 hwf hpre
    have hwf2 := coalescePartial_wf cfg w.now _ w.addr w.data hwf1 hw.1
    have h0 := hstaged 0 (Nat.zero_le _)
    rw [List.take_zero, hsplit] at h0
    have hH0 := holds_after_write cfg w.now _ w.addr w.data hwf1 hw.2.2 h0
    have hH := holds_run cfg w.addr w.data hw.2.1 post _ hwf2 hH0 hpost
      (fun k hk => by
        have := hstaged k hk
        rw [hsplit] at this
        exact this)
    have hwf3 := runCoalesce_wf cfg post _ hwf2 (fun op hop => (hpost op hop).2.2)
    rw [hsplit] at hroom ⊢
    obtain ⟨hq, _⟩ := flushLoop_room cfg _ _ (fun p hp => (hwf3.2 p hp).2) hroom
    exact ⟨_, hq, flush_records_same _ _ _ hw.2.1 hwf3 hH⟩
  · intro c t1 t2 t3 hc hq
    have h1 : ¬ (0 ≥ c.pcbCapacity) := by omega
    have hq1 : 0 < sizeT c.writeQueueCapacity := by omega
    have hp : popcount 2 = 1 := by decide
    simp [runCoalesce, coalescePartial, State.init, PCBEntry.getBase, pcbFind, h1, pcbInsert,
      mergePartial, PCBEntry.init, PCBEntry.isFull, Stats.init, flushPCB, flushEntry,
      PCBEntry.numPartials, hp, sendToNVMain, hq1]
    simp only [pushPartials]
    decide

/-- Witness of C1: `coalesce(0x8, 0x11)`, `coalesce(0x8, 0x22)`, `coalesce(0x10, 0x5)` from
the initial state, then a flush. -/
theorem last_writer_wins_witness :
    ∃ recs : List (Nat × Nat),
      (flushPCB (Config.source 4 4 64 1 16) 9
          (runCoalesce (Config.source 4 4 64 1 16) (State.init (Config.source 4 4 64 1 16))
            ([⟨1, 0x8, 0x11⟩] ++ ⟨2, 0x8, 0x22⟩ :: [⟨3, 0x10, 0x5⟩]))).writeQueue
        = (runCoalesce (Config.source 4 4 64 1 16) (State.init (Config.source 4 4 64 1 16))
            ([⟨1, 0x8, 0x11⟩] ++ ⟨2, 0x8, 0x22⟩ :: [⟨3, 0x10, 0x5⟩])).writeQueue ++ recs
      ∧ recs.filter (fun r => r.1 == 0x8) = [(0x8, 0x22)] :=
  (last_writer_wins (Config.source 4 4 64 1 16) (State.init (Config.source 4 4 64 1 16))
    [⟨1, 0x8, 0x11⟩] [⟨3, 0x10, 0x5⟩] ⟨2, 0x8, 0x22⟩ 9
    ⟨by simp [pcbSorted, State.init], by simp [State.init]⟩
    (by decide) (by decide) (by decide)
    (by
      intro k hk
      simp only [List.length_singleton] at hk
      interval_cases k <;> decide)
    (by decide)).1

/-! ## Victim selection (`findVictim`) -/

/-- The loop of `findVictim` over an arbitrary `lastAccess` function `f`: the pair
`(oldestTime, victim)` after `n` iterations. -/
theorem victimLoop_spec (f : Nat → Nat) (n : Nat) (hf : ∀ i, i < n → f i ≤ MaxTick) :
    ∃ o w, (List.range n).foldl
        (fun (acc : Nat × Nat) i => if f i < acc.1 then (f i, i) else acc) (MaxTick, 0)
        = (o, w)
      ∧ (∀ i, i < n → o ≤ f i)
      ∧ (∀ i, i < w → o < f i)
      ∧ ((o = MaxTick ∧ w = 0) ∨ (w < n ∧ f w = o)) := by
  induction n with
  | zero => exact ⟨MaxTick, 0, rfl, by simp, by simp, Or.inl ⟨rfl, rfl⟩⟩
  | succ n ih =>
    obtain ⟨o, w, hfold, h2, h3, h4⟩ := ih (fun i hi => hf i (Nat.lt_succ_of_lt hi))
    rw [List.range_succ, List.foldl_append, hfold]
    simp only [List.foldl_cons, List.foldl_nil]
    by_cases hlt : f n < o
    · refine ⟨f n, n, by simp [hlt], ?_, ?_, Or.inr ⟨Nat.lt_succ_self n, rfl⟩⟩
      · intro i hi
        rcases Nat.lt_succ_iff_lt_or_eq.mp hi with h | h
        · exact le_of_lt (lt_of_lt_of_le hlt (h2 i h))
        · rw [h]
      · intro i hi
        exact lt_of_lt_of_le hlt (h2 i hi)
    · refine ⟨o, w, by simp [hlt], ?_, h3, ?_⟩
      · intro i hi
        rcases Nat.lt_succ_iff_lt_or_eq.mp hi with h | h
        · exact h2 i h
        · rw [h]; omega
      · rcases h4 with h | h
        · exact Or.inl h
        · exact Or.inr ⟨Nat.lt_succ_of_lt h.1, h.2⟩

/-- C9. For a set with `numWays >= 1` whose `lastAccess` values are 64-bit ticks,
`findVictim` returns a way index below `numWays` whose `lastAccess` is the minimum over all
ways of the set, and no way with a smaller index has the same `lastAccess`. -/
theorem findVictim_lru (cfg : Config) (s : State) (setIdx : Nat)
    (hways : 1 ≤ cfg.numWays)
    (hty : ∀ i, i < cfg.numWays → (getWay s setIdx i).lastAccess < 2 ^ 64) :
    findVictim cfg s setIdx < cfg.numWays
      ∧ (∀ i, i < cfg.numWays →
          (getWay s setIdx (findVictim cfg s setIdx)).lastAccess
            ≤ (getWay s setIdx i).lastAccess)
      ∧ (∀ i, i < findVictim cfg s setIdx →
          (getWay s setIdx i).lastAccess
            ≠ (getWay s setIdx (findVictim cfg s setIdx)).lastAccess) := by
  have hmax : ∀ i, i < cfg.numWays → (getWay s setIdx i).lastAccess ≤ MaxTick := by
    intro i hi
    have := hty i hi
    unfold MaxTick
    omega
  obtain ⟨o, w, hfold, h2, h3, h4⟩ :=
    victimLoop_spec (fun i => (getWay s setIdx i).lastAccess) cfg.numWays hmax
  have hfv : findVictim cfg s setIdx = w := by
    unfold findVictim
    rw [hfold]
  rw [hfv]
  have hlt : w < cfg.numWays := by
    rcases h4 with h | h
    · omega
    · exact h.1
  have hval : (getWay s setIdx w).lastAccess = o := by
    rcases h4 with h | h
    · have h0 := h2 0 (by omega)
      have h0' := hmax 0 (by omega)
      rw [h.2, h.1]
      rw [h.1] at h0
      omega
    · exact h.2
  rw [hval]
  refine ⟨hlt, h2, ?_⟩
  intro i hi
  have := h3 i hi
  omega

/-- Witness of C9: a set of 4 ways, the way 2 and the way 3 touched last at tick 5, the
ways 0 and 1 at tick 7. -/
theorem findVictim_lru_witness :
    findVictim (Config.source 1 4 64 1 16)
      { State.init (Config.source 1 4 64 1 16) with
        cacheSets := [{ ways := [{ CacheLine.init with lastAccess := 7 },
                                 { CacheLine.init with lastAccess := 7 },
                                 { CacheLine.init with lastAccess := 5 },
                                 { CacheLine.init with lastAccess := 5 }],
                        clockHand := 0 }] } 0 < 4 :=
  (findVictim_lru (Config.source 1 4 64 1 16)
      { State.init (Config.source 1 4 64 1 16) with
        cacheSets := [{ ways := [{ CacheLine.init with lastAccess := 7 },
                                 { CacheLine.init with lastAccess := 7 },
                                 { CacheLine.init with lastAccess := 5 },
                                 { CacheLine.init with lastAccess := 5 }],
                        clockHand := 0 }] } 0 (by decide)
      (by
        intro i hi
        have h4 : i = 0 ∨ i = 1 ∨ i = 2 ∨ i = 3 := by
          have : i < 4 := hi
          omega
        rcases h4 with rfl | rfl | rfl | rfl <;> decide)).1

/-! ## Ways of the cache -/

theorem getD_set_same {α : Type} (l : List α) (i : Nat) (a d : α) (h : i < l.length) :
    (l.set i a).getD i d = a := by
  simp [List.getD_eq_getElem?_getD, List.getElem?_set, h]

theorem getD_set_other {α : Type} (l : List α) (i j : Nat) (a d : α) (h : i ≠ j) :
    (l.set i a).getD j d = l.getD j d := by
  simp [List.getD_eq_getElem?_getD, List.getElem?_set, h]

theorem getD_set_oob {α : Type} (l : List α) (i j : Nat) (a d : α) (h : l.length ≤ i) :
    (l.set i a).getD j d = l.getD j d := by
  rw [List.set_eq_of_length_le h]

theorem getWay_setWay_same (s : State) (setIdx i : Nat) (line : CacheLine)
    (hs : setIdx < s.cacheSets.length)
    (hi : i < (s.cacheSets.getD setIdx (CacheSet.init 0)).ways.length) :
    getWay (setWay s setIdx i line) setIdx i = line := by
  unfold getWay setWay
  simp only []
  rw [getD_set_same _ _ _ _ hs]
  exact getD_set_same _ _ _ _ hi

theorem getWay_setWay_other (s : State) (setIdx i setIdx' j : Nat) (line : CacheLine)
    (h : setIdx' ≠ setIdx ∨ j ≠ i) :
    getWay (setWay s setIdx i line) setIdx' j = getWay s setIdx' j := by
  unfold getWay setWay
  simp only []
  by_cases hs : setIdx' = setIdx
  · subst hs
    have hj : i ≠ j := by
      rcases h with h | h
      · exact absurd rfl h
      · exact fun hc => h hc.symm
    by_cases hlen : setIdx' < s.cacheSets.length
    · rw [getD_set_same _ _ _ _ hlen]
      exact getD_set_other _ _ _ _ _ hj
    · rw [getD_set_oob _ _ _ _ _ (by omega)]
  · rw [getD_set_other _ _ _ _ _ (fun hc => hs hc.symm)]

theorem getD_mem {α : Type} (l : List α) (i : Nat) (d : α) (h : i < l.length) :
    l.getD i d ∈ l := by
  rw [List.getD_eq_getElem?_getD, List.getElem?_eq_getElem h]
  exact List.getElem_mem h

/-- What `cacheWF` gives for a way inside the bounds. -/
theorem cacheWF_way (cfg : Config) (s : State) (setIdx i : Nat) (hwf : cacheWF cfg s)
    (hs : setIdx < cfg.numSets) (hi : i < cfg.numWays) :
    setIdx < s.cacheSets.length
      ∧ (s.cacheSets.getD setIdx (CacheSet.init 0)).ways.length = cfg.numWays
      ∧ (getWay s setIdx i).data.length = 8
      ∧ (getWay s setIdx i).lastAccess < 2 ^ 64 := by
  obtain ⟨h1, h2⟩ := hwf
  have hs' : setIdx < s.cacheSets.length := by omega
  have hmem := getD_mem s.cacheSets setIdx (CacheSet.init 0) hs'
  obtain ⟨h3, h4⟩ := h2 _ hmem
  have hi' : i < (s.cacheSets.getD setIdx (CacheSet.init 0)).ways.length := by omega
  have := h4 _ (getD_mem _ i CacheLine.init hi')
  exact ⟨hs', h3, this⟩

theorem getSetIndex_lt (cfg : Config) (addr : Nat) (h : 1 ≤ cfg.numSets) :
    getSetIndex cfg addr < cfg.numSets := by
  unfold getSetIndex
  exact Nat.mod_lt _ h

theorem getOffset_lt (cfg : Config) (addr : Nat) (h : cfg.blockSize = 64) :
    getOffset cfg addr < 8 := by
  unfold getOffset
  rw [h]
  omega

theorem findHit_eq_some (cfg : Config) (s : State) (setIdx tag i : Nat) :
    findHit cfg s setIdx tag = some i
      ↔ i < cfg.numWays ∧ hitAt s setIdx tag i ∧ ∀ j, j < i → ¬ hitAt s setIdx tag j := by
  unfold findHit hitAt
  rw [List.find?_range_eq_some]
  simp only [Bool.and_eq_true, beq_iff_eq, List.mem_range, Bool.not_eq_true',
    Bool.and_eq_false_imp, Bool.not_eq_eq_eq_not, Bool.not_true, not_and]
  constructor
  · rintro ⟨h1, h2, h3⟩
    refine ⟨h2, h1, fun j hj hv ht => ?_⟩
    have := h3 j hj hv
    simp [ht] at this
  · rintro ⟨h1, h2, h3⟩
    refine ⟨h2, h1, fun j hj hv => ?_⟩
    simpa using h3 j hj hv

theorem findHit_eq_none (cfg : Config) (s : State) (setIdx tag : Nat) :
    findHit cfg s setIdx tag = none ↔ ∀ j, j < cfg.numWays → ¬ hitAt s setIdx tag j := by
  unfold findHit hitAt
  rw [List.find?_range_eq_none]
  simp only [Bool.not_eq_true', Bool.and_eq_false_imp, beq_eq_false_iff_ne, ne_eq, not_and]

theorem findInvalid_eq_some (cfg : Config) (s : State) (setIdx i : Nat) :
    findInvalid cfg s setIdx = some i
      ↔ i < cfg.numWays ∧ (getWay s setIdx i).valid = false
        ∧ ∀ j, j < i → (getWay s setIdx j).valid = true := by
  unfold findInvalid
  rw [List.find?_range_eq_some]
  simp only [Bool.not_eq_true', List.mem_range, Bool.not_not]
  constructor
  · rintro ⟨h1, h2, h3⟩
    exact ⟨h2, h1, h3⟩
  · rintro ⟨h1, h2, h3⟩
    exact ⟨h2, h1, h3⟩

theorem findInvalid_eq_none (cfg : Config) (s : State) (setIdx : Nat) :
    findInvalid cfg s setIdx = none ↔ ∀ j, j < cfg.numWays → (getWay s setIdx j).valid = true := by
  unfold findInvalid
  rw [List.find?_range_eq_none]
  simp only [Bool.not_not]

/-! ## The buffer does not touch the cache -/

@[simp] theorem coalescePartial_cacheSets (cfg : Config) (now : Nat) (s : State)
    (addr data : Nat) : (coalescePartial cfg now s addr data).cacheSets = s.cacheSets := by
  by_cases h : s.pcbMap.length ≥ cfg.pcbCapacity
      ∧ pcbFind s.pcbMap (PCBEntry.getBase addr) = none
  · rw [coalescePartial_overflow cfg now s addr data h.1 h.2]
    simp
  · by_cases hf : (mergedEntry now s addr data).isFull = true
    · rw [coalescePartial_full cfg now s addr data h hf]
      simp
    · have hf' : (mergedEntry now s addr data).isFull = false := by simpa using hf
      rw [coalescePartial_stage cfg now s addr data h hf']
      simp

@[simp] theorem runCoalesce_cacheSets (cfg : Config) (ops : List Coalesce) (s : State) :
    (runCoalesce cfg s ops).cacheSets = s.cacheSets := by
  induction ops generalizing s with
  | nil => rfl
  | cons op t ih =>
    unfold runCoalesce at ih ⊢
    rw [List.foldl_cons, ih, coalescePartial_cacheSets]

theorem getWay_congr (s s' : State) (h : s'.cacheSets = s.cacheSets) (setIdx i : Nat) :
    getWay s' setIdx i = getWay s setIdx i := by
  unfold getWay
  rw [h]

theorem setWay_congr (s s' : State) (h : s'.cacheSets = s.cacheSets) (setIdx i : Nat)
    (line : CacheLine) :
    (setWay s' setIdx i line).cacheSets = (setWay s setIdx i line).cacheSets := by
  unfold setWay
  simp only [h]

/-! ## Eviction (`evict`) -/

@[simp] theorem sendToPLUB_evictions (cfg : Config) (s : State) (addr data : Nat) :
    (sendToPLUB cfg s addr data).stats.evictions = s.stats.evictions := by
  unfold sendToPLUB; split <;> rfl

@[simp] theorem coalescePartial_evictions (cfg : Config) (now : Nat) (s : State)
    (addr data : Nat) :
    (coalescePartial cfg now s addr data).stats.evictions = s.stats.evictions := by
  by_cases h : s.pcbMap.length ≥ cfg.pcbCapacity
      ∧ pcbFind s.pcbMap (PCBEntry.getBase addr) = none
  · rw [coalescePartial_overflow cfg now s addr data h.1 h.2]
    simp [countPartial]
  · by_cases hf : (mergedEntry now s addr data).isFull = true
    · rw [coalescePartial_full cfg now s addr data h hf]
      simp [countPartial]
    · have hf' : (mergedEntry now s addr data).isFull = false := by simpa using hf
      rw [coalescePartial_stage cfg now s addr data h hf']
      simp [countPartial]

@[simp] theorem runCoalesce_evictions (cfg : Config) (ops : List Coalesce) (s : State) :
    (runCoalesce cfg s ops).stats.evictions = s.stats.evictions := by
  induction ops generalizing s with
  | nil => rfl
  | cons op t ih =>
    unfold runCoalesce at ih ⊢
    rw [List.foldl_cons, ih, coalescePartial_evictions]

theorem getD_set_total {α : Type} (l : List α) (i : Nat) (a d : α) :
    (l.set i a).getD i d = if i < l.length then a else d := by
  by_cases h : i < l.length
  · simp [List.getD_eq_getElem?_getD, List.getElem?_set, h]
  · rw [List.set_eq_of_length_le (by omega), List.getD_eq_getElem?_getD,
      List.getElem?_eq_none (by omega), if_neg h]
    rfl

/-- The forwarding loop of `evict` is the run of the line's eight writes. -/
theorem evictLoop_eq (cfg : Config) (now : Nat) (s : State) (base : Nat) (line : CacheLine)
    (hov : base + 56 < 2 ^ 64) :
    (List.range 8).foldl
        (fun st i => coalescePartial cfg now st ((base + i * 8) % 2 ^ 64) (line.data.getD i 0))
        s
      = runCoalesce cfg s (lineWrites now base line) := by
  unfold runCoalesce lineWrites
  rw [List.foldl_map]
  apply List.foldl_ext
  intro st i hi
  have hi8 := List.mem_range.mp hi
  have h1 : (base + i * 8) % 2 ^ 64 = base + 8 * i := by
    rw [Nat.mod_eq_of_lt (by omega)]
    omega
  simp only [h1]

/-- C10. `evict(set, way)` on a dirty line calls `coalescePartial(blockBase + 8 i, data[i])`
for `i = 0, 1, …, 7` in that order, where `blockBase = (tag * numSets + set) * blockSize`
(computed without 64-bit overflow), increments `evictions` by 1 and clears `valid` of the
way, leaving the other fields of the line; on a line that is not dirty it forwards nothing
(buffer, write queue and all counters unchanged) and clears `valid`. In both cases the way
is not valid afterwards. -/
theorem evict_forwards (cfg : Config) (now : Nat) (s : State) (setIdx wayIdx : Nat) :
    ((getWay s setIdx wayIdx).dirty = true →
        ((getWay s setIdx wayIdx).tag * cfg.numSets + setIdx) * cfg.blockSize + 56 < 2 ^ 64 →
        evict cfg now s setIdx wayIdx
          = setWay
              { runCoalesce cfg s (lineWrites now
                  (((getWay s setIdx wayIdx).tag * cfg.numSets + setIdx) * cfg.blockSize)
                  (getWay s setIdx wayIdx)) with
                stats := { (runCoalesce cfg s (lineWrites now
                    (((getWay s setIdx wayIdx).tag * cfg.numSets + setIdx) * cfg.blockSize)
                    (getWay s setIdx wayIdx))).stats with
                  evictions := s.stats.evictions + 1 } }
              setIdx wayIdx { getWay s setIdx wayIdx with valid := false }
        ∧ (evict cfg now s setIdx wayIdx).stats.evictions = s.stats.evictions + 1)
      ∧ ((getWay s setIdx wayIdx).dirty = false →
        evict cfg now s setIdx wayIdx
          = setWay s setIdx wayIdx { getWay s setIdx wayIdx with valid := false }
        ∧ (evict cfg now s setIdx wayIdx).pcbMap = s.pcbMap
        ∧ (evict cfg now s setIdx wayIdx).writeQueue = s.writeQueue
        ∧ (evict cfg now s setIdx wayIdx).stats = s.stats)
      ∧ (getWay (evict cfg now s setIdx wayIdx) setIdx wayIdx).valid = false := by
  have hinv : ∀ (st : State) (line : CacheLine), line.valid = false →
      (getWay (setWay st setIdx wayIdx line) setIdx wayIdx).valid = false := by
    intro st line hl
    unfold getWay setWay
    simp only [getD_set_total]
    by_cases hs : setIdx < st.cacheSets.length
    · simp only [hs, if_true, getD_set_total]
      by_cases hi : wayIdx < (st.cacheSets.getD setIdx (CacheSet.init 0)).ways.length
      · simp only [hi, if_true]
        exact hl
      · simp only [hi, if_false]
        rfl
    · simp only [hs, if_false]
      rfl
  refine ⟨?_, ?_, ?_⟩
  · intro hd hov
    have hbase : (((getWay s setIdx wayIdx).tag * cfg.numSets + setIdx) % 2 ^ 64
          * cfg.blockSize) % 2 ^ 64
        = ((getWay s setIdx wayIdx).tag * cfg.numSets + setIdx) * cfg.blockSize := by
      by_cases hb0 : cfg.blockSize = 0
      · simp [hb0]
      · have hpos : 1 ≤ cfg.blockSize := by omega
        have hle : (getWay s setIdx wayIdx).tag * cfg.numSets + setIdx
            ≤ ((getWay s setIdx wayIdx).tag * cfg.numSets + setIdx) * cfg.blockSize :=
          Nat.le_mul_of_pos_right _ hpos
        rw [Nat.mod_eq_of_lt (a := (getWay s setIdx wayIdx).tag * cfg.numSets + setIdx)
          (by omega), Nat.mod_eq_of_lt (by omega)]
    have hev : evict cfg now s setIdx wayIdx
        = setWay
            { runCoalesce cfg s (lineWrites now
                (((getWay s setIdx wayIdx).tag * cfg.numSets + setIdx) * cfg.blockSize)
                (getWay s setIdx wayIdx)) with
              stats := { (runCoalesce cfg s (lineWrites now
                  (((getWay s setIdx wayIdx).tag * cfg.numSets + setIdx) * cfg.blockSize)
                  (getWay s setIdx wayIdx))).stats with
                evictions := s.stats.evictions + 1 } }
            setIdx wayIdx { getWay s setIdx wayIdx with valid := false } := by
      unfold evict
      simp only [hbase]
      rw [if_pos hd, evictLoop_eq cfg now s _ _ hov]
      simp only [getWay, runCoalesce_cacheSets, runCoalesce_evictions]
    rw [hev]
    exact ⟨rfl, rfl⟩
  · intro hd
    have hev : evict cfg now s setIdx wayIdx
        = setWay s setIdx wayIdx { getWay s setIdx wayIdx with valid := false } := by
      unfold evict
      simp [hd]
    rw [hev]
    exact ⟨rfl, rfl, rfl, rfl⟩
  · unfold evict
    exact hinv _ _ rfl

/-- Witness of C10: eviction of a dirty line with tag 1 in set 0 of a 4-set cache. -/
theorem evict_forwards_witness :
    (evict (Config.source 4 1 64 1 16) 3
      (setWay (State.init (Config.source 4 1 64 1 16)) 0 0
        { CacheLine.init with valid := true, tag := 1, dirty := true }) 0 0).stats.evictions
      = (setWay (State.init (Config.source 4 1 64 1 16)) 0 0
        { CacheLine.init with valid := true, tag := 1, dirty := true }).stats.evictions + 1 :=
  ((evict_forwards (Config.source 4 1 64 1 16) 3
      (setWay (State.init (Config.source 4 1 64 1 16)) 0 0
        { CacheLine.init with valid := true, tag := 1, dirty := true }) 0 0).1
    (by decide) (by decide)).2

/-! ## Placement by `insert` -/

theorem setWay_length (s : State) (setIdx i : Nat) (line : CacheLine) :
    (setWay s setIdx i line).cacheSets.length = s.cacheSets.length := by
  unfold setWay
  simp

theorem setWay_ways_length (s : State) (setIdx i setIdx' : Nat) (line : CacheLine) :
    ((setWay s setIdx i line).cacheSets.getD setIdx' (CacheSet.init 0)).ways.length
      = (s.cacheSets.getD setIdx' (CacheSet.init 0)).ways.length := by
  unfold setWay
  simp only []
  by_cases h : setIdx = setIdx'
  · subst h
    rw [getD_set_total]
    split
    · simp
    · rename_i hlen
      rw [List.getD_eq_getElem?_getD, List.getElem?_eq_none (by omega)]
      rfl
  · rw [getD_set_other _ _ _ _ _ h]

theorem coalesceLoop_cacheSets (cfg : Config) (now : Nat) (f g : Nat → Nat) (l : List Nat)
    (s : State) :
    (l.foldl (fun st i => coalescePartial cfg now st (f i) (g i)) s).cacheSets
      = s.cacheSets := by
  induction l generalizing s with
  | nil => rfl
  | cons a t ih => rw [List.foldl_cons, ih, coalescePartial_cacheSets]

/-- The cache after `evict`: only `valid` of the evicted way has changed. -/
theorem evict_cacheSets (cfg : Config) (now : Nat) (s : State) (setIdx wayIdx : Nat) :
    (evict cfg now s setIdx wayIdx).cacheSets
      = (setWay s setIdx wayIdx { getWay s setIdx wayIdx with valid := false }).cacheSets := by
  unfold evict
  simp only []
  split
  · have h := coalesceLoop_cacheSets cfg now
      (fun i => ((((getWay s setIdx wayIdx).tag * cfg.numSets + setIdx) % 2 ^ 64
        * cfg.blockSize) % 2 ^ 64 + i * 8) % 2 ^ 64)
      (fun i => (getWay s setIdx wayIdx).data.getD i 0) (List.range 8) s
    unfold getWay at h
    unfold setWay getWay
    simp only [h]
  · rfl

theorem getWay_evict_same (cfg : Config) (now : Nat) (s : State) (setIdx wayIdx : Nat)
    (hs : setIdx < s.cacheSets.length)
    (hi : wayIdx < (s.cacheSets.getD setIdx (CacheSet.init 0)).ways.length) :
    getWay (evict cfg now s setIdx wayIdx) setIdx wayIdx
      = { getWay s setIdx wayIdx with valid := false } := by
  rw [getWay_congr _ _ (evict_cacheSets cfg now s setIdx wayIdx)]
  exact getWay_setWay_same s setIdx wayIdx _ hs hi

theorem getWay_evict_other (cfg : Config) (now : Nat) (s : State)
    (setIdx wayIdx setIdx' j : Nat) (h : setIdx' ≠ setIdx ∨ j ≠ wayIdx) :
    getWay (evict cfg now s setIdx wayIdx) setIdx' j = getWay s setIdx' j := by
  rw [getWay_congr _ _ (evict_cacheSets cfg now s setIdx wayIdx)]
  exact getWay_setWay_other s setIdx wayIdx setIdx' j _ h

theorem findVictim_lt (cfg : Config) (s : State) (setIdx : Nat) (hways : 1 ≤ cfg.numWays) :
    findVictim cfg s setIdx < cfg.numWays := by
  have key : ∀ n, ∃ o w, (List.range n).foldl
      (fun (acc : Nat × Nat) i =>
        if (getWay s setIdx i).lastAccess < acc.1 then ((getWay s setIdx i).lastAccess, i)
        else acc) (MaxTick, 0) = (o, w) ∧ (w = 0 ∨ w < n) := by
    intro n
    induction n with
    | zero => exact ⟨MaxTick, 0, rfl, Or.inl rfl⟩
    | succ n ih =>
      obtain ⟨o, w, hfold, hw⟩ := ih
      rw [List.range_succ, List.foldl_append, hfold]
      simp only [List.foldl_cons, List.foldl_nil]
      by_cases hlt : (getWay s setIdx n).lastAccess < o
      · exact ⟨(getWay s setIdx n).lastAccess, n, by simp [hlt],
          Or.inr (Nat.lt_succ_self n)⟩
      · refine ⟨o, w, by simp [hlt], ?_⟩
        rcases hw with h | h
        · exact Or.inl h
        · exact Or.inr (Nat.lt_succ_of_lt h)
  obtain ⟨o, w, hfold, hw⟩ := key cfg.numWays
  unfold findVictim
  rw [hfold]
  simp only []
  omega

/-- The three branches of `insert`, by the outcome of its two scanning loops. -/
theorem insert_hit (cfg : Config) (now : Nat) (s : State) (addr data i : Nat)
    (h : findHit cfg s (getSetIndex cfg addr) (getTag cfg addr) = some i) :
    insert cfg now s addr data
      = setWay s (getSetIndex cfg addr) i
          { getWay s (getSetIndex cfg addr) i with
            data := (getWay s (getSetIndex cfg addr) i).data.set (getOffset cfg addr) data
            dirty := true
            lastAccess := now } := by
  unfold insert
  simp only [h]

theorem insert_fill (cfg : Config) (now : Nat) (s : State) (addr data i : Nat)
    (h : findHit cfg s (getSetIndex cfg addr) (getTag cfg addr) = none)
    (h2 : findInvalid cfg s (getSetIndex cfg addr) = some i) :
    insert cfg now s addr data
      = setWay s (getSetIndex cfg addr) i
          { getWay s (getSetIndex cfg addr) i with
            valid := true
            tag := getTag cfg addr
            data := (getWay s (getSetIndex cfg addr) i).data.set (getOffset cfg addr) data
            dirty := true
            lastAccess := now } := by
  unfold insert
  simp only [h, h2]

theorem insert_evict (cfg : Config) (now : Nat) (s : State) (addr data : Nat)
    (h : findHit cfg s (getSetIndex cfg addr) (getTag cfg addr) = none)
    (h2 : findInvalid cfg s (getSetIndex cfg addr) = none) :
    insert cfg now s addr data
      = setWay (evict cfg now s (getSetIndex cfg addr)
            (findVictim cfg s (getSetIndex cfg addr)))
          (getSetIndex cfg addr) (findVictim cfg s (getSetIndex cfg addr))
          { getWay (evict cfg now s (getSetIndex cfg addr)
                (findVictim cfg s (getSetIndex cfg addr)))
              (getSetIndex cfg addr) (findVictim cfg s (getSetIndex cfg addr)) with
            valid := true
            tag := getTag cfg addr
            data := (getWay (evict cfg now s (getSetIndex cfg addr)
                  (findVictim cfg s (getSetIndex cfg addr)))
                (getSetIndex cfg addr)
                (findVictim cfg s (getSetIndex cfg addr))).data.set (getOffset cfg addr) data
            dirty := true
            lastAccess := now } := by
  unfold insert
  simp only [h, h2]

/-- The way written by `insert` in its two installing branches. -/
theorem installed_way (now : Nat) (st : State) (setIdx i tag offset data : Nat)
    (hs : setIdx < st.cacheSets.length)
    (hi : i < (st.cacheSets.getD setIdx (CacheSet.init 0)).ways.length)
    (hlen : (getWay st setIdx i).data.length = 8) (ho : offset < 8) :
    (getWay (setWay st setIdx i
        { getWay st setIdx i with
          valid := true, tag := tag, data := (getWay st setIdx i).data.set offset data
          dirty := true, lastAccess := now }) setIdx i).valid = true
      ∧ (getWay (setWay st setIdx i
        { getWay st setIdx i with
          valid := true, tag := tag, data := (getWay st setIdx i).data.set offset data
          dirty := true, lastAccess := now }) setIdx i).dirty = true
      ∧ (getWay (setWay st setIdx i
        { getWay st setIdx i with
          valid := true, tag := tag, data := (getWay st setIdx i).data.set offset data
          dirty := true, lastAccess := now }) setIdx i).tag = tag
      ∧ (getWay (setWay st setIdx i
        { getWay st setIdx i with
          valid := true, tag := tag, data := (getWay st setIdx i).data.set offset data
          dirty := true, lastAccess := now }) setIdx i).data.getD offset 0 = data
      ∧ (getWay (setWay st setIdx i
        { getWay st setIdx i with
          valid := true, tag := tag, data := (getWay st setIdx i).data.set offset data
          dirty := true, lastAccess := now }) setIdx i).lastAccess = now := by
  rw [getWay_setWay_same st setIdx i _ hs hi]
  refine ⟨rfl, rfl, rfl, ?_, rfl⟩
  exact getD_set_same _ _ _ _ (by omega)

/-- C8. Placement by `insert(addr, data)` in a cache of `numSets >= 1` sets of
`numWays >= 1` lines with block size 64. (1) If a valid way of the addressed set has the
tag of `addr`, the lowest such way gets `data[offset] = data`, `dirty`, `lastAccess = now`
and nothing else changes. (2) Otherwise, if some way is not valid, the lowest-indexed
invalid way is installed and nothing is evicted. (3) Otherwise the way chosen by
`findVictim` is evicted and installed. In (2) and (3) the installed way ends valid, dirty,
with the tag of `addr`, `data[offset] = data` and `lastAccess = now`. -/
theorem insert_placement (cfg : Config) (now : Nat) (s : State) (addr data : Nat)
    (hwf : cacheWF cfg s) (hsets : 1 ≤ cfg.numSets) (hways : 1 ≤ cfg.numWays)
    (hbs : cfg.blockSize = 64) :
    (∀ i, i < cfg.numWays → hitAt s (getSetIndex cfg addr) (getTag cfg addr) i →
        (∀ j, j < i → ¬ hitAt s (getSetIndex cfg addr) (getTag cfg addr) j) →
        insert cfg now s addr data
          = setWay s (getSetIndex cfg addr) i
              { getWay s (getSetIndex cfg addr) i with
                data := (getWay s (getSetIndex cfg addr) i).data.set (getOffset cfg addr) data
                dirty := true
                lastAccess := now })
      ∧ (∀ i, i < cfg.numWays →
        (∀ j, j < cfg.numWays → ¬ hitAt s (getSetIndex cfg addr) (getTag cfg addr) j) →
        (getWay s (getSetIndex cfg addr) i).valid = false →
        (∀ j, j < i → (getWay s (getSetIndex cfg addr) j).valid = true) →
        insert cfg now s addr data
          = setWay s (getSetIndex cfg addr) i
              { getWay s (getSetIndex cfg addr) i with
                valid := true
                tag := getTag cfg addr
                data := (getWay s (getSetIndex cfg addr) i).data.set (getOffset cfg addr) data
                dirty := true
                lastAccess := now }
        ∧ (getWay (insert cfg now s addr data) (getSetIndex cfg addr) i).valid = true
        ∧ (getWay (insert cfg now s addr data) (getSetIndex cfg addr) i).dirty = true
        ∧ (getWay (insert cfg now s addr data) (getSetIndex cfg addr) i).tag = getTag cfg addr
        ∧ (getWay (insert cfg now s addr data) (getSetIndex cfg addr) i).data.getD
            (getOffset cfg addr) 0 = data
        ∧ (getWay (insert cfg now s addr data) (getSetIndex cfg addr) i).lastAccess = now)
      ∧ ((∀ j, j < cfg.numWays → ¬ hitAt s (getSetIndex cfg addr) (getTag cfg addr) j) →
        (∀ j, j < cfg.numWays → (getWay s (getSetIndex cfg addr) j).valid = true) →
        insert cfg now s addr data
          = setWay (evict cfg now s (getSetIndex cfg addr)
                (findVictim cfg s (getSetIndex cfg addr)))
              (getSetIndex cfg addr) (findVictim cfg s (getSetIndex cfg addr))
              { getWay (evict cfg now s (getSetIndex cfg addr)
                    (findVictim cfg s (getSetIndex cfg addr)))
                  (getSetIndex cfg addr) (findVictim cfg s (getSetIndex cfg addr)) with
                valid := true
                tag := getTag cfg addr
                data := (getWay (evict cfg now s (getSetIndex cfg addr)
                      (findVictim cfg s (getSetIndex cfg addr)))
                    (getSetIndex cfg addr)
                    (findVictim cfg s (getSetIndex cfg addr))).data.set
                      (getOffset cfg addr) data
                dirty := true
                lastAccess := now }
        ∧ (getWay (insert cfg now s addr data) (getSetIndex cfg addr)
            (findVictim cfg s (getSetIndex cfg addr))).valid = true
        ∧ (getWay (insert cfg now s addr data) (getSetIndex cfg addr)
            (findVictim cfg s (getSetIndex cfg addr))).dirty = true
        ∧ (getWay (insert cfg now s addr data) (getSetIndex cfg addr)
            (findVictim cfg s (getSetIndex cfg addr))).tag = getTag cfg addr
        ∧ (getWay (insert cfg now s addr data) (getSetIndex cfg addr)
            (findVictim cfg s (getSetIndex cfg addr))).data.getD (getOffset cfg addr) 0 = data
        ∧ (getWay (insert cfg now s addr data) (getSetIndex cfg addr)
            (findVictim cfg s (getSetIndex cfg addr))).lastAccess = now) := by
  have hS := getSetIndex_lt cfg addr hsets
  have hO := getOffset_lt cfg addr hbs
  refine ⟨?_, ?_, ?_⟩
  · intro i hi hhit hfirst
    exact insert_hit cfg now s addr data i ((findHit_eq_some _ _ _ _ _).mpr ⟨hi, hhit, hfirst⟩)
  · intro i hi hmiss hinv hfirst
    obtain ⟨b1, b2, b3, _⟩ := cacheWF_way cfg s _ i hwf hS hi
    rw [insert_fill cfg now s addr data i ((findHit_eq_none _ _ _ _).mpr hmiss)
      ((findInvalid_eq_some _ _ _ _).mpr ⟨hi, hinv, hfirst⟩)]
    exact ⟨rfl, installed_way now s _ i _ _ data b1 (by omega) b3 hO⟩
  · intro hmiss hvalid
    have hV := findVictim_lt cfg s (getSetIndex cfg addr) hways
    obtain ⟨b1, b2, b3, _⟩ := cacheWF_way cfg s _ _ hwf hS hV
    rw [insert_evict cfg now s addr data ((findHit_eq_none _ _ _ _).mpr hmiss)
      ((findInvalid_eq_none _ _ _).mpr hvalid)]
    refine ⟨rfl, installed_way now _ _ _ _ _ data ?_ ?_ ?_ hO⟩
    · rw [evict_cacheSets, setWay_length]
      exact b1
    · rw [evict_cacheSets, setWay_ways_length]
      omega
    · rw [getWay_evict_same cfg now s _ _ b1 (by omega)]
      exact b3

/-- Witness of C8: a write to `0x400` into a 1-set 1-way cache whose only line is valid
with tag 0, which is the evicting branch. -/
theorem insert_placement_witness :
    (getWay (insert (Config.source 1 1 64 1 16) 5
        (setWay (State.init (Config.source 1 1 64 1 16)) 0 0
          { CacheLine.init with valid := true, dirty := true }) 0x400 7) 0 0).tag = 16 :=
  (((insert_placement (Config.source 1 1 64 1 16) 5
      (setWay (State.init (Config.source 1 1 64 1 16)) 0 0
        { CacheLine.init with valid := true, dirty := true }) 0x400 7
      (by unfold cacheWF; decide)
      (by decide) (by decide) (by decide)).2.2
    (by
      intro j hj
      have hj0 : j = 0 := by
        have : j < 1 := hj
        omega
      subst hj0
      unfold hitAt
      decide)
    (by
      intro j hj
      have hj0 : j = 0 := by
        have : j < 1 := hj
        omega
      subst hj0
      decide)).2.2.2.1)

/-! ## Cache round trip -/

/-- After a store into way `i` of a valid line with tag `tag`, with no earlier way that
hits, the scan for `tag` stops at `i`. -/
theorem findHit_setWay (cfg : Config) (st : State) (setIdx tag i : Nat) (line : CacheLine)
    (hs : setIdx < st.cacheSets.length)
    (hi : i < (st.cacheSets.getD setIdx (CacheSet.init 0)).ways.length)
    (hiw : i < cfg.numWays) (hv : line.valid = true) (ht : line.tag = tag)
    (hprev : ∀ j, j < i → ¬ hitAt st setIdx tag j) :
    findHit cfg (setWay st setIdx i line) setIdx tag = some i := by
  rw [findHit_eq_some]
  refine ⟨hiw, ?_, ?_⟩
  · unfold hitAt
    rw [getWay_setWay_same st setIdx i line hs hi]
    exact ⟨hv, ht⟩
  · intro j hj
    unfold hitAt
    rw [getWay_setWay_other st setIdx i setIdx j line (Or.inr (by omega))]
    exact hprev j hj

/-- After `insert(addr, data)` the scan of the addressed set for the tag of `addr` stops at
a way that holds `data` at the offset of `addr`. -/
theorem insert_then_hit (cfg : Config) (now : Nat) (s : State) (addr data : Nat)
    (hwf : cacheWF cfg s) (hsets : 1 ≤ cfg.numSets) (hways : 1 ≤ cfg.numWays)
    (hbs : cfg.blockSize = 64) :
    ∃ i, findHit cfg (insert cfg now s addr data) (getSetIndex cfg addr) (getTag cfg addr)
          = some i
      ∧ (getWay (insert cfg now s addr data) (getSetIndex cfg addr) i).data.getD
          (getOffset cfg addr) 0 = data
      ∧ getSetIndex cfg addr < (insert cfg now s addr data).cacheSets.length
      ∧ i < ((insert cfg now s addr data).cacheSets.getD (getSetIndex cfg addr)
          (CacheSet.init 0)).ways.length := by
  have hS := getSetIndex_lt cfg addr hsets
  have hO := getOffset_lt cfg addr hbs
  rcases hfh : findHit cfg s (getSetIndex cfg addr) (getTag cfg addr) with _ | i
  · have hmiss := (findHit_eq_none _ _ _ _).mp hfh
    rcases hfi : findInvalid cfg s (getSetIndex cfg addr) with _ | i
    · have hV := findVictim_lt cfg s (getSetIndex cfg addr) hways
      obtain ⟨b1, b2, b3, _⟩ := cacheWF_way cfg s _ _ hwf hS hV
      have c1 : getSetIndex cfg addr
          < (evict cfg now s (getSetIndex cfg addr)
              (findVictim cfg s (getSetIndex cfg addr))).cacheSets.length := by
        rw [evict_cacheSets, setWay_length]
        exact b1
      have c2 : findVictim cfg s (getSetIndex cfg addr)
          < ((evict cfg now s (getSetIndex cfg addr)
              (findVictim cfg s (getSetIndex cfg addr))).cacheSets.getD
                (getSetIndex cfg addr) (CacheSet.init 0)).ways.length := by
        rw [evict_cacheSets, setWay_ways_length]
        omega
      have c3 : (getWay (evict cfg now s (getSetIndex cfg addr)
              (findVictim cfg s (getSetIndex cfg addr)))
            (getSetIndex cfg addr) (findVictim cfg s (getSetIndex cfg addr))).data.length
          = 8 := by
        rw [getWay_evict_same cfg now s _ _ b1 (by omega)]
        exact b3
      refine ⟨findVictim cfg s (getSetIndex cfg addr), ?_, ?_, ?_, ?_⟩
      · rw [insert_evict cfg now s addr data hfh hfi]
        apply findHit_setWay cfg _ _ _ _ _ c1 c2 hV rfl rfl
        intro j hj
        unfold hitAt
        rw [getWay_evict_other cfg now s _ _ _ j (Or.inr (by omega))]
        exact hmiss j (by omega)
      · rw [insert_evict cfg now s addr data hfh hfi, getWay_setWay_same _ _ _ _ c1 c2]
        exact getD_set_same _ _ _ _ (by omega)
      · rw [insert_evict cfg now s addr data hfh hfi, setWay_length]
        exact c1
      · rw [insert_evict cfg now s addr data hfh hfi, setWay_ways_length]
        exact c2
    · obtain ⟨hi, hinv, hfirst⟩ := (findInvalid_eq_some _ _ _ _).mp hfi
      obtain ⟨b1, b2, b3, _⟩ := cacheWF_way cfg s _ i hwf hS hi
      refine ⟨i, ?_, ?_, ?_, ?_⟩
      · rw [insert_fill cfg now s addr data i hfh hfi]
        exact findHit_setWay cfg s _ _ i _ b1 (by omega) hi rfl rfl
          (fun j hj => hmiss j (by omega))
      · rw [insert_fill cfg now s addr data i hfh hfi, getWay_setWay_same _ _ _ _ b1 (by omega)]
        exact getD_set_same _ _ _ _ (by omega)
      · rw [insert_fill cfg now s addr data i hfh hfi, setWay_length]
        exact b1
      · rw [insert_fill cfg now s addr data i hfh hfi, setWay_ways_length]
        omega
  · obtain ⟨hi, hhit, hfirst⟩ := (findHit_eq_some _ _ _ _ _).mp hfh
    obtain ⟨b1, b2, b3, _⟩ := cacheWF_way cfg s _ i hwf hS hi
    refine ⟨i, ?_, ?_, ?_, ?_⟩
    · rw [insert_hit cfg now s addr data i hfh]
      exact findHit_setWay cfg s _ _ i _ b1 (by omega) hi hhit.1 hhit.2 hfirst
    · rw [insert_hit cfg now s addr data i hfh, getWay_setWay_same _ _ _ _ b1 (by omega)]
      exact getD_set_same _ _ _ _ (by omega)
    · rw [insert_hit cfg now s addr data i hfh, setWay_length]
      exact b1
    · rw [insert_hit cfg now s addr data i hfh, setWay_ways_length]
      omega

/-- C7. Cache round trip: in a cache of `numSets >= 1` sets of `numWays >= 1` lines with
block size 64, `insert(a, v)` at tick `t1` followed immediately by `lookup(a)` at tick `t2`
is a hit that returns `v`, and the hit sets `lastAccess` of the matching way (the lowest
valid way of the addressed set with the tag of `a`) to `t2`. -/
theorem insert_lookup_roundtrip (cfg : Config) (t1 t2 : Nat) (s : State) (a v : Nat)
    (hwf : cacheWF cfg s) (hsets : 1 ≤ cfg.numSets) (hways : 1 ≤ cfg.numWays)
    (hbs : cfg.blockSize = 64) :
    (lookup cfg t2 (insert cfg t1 s a v) a).2 = some v
      ∧ ∃ i, i < cfg.numWays
        ∧ hitAt (insert cfg t1 s a v) (getSetIndex cfg a) (getTag cfg a) i
        ∧ (∀ j, j < i → ¬ hitAt (insert cfg t1 s a v) (getSetIndex cfg a) (getTag cfg a) j)
        ∧ (getWay (lookup cfg t2 (insert cfg t1 s a v) a).1
            (getSetIndex cfg a) i).lastAccess = t2 := by
  obtain ⟨i, hfh, hdata, c1, c2⟩ := insert_then_hit cfg t1 s a v hwf hsets hways hbs
  obtain ⟨hi, hhit, hfirst⟩ := (findHit_eq_some _ _ _ _ _).mp hfh
  have hl : lookup cfg t2 (insert cfg t1 s a v) a
      = (setWay (insert cfg t1 s a v) (getSetIndex cfg a) i
          { getWay (insert cfg t1 s a v) (getSetIndex cfg a) i with lastAccess := t2 },
        some ((getWay (insert cfg t1 s a v) (getSetIndex cfg a) i).data.getD
          (getOffset cfg a) 0)) := by
    unfold lookup
    simp only [hfh]
  rw [hl]
  refine ⟨by rw [hdata], i, hi, hhit, hfirst, ?_⟩
  simp only []
  rw [getWay_setWay_same _ _ _ _ c1 c2]

/-- Witness of C7: a write of 7 to `0x48` into the initial 4-set 2-way cache, read back. -/
theorem insert_lookup_roundtrip_witness :
    (lookup (Config.source 4 2 64 1 16) 9
      (insert (Config.source 4 2 64 1 16) 5 (State.init (Config.source 4 2 64 1 16)) 0x48 7)
      0x48).2 = some 7 :=
  (insert_lookup_roundtrip (Config.source 4 2 64 1 16) 5 9
    (State.init (Config.source 4 2 64 1 16)) 0x48 7
    (by unfold cacheWF; decide) (by decide) (by decide) (by decide)).1

/-! ## Flush twice, and the overflow path (`sendToPLUB`) -/

/-- C17. Flush idempotence: after a `flushPCB`, a second `flushPCB` with no
`coalescePartial` in between emits nothing: the write queue, every counter, the (empty)
buffer and the cache are exactly as they were after the first flush. -/
theorem flushPCB_twice (cfg : Config) (t1 t2 : Nat) (s : State) :
    (flushPCB cfg t2 (flushPCB cfg t1 s)).writeQueue = (flushPCB cfg t1 s).writeQueue
      ∧ (flushPCB cfg t2 (flushPCB cfg t1 s)).stats = (flushPCB cfg t1 s).stats
      ∧ (flushPCB cfg t2 (flushPCB cfg t1 s)).pcbMap = (flushPCB cfg t1 s).pcbMap
      ∧ (flushPCB cfg t2 (flushPCB cfg t1 s)).cacheSets = (flushPCB cfg t1 s).cacheSets :=
  ⟨rfl, rfl, rfl, rfl⟩

theorem sendToPLUB_room (cfg : Config) (s : State) (addr data : Nat)
    (h : s.writeQueue.length < sizeT cfg.writeQueueCapacity) :
    sendToPLUB cfg s addr data
      = { s with
          writeQueue := s.writeQueue ++ [(addr, data)]
          stats := { s.stats with plubPartials := s.stats.plubPartials + 1 } } := by
  unfold sendToPLUB
  rw [if_pos h]

theorem sendToPLUB_full (cfg : Config) (s : State) (addr data : Nat)
    (h : ¬ s.writeQueue.length < sizeT cfg.writeQueueCapacity) :
    sendToPLUB cfg s addr data
      = { s with stats := { s.stats with writeQueueFull := s.stats.writeQueueFull + 1 } } := by
  unfold sendToPLUB
  rw [if_neg h]

/-- A run of `sendToPLUB` calls queues the partials that fit, in arrival order. -/
theorem runPLUB_queue (cfg : Config) (ps : List (Nat × Nat)) (s : State) :
    (runPLUB cfg s ps).writeQueue
      = s.writeQueue ++ ps.take (sizeT cfg.writeQueueCapacity - s.writeQueue.length) := by
  induction ps generalizing s with
  | nil => simp [runPLUB]
  | cons p t ih =>
    unfold runPLUB at ih ⊢
    rw [List.foldl_cons, ih]
    by_cases h : s.writeQueue.length < sizeT cfg.writeQueueCapacity
    · rw [sendToPLUB_room cfg s p.1 p.2 h]
      simp only [List.length_append, List.length_singleton]
      have hk : sizeT cfg.writeQueueCapacity - s.writeQueue.length
          = (sizeT cfg.writeQueueCapacity - (s.writeQueue.length + 1)) + 1 := by omega
      rw [hk, List.take_succ_cons, List.append_assoc]
      rfl
    · rw [sendToPLUB_full cfg s p.1 p.2 h]
      have hk : sizeT cfg.writeQueueCapacity - s.writeQueue.length = 0 := by omega
      simp [hk]

/-! The write queue only grows. -/

theorem pushPartials_append (q : List (Nat × Nat)) (e : PCBEntry) :
    pushPartials q e = q ++ pushPartials [] e := by
  unfold pushPartials
  rw [foldl_push_eq (fun i => e.validMask &&& (1 <<< i) != 0)
      (fun i => ((e.baseAddr + i * 8) % 2 ^ 64, loadU64 e.data (i * 8))) (List.range 8) q,
    foldl_push_eq (fun i => e.validMask &&& (1 <<< i) != 0)
      (fun i => ((e.baseAddr + i * 8) % 2 ^ 64, loadU64 e.data (i * 8))) (List.range 8) []]
  rfl

theorem sendToNVMain_grows (cfg : Config) (s : State) (e : PCBEntry) :
    ∃ recs, (sendToNVMain cfg s e).writeQueue = s.writeQueue ++ recs := by
  unfold sendToNVMain
  split
  · exact ⟨pushPartials [] e, pushPartials_append _ _⟩
  · exact ⟨[], by simp⟩

theorem flushEntry_grows (cfg : Config) (s : State) (e : PCBEntry) :
    ∃ recs, (flushEntry cfg s e).writeQueue = s.writeQueue ++ recs := by
  unfold flushEntry
  split
  · obtain ⟨recs, h⟩ := sendToNVMain_grows cfg s e
    split <;> exact ⟨recs, h⟩
  · exact ⟨[], by simp⟩

theorem flushLoop_grows (cfg : Config) (m : List (Nat × PCBEntry)) (s : State) :
    ∃ recs, (m.foldl (fun st p => flushEntry cfg st p.2) s).writeQueue
      = s.writeQueue ++ recs := by
  induction m generalizing s with
  | nil => exact ⟨[], by simp⟩
  | cons p t ih =>
    obtain ⟨r1, h1⟩ := flushEntry_grows cfg s p.2
    obtain ⟨r2, h2⟩ := ih (flushEntry cfg s p.2)
    exact ⟨r1 ++ r2, by rw [List.foldl_cons, h2, h1, List.append_assoc]⟩

theorem flushPCB_grows (cfg : Config) (now : Nat) (s : State) :
    ∃ recs, (flushPCB cfg now s).writeQueue = s.writeQueue ++ recs := by
  obtain ⟨recs, h⟩ := flushLoop_grows cfg s.pcbMap s
  exact ⟨recs, h⟩

theorem coalescePartial_grows (cfg : Config) (now : Nat) (s : State) (addr data : Nat) :
    ∃ recs, (coalescePartial cfg now s addr data).writeQueue = s.writeQueue ++ recs := by
  by_cases h : s.pcbMap.length ≥ cfg.pcbCapacity
      ∧ pcbFind s.pcbMap (PCBEntry.getBase addr) = none
  · rw [coalescePartial_overflow cfg now s addr data h.1 h.2]
    by_cases hq : s.writeQueue.length < sizeT cfg.writeQueueCapacity
    · exact ⟨[(addr, data)], by
        rw [sendToPLUB_room cfg _ addr data (by simpa using hq)]
        rfl⟩
    · exact ⟨[], by
        rw [sendToPLUB_full cfg _ addr data (by simpa using hq)]
        simp [countPartial]⟩
  · by_cases hf : (mergedEntry now s addr data).isFull = true
    · rw [coalescePartial_full cfg now s addr data h hf]
      obtain ⟨recs, hr⟩ := sendToNVMain_grows cfg (countPartial s) (mergedEntry now s addr data)
      exact ⟨recs, by simpa using hr⟩
    · have hf' : (mergedEntry now s addr data).isFull = false := by simpa using hf
      rw [coalescePartial_stage cfg now s addr data h hf']
      exact ⟨[], by simp⟩

/-- The partials that PLUB queued are in the queue in the order of their arrival. -/
theorem overflowed_sublist (cfg : Config) (ops : List PcbOp) (s : State) :
    ∃ suffix, (runPcb cfg s ops).writeQueue = s.writeQueue ++ suffix
      ∧ (overflowed cfg s ops).Sublist suffix := by
  induction ops generalizing s with
  | nil => exact ⟨[], by simp [runPcb], by simp [overflowed]⟩
  | cons op t ih =>
    cases op with
    | flush now =>
      obtain ⟨r1, h1⟩ := flushPCB_grows cfg now s
      obtain ⟨r2, h2, h3⟩ := ih (flushPCB cfg now s)
      refine ⟨r1 ++ r2, ?_, ?_⟩
      · simp only [runPcb, List.foldl_cons, pcbStep] at h2 ⊢
        rw [h2, h1, List.append_assoc]
      · simp only [overflowed]
        exact h3.trans (List.sublist_append_right r1 r2)
    | coalesce now addr data =>
      obtain ⟨r2, h2, h3⟩ := ih (coalescePartial cfg now s addr data)
      simp only [runPcb, List.foldl_cons, pcbStep] at h2 ⊢
      by_cases hc : s.pcbMap.length ≥ cfg.pcbCapacity
          ∧ pcbFind s.pcbMap (PCBEntry.getBase addr) = none
          ∧ s.writeQueue.length < sizeT cfg.writeQueueCapacity
      · have h1 : (coalescePartial cfg now s addr data).writeQueue
            = s.writeQueue ++ [(addr, data)] := by
          rw [coalescePartial_overflow cfg now s addr data hc.1 hc.2.1,
            sendToPLUB_room cfg _ addr data (by simpa using hc.2.2)]
          rfl
        refine ⟨(addr, data) :: r2, ?_, ?_⟩
        · rw [h2, h1, List.append_assoc]
          rfl
        · simp only [overflowed, hc, and_self, if_true]
          exact h3.cons₂ _
      · obtain ⟨r1, h1⟩ := coalescePartial_grows cfg now s addr data
        refine ⟨r1 ++ r2, ?_, ?_⟩
        · rw [h2, h1, List.append_assoc]
        · simp only [overflowed, hc, if_false]
          exact h3.trans (List.sublist_append_right r1 r2)

/-- C15. `sendToPLUB(addr, data)` with the write queue below capacity appends exactly the
record `(addr, data)` at the tail and increments `plubPartials` by 1, changing nothing
else; with the queue at (or above) capacity it increments `writeQueueFull` by 1 and changes
nothing else. Consequently a run of `sendToPLUB` calls leaves in the queue, behind what was
queued, the partials that fitted, in the order in which they arrived (all of them when the
queue has room for all); and in any run of `coalescePartial` and `flushPCB` calls the
partials that overflowed to PLUB and were queued form a subsequence of the records added to
the queue, in the order in which they arrived. -/
theorem sendToPLUB_passes (cfg : Config) (s : State) (addr data : Nat) :
    (s.writeQueue.length < sizeT cfg.writeQueueCapacity →
        sendToPLUB cfg s addr data
          = { s with
              writeQueue := s.writeQueue ++ [(addr, data)]
              stats := { s.stats with plubPartials := s.stats.plubPartials + 1 } })
      ∧ (sizeT cfg.writeQueueCapacity ≤ s.writeQueue.length →
        sendToPLUB cfg s addr data
          = { s with stats := { s.stats with
                writeQueueFull := s.stats.writeQueueFull + 1 } }
        ∧ (sendToPLUB cfg s addr data).writeQueue = s.writeQueue
        ∧ (sendToPLUB cfg s addr data).stats.plubPartials = s.stats.plubPartials)
      ∧ (∀ ps : List (Nat × Nat),
        (runPLUB cfg s ps).writeQueue
            = s.writeQueue ++ ps.take (sizeT cfg.writeQueueCapacity - s.writeQueue.length)
          ∧ (s.writeQueue.length + ps.length ≤ sizeT cfg.writeQueueCapacity →
            (runPLUB cfg s ps).writeQueue = s.writeQueue ++ ps))
      ∧ (∀ ops : List PcbOp,
        ∃ suffix, (runPcb cfg s ops).writeQueue = s.writeQueue ++ suffix
          ∧ (overflowed cfg s ops).Sublist suffix) := by
  refine ⟨sendToPLUB_room cfg s addr data, ?_, ?_, fun ops => overflowed_sublist cfg ops s⟩
  · intro h
    rw [sendToPLUB_full cfg s addr data (by omega)]
    exact ⟨rfl, rfl, rfl⟩
  · intro ps
    refine ⟨runPLUB_queue cfg ps s, fun h => ?_⟩
    rw [runPLUB_queue cfg ps s, List.take_of_length_le (by omega)]

/-- Witness of C15: one partial sent to the empty queue of capacity 2. -/
theorem sendToPLUB_passes_witness :
    sendToPLUB (Config.source 4 4 64 1 2) (State.init (Config.source 4 4 64 1 2)) 0x80 5
      = { State.init (Config.source 4 4 64 1 2) with
          writeQueue := [] ++ [(0x80, 5)]
          stats := { Stats.init with plubPartials := 0 + 1 } } :=
  (sendToPLUB_passes (Config.source 4 4 64 1 2) (State.init (Config.source 4 4 64 1 2))
    0x80 5).1 (by decide)

/-! ## Accounting of partials -/

@[simp] theorem sendToPLUB_pcbTotalPartials (cfg : Config) (s : State) (addr data : Nat) :
    (sendToPLUB cfg s addr data).stats.pcbTotalPartials = s.stats.pcbTotalPartials := by
  unfold sendToPLUB; split <;> rfl

theorem coalescePartial_pcbTotalPartials (cfg : Config) (now : Nat) (s : State)
    (addr data : Nat) :
    (coalescePartial cfg now s addr data).stats.pcbTotalPartials
      = s.stats.pcbTotalPartials + 1 := by
  by_cases h : s.pcbMap.length ≥ cfg.pcbCapacity
      ∧ pcbFind s.pcbMap (PCBEntry.getBase addr) = none
  · rw [coalescePartial_overflow cfg now s addr data h.1 h.2]
    simp [countPartial]
  · by_cases hf : (mergedEntry now s addr data).isFull = true
    · rw [coalescePartial_full cfg now s addr data h hf]
      simp [countPartial]
    · have hf' : (mergedEntry now s addr data).isFull = false := by simpa using hf
      rw [coalescePartial_stage cfg now s addr data h hf']
      simp [countPartial]

theorem coalesceLoop_counts (cfg : Config) (now : Nat) (f g : Nat → Nat) (l : List Nat)
    (s : State) :
    (l.foldl (fun st i => coalescePartial cfg now st (f i) (g i)) s).stats.pcbTotalPartials
        = s.stats.pcbTotalPartials + l.length
      ∧ (l.foldl (fun st i => coalescePartial cfg now st (f i) (g i)) s).stats.evictions
        = s.stats.evictions := by
  induction l generalizing s with
  | nil => exact ⟨rfl, rfl⟩
  | cons a t ih =>
    rw [List.foldl_cons]
    obtain ⟨h1, h2⟩ := ih (coalescePartial cfg now s (f a) (g a))
    rw [h1, h2, coalescePartial_pcbTotalPartials, coalescePartial_evictions,
      List.length_cons]
    exact ⟨by omega, rfl⟩

/-- An eviction adds 8 partials exactly when it counts in `evictions`. -/
theorem evict_counts (cfg : Config) (now : Nat) (s : State) (setIdx wayIdx : Nat) :
    (evict cfg now s setIdx wayIdx).stats.pcbTotalPartials + 8 * s.stats.evictions
      = s.stats.pcbTotalPartials + 8 * (evict cfg now s setIdx wayIdx).stats.evictions := by
  unfold evict
  simp only [setWay_stats]
  split
  · obtain ⟨h1, h2⟩ := coalesceLoop_counts cfg now
      (fun i => ((((getWay s setIdx wayIdx).tag * cfg.numSets + setIdx) % 2 ^ 64
        * cfg.blockSize) % 2 ^ 64 + i * 8) % 2 ^ 64)
      (fun i => (getWay s setIdx wayIdx).data.getD i 0) (List.range 8) s
    simp only [List.length_range] at h1
    simp only [h1, h2]
    omega
  · rfl

theorem insert_counts (cfg : Config) (now : Nat) (s : State) (addr data : Nat) :
    (insert cfg now s addr data).stats.pcbTotalPartials + 8 * s.stats.evictions
      = s.stats.pcbTotalPartials + 8 * (insert cfg now s addr data).stats.evictions := by
  unfold insert
  simp only []
  split
  · rfl
  · split
    · rfl
    · simp only [setWay_stats]
      exact evict_counts cfg now s _ _

theorem lookup_stats (cfg : Config) (now : Nat) (s : State) (addr : Nat) :
    (lookup cfg now s addr).1.stats = s.stats := by
  unfold lookup
  simp only []
  split <;> rfl

/-- One request: a write adds one partial, and every request adds 8 partials per counted
eviction. -/
theorem recvTimingReq_counts (cfg : Config) (now : Nat) (s : State) (req : Request) :
    (recvTimingReq cfg now s req).1.stats.pcbTotalPartials + 8 * s.stats.evictions
      = s.stats.pcbTotalPartials + writeCount [(now, req)]
        + 8 * (recvTimingReq cfg now s req).1.stats.evictions := by
  cases req with
  | read addr =>
    have hst := lookup_stats cfg now s addr
    simp only [recvTimingReq, writeCount, List.filter_cons, List.filter_nil]
    rcases hlk : lookup cfg now s addr with ⟨s1, _ | d⟩
    · rw [hlk] at hst
      simp only at hst
      simp only []
      have := insert_counts cfg now
        { s1 with stats := { s1.stats with misses := s1.stats.misses + 1 } } addr 0
      simp only [hst] at this ⊢
      simpa using this
    · rw [hlk] at hst
      simp only at hst
      simp [hst]
  | write addr data =>
    simp only [recvTimingReq, writeCount, List.filter_cons, List.filter_nil]
    have h1 := insert_counts cfg now (coalescePartial cfg now s addr data) addr data
    rw [coalescePartial_pcbTotalPartials, coalescePartial_evictions] at h1
    simp only [if_true, List.length_singleton]
    omega

theorem writeCount_cons (r : Nat × Request) (t : List (Nat × Request)) :
    writeCount (r :: t) = writeCount [r] + writeCount t := by
  unfold writeCount
  rw [List.filter_cons, List.filter_cons]
  split
  · simp
    omega
  · simp

theorem runRequests_counts (cfg : Config) (reqs : List (Nat × Request)) (s : State) :
    (runRequests cfg s reqs).stats.pcbTotalPartials + 8 * s.stats.evictions
      = s.stats.pcbTotalPartials + writeCount reqs
        + 8 * (runRequests cfg s reqs).stats.evictions := by
  induction reqs generalizing s with
  | nil => simp [runRequests, writeCount]
  | cons r t ih =>
    have h1 := recvTimingReq_counts cfg r.1 s r.2
    have hr : ((r.1, r.2) : Nat × Request) = r := rfl
    rw [hr] at h1
    have h2 := ih (recvTimingReq cfg r.1 s r.2).1
    have h3 : runRequests cfg s (r :: t)
        = runRequests cfg (recvTimingReq cfg r.1 s r.2).1 t := rfl
    rw [h3, writeCount_cons]
    omega

/-- C19. Partial accounting: after any sequence of read and write requests handled by
`recvTimingReq` from the initial state, `pcbTotalPartials` equals the number of write
requests plus 8 times the `evictions` counter. -/
theorem totalPartials_accounting (cfg : Config) (reqs : List (Nat × Request)) :
    (runRequests cfg (State.init cfg) reqs).stats.pcbTotalPartials
      = writeCount reqs + 8 * (runRequests cfg (State.init cfg) reqs).stats.evictions := by
  have h := runRequests_counts cfg reqs (State.init cfg)
  simp only [State.init, Stats.init] at h ⊢
  omega

/-! ## Tag uniqueness -/

/-- A way outside the bounds of its set reads as the constructor's line. -/
theorem getWay_oob (s : State) (setIdx i : Nat)
    (h : (s.cacheSets.getD setIdx (CacheSet.init 0)).ways.length ≤ i) :
    getWay s setIdx i = CacheLine.init := by
  unfold getWay
  rw [List.getD_eq_getElem?_getD, List.getElem?_eq_none h]
  rfl

theorem valid_lt_numWays (cfg : Config) (s : State) (setIdx i : Nat)
    (hlen : ∀ S, (s.cacheSets.getD S (CacheSet.init 0)).ways.length ≤ cfg.numWays)
    (hv : (getWay s setIdx i).valid = true) : i < cfg.numWays := by
  by_contra hcon
  have h := getWay_oob s setIdx i (le_trans (hlen setIdx) (by omega))
  rw [h] at hv
  exact Bool.noConfusion hv

/-- The way read back after a store is the stored line or, out of bounds, the
constructor's line. -/
theorem getWay_setWay_cases (s : State) (setIdx i : Nat) (line : CacheLine) :
    getWay (setWay s setIdx i line) setIdx i = line
      ∨ getWay (setWay s setIdx i line) setIdx i = CacheLine.init := by
  by_cases hs : setIdx < s.cacheSets.length
  · by_cases hi : i < (s.cacheSets.getD setIdx (CacheSet.init 0)).ways.length
    · exact Or.inl (getWay_setWay_same s setIdx i line hs hi)
    · right
      apply getWay_oob
      rw [setWay_ways_length]
      omega
  · right
    apply getWay_oob
    rw [setWay_ways_length]
    have : s.cacheSets.getD setIdx (CacheSet.init 0) = CacheSet.init 0 := by
      rw [List.getD_eq_getElem?_getD, List.getElem?_eq_none (by omega)]
      rfl
    rw [this]
    exact Nat.zero_le _

/-- Storing a line whose tag no other valid way of the set carries keeps tags unique. -/
theorem unique_setWay (st : State) (setIdx i : Nat) (line : CacheLine)
    (hu : ∀ S T a b, hitAt st S T a → hitAt st S T b → a = b)
    (hother : line.valid = true → ∀ j, j ≠ i → ¬ hitAt st setIdx line.tag j) :
    ∀ S T a b, hitAt (setWay st setIdx i line) S T a →
      hitAt (setWay st setIdx i line) S T b → a = b := by
  have hnew : ∀ T, hitAt (setWay st setIdx i line) setIdx T i →
      line.valid = true ∧ line.tag = T := by
    intro T h
    unfold hitAt at h
    rcases getWay_setWay_cases st setIdx i line with hc | hc
    · rw [hc] at h
      exact h
    · rw [hc] at h
      exact absurd h.1 (by decide)
  have hold : ∀ S T j, (S ≠ setIdx ∨ j ≠ i) →
      (hitAt (setWay st setIdx i line) S T j ↔ hitAt st S T j) := by
    intro S T j h
    unfold hitAt
    rw [getWay_setWay_other st setIdx i S j line h]
  intro S T a b ha hb
  by_cases hS : S = setIdx
  · subst hS
    by_cases hai : a = i
    · by_cases hbi : b = i
      · rw [hai, hbi]
      · exfalso
        rw [hai] at ha
        obtain ⟨hv, ht⟩ := hnew T ha
        have hb' := (hold S T b (Or.inr hbi)).mp hb
        rw [← ht] at hb'
        exact hother hv b hbi hb'
    · by_cases hbi : b = i
      · exfalso
        rw [hbi] at hb
        obtain ⟨hv, ht⟩ := hnew T hb
        have ha' := (hold S T a (Or.inr hai)).mp ha
        rw [← ht] at ha'
        exact hother hv a hai ha'
      · exact hu S T a b ((hold S T a (Or.inr hai)).mp ha) ((hold S T b (Or.inr hbi)).mp hb)
  · exact hu S T a b ((hold S T a (Or.inl hS)).mp ha) ((hold S T b (Or.inl hS)).mp hb)

theorem hitAt_congr (s s' : State) (h : s'.cacheSets = s.cacheSets) (S T i : Nat) :
    hitAt s' S T i ↔ hitAt s S T i := by
  unfold hitAt
  rw [getWay_congr s s' h]

theorem ways_length_congr (s s' : State) (h : s'.cacheSets = s.cacheSets) (S : Nat) :
    (s'.cacheSets.getD S (CacheSet.init 0)).ways.length
      = (s.cacheSets.getD S (CacheSet.init 0)).ways.length := by
  rw [h]

/-- Invariant of the cache: no set has more than `numWays` ways, and a set holds at most one
valid way with a given tag. `insert` keeps it. -/
theorem insert_unique (cfg : Config) (now : Nat) (s : State) (addr data : Nat)
    (hlen : ∀ S, (s.cacheSets.getD S (CacheSet.init 0)).ways.length ≤ cfg.numWays)
    (hu : ∀ S T a b, hitAt s S T a → hitAt s S T b → a = b) :
    (∀ S, ((insert cfg now s addr data).cacheSets.getD S (CacheSet.init 0)).ways.length
        ≤ cfg.numWays)
      ∧ ∀ S T a b, hitAt (insert cfg now s addr data) S T a →
          hitAt (insert cfg now s addr data) S T b → a = b := by
  have hmissAll : findHit cfg s (getSetIndex cfg addr) (getTag cfg addr) = none →
      ∀ j, ¬ hitAt s (getSetIndex cfg addr) (getTag cfg addr) j := by
    intro hfh j hj
    exact (findHit_eq_none _ _ _ _).mp hfh j (valid_lt_numWays cfg s _ j hlen hj.1) hj
  rcases hfh : findHit cfg s (getSetIndex cfg addr) (getTag cfg addr) with _ | i
  · rcases hfi : findInvalid cfg s (getSetIndex cfg addr) with _ | i
    · rw [insert_evict cfg now s addr data hfh hfi]
      have hcs := evict_cacheSets cfg now s (getSetIndex cfg addr)
        (findVictim cfg s (getSetIndex cfg addr))
      have hue : ∀ S T a b,
          hitAt (evict cfg now s (getSetIndex cfg addr)
            (findVictim cfg s (getSetIndex cfg addr))) S T a →
          hitAt (evict cfg now s (getSetIndex cfg addr)
            (findVictim cfg s (getSetIndex cfg addr))) S T b → a = b := by
        intro S T a b ha hb
        rw [hitAt_congr _ _ hcs] at ha hb
        exact unique_setWay s _ _ _ hu (fun hv => absurd hv (by simp)) S T a b ha hb
      refine ⟨fun S => ?_, ?_⟩
      · rw [setWay_ways_length, ways_length_congr _ _ hcs, setWay_ways_length]
        exact hlen S
      · apply unique_setWay _ _ _ _ hue
        intro _ j hj hhit
        simp only at hhit
        unfold hitAt at hhit
        rw [getWay_evict_other cfg now s _ _ _ j (Or.inr hj)] at hhit
        exact hmissAll hfh j hhit
    · rw [insert_fill cfg now s addr data i hfh hfi]
      refine ⟨fun S => ?_, ?_⟩
      · rw [setWay_ways_length]
        exact hlen S
      · apply unique_setWay _ _ _ _ hu
        intro _ j _ hhit
        exact hmissAll hfh j hhit
  · rw [insert_hit cfg now s addr data i hfh]
    obtain ⟨_, hhit, _⟩ := (findHit_eq_some _ _ _ _ _).mp hfh
    refine ⟨fun S => ?_, ?_⟩
    · rw [setWay_ways_length]
      exact hlen S
    · apply unique_setWay _ _ _ _ hu
      intro hv j hj hhit'
      simp only at hv hhit'
      exact hj (hu _ _ j i hhit' ⟨hhit.1, rfl⟩)

/-- The invariant is kept by `lookup`. -/
theorem lookup_unique (cfg : Config) (now : Nat) (s : State) (addr : Nat)
    (hlen : ∀ S, (s.cacheSets.getD S (CacheSet.init 0)).ways.length ≤ cfg.numWays)
    (hu : ∀ S T a b, hitAt s S T a → hitAt s S T b → a = b) :
    (∀ S, ((lookup cfg now s addr).1.cacheSets.getD S (CacheSet.init 0)).ways.length
        ≤ cfg.numWays)
      ∧ ∀ S T a b, hitAt (lookup cfg now s addr).1 S T a →
          hitAt (lookup cfg now s addr).1 S T b → a = b := by
  unfold lookup
  simp only []
  rcases hfh : findHit cfg s (getSetIndex cfg addr) (getTag cfg addr) with _ | i
  · exact ⟨hlen, hu⟩
  · obtain ⟨_, hhit, _⟩ := (findHit_eq_some _ _ _ _ _).mp hfh
    simp only []
    refine ⟨fun S => ?_, ?_⟩
    · rw [setWay_ways_length]
      exact hlen S
    · apply unique_setWay _ _ _ _ hu
      intro hv j hj hhit'
      simp only at hv hhit'
      exact hj (hu _ _ j i hhit' ⟨hhit.1, rfl⟩)

theorem getD_replicate {α : Type} (n i : Nat) (x d : α) :
    (List.replicate n x).getD i d = if i < n then x else d := by
  rw [List.getD_eq_getElem?_getD]
  by_cases h : i < n
  · rw [List.getElem?_eq_getElem (by simpa using h), if_pos h]
    simp
  · rw [List.getElem?_eq_none (by simpa using h), if_neg h]
    rfl

theorem init_ways_length (cfg : Config) (S : Nat) :
    (((State.init cfg).cacheSets.getD S (CacheSet.init 0)).ways.length) ≤ cfg.numWays := by
  simp only [State.init, getD_replicate]
  split <;> simp [CacheSet.init]

theorem init_invalid (cfg : Config) (S i : Nat) :
    (getWay (State.init cfg) S i).valid = false := by
  unfold getWay
  simp only [State.init, getD_replicate]
  split
  · simp only [CacheSet.init, getD_replicate]
    split <;> rfl
  · simp only [CacheSet.init, getD_replicate]
    split <;> rfl

theorem runCache_unique (cfg : Config) (ops : List CacheOp) (s : State)
    (hlen : ∀ S, (s.cacheSets.getD S (CacheSet.init 0)).ways.length ≤ cfg.numWays)
    (hu : ∀ S T a b, hitAt s S T a → hitAt s S T b → a = b) :
    (∀ S, ((runCache cfg s ops).cacheSets.getD S (CacheSet.init 0)).ways.length
        ≤ cfg.numWays)
      ∧ ∀ S T a b, hitAt (runCache cfg s ops) S T a →
          hitAt (runCache cfg s ops) S T b → a = b := by
  induction ops generalizing s with
  | nil => exact ⟨hlen, hu⟩
  | cons op t ih =>
    cases op with
    | insert now addr data =>
      obtain ⟨h1, h2⟩ := insert_unique cfg now s addr data hlen hu
      exact ih _ h1 h2
    | lookup now addr =>
      obtain ⟨h1, h2⟩ := lookup_unique cfg now s addr hlen hu
      exact ih _ h1 h2

/-- A property of lines that holds for the constructor's line and for every way but one
holds for all ways once a line with the property is stored in that way. -/
theorem setWay_lines (Q : CacheLine → Prop) (st : State) (S0 i0 : Nat) (line : CacheLine)
    (hinit : Q CacheLine.init) (hline : Q line)
    (hrest : ∀ S i, (S ≠ S0 ∨ i ≠ i0) → Q (getWay st S i)) :
    ∀ S i, Q (getWay (setWay st S0 i0 line) S i) := by
  intro S i
  by_cases h : S ≠ S0 ∨ i ≠ i0
  · rw [getWay_setWay_other st S0 i0 S i line h]
    exact hrest S i h
  · have hS : S = S0 := by
      by_contra hc
      exact h (Or.inl hc)
    have hi : i = i0 := by
      by_contra hc
      exact h (Or.inr hc)
    rw [hS, hi]
    rcases getWay_setWay_cases st S0 i0 line with hc | hc
    · rw [hc]
      exact hline
    · rw [hc]
      exact hinit

theorem lookup_lines (Q : CacheLine → Prop) (cfg : Config) (now : Nat) (s : State)
    (addr : Nat) (hinit : Q CacheLine.init)
    (htouch : ∀ l : CacheLine, Q l → Q { l with lastAccess := now })
    (h : ∀ S i, Q (getWay s S i)) :
    ∀ S i, Q (getWay (lookup cfg now s addr).1 S i) := by
  unfold lookup
  simp only []
  split
  · exact setWay_lines Q s _ _ _ hinit (htouch _ (h _ _)) (fun S i _ => h S i)
  · exact h

theorem init_way (cfg : Config) (S i : Nat) :
    getWay (State.init cfg) S i = CacheLine.init := by
  unfold getWay
  simp only [State.init, getD_replicate]
  split
  · simp only [CacheSet.init, getD_replicate]
    split <;> rfl
  · simp only [CacheSet.init, getD_replicate]
    split <;> rfl

theorem init_words : CacheLine.init.data.length = 8 := by
  simp [CacheLine.init]

theorem setWay_words (st : State) (S0 i0 : Nat) (line : CacheLine)
    (hline : line.data.length = 8) (h : ∀ S i, (getWay st S i).data.length = 8) :
    ∀ S i, (getWay (setWay st S0 i0 line) S i).data.length = 8 :=
  setWay_lines (fun l => l.data.length = 8) st S0 i0 line init_words hline
    (fun S i _ => h S i)

theorem evict_words (cfg : Config) (now : Nat) (s : State) (setIdx wayIdx : Nat)
    (h : ∀ S i, (getWay s S i).data.length = 8) :
    ∀ S i, (getWay (evict cfg now s setIdx wayIdx) S i).data.length = 8 := by
  intro S i
  rw [getWay_congr _ _ (evict_cacheSets cfg now s setIdx wayIdx)]
  exact setWay_words s setIdx wayIdx { getWay s setIdx wayIdx with valid := false }
    (h setIdx wayIdx) h S i

/-- The lines keep their 8 words under `insert`. -/
theorem insert_words (cfg : Config) (now : Nat) (s : State) (addr data : Nat)
    (h : ∀ S i, (getWay s S i).data.length = 8) :
    ∀ S i, (getWay (insert cfg now s addr data) S i).data.length = 8 := by
  rcases hfh : findHit cfg s (getSetIndex cfg addr) (getTag cfg addr) with _ | i
  · rcases hfi : findInvalid cfg s (getSetIndex cfg addr) with _ | i
    · rw [insert_evict cfg now s addr data hfh hfi]
      have hev := evict_words cfg now s (getSetIndex cfg addr)
        (findVictim cfg s (getSetIndex cfg addr)) h
      refine setWay_words _ _ _ _ ?_ hev
      show (List.set _ _ _).length = 8
      rw [List.length_set]
      exact hev _ _
    · rw [insert_fill cfg now s addr data i hfh hfi]
      refine setWay_words _ _ _ _ ?_ h
      show (List.set _ _ _).length = 8
      rw [List.length_set]
      exact h _ _
  · rw [insert_hit cfg now s addr data i hfh]
    refine setWay_words _ _ _ _ ?_ h
    show (List.set _ _ _).length = 8
    rw [List.length_set]
    exact h _ _

theorem lookup_words (cfg : Config) (now : Nat) (s : State) (addr : Nat)
    (h : ∀ S i, (getWay s S i).data.length = 8) :
    ∀ S i, (getWay (lookup cfg now s addr).1 S i).data.length = 8 :=
  lookup_lines (fun l => l.data.length = 8) cfg now s addr init_words (fun _ hl => hl) h

theorem runCache_words (cfg : Config) (ops : List CacheOp) (s : State)
    (h : ∀ S i, (getWay s S i).data.length = 8) :
    ∀ S i, (getWay (runCache cfg s ops) S i).data.length = 8 := by
  induction ops generalizing s with
  | nil => exact h
  | cons op t ih =>
    cases op with
    | insert now addr data => exact ih _ (insert_words cfg now s addr data h)
    | lookup now addr => exact ih _ (lookup_words cfg now s addr h)

/-- C11. Tag uniqueness, for the block size 64 of the cache geometry: in every state reached
from the initial, all-invalid cache by any sequence of `insert` and `lookup` operations, a set
holds at most one valid way with a given tag: two ways `a`, `b` of set `S` that are valid with
tag `T` are the same way. With this block size the word index `getOffset` of every address
is below 8 and every line of the reached state has its 8 words, so each store and read of
the run stays inside the line it addresses. -/
theorem tag_unique (cfg : Config) (ops : List CacheOp) (S T a b : Nat)
    (hB : cfg.blockSize = 64)
    (ha : hitAt (runCache cfg (State.init cfg) ops) S T a)
    (hb : hitAt (runCache cfg (State.init cfg) ops) S T b) :
    a = b ∧ (∀ addr, getOffset cfg addr < 8)
      ∧ ∀ S i, (getWay (runCache cfg (State.init cfg) ops) S i).data.length = 8 :=
  ⟨(runCache_unique cfg ops (State.init cfg) (init_ways_length cfg)
    (fun S T a b h _ => by
      unfold hitAt at h
      rw [init_invalid] at h
      exact absurd h.1 (by decide))).2 S T a b ha hb,
   fun addr => getOffset_lt cfg addr hB,
   runCache_words cfg ops (State.init cfg) (fun S i => by rw [init_way]; exact init_words)⟩

/-- Witness of C11: after writes to `0x0`, `0x400`, `0x0` in a 1-set 2-way cache of 64-byte
blocks, the valid way with tag 16 is way 1. -/
theorem tag_unique_witness :
    hitAt (runCache (Config.source 1 2 64 1 16) (State.init (Config.source 1 2 64 1 16))
        [CacheOp.insert 1 0x0 5, CacheOp.insert 2 0x400 6, CacheOp.insert 3 0x0 7]) 0 16 1
      ∧ (Config.source 1 2 64 1 16).blockSize = 64
      ∧ (1 : Nat) = 1 :=
  ⟨by unfold hitAt; decide, rfl,
    (tag_unique (Config.source 1 2 64 1 16)
      [CacheOp.insert 1 0x0 5, CacheOp.insert 2 0x400 6, CacheOp.insert 3 0x0 7] 0 16 1 1
      rfl (by unfold hitAt; decide) (by unfold hitAt; decide)).1⟩

/-! ## Stale words in a reused way, and the queue bound -/

/-- C12. Provenance of looked-up data fails on the code: in a 1-set 1-way cache,
`insert(0x8, 5)` then `insert(0x400, 7)` then `lookup(0x408)` is a hit that returns 5,
although no insert wrote 5 to an address with the set index, tag and offset of `0x408`: the
second insert re-tags the way and keeps the words of the line it replaces. -/
theorem lookup_returns_stale_word :
    (lookup (Config.source 1 1 64 1 64) 3
        (runCache (Config.source 1 1 64 1 64) (State.init (Config.source 1 1 64 1 64))
          [CacheOp.insert 1 0x8 5, CacheOp.insert 2 0x400 7]) 0x408).2 = some 5
      ∧ insertedSame (Config.source 1 1 64 1 64)
          [CacheOp.insert 1 0x8 5, CacheOp.insert 2 0x400 7] 0x408 5 = false
      ∧ getTag (Config.source 1 1 64 1 64) 0x8 ≠ getTag (Config.source 1 1 64 1 64) 0x408 := by
  refine ⟨by decide, by decide, by decide⟩

/-- C14. The write queue bound fails on the code: with `writeQueueCapacity = 4` and the
queue empty, the eight partials of base `0x0` complete a block and `sendToNVMain`, which
tests the bound once before its loop, queues all 8 records. -/
theorem writeQueue_exceeds_capacity :
    (runCoalesce (Config.source 4 4 64 1 4) (State.init (Config.source 4 4 64 1 4))
        (slotWrites 0 (fun i => i + 1) (fun _ => 0) (List.range 8))).writeQueue.length = 8
      ∧ sizeT (Config.source 4 4 64 1 4).writeQueueCapacity = 4
      ∧ (runCoalesce (Config.source 4 4 64 1 4) (State.init (Config.source 4 4 64 1 4))
        (slotWrites 0 (fun i => i + 1) (fun _ => 0) (List.range 8))).stats.writeQueueFull
          = 0 := by
  refine ⟨by decide, by decide, by decide⟩

/-! ## Scenario S4: a dirty eviction completes the block it forwards -/

/-- C13, as stated, fails on the code: in a 1-set 1-way cache, after a write request to
`0x0` and a write request to `0x400`, the buffer holds no entry for base `0x0`, so none
with `validMask = 0x01`. -/
theorem scenarioS4_base_not_staged :
    ¬ ∃ e, pcbFind (runRequests (Config.source 1 1 64 1 64)
          (State.init (Config.source 1 1 64 1 64))
          [(1, Request.write 0x0 1), (2, Request.write 0x400 2)]).pcbMap 0x0 = some e
        ∧ e.validMask = 0x01 := by
  have h : pcbFind (runRequests (Config.source 1 1 64 1 64)
      (State.init (Config.source 1 1 64 1 64))
      [(1, Request.write 0x0 1), (2, Request.write 0x400 2)]).pcbMap 0x0 = none := by
    decide
  rintro ⟨e, he, _⟩
  rw [h] at he
  exact Option.noConfusion he

/-- C13, amended. Scenario S4 with `numSets = 1`, `numWays = 1`, block size 64 and room in
the buffer for two bases: after a write request to `0x0` followed by a write request to
`0x400`, the line for block `0x0` has been evicted (`evictions = 1`, the way now carries the
tag of `0x400`) with 8 partials forwarded to the buffer (`pcbTotalPartials = 2 + 8`); the
forwarded partials complete the block of base `0x0`, which is counted in
`pcbCoalescedBlocks` and is no longer staged; the buffer holds exactly the new entry for
base `0x400`, with `validMask = 0x01`. -/
theorem scenarioS4_eviction_completes_block (cfg : Config) (t1 t2 d1 d2 : Nat)
    (hs : cfg.numSets = 1) (hw : cfg.numWays = 1) (hb : cfg.blockSize = 64)
    (hc : 2 ≤ cfg.pcbCapacity) :
    (runRequests cfg (State.init cfg)
        [(t1, Request.write 0x0 d1), (t2, Request.write 0x400 d2)]).stats.evictions = 1
      ∧ (runRequests cfg (State.init cfg)
        [(t1, Request.write 0x0 d1), (t2, Request.write 0x400 d2)]).stats.pcbTotalPartials
          = 2 + 8
      ∧ (runRequests cfg (State.init cfg)
        [(t1, Request.write 0x0 d1), (t2, Request.write 0x400 d2)]).stats.pcbCoalescedBlocks
          = 1
      ∧ pcbFind (runRequests cfg (State.init cfg)
        [(t1, Request.write 0x0 d1), (t2, Request.write 0x400 d2)]).pcbMap 0x0 = none
      ∧ (runRequests cfg (State.init cfg)
        [(t1, Request.write 0x0 d1), (t2, Request.write 0x400 d2)]).pcbMap.map
          (fun p => (p.1, p.2.validMask)) = [(0x400, 0x01)]
      ∧ (getWay (runRequests cfg (State.init cfg)
        [(t1, Request.write 0x0 d1), (t2, Request.write 0x400 d2)]) 0 0).valid = true
      ∧ (getWay (runRequests cfg (State.init cfg)
        [(t1, Request.write 0x0 d1), (t2, Request.write 0x400 d2)]) 0 0).tag
          = getTag cfg 0x400 := by
  have h0 : ¬ (0 ≥ cfg.pcbCapacity) := by omega
  have h1 : ¬ (1 ≥ cfg.pcbCapacity) := by omega
  have h1' : ¬ (cfg.pcbCapacity ≤ 1) := by omega
  have h0' : ¬ (cfg.pcbCapacity = 0) := by omega
  have hv : ∀ s S, findVictim cfg s S = 0 := fun s S => by
    have := findVictim_lt cfg s S (by omega)
    omega
  simp [runRequests, recvTimingReq, coalescePartial, insert, findHit, findInvalid, getWay,
    setWay, evict, hv, getSetIndex, getTag, getOffset, hs, hw, hb, State.init,
    CacheSet.init, CacheLine.init, PCBEntry.getBase, pcbFind, pcbInsert, pcbErase,
    mergePartial, PCBEntry.init, PCBEntry.isFull, h0, h1, h1', h0', List.range_succ,
    Stats.init]

/-- Witness of the amended C13: the scenario in the cache built with the header's buffer
capacity. -/
theorem scenarioS4_eviction_completes_block_witness :
    (runRequests (Config.source 1 1 64 1 64) (State.init (Config.source 1 1 64 1 64))
        [(1, Request.write 0x0 1), (2, Request.write 0x400 2)]).stats.pcbCoalescedBlocks
      = 1 :=
  (scenarioS4_eviction_completes_block (Config.source 1 1 64 1 64) 1 2 1 2
    (by decide) (by decide) (by decide) (by decide)).2.2.1

/-! ## Accounting of NVM bytes -/

theorem emit_full_balanced (cfg : Config) (s : State) (e : PCBEntry)
    (h : s.stats.Balanced) :
    Stats.Balanced { (sendToNVMain cfg s e).stats with
      pcbCoalescedBlocks := (sendToNVMain cfg s e).stats.pcbCoalescedBlocks + 1 } := by
  unfold sendToNVMain
  unfold Stats.Balanced at h ⊢
  split <;> simp only [] <;> omega

theorem emit_part_balanced (cfg : Config) (s : State) (e : PCBEntry)
    (h : s.stats.Balanced) :
    Stats.Balanced { (sendToNVMain cfg s e).stats with
      pcbPartialFlushes := (sendToNVMain cfg s e).stats.pcbPartialFlushes + 1 } := by
  unfold sendToNVMain
  unfold Stats.Balanced at h ⊢
  split <;> simp only [] <;> omega

theorem overflow_balanced (cfg : Config) (s : State) (addr data : Nat)
    (h : s.stats.Balanced) :
    Stats.Balanced { (sendToPLUB cfg s addr data).stats with
      pcbOverflows := (sendToPLUB cfg s addr data).stats.pcbOverflows + 1 } := by
  unfold sendToPLUB
  unfold Stats.Balanced at h ⊢
  split <;> simp only [] <;> omega

theorem countPartial_balanced (s : State) (h : s.stats.Balanced) :
    (countPartial s).stats.Balanced := by
  unfold Stats.Balanced countPartial at *
  exact h

theorem coalescePartial_balanced (cfg : Config) (now : Nat) (s : State) (addr data : Nat)
    (h : s.stats.Balanced) : (coalescePartial cfg now s addr data).stats.Balanced := by
  have hc := countPartial_balanced s h
  by_cases hb : s.pcbMap.length ≥ cfg.pcbCapacity
      ∧ pcbFind s.pcbMap (PCBEntry.getBase addr) = none
  · rw [coalescePartial_overflow cfg now s addr data hb.1 hb.2]
    exact overflow_balanced cfg _ addr data hc
  · by_cases hf : (mergedEntry now s addr data).isFull = true
    · rw [coalescePartial_full cfg now s addr data hb hf]
      exact emit_full_balanced cfg _ _ hc
    · have hf' : (mergedEntry now s addr data).isFull = false := by simpa using hf
      rw [coalescePartial_stage cfg now s addr data hb hf']
      exact hc

theorem flushEntry_balanced (cfg : Config) (s : State) (e : PCBEntry)
    (h : s.stats.Balanced) : (flushEntry cfg s e).stats.Balanced := by
  unfold flushEntry
  split
  · split
    · exact emit_full_balanced cfg s e h
    · exact emit_part_balanced cfg s e h
  · exact h

theorem flushPCB_balanced (cfg : Config) (now : Nat) (s : State)
    (h : s.stats.Balanced) : (flushPCB cfg now s).stats.Balanced := by
  have key : ∀ (m : List (Nat × PCBEntry)) (st : State), st.stats.Balanced →
      (m.foldl (fun st p => flushEntry cfg st p.2) st).stats.Balanced := by
    intro m
    induction m with
    | nil => exact fun st hst => hst
    | cons p t ih => exact fun st hst => ih _ (flushEntry_balanced cfg st p.2 hst)
  exact key s.pcbMap s h

theorem evict_balanced (cfg : Config) (now : Nat) (s : State) (setIdx wayIdx : Nat)
    (h : s.stats.Balanced) : (evict cfg now s setIdx wayIdx).stats.Balanced := by
  have key : ∀ (f g : Nat → Nat) (l : List Nat) (st : State), st.stats.Balanced →
      (l.foldl (fun st i => coalescePartial cfg now st (f i) (g i)) st).stats.Balanced := by
    intro f g l
    induction l with
    | nil => exact fun st hst => hst
    | cons a t ih => exact fun st hst => ih _ (coalescePartial_balanced cfg now st _ _ hst)
  unfold evict
  simp only [setWay_stats]
  split
  · have := key
      (fun i => ((((getWay s setIdx wayIdx).tag * cfg.numSets + setIdx) % 2 ^ 64
        * cfg.blockSize) % 2 ^ 64 + i * 8) % 2 ^ 64)
      (fun i => (getWay s setIdx wayIdx).data.getD i 0) (List.range 8) s h
    unfold Stats.Balanced at this ⊢
    exact this
  · exact h

theorem insert_balanced (cfg : Config) (now : Nat) (s : State) (addr data : Nat)
    (h : s.stats.Balanced) : (insert cfg now s addr data).stats.Balanced := by
  unfold insert
  simp only []
  split
  · exact h
  · split
    · exact h
    · simp only [setWay_stats]
      exact evict_balanced cfg now s _ _ h

theorem step_balanced (cfg : Config) (s : State) (op : Op) (h : s.stats.Balanced) :
    (step cfg s op).stats.Balanced := by
  cases op with
  | request now req =>
    cases req with
    | read addr =>
      have hst := lookup_stats cfg now s addr
      simp only [step, recvTimingReq]
      rcases hlk : lookup cfg now s addr with ⟨s1, _ | d⟩
      · rw [hlk] at hst
        simp only at hst
        simp only []
        apply insert_balanced
        unfold Stats.Balanced at h ⊢
        simp only [hst]
        exact h
      · rw [hlk] at hst
        simp only at hst
        unfold Stats.Balanced at h ⊢
        simp only [hst]
        exact h
    | write addr data =>
      simp only [step, recvTimingReq]
      exact insert_balanced cfg now _ addr data (coalescePartial_balanced cfg now s addr data h)
  | evict now setIdx wayIdx => exact evict_balanced cfg now s setIdx wayIdx h
  | coalesce now addr data => exact coalescePartial_balanced cfg now s addr data h
  | flush now => exact flushPCB_balanced cfg now s h

theorem run_balanced (cfg : Config) (ops : List Op) (s : State) (h : s.stats.Balanced) :
    (run cfg s ops).stats.Balanced := by
  induction ops generalizing s with
  | nil => exact h
  | cons op t ih => exact ih _ (step_balanced cfg s op h)

/-- C20, as stated, fails on the code: after `coalescePartial(0x0, 1)` and a flush, one
entry with one valid partial has been counted in `pcbPartialFlushes`, nothing else was
emitted, and `nvmBytesWritten` is 64, not `0 * 64 + 8 * 1 + 0 * 8`. -/
theorem nvmBytes_not_per_partial :
    (runPcb (Config.source 4 4 64 1 64) (State.init (Config.source 4 4 64 1 64))
        [PcbOp.coalesce 0 0x0 1, PcbOp.flush 1]).stats.nvmBytesWritten
      ≠ (runPcb (Config.source 4 4 64 1 64) (State.init (Config.source 4 4 64 1 64))
          [PcbOp.coalesce 0 0x0 1, PcbOp.flush 1]).stats.pcbCoalescedBlocks * 64
        + 8 * flushedPartials (Config.source 4 4 64 1 64)
            (State.init (Config.source 4 4 64 1 64)) [PcbOp.coalesce 0 0x0 1, PcbOp.flush 1]
        + (runPcb (Config.source 4 4 64 1 64) (State.init (Config.source 4 4 64 1 64))
          [PcbOp.coalesce 0 0x0 1, PcbOp.flush 1]).stats.pcbOverflows * 8
    ∧ (runPcb (Config.source 4 4 64 1 64) (State.init (Config.source 4 4 64 1 64))
        [PcbOp.coalesce 0 0x0 1, PcbOp.flush 1]).stats.nvmBytesWritten = 64
    ∧ (runPcb (Config.source 4 4 64 1 64) (State.init (Config.source 4 4 64 1 64))
        [PcbOp.coalesce 0 0x0 1, PcbOp.flush 1]).stats.pcbPartialFlushes = 1
    ∧ flushedPartials (Config.source 4 4 64 1 64)
        (State.init (Config.source 4 4 64 1 64)) [PcbOp.coalesce 0 0x0 1, PcbOp.flush 1]
      = 1 := by
  refine ⟨by decide, by decide, by decide, by decide⟩

/-- C20, amended. In every state reached from the initial state by requests, evictions,
`coalescePartial` calls and `flushPCB` calls, `nvmBytesWritten` is 64 times `nvmWrites`: 64
bytes for every entry that `sendToNVMain` queued, full or not, and nothing for a partial
that overflowed to PLUB; when nothing was dropped on a full write queue
(`writeQueueFull = 0`) this is `pcbCoalescedBlocks * 64 + pcbPartialFlushes * 64`. -/
theorem nvmBytes_accounting (cfg : Config) (ops : List Op) :
    (run cfg (State.init cfg) ops).stats.nvmBytesWritten
        = 64 * (run cfg (State.init cfg) ops).stats.nvmWrites
      ∧ ((run cfg (State.init cfg) ops).stats.writeQueueFull = 0 →
        (run cfg (State.init cfg) ops).stats.nvmBytesWritten
          = (run cfg (State.init cfg) ops).stats.pcbCoalescedBlocks * 64
            + (run cfg (State.init cfg) ops).stats.pcbPartialFlushes * 64) := by
  have h := run_balanced cfg ops (State.init cfg)
    (by simp [Stats.Balanced, State.init, Stats.init])
  obtain ⟨h1, h2, h3, h4⟩ := h
  refine ⟨h1, fun h0 => ?_⟩
  omega

/-- Witness of the amended C20: one partial staged and flushed, with room in the queue. -/
theorem nvmBytes_accounting_witness :
    (run (Config.source 4 4 64 1 64) (State.init (Config.source 4 4 64 1 64))
        [Op.coalesce 0 0x0 1, Op.flush 1]).stats.nvmBytesWritten
      = (run (Config.source 4 4 64 1 64) (State.init (Config.source 4 4 64 1 64))
          [Op.coalesce 0 0x0 1, Op.flush 1]).stats.pcbCoalescedBlocks * 64
        + (run (Config.source 4 4 64 1 64) (State.init (Config.source 4 4 64 1 64))
          [Op.coalesce 0 0x0 1, Op.flush 1]).stats.pcbPartialFlushes * 64 :=
  (nvmBytes_accounting (Config.source 4 4 64 1 64) [Op.coalesce 0 0x0 1, Op.flush 1]).2
    (by decide)

/-! ## The last record for an address carries the last value written to it -/

theorem lastRecord_append_none (q recs : List (Nat × Nat)) (a : Nat)
    (h : recs.filter (fun r => r.1 == a) = []) :
    lastRecord (q ++ recs) a = lastRecord q a := by
  unfold lastRecord
  rw [List.filter_append, h, List.append_nil]

theorem lastRecord_append_single (q recs : List (Nat × Nat)) (a v : Nat)
    (h : recs.filter (fun r => r.1 == a) = [(a, v)]) :
    lastRecord (q ++ recs) a = some v := by
  unfold lastRecord
  rw [List.filter_append, h, List.getLast?_append]
  rfl

theorem pcbFind_of_mem (m : List (Nat × PCBEntry)) (k : Nat) (e : PCBEntry)
    (hs : pcbSorted m) (h : (k, e) ∈ m) : pcbFind m k = some e := by
  induction m with
  | nil => exact absurd h (List.not_mem_nil _)
  | cons p t ih =>
    obtain ⟨k1, e1⟩ := p
    unfold pcbSorted at hs
    simp only [List.map_cons, List.pairwise_cons] at hs
    unfold pcbFind
    rcases List.mem_cons.mp h with heq | hmem
    · simp only [Prod.mk.injEq] at heq
      simp [heq.1, heq.2]
    · have hlt := hs.1 k (List.mem_map_of_mem Prod.fst hmem)
      have hne : ¬ k1 = k := by omega
      simp only [hne, if_false]
      exact ih hs.2 hmem

/-- An entry of the block of `a` whose slot bit for `a` is clear emits no record for `a`. -/
theorem records_free (e : PCBEntry) (a : Nat) (ha : a % 8 = 0)
    (hb : e.baseAddr = PCBEntry.getBase a)
    (hbit : e.validMask.testBit ((a - PCBEntry.getBase a) / 8) = false) :
    (entryRecords e).filter (fun r => r.1 == a) = [] := by
  have hle := getBase_le a
  have hal := getBase_aligned a
  rw [List.filter_eq_nil_iff]
  intro r hr
  unfold entryRecords at hr
  obtain ⟨j, hj, rfl⟩ := List.mem_map.mp hr
  have hj' := (mem_maskBits _ _).mp hj
  simp only [beq_iff_eq]
  intro hc
  have hji : j = (a - PCBEntry.getBase a) / 8 := by
    rw [hb] at hc
    omega
  rw [hji, hbit] at hj'
  exact Bool.noConfusion hj'.2

/-- A flush of a well-formed buffer in which the slot of `a` is free emits no record for
`a`. -/
theorem flush_records_free (m : List (Nat × PCBEntry)) (a : Nat) (ha : a % 8 = 0)
    (hwf : pcbWF m) (hfree : SlotFree m a) :
    (((flushed m).map entryRecords).flatten).filter (fun r => r.1 == a) = [] := by
  have hall : ∀ p ∈ m, (entryRecords p.2).filter (fun r => r.1 == a) = [] := by
    intro p hp
    obtain ⟨hkey, hT⟩ := hwf.2 p hp
    by_cases hk : p.2.baseAddr = PCBEntry.getBase a
    · apply records_free p.2 a ha hk
      apply hfree
      apply pcbFind_of_mem m _ _ hwf.1
      rw [← hk, hkey]
      exact hp
    · exact records_other p.2 a hT.1 hk
  clear hwf hfree
  induction m with
  | nil => simp [flushed]
  | cons p t ih =>
    have ht := ih (fun q hq => hall q (List.mem_cons_of_mem _ hq))
    rw [flushed_cons]
    split
    · rw [List.map_cons, List.flatten_cons, List.filter_append, ht,
        hall p (List.mem_cons_self _ _)]
      rfl
    · exact ht

/-- The flush loop, when the queue is below capacity at its end, has emitted every dirty
non-empty entry. -/
theorem flushLoop_final (cfg : Config) (m : List (Nat × PCBEntry)) (s : State)
    (hT : ∀ p ∈ m, p.2.Typed)
    (hfin : (m.foldl (fun st p => flushEntry cfg st p.2) s).writeQueue.length
      < sizeT cfg.writeQueueCapacity) :
    (m.foldl (fun st p => flushEntry cfg st p.2) s).writeQueue
      = s.writeQueue ++ ((flushed m).map entryRecords).flatten := by
  induction m generalizing s with
  | nil => simp [flushed]
  | cons p t ih =>
    have hTp : p.2.Typed := hT p (List.mem_cons_self _ _)
    have hTt : ∀ q ∈ t, q.2.Typed := fun q hq => hT q (List.mem_cons_of_mem _ hq)
    rw [List.foldl_cons] at hfin ⊢
    have hrec := ih (flushEntry cfg s p.2) hTt hfin
    obtain ⟨r1, h1⟩ := flushEntry_grows cfg s p.2
    obtain ⟨r2, h2⟩ := flushLoop_grows cfg t (flushEntry cfg s p.2)
    have hroom : s.writeQueue.length < sizeT cfg.writeQueueCapacity := by
      rw [h2, h1] at hfin
      simp only [List.length_append] at hfin
      omega
    rw [hrec, flushed_cons]
    by_cases h : p.2.dirty = true ∧ p.2.validMask ≠ 0
    · obtain ⟨e1, _⟩ := flushEntry_emit cfg s p.2 hTp hroom h.1 h.2
      rw [e1, if_pos h, List.map_cons, List.flatten_cons, List.append_assoc]
    · rw [flushEntry_skip cfg s p.2 hTp h, if_neg h]

/-! Facts about the merged entry of `coalescePartial`. -/

theorem mergedEntry_testBit (now : Nat) (s : State) (addr data j : Nat)
    (hwf : pcbWF s.pcbMap) :
    (mergedEntry now s addr data).validMask.testBit j
      = (((pcbFind s.pcbMap (PCBEntry.getBase addr)).getD PCBEntry.init).validMask.testBit j
          || decide ((addr - PCBEntry.getBase addr) / 8 = j)) := by
  obtain ⟨_, _, h3⟩ := found_entry s.pcbMap (PCBEntry.getBase addr) hwf
  unfold mergedEntry
  rw [mergePartial_validMask, testBit_setSlot _ _ _ h3 (slot_lt addr)]

theorem mergedEntry_load_same (now : Nat) (s : State) (addr data : Nat)
    (hwf : pcbWF s.pcbMap) (hd : data < 2 ^ 64) :
    loadU64 (mergedEntry now s addr data).data (8 * ((addr - PCBEntry.getBase addr) / 8))
      = data := by
  obtain ⟨_, h2, _⟩ := found_entry s.pcbMap (PCBEntry.getBase addr) hwf
  have := slot_lt addr
  unfold mergedEntry
  rw [mergePartial_data, Nat.mul_comm 8, loadU64_storeU64_same _ _ _ (by omega),
    Nat.mod_eq_of_lt hd]

theorem mergedEntry_load_other (now : Nat) (s : State) (addr data j : Nat)
    (hj : j ≠ (addr - PCBEntry.getBase addr) / 8) :
    loadU64 (mergedEntry now s addr data).data (8 * j)
      = loadU64 ((pcbFind s.pcbMap (PCBEntry.getBase addr)).getD PCBEntry.init).data
          (8 * j) := by
  unfold mergedEntry
  rw [mergePartial_data, loadU64_storeU64_other _ _ _ _ (by omega)]

theorem mergedEntry_dirty (now : Nat) (s : State) (addr data : Nat) :
    (mergedEntry now s addr data).dirty = true := by
  unfold mergedEntry
  exact mergePartial_dirty _ _ _ _ _

/-- Two 8-aligned addresses of one block that differ lie in different slots. -/
theorem slot_ne (a a' : Nat) (ha : a % 8 = 0) (ha' : a' % 8 = 0) (hne : a' ≠ a)
    (hb : PCBEntry.getBase a' = PCBEntry.getBase a) :
    (a' - PCBEntry.getBase a') / 8 ≠ (a - PCBEntry.getBase a) / 8 := by
  have h1 := getBase_le a
  have h2 := getBase_le a'
  rw [hb] at h2 ⊢
  intro hc
  apply hne
  omega

theorem full_testBit (e : PCBEntry) (hf : e.isFull = true) (j : Nat) (hj : j < 8) :
    e.validMask.testBit j = true := by
  unfold PCBEntry.isFull at hf
  have : e.validMask = 255 := by simpa using hf
  rw [this, testBit_255]
  simpa using hj

/-- The found-or-fresh entry under the base of `a` has the slot bit of `a` clear when the
slot of `a` is free. -/
theorem free_found_bit (m : List (Nat × PCBEntry)) (a : Nat) (hfree : SlotFree m a) :
    ((pcbFind m (PCBEntry.getBase a)).getD PCBEntry.init).validMask.testBit
      ((a - PCBEntry.getBase a) / 8) = false := by
  rcases hf : pcbFind m (PCBEntry.getBase a) with _ | e
  · simp [PCBEntry.init]
  · exact hfree e hf

/-- One `coalescePartial` below queue capacity keeps `Tracks`, with the written value as
the new last value when the write goes to `a`. -/
theorem tracks_coalesce (cfg : Config) (now : Nat) (s : State) (a a' d : Nat)
    (lv : Option Nat) (ha : a % 8 = 0) (ha' : a' % 8 = 0) (ha64 : a' < 2 ^ 64)
    (hd : d < 2 ^ 64) (hroom : s.writeQueue.length < sizeT cfg.writeQueueCapacity)
    (hT : Tracks s a lv) :
    Tracks (coalescePartial cfg now s a' d) a (if a' = a then some d else lv) := by
  obtain ⟨hwf, hcase⟩ := hT
  refine ⟨coalescePartial_wf cfg now s a' d hwf ha64, ?_⟩
  have hsl := slot_lt a
  obtain ⟨hmb, hmT⟩ := mergedEntry_typed now s a' d hwf ha64
  by_cases hov : s.pcbMap.length ≥ cfg.pcbCapacity
      ∧ pcbFind s.pcbMap (PCBEntry.getBase a') = none
  · -- overflow to PLUB
    rw [coalescePartial_overflow cfg now s a' d hov.1 hov.2,
      sendToPLUB_room cfg _ a' d (by simpa using hroom)]
    simp only [countPartial]
    by_cases haa : a' = a
    · rw [if_pos haa]
      right
      rw [haa] at hov
      refine ⟨fun e he => ?_, ?_⟩
      · rw [hov.2] at he
        exact Option.noConfusion he
      · rw [haa]
        exact lastRecord_append_single _ _ a d (by simp)
    · rw [if_neg haa]
      rcases hcase with hl | hr
      · exact Or.inl hl
      · right
        refine ⟨hr.1, ?_⟩
        rw [lastRecord_append_none _ _ a (by simp [haa])]
        exact hr.2
  · by_cases hf : (mergedEntry now s a' d).isFull = true
    · -- the block completes and is emitted
      rw [coalescePartial_full cfg now s a' d hov hf,
        sendToNVMain_room cfg _ _ (Typed.base_room hmT) (by simpa using hroom)]
      simp only [countPartial]
      by_cases hb : PCBEntry.getBase a' = PCBEntry.getBase a
      · right
        refine ⟨fun e he => ?_, ?_⟩
        · rw [hb, pcbFind_erase_same] at he
          exact Option.noConfusion he
        · have hbit := full_testBit _ hf _ hsl
          by_cases haa : a' = a
          · rw [if_pos haa]
            apply lastRecord_append_single
            apply records_same _ a d ha (by rw [hmb, hb]) hbit
            have := mergedEntry_load_same now s a' d hwf hd
            rw [haa] at this ⊢
            exact this
          · rw [if_neg haa]
            have hsn := slot_ne a a' ha ha' haa hb
            have hsn' : (a' - PCBEntry.getBase a) / 8 ≠ (a - PCBEntry.getBase a) / 8 := by
              have := hsn
              rw [hb] at this
              exact this
            have hbit0 : ((pcbFind s.pcbMap (PCBEntry.getBase a)).getD
                PCBEntry.init).validMask.testBit ((a - PCBEntry.getBase a) / 8) = true := by
              have := mergedEntry_testBit now s a' d ((a - PCBEntry.getBase a) / 8) hwf
              rw [hbit, hb] at this
              simpa [hsn'] using this.symm
            rcases hcase with ⟨v, hlv, e, he, _, _, hval⟩ | hr
            · rw [hlv]
              apply lastRecord_append_single
              apply records_same _ a v ha (by rw [hmb, hb]) hbit
              rw [mergedEntry_load_other now s a' d _ (fun hc => hsn hc.symm), hb, he]
              exact hval
            · exfalso
              have := free_found_bit s.pcbMap a hr.1
              rw [hbit0] at this
              exact Bool.noConfusion this
      · have hb' : PCBEntry.getBase a ≠ PCBEntry.getBase a' := fun hc => hb hc.symm
        have haa : ¬ a' = a := fun hc => hb (by rw [hc])
        have hfind : pcbFind (pcbErase (pcbInsert s.pcbMap (PCBEntry.getBase a')
            (mergedEntry now s a' d)) (PCBEntry.getBase a')) (PCBEntry.getBase a)
            = pcbFind s.pcbMap (PCBEntry.getBase a) := by
          rw [pcbFind_erase_other _ _ _ hb', pcbFind_insert_other _ _ _ _ hb']
        have hrec := records_other (mergedEntry now s a' d) a hmT.1 (by rw [hmb]; exact hb)
        rw [if_neg haa]
        rcases hcase with ⟨v, hlv, e, he, hrest⟩ | hr
        · exact Or.inl ⟨v, hlv, e, by rw [hfind]; exact he, hrest⟩
        · right
          refine ⟨fun e he => hr.1 e (by rw [← hfind]; exact he), ?_⟩
          rw [lastRecord_append_none _ _ a hrec]
          exact hr.2
    · -- the partial is staged
      have hf' : (mergedEntry now s a' d).isFull = false := by simpa using hf
      rw [coalescePartial_stage cfg now s a' d hov hf']
      simp only [countPartial]
      by_cases hb : PCBEntry.getBase a' = PCBEntry.getBase a
      · have hfind : pcbFind (pcbInsert s.pcbMap (PCBEntry.getBase a')
            (mergedEntry now s a' d)) (PCBEntry.getBase a)
            = some (mergedEntry now s a' d) := by
          rw [← hb]
          exact pcbFind_insert_same _ _ _
        by_cases haa : a' = a
        · rw [if_pos haa]
          left
          refine ⟨d, rfl, mergedEntry now s a' d, hfind, mergedEntry_dirty _ _ _ _, ?_, ?_⟩
          · rw [mergedEntry_testBit now s a' d _ hwf, haa]
            simp
          · have := mergedEntry_load_same now s a' d hwf hd
            rw [haa] at this ⊢
            exact this
        · rw [if_neg haa]
          have hsn := slot_ne a a' ha ha' haa hb
          have hsn' : (a' - PCBEntry.getBase a) / 8 ≠ (a - PCBEntry.getBase a) / 8 := by
            have := hsn
            rw [hb] at this
            exact this
          have hbitEq : (mergedEntry now s a' d).validMask.testBit
              ((a - PCBEntry.getBase a) / 8)
              = ((pcbFind s.pcbMap (PCBEntry.getBase a)).getD
                  PCBEntry.init).validMask.testBit ((a - PCBEntry.getBase a) / 8) := by
            rw [mergedEntry_testBit now s a' d _ hwf, hb]
            simp [hsn']
          rcases hcase with ⟨v, hlv, e, he, _, hbit, hval⟩ | hr
          · left
            refine ⟨v, hlv, mergedEntry now s a' d, hfind, mergedEntry_dirty _ _ _ _, ?_, ?_⟩
            · rw [hbitEq, he]
              exact hbit
            · rw [mergedEntry_load_other now s a' d _ (fun hc => hsn hc.symm), hb, he]
              exact hval
          · right
            refine ⟨fun e he => ?_, hr.2⟩
            rw [hfind] at he
            have hee : mergedEntry now s a' d = e := Option.some.inj he
            rw [← hee, hbitEq]
            exact free_found_bit s.pcbMap a hr.1
      · have hb' : PCBEntry.getBase a ≠ PCBEntry.getBase a' := fun hc => hb hc.symm
        have haa : ¬ a' = a := fun hc => hb (by rw [hc])
        have hfind : pcbFind (pcbInsert s.pcbMap (PCBEntry.getBase a')
            (mergedEntry now s a' d)) (PCBEntry.getBase a)
            = pcbFind s.pcbMap (PCBEntry.getBase a) :=
          pcbFind_insert_other _ _ _ _ hb'
        rw [if_neg haa]
        rcases hcase with ⟨v, hlv, e, he, hrest⟩ | hr
        · exact Or.inl ⟨v, hlv, e, by rw [hfind]; exact he, hrest⟩
        · exact Or.inr ⟨fun e he => hr.1 e (by rw [← hfind]; exact he), hr.2⟩

/-- A flush that ends below queue capacity keeps `Tracks`. -/
theorem tracks_flush (cfg : Config) (now : Nat) (s : State) (a : Nat) (lv : Option Nat)
    (ha : a % 8 = 0)
    (hfin : (flushPCB cfg now s).writeQueue.length < sizeT cfg.writeQueueCapacity)
    (hT : Tracks s a lv) : Tracks (flushPCB cfg now s) a lv := by
  obtain ⟨hwf, hcase⟩ := hT
  have hq : (flushPCB cfg now s).writeQueue
      = s.writeQueue ++ ((flushed s.pcbMap).map entryRecords).flatten :=
    flushLoop_final cfg s.pcbMap s (fun p hp => (hwf.2 p hp).2) hfin
  have hm : (flushPCB cfg now s).pcbMap = [] := rfl
  refine ⟨by rw [hm]; exact ⟨by simp [pcbSorted], by simp⟩, Or.inr ⟨?_, ?_⟩⟩
  · intro e he
    rw [hm] at he
    simp [pcbFind] at he
  · rw [hq]
    rcases hcase with ⟨v, hlv, hH⟩ | hr
    · rw [hlv]
      exact lastRecord_append_single _ _ a v (flush_records_same s.pcbMap a v ha hwf hH)
    · rw [lastRecord_append_none _ _ a (flush_records_free s.pcbMap a ha hwf hr.1)]
      exact hr.2

theorem runPcb_cons (cfg : Config) (s : State) (op : PcbOp) (t : List PcbOp) :
    runPcb cfg s (op :: t) = runPcb cfg (pcbStep cfg s op) t := rfl

/-- A run of typed buffer operations during which the queue stays below capacity keeps
`Tracks`, the last value moving with the writes to `a`. -/
theorem tracks_run (cfg : Config) (a : Nat) (ha : a % 8 = 0) (ops : List PcbOp) (s : State)
    (lv : Option Nat) (hty : ∀ op ∈ ops, op.Typed)
    (hroom : ∀ k, k ≤ ops.length →
      (runPcb cfg s (ops.take k)).writeQueue.length < sizeT cfg.writeQueueCapacity)
    (hT : Tracks s a lv) :
    Tracks (runPcb cfg s ops) a (lastWrittenFrom lv ops a) := by
  induction ops generalizing s lv with
  | nil => exact hT
  | cons op t ih =>
    have h0 := hroom 0 (Nat.zero_le _)
    have h1 := hroom 1 (by simp)
    simp only [List.take_zero, List.take_succ_cons, runPcb_cons] at h0 h1
    have hrest : ∀ k, k ≤ t.length →
        (runPcb cfg (pcbStep cfg s op) (t.take k)).writeQueue.length
          < sizeT cfg.writeQueueCapacity := by
      intro k hk
      have := hroom (k + 1) (by simp only [List.length_cons]; omega)
      simpa only [List.take_succ_cons, runPcb_cons] using this
    have htyt : ∀ o ∈ t, o.Typed := fun o ho => hty o (List.mem_cons_of_mem _ ho)
    have hop := hty op (List.mem_cons_self _ _)
    rw [runPcb_cons]
    cases op with
    | coalesce now addr data =>
      unfold PcbOp.Typed at hop
      simp only at hop
      have hstep := tracks_coalesce cfg now s a addr data lv ha hop.1 hop.2.1 hop.2.2
        (by simpa [runPcb] using h0) hT
      exact ih _ _ htyt hrest hstep
    | flush now =>
      have hstep := tracks_flush cfg now s a lv ha (by simpa [runPcb, pcbStep] using h1) hT
      exact ih _ _ htyt hrest hstep

theorem lastWrittenFrom_append_flush (lv : Option Nat) (ops : List PcbOp) (now a : Nat) :
    lastWrittenFrom lv (ops ++ [PcbOp.flush now]) a = lastWrittenFrom lv ops a := by
  unfold lastWrittenFrom
  rw [List.foldl_append]
  rfl

/-- C16. Same-address arrival order survives the split between the buffer and PLUB: for
every sequence of `coalescePartial` and `flushPCB` operations from the initial state, ended
by a `flushPCB`, with 8-aligned 64-bit addresses and 64-bit values, during which the write
queue never reaches capacity, and for every 8-aligned address `a`, the last record for `a`
in the write queue carries the last value coalesced to `a` (and there is no record for `a`
if nothing was coalesced to it), whether the partials of the block of `a` were staged in the
buffer or overflowed to PLUB. -/
theorem last_record_is_last_written (cfg : Config) (ops : List PcbOp) (now a : Nat)
    (ha : a % 8 = 0) (hty : ∀ op ∈ ops, op.Typed)
    (hroom : ∀ k, k ≤ ops.length + 1 →
      (runPcb cfg (State.init cfg) ((ops ++ [PcbOp.flush now]).take k)).writeQueue.length
        < sizeT cfg.writeQueueCapacity) :
    lastRecord (runPcb cfg (State.init cfg) (ops ++ [PcbOp.flush now])).writeQueue a
      = lastWritten ops a := by
  have hinit : Tracks (State.init cfg) a none := by
    refine ⟨⟨by simp [pcbSorted, State.init], by simp [State.init]⟩, Or.inr ⟨?_, rfl⟩⟩
    intro e he
    simp [State.init, pcbFind] at he
  have hty' : ∀ op ∈ ops ++ [PcbOp.flush now], op.Typed := by
    intro op hop
    rcases List.mem_append.mp hop with h | h
    · exact hty op h
    · rw [List.mem_singleton.mp h]
      exact True.intro
  have hT := tracks_run cfg a ha (ops ++ [PcbOp.flush now]) (State.init cfg) none hty'
    (by simpa using hroom) hinit
  rw [lastWrittenFrom_append_flush] at hT
  have hmap : (runPcb cfg (State.init cfg) (ops ++ [PcbOp.flush now])).pcbMap = [] := by
    unfold runPcb
    rw [List.foldl_append]
    rfl
  obtain ⟨_, hcase⟩ := hT
  rcases hcase with ⟨v, _, e, he, _⟩ | hr
  · rw [hmap] at he
    simp [pcbFind] at he
  · exact hr.2

/-- Witness of C16: with room for one base in the buffer, `0x40` is staged, the first write
to `0x0` overflows to PLUB, a flush empties the buffer, the second write to `0x0` is staged,
and the final flush emits it. -/
theorem last_record_is_last_written_witness :
    lastRecord (runPcb { Config.source 4 4 64 1 64 with pcbCapacity := 1 }
        (State.init { Config.source 4 4 64 1 64 with pcbCapacity := 1 })
        ([PcbOp.coalesce 1 0x40 1, PcbOp.coalesce 2 0x0 5, PcbOp.flush 3,
          PcbOp.coalesce 4 0x0 6] ++ [PcbOp.flush 5])).writeQueue 0x0
      = lastWritten [PcbOp.coalesce 1 0x40 1, PcbOp.coalesce 2 0x0 5, PcbOp.flush 3,
          PcbOp.coalesce 4 0x0 6] 0x0 :=
  last_record_is_last_written { Config.source 4 4 64 1 64 with pcbCapacity := 1 }
    [PcbOp.coalesce 1 0x40 1, PcbOp.coalesce 2 0x0 5, PcbOp.flush 3, PcbOp.coalesce 4 0x0 6]
    5 0x0 (by decide)
    (by
      intro op hop
      simp only [List.mem_cons, List.mem_singleton, List.not_mem_nil, or_false] at hop
      rcases hop with rfl | rfl | rfl | rfl <;> (unfold PcbOp.Typed; decide))
    (by
      intro k hk
      simp only [List.length_cons, List.length_nil] at hk
      interval_cases k <;> decide)

/-! ## Scenario S6: full coverage of every base -/

theorem mem_blockSlots (bases : List Nat) (x : Nat) :
    x ∈ blockSlots bases ↔ ∃ b, b ∈ bases ∧ ∃ i, i < 8 ∧ x = b + 8 * i := by
  unfold blockSlots
  simp only [List.mem_flatten, List.mem_map, List.mem_range]
  constructor
  · rintro ⟨l, ⟨b, hb, rfl⟩, hx⟩
    obtain ⟨i, hi, rfl⟩ := List.mem_map.mp hx
    exact ⟨b, hb, i, List.mem_range.mp hi, rfl⟩
  · rintro ⟨b, hb, i, hi, rfl⟩
    exact ⟨_, ⟨b, hb, rfl⟩, List.mem_map.mpr ⟨i, List.mem_range.mpr hi, rfl⟩⟩

theorem blockSlots_cons (b : Nat) (t : List Nat) :
    blockSlots (b :: t) = (List.range 8).map (fun i => b + 8 * i) ++ blockSlots t := by
  simp [blockSlots]

theorem blockSlots_length (bases : List Nat) :
    (blockSlots bases).length = 8 * bases.length := by
  induction bases with
  | nil => simp [blockSlots]
  | cons b t ih =>
    rw [blockSlots_cons, List.length_append, ih]
    simp only [List.length_map, List.length_range, List.length_cons]
    omega

theorem blockSlots_nodup (bases : List Nat) (hn : bases.Nodup)
    (hal : ∀ b ∈ bases, b % 64 = 0) : (blockSlots bases).Nodup := by
  induction bases with
  | nil => simp [blockSlots]
  | cons b t ih =>
    rw [blockSlots_cons, List.nodup_append]
    have hnb := List.nodup_cons.mp hn
    refine ⟨?_, ih hnb.2 (fun x hx => hal x (List.mem_cons_of_mem _ hx)), ?_⟩
    · apply List.Nodup.map _ (List.nodup_range 8)
      intro i j hij
      simp only at hij
      omega
    · intro x hx1 hx2
      obtain ⟨i, hi, rfl⟩ := List.mem_map.mp hx1
      obtain ⟨b2, hb2, j, hj, heq⟩ := (mem_blockSlots t _).mp hx2
      have h1 := hal b (List.mem_cons_self _ _)
      have h2 := hal b2 (List.mem_cons_of_mem _ hb2)
      have hi8 := List.mem_range.mp hi
      have : b = b2 := by omega
      rw [this] at hnb
      exact hnb.1 hb2

theorem blockComplete_iff (done : List Nat) (b : Nat) :
    blockComplete done b = true ↔ ∀ j, j < 8 → b + 8 * j ∈ done := by
  unfold blockComplete
  simp [List.all_eq_true]

theorem blockComplete_false_iff (done : List Nat) (b : Nat) :
    blockComplete done b = false ↔ ∃ j, j < 8 ∧ b + 8 * j ∉ done := by
  rw [← Bool.not_eq_true, blockComplete_iff]
  push_neg
  rfl

/-- Counting: turning the predicate on at one element of a duplicate-free list adds one. -/
theorem filter_length_succ (l : List Nat) (p q : Nat → Bool) (b : Nat) (hn : l.Nodup)
    (hb : b ∈ l) (hpb : p b = false) (hqb : q b = true)
    (hother : ∀ x ∈ l, x ≠ b → q x = p x) :
    (l.filter q).length = (l.filter p).length + 1 := by
  induction l with
  | nil => exact absurd hb (List.not_mem_nil _)
  | cons a t ih =>
    have hna := List.nodup_cons.mp hn
    by_cases hab : a = b
    · subst hab
      have ht : t.filter q = t.filter p := by
        apply List.filter_congr
        intro x hx
        exact hother x (List.mem_cons_of_mem _ hx) (fun hc => hna.1 (hc ▸ hx))
      simp [List.filter_cons, hpb, hqb, ht]
    · have hbt : b ∈ t := by
        rcases List.mem_cons.mp hb with h | h
        · exact absurd h.symm hab
        · exact h
      have := ih hna.2 hbt (fun x hx => hother x (List.mem_cons_of_mem _ hx))
      have hqa : q a = p a := hother a (List.mem_cons_self _ _) hab
      rw [List.filter_cons, List.filter_cons, hqa]
      split
      · simp only [List.length_cons, this]
      · exact this

theorem pushPartials_length (q : List (Nat × Nat)) (e : PCBEntry) :
    (pushPartials q e).length = q.length + (maskBits e.validMask).length := by
  unfold pushPartials
  rw [foldl_push_eq (fun i => e.validMask &&& (1 <<< i) != 0)
      (fun i => ((e.baseAddr + i * 8) % 2 ^ 64, loadU64 e.data (i * 8))) (List.range 8) q]
  have hf : (List.range 8).filter (fun i => e.validMask &&& (1 <<< i) != 0)
      = maskBits e.validMask := by
    unfold maskBits
    apply List.filter_congr
    intro i _
    exact and_shift_ne_zero _ _
  rw [List.length_append, List.length_map, hf]

/-- A full entry sent to a queue below capacity: 8 more records, one more NVM write. -/
theorem sendToNVMain_full_room (cfg : Config) (s : State) (e : PCBEntry)
    (hq : s.writeQueue.length < sizeT cfg.writeQueueCapacity) (hf : e.isFull = true) :
    (sendToNVMain cfg s e).writeQueue.length = s.writeQueue.length + 8
      ∧ (sendToNVMain cfg s e).stats
          = { s.stats with
              nvmWrites := s.stats.nvmWrites + 1
              nvmBytesWritten := s.stats.nvmBytesWritten + 64 } := by
  have h255 : e.validMask = 255 := by
    unfold PCBEntry.isFull at hf
    simpa using hf
  unfold sendToNVMain
  rw [if_pos hq]
  refine ⟨?_, rfl⟩
  show (pushPartials s.writeQueue e).length = _
  rw [pushPartials_length, h255, maskBits_255]
  rfl

/-- A buffer whose keys are among `bases` and miss one of them is smaller than `bases`. -/
theorem keys_lt_bases (bases : List Nat) (m : List (Nat × PCBEntry)) (b : Nat)
    (hs : pcbSorted m) (hsub : ∀ p ∈ m, p.1 ∈ bases) (hb : b ∈ bases)
    (hnone : pcbFind m b = none) : m.length < bases.length := by
  have hnd : (m.map Prod.fst).Nodup := by
    unfold pcbSorted at hs
    exact hs.imp (fun h => Nat.ne_of_lt h)
  rw [pcbFind_eq_none_iff] at hnone
  have hnd2 : (b :: m.map Prod.fst).Nodup := List.nodup_cons.mpr ⟨hnone, hnd⟩
  have hsub2 : (b :: m.map Prod.fst) ⊆ bases := by
    intro x hx
    rcases List.mem_cons.mp hx with rfl | hx
    · exact hb
    · obtain ⟨p, hp, rfl⟩ := List.mem_map.mp hx
      exact hsub p hp
  have := (List.subperm_of_subset hnd2 hsub2).length_le
  simp only [List.length_cons, List.length_map] at this
  omega

/-- One call `coalescePartial(b + 8 i, d)` on a slot not yet written keeps `Covering`. -/
theorem covering_step (cfg : Config) (bases : List Nat) (st : State) (done : List Nat)
    (now b i d : Nat) (hn : bases.Nodup) (hal : ∀ x ∈ bases, x % 64 = 0)
    (hcap : bases.length ≤ cfg.pcbCapacity)
    (hroom : st.writeQueue.length < sizeT cfg.writeQueueCapacity)
    (hb : b ∈ bases) (hi : i < 8) (hnew : b + 8 * i ∉ done)
    (hc : Covering bases st done) :
    Covering bases (coalescePartial cfg now st (b + 8 * i) d) ((b + 8 * i) :: done) := by
  obtain ⟨hs, hent, hfree, hco, hnv, htot, hpf, hov⟩ := hc
  have hb64 := hal b hb
  have hbase := getBase_slot b i hb64 hi
  have hadm : ¬ (st.pcbMap.length ≥ cfg.pcbCapacity
      ∧ pcbFind st.pcbMap (PCBEntry.getBase (b + 8 * i)) = none) := by
    rintro ⟨h1, h2⟩
    rw [hbase] at h2
    have := keys_lt_bases bases st.pcbMap b hs (fun p hp => (hent p hp).1) hb h2
    omega
  have hE0 : ((pcbFind st.pcbMap b).getD PCBEntry.init).validMask < 256
      ∧ ∀ j, j < 8 → (((pcbFind st.pcbMap b).getD PCBEntry.init).validMask.testBit j = true
          ↔ b + 8 * j ∈ done) := by
    cases hf : pcbFind st.pcbMap b with
    | none =>
      refine ⟨by simp [PCBEntry.init], fun j hj => ?_⟩
      rcases hfree b hb hf with hcomp | hnone
      · exact absurd ((blockComplete_iff done b).mp hcomp i hi) hnew
      · simp [PCBEntry.init, hnone j hj]
    | some e =>
      have hm := hent (b, e) (pcbFind_mem hf)
      exact ⟨hm.2.1, hm.2.2.2⟩
  have hmask : (mergedEntry now st (b + 8 * i) d).validMask
      = (((pcbFind st.pcbMap b).getD PCBEntry.init).validMask ||| (1 <<< i)) % 256 := by
    rw [mergedEntry_slot now st b i d hb64 hi]
    exact mergePartial_validMask _ _ _ _ _
  have hbits : ∀ j, j < 8 → ((mergedEntry now st (b + 8 * i) d).validMask.testBit j = true
      ↔ b + 8 * j ∈ (b + 8 * i) :: done) := by
    intro j hj
    rw [hmask, testBit_setSlot _ _ _ hE0.1 hi, Bool.or_eq_true, hE0.2 j hj, List.mem_cons,
      decide_eq_true_iff]
    constructor
    · rintro (h | h)
      · exact Or.inr h
      · exact Or.inl (by rw [h])
    · rintro (h | h)
      · exact Or.inr (by omega)
      · exact Or.inl h
  have hmlt : (mergedEntry now st (b + 8 * i) d).validMask < 256 := by
    rw [hmask]
    exact setSlot_lt _ _
  have hfull_iff : (mergedEntry now st (b + 8 * i) d).isFull = true
      ↔ blockComplete ((b + 8 * i) :: done) b = true := by
    rw [blockComplete_iff]
    unfold PCBEntry.isFull
    rw [beq_iff_eq, mask_full_iff _ hmlt]
    exact forall_congr' (fun j => forall_congr' (fun hj => hbits j hj))
  have hmem_other : ∀ x ∈ bases, x ≠ b → ∀ j, j < 8 →
      (x + 8 * j ∈ (b + 8 * i) :: done ↔ x + 8 * j ∈ done) := by
    intro x hx hxb j hj
    have hx64 := hal x hx
    rw [List.mem_cons]
    constructor
    · rintro (h | h)
      · omega
      · exact h
    · exact Or.inr
  have hother : ∀ x ∈ bases, x ≠ b →
      blockComplete ((b + 8 * i) :: done) x = blockComplete done x := by
    intro x hx hxb
    rw [Bool.eq_iff_iff, blockComplete_iff, blockComplete_iff]
    exact forall_congr' (fun j => forall_congr' (fun hj => hmem_other x hx hxb j hj))
  have hbnot : blockComplete done b = false :=
    (blockComplete_false_iff done b).mpr ⟨i, hi, hnew⟩
  by_cases hfull : (mergedEntry now st (b + 8 * i) d).isFull = true
  · have hcb := hfull_iff.mp hfull
    have hcount := filter_length_succ bases (blockComplete done)
      (blockComplete ((b + 8 * i) :: done)) b hn hb hbnot hcb hother
    have hqroom : (countPartial st).writeQueue.length < sizeT cfg.writeQueueCapacity := hroom
    obtain ⟨hlen, hstats⟩ := sendToNVMain_full_room cfg (countPartial st) _ hqroom hfull
    rw [coalescePartial_full cfg now st _ d hadm hfull]
    refine ⟨?_, ?_, ?_, ?_, ?_, ?_, ?_, ?_⟩
    · exact pcbSorted_erase _ _ (pcbSorted_insert _ _ _ hs)
    · intro p hp
      obtain ⟨hp1, hp2⟩ := pcbErase_mem hp
      rw [hbase] at hp1 hp2
      rcases pcbInsert_mem hp1 with rfl | hp3
      · exact absurd rfl hp2
      · obtain ⟨h1, h2, h3, h4⟩ := hent p hp3
        refine ⟨h1, h2, ?_, ?_⟩
        · rw [hother p.1 h1 hp2]
          exact h3
        · intro j hj
          rw [h4 j hj]
          exact (hmem_other p.1 h1 hp2 j hj).symm
    · intro x hx hnone
      by_cases hxb : x = b
      · left
        rw [hxb]
        exact hcb
      · have hnone' : pcbFind (pcbErase (pcbInsert st.pcbMap (PCBEntry.getBase (b + 8 * i))
            (mergedEntry now st (b + 8 * i) d)) (PCBEntry.getBase (b + 8 * i))) x = none := hnone
        rw [hbase, pcbFind_erase_other _ _ _ hxb, pcbFind_insert_other _ _ _ _ hxb] at hnone'
        rcases hfree x hx hnone' with h | h
        · left
          rw [hother x hx hxb]
          exact h
        · right
          intro j hj
          rw [hmem_other x hx hxb j hj]
          exact h j hj
    · show (sendToNVMain cfg (countPartial st) _).stats.pcbCoalescedBlocks + 1 = _
      rw [hstats, hcount]
      show st.stats.pcbCoalescedBlocks + 1 = _
      rw [hco]
    · show (sendToNVMain cfg (countPartial st) _).stats.nvmWrites = _
      rw [hstats, hcount]
      show st.stats.nvmWrites + 1 = _
      rw [hnv]
    · show (sendToNVMain cfg (countPartial st) _).stats.pcbTotalPartials = _
      rw [hstats]
      show st.stats.pcbTotalPartials + 1 = _
      rw [htot]
      rfl
    · show (sendToNVMain cfg (countPartial st) _).stats.pcbPartialFlushes = _
      rw [hstats]
      exact hpf
    · show (sendToNVMain cfg (countPartial st) _).stats.pcbOverflows = _
      rw [hstats]
      exact hov
  · have hfull' : (mergedEntry now st (b + 8 * i) d).isFull = false := by
      simpa using hfull
    have hcb : blockComplete ((b + 8 * i) :: done) b = false := by
      rw [← Bool.not_eq_true, ← hfull_iff]
      exact hfull
    have hsame : bases.filter (blockComplete ((b + 8 * i) :: done))
        = bases.filter (blockComplete done) := by
      apply List.filter_congr
      intro x hx
      by_cases hxb : x = b
      · rw [hxb, hcb, hbnot]
      · exact hother x hx hxb
    rw [coalescePartial_stage cfg now st _ d hadm hfull', hbase]
    refine ⟨?_, ?_, ?_, ?_, ?_, ?_, ?_, ?_⟩
    · exact pcbSorted_insert _ _ _ hs
    · intro p hp
      rcases pcbInsert_mem hp with rfl | hp3
      · exact ⟨hb, hmlt, hcb, hbits⟩
      · obtain ⟨h1, h2, h3, h4⟩ := hent p hp3
        by_cases hpb : p.1 = b
        · have hfd := pcbFind_of_mem st.pcbMap p.1 p.2 hs hp3
          rw [hpb] at hfd
          have hmk : ∀ j, j < 8 → (p.2.validMask.testBit j = true ↔ b + 8 * j ∈ done) := by
            intro j hj
            have := h4 j hj
            rw [hpb] at this
            exact this
          exfalso
          have hpi := pcbFind_insert_same st.pcbMap b (mergedEntry now st (b + 8 * i) d)
          have hsorted := pcbSorted_insert st.pcbMap b (mergedEntry now st (b + 8 * i) d) hs
          have hfd2 := pcbFind_of_mem _ p.1 p.2 hsorted hp
          rw [hpb, hpi] at hfd2
          have hbit := (hbits i hi).mpr (List.mem_cons_self _ _)
          rw [Option.some.inj hfd2] at hbit
          exact hnew ((hmk i hi).mp hbit)
        · refine ⟨h1, h2, ?_, ?_⟩
          · rw [hother p.1 h1 hpb]
            exact h3
          · intro j hj
            rw [h4 j hj]
            exact (hmem_other p.1 h1 hpb j hj).symm
    · intro x hx hnone
      have hnone' : pcbFind (pcbInsert st.pcbMap b (mergedEntry now st (b + 8 * i) d)) x
          = none := hnone
      by_cases hxb : x = b
      · rw [hxb, pcbFind_insert_same] at hnone'
        exact absurd hnone' (by simp)
      · rw [pcbFind_insert_other _ _ _ _ hxb] at hnone'
        rcases hfree x hx hnone' with h | h
        · left
          rw [hother x hx hxb]
          exact h
        · right
          intro j hj
          rw [hmem_other x hx hxb j hj]
          exact h j hj
    · rw [hsame]
      exact hco
    · rw [hsame]
      exact hnv
    · show st.stats.pcbTotalPartials + 1 = _
      rw [htot]
      rfl
    · exact hpf
    · exact hov

theorem covering_init (cfg : Config) (bases : List Nat) :
    Covering bases (State.init cfg) [] := by
  refine ⟨by simp [State.init, pcbSorted], ?_, ?_, ?_, ?_, rfl, rfl, rfl⟩
  · intro p hp
    exact absurd hp (List.not_mem_nil _)
  · intro b _ _
    right
    intro j _
    exact List.not_mem_nil _
  · have : bases.filter (blockComplete []) = [] := by
      rw [List.filter_eq_nil_iff]
      intro b _
      rw [Bool.not_eq_true, blockComplete_false_iff]
      exact ⟨0, by norm_num, List.not_mem_nil _⟩
    rw [this]
    rfl
  · have : bases.filter (blockComplete []) = [] := by
      rw [List.filter_eq_nil_iff]
      intro b _
      rw [Bool.not_eq_true, blockComplete_false_iff]
      exact ⟨0, by norm_num, List.not_mem_nil _⟩
    rw [this]
    rfl

theorem runCoalesce_cons (cfg : Config) (s : State) (op : Coalesce) (t : List Coalesce) :
    runCoalesce cfg s (op :: t)
      = runCoalesce cfg (coalescePartial cfg op.now s op.addr op.data) t := rfl

/-- A run of calls on distinct slots of `bases`, none written before, with the queue below
capacity before every call, keeps `Covering`. -/
theorem covering_run (cfg : Config) (bases : List Nat) (hn : bases.Nodup)
    (hal : ∀ x ∈ bases, x % 64 = 0) (hcap : bases.length ≤ cfg.pcbCapacity) :
    ∀ (ops : List Coalesce) (st : State) (done : List Nat),
      Covering bases st done →
      (∀ op ∈ ops, op.addr ∈ blockSlots bases) →
      (ops.map (fun op => op.addr)).Nodup →
      (∀ op ∈ ops, op.addr ∉ done) →
      (∀ k, k < ops.length →
        (runCoalesce cfg st (ops.take k)).writeQueue.length < sizeT cfg.writeQueueCapacity) →
      Covering bases (runCoalesce cfg st ops)
        ((ops.map (fun op => op.addr)).reverse ++ done) := by
  intro ops
  induction ops with
  | nil =>
    intro st done hc _ _ _ _
    exact hc
  | cons op t ih =>
    intro st done hc hin hnd hfresh hroom
    obtain ⟨b, hb, i, hi, haddr⟩ := (mem_blockSlots bases op.addr).mp
      (hin op (List.mem_cons_self _ _))
    have hnd' := List.nodup_cons.mp hnd
    have h0 : st.writeQueue.length < sizeT cfg.writeQueueCapacity :=
      hroom 0 (by simp)
    have hstep := covering_step cfg bases st done op.now b i op.data hn hal hcap h0 hb hi
      (by rw [← haddr]; exact hfresh op (List.mem_cons_self _ _)) hc
    rw [← haddr] at hstep
    have := ih (coalescePartial cfg op.now st op.addr op.data) (op.addr :: done) hstep
      (fun o ho => hin o (List.mem_cons_of_mem _ ho)) hnd'.2
      (by
        intro o ho hmem
        rcases List.mem_cons.mp hmem with h | h
        · exact hnd'.1 (List.mem_map.mpr ⟨o, ho, h⟩)
        · exact hfresh o (List.mem_cons_of_mem _ ho) h)
      (by
        intro k hk
        have := hroom (k + 1) (by simp only [List.length_cons]; omega)
        rw [List.take_succ_cons, runCoalesce_cons] at this
        exact this)
    rw [runCoalesce_cons]
    simpa using this

theorem flushPCB_empty (cfg : Config) (now : Nat) (s : State) (h : s.pcbMap = []) :
    (flushPCB cfg now s).stats = s.stats ∧ (flushPCB cfg now s).writeQueue = s.writeQueue := by
  unfold flushPCB
  rw [h]
  exact ⟨rfl, rfl⟩

/-- C18. Scenario S6: let `ops` be N calls of `coalescePartial` whose addresses are, in some
order, exactly the 8 slots of each of the distinct 64-aligned `bases`, with at most
`pcb_capacity` bases, run from the constructor state with the write queue below capacity
before every call. Then N is 8 times the number of bases, and in the final state
`coalesced_blocks = N / 8`, `partial_flushes = 0`, `nvm_writes = N / 8`,
`total_partials = N`, nothing is staged and a subsequent flush changes no statistic. When
partials were issued (N > 0) the formula `nvm_writes / (total_partials * 8 / 64)` has a value
and `write_amplification = 1`, also after the flush. -/
theorem scenarioS6_write_amplification (cfg : Config) (bases : List Nat)
    (ops : List Coalesce) (hn : bases.Nodup)
    (hal : ∀ b ∈ bases, b % 64 = 0) (hcap : bases.length ≤ cfg.pcbCapacity)
    (hcover : (ops.map (fun op => op.addr)).Perm (blockSlots bases))
    (hroom : ∀ k, k < ops.length →
      (runCoalesce cfg (State.init cfg) (ops.take k)).writeQueue.length
        < sizeT cfg.writeQueueCapacity) :
    ops.length = 8 * bases.length
      ∧ (runCoalesce cfg (State.init cfg) ops).stats.pcbCoalescedBlocks = ops.length / 8
      ∧ (runCoalesce cfg (State.init cfg) ops).stats.pcbPartialFlushes = 0
      ∧ (runCoalesce cfg (State.init cfg) ops).stats.nvmWrites = ops.length / 8
      ∧ (runCoalesce cfg (State.init cfg) ops).stats.pcbTotalPartials = ops.length
      ∧ (runCoalesce cfg (State.init cfg) ops).pcbMap = []
      ∧ (∀ now, (flushPCB cfg now (runCoalesce cfg (State.init cfg) ops)).stats
          = (runCoalesce cfg (State.init cfg) ops).stats)
      ∧ (0 < ops.length →
          writeAmplification (runCoalesce cfg (State.init cfg) ops).stats = some 1
            ∧ ∀ now, writeAmplification
                (flushPCB cfg now (runCoalesce cfg (State.init cfg) ops)).stats
              = some 1) := by
  have hlen : ops.length = 8 * bases.length := by
    rw [← blockSlots_length, ← hcover.length_eq, List.length_map]
  have hnd : (ops.map (fun op => op.addr)).Nodup :=
    (hcover.nodup_iff).mpr (blockSlots_nodup bases hn hal)
  have hin : ∀ op ∈ ops, op.addr ∈ blockSlots bases := fun op hop =>
    hcover.subset (List.mem_map.mpr ⟨op, hop, rfl⟩)
  have hc := covering_run cfg bases hn hal hcap ops (State.init cfg) []
    (covering_init cfg bases) hin hnd (fun _ _ => List.not_mem_nil _) hroom
  rw [List.append_nil] at hc
  obtain ⟨_, hent, _, hco, hnv, htot, hpf, _⟩ := hc
  have hall : ∀ b ∈ bases,
      blockComplete (ops.map (fun op => op.addr)).reverse b = true := by
    intro b hb
    rw [blockComplete_iff]
    intro j hj
    rw [List.mem_reverse]
    exact hcover.symm.subset ((mem_blockSlots bases _).mpr ⟨b, hb, j, hj, rfl⟩)
  have hfilter : bases.filter (blockComplete (ops.map (fun op => op.addr)).reverse)
      = bases := List.filter_eq_self.mpr hall
  rw [hfilter] at hco hnv
  have hdiv : ops.length / 8 = bases.length := by omega
  have hmap : (runCoalesce cfg (State.init cfg) ops).pcbMap = [] := by
    apply List.eq_nil_iff_forall_not_mem.mpr
    intro p hp
    have h := hent p hp
    rw [hall p.1 h.1] at h
    exact absurd h.2.2.1 (by simp)
  have hwa : 0 < ops.length →
      writeAmplification (runCoalesce cfg (State.init cfg) ops).stats = some 1 := by
    intro hpos
    unfold writeAmplification
    rw [hnv, htot, List.length_reverse, List.length_map, hlen]
    have hb1 : 0 < bases.length := by omega
    rw [if_neg (by omega)]
    have hb0 : (bases.length : ℚ) ≠ 0 := by exact_mod_cast hb1.ne.symm
    congr 1
    push_cast
    field_simp
    ring
  have hfl := fun now => (flushPCB_empty cfg now _ hmap).1
  refine ⟨hlen, ?_, hpf, ?_, ?_, hmap, hfl, fun hpos => ⟨hwa hpos, fun now => ?_⟩⟩
  · rw [hco, hdiv]
  · rw [hnv, hdiv]
  · rw [htot, List.length_reverse, List.length_map]
  · rw [hfl now]
    exact hwa hpos

/-- Witness of C18: the 8 slots of base `0x40`, written in the order 3, 0, 7, 1, 5, 2, 6,
4. -/
theorem scenarioS6_write_amplification_witness :
    (8 : Nat) = 8 * [0x40].length
      ∧ (runCoalesce (Config.source 4 4 64 1 64) (State.init (Config.source 4 4 64 1 64))
          ([3, 0, 7, 1, 5, 2, 6, 4].map
            (fun i => ({ now := i, addr := 0x40 + 8 * i, data := i + 1 } : Coalesce)))
          ).stats.nvmWrites = 1
      ∧ writeAmplification
          (runCoalesce (Config.source 4 4 64 1 64) (State.init (Config.source 4 4 64 1 64))
            ([3, 0, 7, 1, 5, 2, 6, 4].map
              (fun i => ({ now := i, addr := 0x40 + 8 * i, data := i + 1 } : Coalesce)))
          ).stats = some 1 :=
  have h := scenarioS6_write_amplification (Config.source 4 4 64 1 64) [0x40]
    ([3, 0, 7, 1, 5, 2, 6, 4].map
      (fun i => ({ now := i, addr := 0x40 + 8 * i, data := i + 1 } : Coalesce)))
    (by decide) (by decide) (by decide) (by decide)
    (by
      intro k hk
      simp only [List.length_map, List.length_cons, List.length_nil] at hk
      interval_cases k <;> decide)
  ⟨h.1, h.2.2.2.1, (h.2.2.2.2.2.2.2 (by decide)).1⟩

/-! ## Hit and miss accounting -/

theorem sendToNVMain_hits (cfg : Config) (s : State) (e : PCBEntry) :
    (sendToNVMain cfg s e).stats.hits = s.stats.hits
      ∧ (sendToNVMain cfg s e).stats.misses = s.stats.misses := by
  unfold sendToNVMain
  split <;> exact ⟨rfl, rfl⟩

theorem sendToPLUB_hits (cfg : Config) (s : State) (addr data : Nat) :
    (sendToPLUB cfg s addr data).stats.hits = s.stats.hits
      ∧ (sendToPLUB cfg s addr data).stats.misses = s.stats.misses := by
  unfold sendToPLUB
  split <;> exact ⟨rfl, rfl⟩

theorem coalescePartial_hits (cfg : Config) (now : Nat) (s : State) (addr data : Nat) :
    (coalescePartial cfg now s addr data).stats.hits = s.stats.hits
      ∧ (coalescePartial cfg now s addr data).stats.misses = s.stats.misses := by
  by_cases h : s.pcbMap.length ≥ cfg.pcbCapacity
      ∧ pcbFind s.pcbMap (PCBEntry.getBase addr) = none
  · rw [coalescePartial_overflow cfg now s addr data h.1 h.2]
    exact sendToPLUB_hits cfg (countPartial s) addr data
  · by_cases hf : (mergedEntry now s addr data).isFull = true
    · rw [coalescePartial_full cfg now s addr data h hf]
      exact sendToNVMain_hits cfg (countPartial s) _
    · have hf' : (mergedEntry now s addr data).isFull = false := by simpa using hf
      rw [coalescePartial_stage cfg now s addr data h hf']
      exact ⟨rfl, rfl⟩

theorem coalesceLoop_hits (cfg : Config) (now : Nat) (f g : Nat → Nat) (l : List Nat)
    (s : State) :
    (l.foldl (fun st i => coalescePartial cfg now st (f i) (g i)) s).stats.hits
        = s.stats.hits
      ∧ (l.foldl (fun st i => coalescePartial cfg now st (f i) (g i)) s).stats.misses
        = s.stats.misses := by
  induction l generalizing s with
  | nil => exact ⟨rfl, rfl⟩
  | cons a t ih =>
    rw [List.foldl_cons]
    obtain ⟨h1, h2⟩ := ih (coalescePartial cfg now s (f a) (g a))
    obtain ⟨h3, h4⟩ := coalescePartial_hits cfg now s (f a) (g a)
    exact ⟨h1.trans h3, h2.trans h4⟩

theorem evict_hits (cfg : Config) (now : Nat) (s : State) (setIdx wayIdx : Nat) :
    (evict cfg now s setIdx wayIdx).stats.hits = s.stats.hits
      ∧ (evict cfg now s setIdx wayIdx).stats.misses = s.stats.misses := by
  unfold evict
  simp only [setWay_stats]
  split
  · exact coalesceLoop_hits cfg now
      (fun i => ((((getWay s setIdx wayIdx).tag * cfg.numSets + setIdx) % 2 ^ 64
        * cfg.blockSize) % 2 ^ 64 + i * 8) % 2 ^ 64)
      (fun i => (getWay s setIdx wayIdx).data.getD i 0) (List.range 8) s
  · exact ⟨rfl, rfl⟩

theorem insert_hits (cfg : Config) (now : Nat) (s : State) (addr data : Nat) :
    (insert cfg now s addr data).stats.hits = s.stats.hits
      ∧ (insert cfg now s addr data).stats.misses = s.stats.misses := by
  unfold insert
  simp only []
  split
  · exact ⟨rfl, rfl⟩
  · split
    · exact ⟨rfl, rfl⟩
    · simp only [setWay_stats]
      exact evict_hits cfg now s _ _

/-- A read increments `hits` when `lookup` finds the line and `misses` otherwise. -/
theorem read_hits (cfg : Config) (now : Nat) (s : State) (addr : Nat) :
    ((lookup cfg now s addr).2 ≠ none
        ∧ (recvTimingReq cfg now s (Request.read addr)).1.stats.hits = s.stats.hits + 1
        ∧ (recvTimingReq cfg now s (Request.read addr)).1.stats.misses = s.stats.misses)
      ∨ ((lookup cfg now s addr).2 = none
        ∧ (recvTimingReq cfg now s (Request.read addr)).1.stats.hits = s.stats.hits
        ∧ (recvTimingReq cfg now s (Request.read addr)).1.stats.misses
            = s.stats.misses + 1) := by
  have hst := lookup_stats cfg now s addr
  simp only [recvTimingReq]
  rcases hlk : lookup cfg now s addr with ⟨s1, _ | d⟩
  · rw [hlk] at hst
    simp only at hst
    right
    obtain ⟨h1, h2⟩ := insert_hits cfg now
      { s1 with stats := { s1.stats with misses := s1.stats.misses + 1 } } addr 0
    refine ⟨rfl, ?_, ?_⟩
    · rw [h1]
      show s1.stats.hits = _
      rw [hst]
    · rw [h2]
      show s1.stats.misses + 1 = _
      rw [hst]
  · rw [hlk] at hst
    simp only at hst
    left
    refine ⟨by simp, ?_, ?_⟩
    · show s1.stats.hits + 1 = _
      rw [hst]
    · show s1.stats.misses = _
      rw [hst]

theorem write_hits (cfg : Config) (now : Nat) (s : State) (addr data : Nat) :
    (recvTimingReq cfg now s (Request.write addr data)).1.stats.hits = s.stats.hits
      ∧ (recvTimingReq cfg now s (Request.write addr data)).1.stats.misses
          = s.stats.misses := by
  simp only [recvTimingReq]
  obtain ⟨h1, h2⟩ := insert_hits cfg now (coalescePartial cfg now s addr data) addr data
  obtain ⟨h3, h4⟩ := coalescePartial_hits cfg now s addr data
  exact ⟨h1.trans h3, h2.trans h4⟩

theorem readCount_cons (r : Nat × Request) (t : List (Nat × Request)) :
    readCount (r :: t) = readCount [r] + readCount t := by
  unfold readCount
  rw [List.filter_cons, List.filter_cons]
  split
  · simp
    omega
  · simp

theorem runRequests_hits (cfg : Config) (reqs : List (Nat × Request)) (s : State) :
    (runRequests cfg s reqs).stats.hits + (runRequests cfg s reqs).stats.misses
      = s.stats.hits + s.stats.misses + readCount reqs := by
  induction reqs generalizing s with
  | nil => simp [runRequests, readCount]
  | cons r t ih =>
    have h3 : runRequests cfg s (r :: t)
        = runRequests cfg (recvTimingReq cfg r.1 s r.2).1 t := rfl
    rw [h3, ih, readCount_cons]
    obtain ⟨now, req⟩ := r
    cases req with
    | read addr =>
      have hc : readCount [(now, Request.read addr)] = 1 := rfl
      rw [hc]
      rcases read_hits cfg now s addr with ⟨_, h1, h2⟩ | ⟨_, h1, h2⟩
      · simp only [h1, h2]
        omega
      · simp only [h1, h2]
        omega
    | write addr data =>
      have hc : readCount [(now, Request.write addr data)] = 0 := rfl
      obtain ⟨h1, h2⟩ := write_hits cfg now s addr data
      rw [hc]
      simp only [h1, h2]
      omega

/-- C23. Hit and miss accounting: after any sequence of requests handled by `recvTimingReq`
from the initial state, `hits + misses` is the number of read requests, one `lookup` each;
a read adds one to `hits` when its `lookup` finds the line and one to `misses` otherwise,
leaving the other counter; a write changes neither. -/
theorem hits_misses_accounting (cfg : Config) (reqs : List (Nat × Request)) :
    (runRequests cfg (State.init cfg) reqs).stats.hits
        + (runRequests cfg (State.init cfg) reqs).stats.misses = readCount reqs
      ∧ (∀ (now : Nat) (s : State) (addr : Nat),
          ((lookup cfg now s addr).2 ≠ none
            ∧ (recvTimingReq cfg now s (Request.read addr)).1.stats.hits = s.stats.hits + 1
            ∧ (recvTimingReq cfg now s (Request.read addr)).1.stats.misses = s.stats.misses)
          ∨ ((lookup cfg now s addr).2 = none
            ∧ (recvTimingReq cfg now s (Request.read addr)).1.stats.hits = s.stats.hits
            ∧ (recvTimingReq cfg now s (Request.read addr)).1.stats.misses
                = s.stats.misses + 1))
      ∧ (∀ (now : Nat) (s : State) (addr data : Nat),
          (recvTimingReq cfg now s (Request.write addr data)).1.stats.hits = s.stats.hits
            ∧ (recvTimingReq cfg now s (Request.write addr data)).1.stats.misses
                = s.stats.misses) := by
  refine ⟨?_, read_hits cfg, write_hits cfg⟩
  have h := runRequests_hits cfg reqs (State.init cfg)
  simp only [State.init, Stats.init] at h ⊢
  omega

/-! ## Index safety of the address geometry -/

/-- C29. Index safety with `blockSize = 64` and at least one set: for every address the cache
offset `getOffset` and the partial index `(addr - getBase addr) / 8` of `coalescePartial`
are equal and below 8, `getBase addr` is a multiple of 64 with
`getBase addr ≤ addr < getBase addr + 64`, and `getSetIndex addr < numSets`. Hence, in a
cache of the constructed shape, `cacheSets[setIdx]` exists and `data[offset]` lies inside the
8 words of every way of that set, and the 8-byte copy at `offset * 8` ends inside the 64
bytes of a staging entry. -/
theorem geometry_in_bounds (cfg : Config) (addr : Nat) (hb : cfg.blockSize = 64)
    (hs : 1 ≤ cfg.numSets) :
    getOffset cfg addr = (addr - PCBEntry.getBase addr) / 8
      ∧ getOffset cfg addr < 8
      ∧ PCBEntry.getBase addr % 64 = 0
      ∧ PCBEntry.getBase addr ≤ addr
      ∧ addr < PCBEntry.getBase addr + 64
      ∧ getSetIndex cfg addr < cfg.numSets
      ∧ (∀ s : State, cacheWF cfg s →
          getSetIndex cfg addr < s.cacheSets.length
            ∧ ∀ i, i < cfg.numWays →
                i < (s.cacheSets.getD (getSetIndex cfg addr) (CacheSet.init 0)).ways.length
                  ∧ getOffset cfg addr < (getWay s (getSetIndex cfg addr) i).data.length)
      ∧ (∀ m : List (Nat × PCBEntry), pcbWF m → ∀ p ∈ m,
          (addr - PCBEntry.getBase addr) / 8 * 8 + 8 ≤ p.2.data.length)
      ∧ (addr - PCBEntry.getBase addr) / 8 * 8 + 8 ≤ PCBEntry.init.data.length := by
  have hoff : getOffset cfg addr = (addr - PCBEntry.getBase addr) / 8 := by
    unfold getOffset PCBEntry.getBase
    rw [hb]
    omega
  have hlt := getOffset_lt cfg addr hb
  have hset := getSetIndex_lt cfg addr hs
  refine ⟨hoff, hlt, ?_, ?_, ?_, hset, ?_, ?_, ?_⟩
  · unfold PCBEntry.getBase
    omega
  · unfold PCBEntry.getBase
    omega
  · unfold PCBEntry.getBase
    omega
  · intro s hwf
    refine ⟨by rw [hwf.1]; exact hset, ?_⟩
    intro i hi
    obtain ⟨_, h2, h3, _⟩ := cacheWF_way cfg s _ i hwf hset hi
    exact ⟨by omega, by omega⟩
  · intro m hwf p hp
    have := (hwf.2 p hp).2.2.2.1
    rw [← hoff]
    omega
  · rw [← hoff]
    simp only [PCBEntry.init, List.length_replicate]
    omega

theorem geometry_in_bounds_witness :
    getOffset (Config.source 4 4 64 1 64) 0x1238 = (0x1238 - PCBEntry.getBase 0x1238) / 8
      ∧ getOffset (Config.source 4 4 64 1 64) 0x1238 < 8
      ∧ getSetIndex (Config.source 4 4 64 1 64) 0x1238 < 4 :=
  have h := geometry_in_bounds (Config.source 4 4 64 1 64) 0x1238 rfl (by decide)
  ⟨h.1, h.2.1, h.2.2.2.2.2.1⟩

/-! ## Invariants of runs -/

/-- Induction over a run of events: a property of the state that `coalescePartial` and
`flushPCB` keep, and that does not depend on the cache ways nor on the counters `hits`,
`misses` and `evictions`, holds after every run from a state where it holds. -/
theorem run_invariant (cfg : Config) (P : State → Prop)
    (hco : ∀ now s addr data, P s → P (coalescePartial cfg now s addr data))
    (hfl : ∀ now s, P s → P (flushPCB cfg now s))
    (hway : ∀ s S i l, P s → P (setWay s S i l))
    (hhit : ∀ s : State, P s →
      P { s with stats := { s.stats with hits := s.stats.hits + 1 } })
    (hmiss : ∀ s : State, P s →
      P { s with stats := { s.stats with misses := s.stats.misses + 1 } })
    (hev : ∀ s : State, P s →
      P { s with stats := { s.stats with evictions := s.stats.evictions + 1 } }) :
    ∀ (ops : List Op) (s : State), P s → P (run cfg s ops) := by
  have hloop : ∀ (now : Nat) (f g : Nat → Nat) (l : List Nat) (st : State), P st →
      P (l.foldl (fun st i => coalescePartial cfg now st (f i) (g i)) st) := by
    intro now f g l
    induction l with
    | nil => exact fun st hst => hst
    | cons a t ih => exact fun st hst => ih _ (hco now st _ _ hst)
  have hevict : ∀ now s S i, P s → P (evict cfg now s S i) := by
    intro now s S i hs
    unfold evict
    simp only []
    apply hway
    split
    · exact hev _ (hloop now
        (fun k => ((((getWay s S i).tag * cfg.numSets + S) % 2 ^ 64
          * cfg.blockSize) % 2 ^ 64 + k * 8) % 2 ^ 64)
        (fun k => (getWay s S i).data.getD k 0) (List.range 8) s hs)
    · exact hs
  have hinsert : ∀ now s addr data, P s → P (insert cfg now s addr data) := by
    intro now s addr data hs
    unfold insert
    simp only []
    split
    · exact hway _ _ _ _ hs
    · split
      · exact hway _ _ _ _ hs
      · exact hway _ _ _ _ (hevict now s _ _ hs)
  have hlookup : ∀ now s addr, P s → P (lookup cfg now s addr).1 := by
    intro now s addr hs
    unfold lookup
    simp only []
    split
    · exact hway _ _ _ _ hs
    · exact hs
  have hstep : ∀ s op, P s → P (step cfg s op) := by
    intro s op hs
    cases op with
    | request now req =>
      cases req with
      | read addr =>
        have hl := hlookup now s addr hs
        simp only [step, recvTimingReq]
        rcases hlk : lookup cfg now s addr with ⟨s1, _ | d⟩
        · rw [hlk] at hl
          exact hinsert now _ addr 0 (hmiss s1 hl)
        · rw [hlk] at hl
          exact hhit s1 hl
      | write addr data =>
        simp only [step, recvTimingReq]
        exact hinsert now _ addr data (hco now s addr data hs)
    | evict now setIdx wayIdx => exact hevict now s setIdx wayIdx hs
    | coalesce now addr data => exact hco now s addr data hs
    | flush now => exact hfl now s hs
  intro ops
  induction ops with
  | nil => exact fun s hs => hs
  | cons op t ih => exact fun s hs => ih _ (hstep s op hs)

/-- Induction over the map loop of `flushPCB`. -/
theorem flushPCB_invariant (cfg : Config) (P : State → Prop)
    (hentry : ∀ s e, P s → P (flushEntry cfg s e))
    (hclear : ∀ (s : State) (t : Nat), P s → P { s with pcbMap := [], flushAt := t }) :
    ∀ now s, P s → P (flushPCB cfg now s) := by
  intro now s hs
  have key : ∀ (m : List (Nat × PCBEntry)) (st : State), P st →
      P (m.foldl (fun st p => flushEntry cfg st p.2) st) := by
    intro m
    induction m with
    | nil => exact fun st hst => hst
    | cons p t ih => exact fun st hst => ih _ (hentry st p.2 hst)
  exact hclear _ _ (key s.pcbMap s hs)

/-! ## Derived ratios -/

theorem coalescePartial_overflow_counts (cfg : Config) (now : Nat) (s : State)
    (addr data : Nat)
    (h : s.stats.pcbOverflows ≤ s.stats.pcbTotalPartials
      ∧ s.stats.plubPartials ≤ s.stats.pcbOverflows) :
    (coalescePartial cfg now s addr data).stats.pcbOverflows
        ≤ (coalescePartial cfg now s addr data).stats.pcbTotalPartials
      ∧ (coalescePartial cfg now s addr data).stats.plubPartials
        ≤ (coalescePartial cfg now s addr data).stats.pcbOverflows := by
  by_cases hb : s.pcbMap.length ≥ cfg.pcbCapacity
      ∧ pcbFind s.pcbMap (PCBEntry.getBase addr) = none
  · rw [coalescePartial_overflow cfg now s addr data hb.1 hb.2]
    unfold sendToPLUB countPartial
    split <;> simp only [] <;> omega
  · by_cases hf : (mergedEntry now s addr data).isFull = true
    · rw [coalescePartial_full cfg now s addr data hb hf]
      unfold sendToNVMain countPartial
      split <;> simp only [] <;> omega
    · have hf' : (mergedEntry now s addr data).isFull = false := by simpa using hf
      rw [coalescePartial_stage cfg now s addr data hb hf']
      unfold countPartial
      simp only []
      omega

theorem flushEntry_overflow_counts (cfg : Config) (s : State) (e : PCBEntry) :
    (flushEntry cfg s e).stats.pcbOverflows = s.stats.pcbOverflows
      ∧ (flushEntry cfg s e).stats.pcbTotalPartials = s.stats.pcbTotalPartials
      ∧ (flushEntry cfg s e).stats.plubPartials = s.stats.plubPartials := by
  unfold flushEntry sendToNVMain
  split
  · split <;> split <;> exact ⟨rfl, rfl, rfl⟩
  · exact ⟨rfl, rfl, rfl⟩

/-- In every state reached from the constructor state, an overflow is a counted partial and
a PLUB record is a counted overflow. -/
theorem run_overflow_counts (cfg : Config) (ops : List Op) :
    (run cfg (State.init cfg) ops).stats.pcbOverflows
        ≤ (run cfg (State.init cfg) ops).stats.pcbTotalPartials
      ∧ (run cfg (State.init cfg) ops).stats.plubPartials
        ≤ (run cfg (State.init cfg) ops).stats.pcbOverflows := by
  apply run_invariant cfg
    (fun s => s.stats.pcbOverflows ≤ s.stats.pcbTotalPartials
      ∧ s.stats.plubPartials ≤ s.stats.pcbOverflows)
  · exact fun now s addr data h => coalescePartial_overflow_counts cfg now s addr data h
  · apply flushPCB_invariant cfg
      (fun s => s.stats.pcbOverflows ≤ s.stats.pcbTotalPartials
        ∧ s.stats.plubPartials ≤ s.stats.pcbOverflows)
    · intro s e h
      obtain ⟨h1, h2, h3⟩ := flushEntry_overflow_counts cfg s e
      simp only [h1, h2, h3]
      exact h
    · exact fun s t h => h
  · exact fun s S i l h => h
  · exact fun s h => h
  · exact fun s h => h
  · exact fun s h => h
  · exact ⟨le_refl _, le_refl _⟩

theorem oneEach_succ (n : Nat) :
    oneEach (n + 1) = oneEach n ++ [{ now := n, addr := 64 * n, data := n }] := by
  simp [oneEach, List.range_succ]

/-- One partial for each of `n ≤ pcbCapacity` distinct bases: all `n` are staged, nothing is
queued, and only `pcbTotalPartials` has moved. -/
theorem oneEach_staged (cfg : Config) (n : Nat) (hn : n ≤ cfg.pcbCapacity) :
    (runCoalesce cfg (State.init cfg) (oneEach n)).pcbMap.length = n
      ∧ (∀ p ∈ (runCoalesce cfg (State.init cfg) (oneEach n)).pcbMap,
          ∃ i, i < n ∧ p.1 = 64 * i)
      ∧ (runCoalesce cfg (State.init cfg) (oneEach n)).writeQueue = []
      ∧ (runCoalesce cfg (State.init cfg) (oneEach n)).stats
          = { Stats.init with pcbTotalPartials := n } := by
  induction n with
  | zero =>
    refine ⟨rfl, ?_, rfl, rfl⟩
    intro p hp
    exact absurd hp (List.not_mem_nil _)
  | succ n ih =>
    obtain ⟨h1, h2, h3, h4⟩ := ih (by omega)
    rw [oneEach_succ, runCoalesce_append]
    generalize runCoalesce cfg (State.init cfg) (oneEach n) = st at h1 h2 h3 h4
    have hrun : runCoalesce cfg st [{ now := n, addr := 64 * n, data := n }]
        = coalescePartial cfg n st (64 * n) n := rfl
    rw [hrun]
    have hbase : PCBEntry.getBase (64 * n) = 64 * n := by
      unfold PCBEntry.getBase
      omega
    have hnone : pcbFind st.pcbMap (64 * n) = none := by
      rw [pcbFind_eq_none_iff]
      intro hmem
      obtain ⟨p, hp, hk⟩ := List.mem_map.mp hmem
      obtain ⟨i, hi, hpi⟩ := h2 p hp
      omega
    have hadm : ¬ (st.pcbMap.length ≥ cfg.pcbCapacity
        ∧ pcbFind st.pcbMap (PCBEntry.getBase (64 * n)) = none) := by
      rintro ⟨hlen, _⟩
      omega
    have hme : mergedEntry n st (64 * n) n = mergePartial n PCBEntry.init (64 * n) 0 n := by
      have := mergedEntry_slot n st (64 * n) 0 n (by omega) (by norm_num)
      simp only [Nat.mul_zero, Nat.add_zero] at this
      rw [this, hnone]
      rfl
    have hnf : (mergedEntry n st (64 * n) n).isFull = false := by
      unfold PCBEntry.isFull
      rw [hme, mergePartial_validMask]
      decide
    rw [coalescePartial_stage cfg n st (64 * n) n hadm hnf, hbase]
    refine ⟨?_, ?_, ?_, ?_⟩
    · show (pcbInsert st.pcbMap (64 * n) _).length = n + 1
      rw [pcbInsert_length_none _ _ _ hnone, h1]
    · intro p hp
      rcases pcbInsert_mem hp with rfl | hp'
      · exact ⟨n, by omega, rfl⟩
      · obtain ⟨i, hi, hpi⟩ := h2 p hp'
        exact ⟨i, by omega, hpi⟩
    · exact h3
    · show { st.stats with pcbTotalPartials := st.stats.pcbTotalPartials + 1 } = _
      rw [h4]

/-- One partial more than the buffer has places: the last one overflows to PLUB. -/
theorem oneEach_overflow (cfg : Config) (hq : 0 < sizeT cfg.writeQueueCapacity) :
    (runCoalesce cfg (State.init cfg) (oneEach (cfg.pcbCapacity + 1))).stats
      = { Stats.init with
          pcbTotalPartials := cfg.pcbCapacity + 1, pcbOverflows := 1, plubPartials := 1 } := by
  obtain ⟨h1, h2, h3, h4⟩ := oneEach_staged cfg cfg.pcbCapacity (le_refl _)
  rw [oneEach_succ, runCoalesce_append]
  generalize runCoalesce cfg (State.init cfg) (oneEach cfg.pcbCapacity) = st at h1 h2 h3 h4
  show (coalescePartial cfg cfg.pcbCapacity st (64 * cfg.pcbCapacity) cfg.pcbCapacity).stats
    = _
  have hbase : PCBEntry.getBase (64 * cfg.pcbCapacity) = 64 * cfg.pcbCapacity := by
    unfold PCBEntry.getBase
    omega
  have hnone : pcbFind st.pcbMap (PCBEntry.getBase (64 * cfg.pcbCapacity)) = none := by
    rw [hbase, pcbFind_eq_none_iff]
    intro hmem
    obtain ⟨p, hp, hk⟩ := List.mem_map.mp hmem
    obtain ⟨i, hi, hpi⟩ := h2 p hp
    omega
  rw [coalescePartial_overflow cfg _ st _ _ (by omega) hnone]
  have hroom : (countPartial st).writeQueue.length < sizeT cfg.writeQueueCapacity := by
    show st.writeQueue.length < _
    rw [h3]
    exact hq
  unfold sendToPLUB
  rw [if_pos hroom]
  show { st.stats with
    pcbTotalPartials := st.stats.pcbTotalPartials + 1
    plubPartials := st.stats.plubPartials + 1
    pcbOverflows := st.stats.pcbOverflows + 1 } = _
  rw [h4]
  rfl

/-- C22, as stated, fails on the code: after one partial for each of 257 distinct bases the
buffer of 256 entries has overflowed once, so `pcbOverflows = 1`, `plubPartials = 1` and
`pcbTotalPartials = 257`; the reported `overflowRate` and `plubOverhead` are `100 / 257`,
not `1 / 257`. -/
theorem ratios_are_percentages :
    (runCoalesce (Config.source 4 4 64 1 64) (State.init (Config.source 4 4 64 1 64))
        (oneEach 257)).stats.pcbTotalPartials = 257
      ∧ (runCoalesce (Config.source 4 4 64 1 64) (State.init (Config.source 4 4 64 1 64))
        (oneEach 257)).stats.pcbOverflows = 1
      ∧ (runCoalesce (Config.source 4 4 64 1 64) (State.init (Config.source 4 4 64 1 64))
        (oneEach 257)).stats.plubPartials = 1
      ∧ overflowRate (runCoalesce (Config.source 4 4 64 1 64)
          (State.init (Config.source 4 4 64 1 64)) (oneEach 257)).stats
        ≠ (1 : ℚ) / 257
      ∧ plubOverhead (runCoalesce (Config.source 4 4 64 1 64)
          (State.init (Config.source 4 4 64 1 64)) (oneEach 257)).stats
        ≠ (1 : ℚ) / 257 := by
  have h := oneEach_overflow (Config.source 4 4 64 1 64) (by decide)
  have h' : (runCoalesce (Config.source 4 4 64 1 64)
      (State.init (Config.source 4 4 64 1 64)) (oneEach 257)).stats
      = { Stats.init with pcbTotalPartials := 257, pcbOverflows := 1, plubPartials := 1 } := h
  rw [h']
  refine ⟨rfl, rfl, rfl, ?_, ?_⟩
  · unfold overflowRate
    norm_num [Stats.init]
  · unfold plubOverhead
    norm_num [Stats.init]

/-- C22, amended: in every state reached from the constructor state with
`pcbTotalPartials > 0`, the reported `overflowRate` is the percentage
`100 * pcbOverflows / pcbTotalPartials` and the reported `plubOverhead` is the percentage
`100 * plubPartials / pcbTotalPartials`; both lie between 0 and 100, and `plubOverhead` is
at most `overflowRate`. -/
theorem ratios_percent (cfg : Config) (ops : List Op)
    (hpos : 0 < (run cfg (State.init cfg) ops).stats.pcbTotalPartials) :
    overflowRate (run cfg (State.init cfg) ops).stats
        = 100 * ((run cfg (State.init cfg) ops).stats.pcbOverflows : ℚ)
            / ((run cfg (State.init cfg) ops).stats.pcbTotalPartials : ℚ)
      ∧ plubOverhead (run cfg (State.init cfg) ops).stats
        = 100 * ((run cfg (State.init cfg) ops).stats.plubPartials : ℚ)
            / ((run cfg (State.init cfg) ops).stats.pcbTotalPartials : ℚ)
      ∧ 0 ≤ plubOverhead (run cfg (State.init cfg) ops).stats
      ∧ plubOverhead (run cfg (State.init cfg) ops).stats
          ≤ overflowRate (run cfg (State.init cfg) ops).stats
      ∧ overflowRate (run cfg (State.init cfg) ops).stats ≤ 100 := by
  obtain ⟨h1, h2⟩ := run_overflow_counts cfg ops
  generalize (run cfg (State.init cfg) ops).stats = st at hpos h1 h2
  unfold overflowRate plubOverhead
  have ht : (0 : ℚ) < (st.pcbTotalPartials : ℚ) := by exact_mod_cast hpos
  have h1' : (st.pcbOverflows : ℚ) ≤ (st.pcbTotalPartials : ℚ) := by exact_mod_cast h1
  have h2' : (st.plubPartials : ℚ) ≤ (st.pcbOverflows : ℚ) := by exact_mod_cast h2
  have h0 : (0 : ℚ) ≤ (st.plubPartials : ℚ) := by positivity
  refine ⟨by ring, by ring, by positivity, ?_, ?_⟩
  · apply mul_le_mul_of_nonneg_right _ (by norm_num)
    exact div_le_div_of_nonneg_right h2' ht.le
  · rw [div_mul_eq_mul_div, div_le_iff₀ ht]
    linarith

theorem ratios_percent_witness :
    0 < (run (Config.source 4 4 64 1 64) (State.init (Config.source 4 4 64 1 64))
        [Op.coalesce 0 0x0 1]).stats.pcbTotalPartials
      ∧ overflowRate (run (Config.source 4 4 64 1 64)
          (State.init (Config.source 4 4 64 1 64)) [Op.coalesce 0 0x0 1]).stats ≤ 100 :=
  ⟨by decide,
    (ratios_percent (Config.source 4 4 64 1 64) [Op.coalesce 0 0x0 1] (by decide)).2.2.2.2⟩

/-! ## Construction with an invalid configuration -/

/-- C26. The constructor of `MetadataCache` has no validation: with `num_ways = 0`, with
`access_latency = 0`, and with `block_size = 60` (not a 64-byte block of 8-byte partials) it
returns the object, while the constructor of `AESCTRGenerator` with `latency = 0` fails. In
the object built with `num_ways = 0` every set has no way, and `findVictim` names way 0. -/
theorem construct_accepts_invalid :
    construct (Config.source 4 0 64 1 64) = Except.ok (State.init (Config.source 4 0 64 1 64))
      ∧ construct (Config.source 4 4 64 0 64)
          = Except.ok (State.init (Config.source 4 4 64 0 64))
      ∧ construct (Config.source 4 4 60 1 64)
          = Except.ok (State.init (Config.source 4 4 60 1 64))
      ∧ AESCTRGenerator.construct
          { latency := 0, counterLatency := 0, startCounter := 0, keySeed := 0,
            testRequests := 0 }
          = Except.error "AESCTRGenerator latency must be positive."
      ∧ (∀ cs ∈ (State.init (Config.source 4 0 64 1 64)).cacheSets, cs.ways.length = 0)
      ∧ findVictim (Config.source 4 0 64 1 64) (State.init (Config.source 4 0 64 1 64)) 0
          = 0 := by
  refine ⟨rfl, rfl, rfl, rfl, ?_, rfl⟩
  decide

/-! ## The write queue and the port towards the NVM -/

/-- No event of the object removes a record from the write queue: after any run the old
queue is an initial segment of the new one. -/
theorem run_queue_grows (cfg : Config) (ops : List Op) (s : State) :
    ∃ recs, (run cfg s ops).writeQueue = s.writeQueue ++ recs := by
  apply run_invariant cfg (fun st => ∃ recs, st.writeQueue = s.writeQueue ++ recs)
  · intro now st addr data h
    obtain ⟨r1, h1⟩ := h
    obtain ⟨r2, h2⟩ := coalescePartial_grows cfg now st addr data
    exact ⟨r1 ++ r2, by rw [h2, h1, List.append_assoc]⟩
  · intro now st h
    obtain ⟨r1, h1⟩ := h
    obtain ⟨r2, h2⟩ := flushPCB_grows cfg now st
    exact ⟨r1 ++ r2, by rw [h2, h1, List.append_assoc]⟩
  · exact fun st S i l h => h
  · exact fun st h => h
  · exact fun st h => h
  · exact fun st h => h
  · exact ⟨[], by simp⟩

theorem retryLoop_all_accepted (k : Nat) (q : List Nat) :
    NVMainPort.retryLoop (fun _ => true) k q = [] := by
  induction q generalizing k with
  | nil => rfl
  | cons p t ih => simp [NVMainPort.retryLoop, ih]

/-- C27, as stated, fails on the code: with the record `(0x0, 1)` in the write queue (after
one partial and a flush), an acknowledgement `recvTimingResp` and a readiness signal
`recvReqRetry`, both with an accepting peer, leave the write queue as it was: the head
record is still there and the length is still 1. -/
theorem ack_leaves_writeQueue :
    (runPcb (Config.source 4 4 64 1 64) (State.init (Config.source 4 4 64 1 64))
        [PcbOp.coalesce 0 0x0 1, PcbOp.flush 1]).writeQueue = [(0x0, 1)]
      ∧ (NVMainPort.recvTimingResp true
          { cache := runPcb (Config.source 4 4 64 1 64)
              (State.init (Config.source 4 4 64 1 64))
              [PcbOp.coalesce 0 0x0 1, PcbOp.flush 1],
            queuedPackets := [] } 0).1.cache.writeQueue = [(0x0, 1)]
      ∧ (NVMainPort.recvReqRetry (fun _ => true)
          { cache := runPcb (Config.source 4 4 64 1 64)
              (State.init (Config.source 4 4 64 1 64))
              [PcbOp.coalesce 0 0x0 1, PcbOp.flush 1],
            queuedPackets := [] }).cache.writeQueue = [(0x0, 1)] := by
  have h : (runPcb (Config.source 4 4 64 1 64) (State.init (Config.source 4 4 64 1 64))
      [PcbOp.coalesce 0 0x0 1, PcbOp.flush 1]).writeQueue = [(0x0, 1)] := by decide
  exact ⟨h, h, h⟩

/-- C27, amended: `recvTimingResp` and `recvReqRetry` work on the port's own deque
`queuedPackets` and leave the cache state, hence the write queue, untouched. On an
acknowledgement the head of `queuedPackets` is sent again: it is removed when the peer
accepts it, and pushed once more at the back when the peer refuses it; on a readiness signal
with an accepting peer the deque is emptied head first. No event of the object removes a
record from the write queue, so its length never decreases. -/
theorem writeQueue_never_drains (cfg : Config) :
    (∀ (accepted : Bool) (d : Device) (pkt : Nat),
        (NVMainPort.recvTimingResp accepted d pkt).1.cache = d.cache)
      ∧ (∀ (accepted : Nat → Bool) (d : Device),
        (NVMainPort.recvReqRetry accepted d).cache = d.cache)
      ∧ (∀ (d : Device) (pkt next : Nat) (rest : List Nat),
        d.queuedPackets = next :: rest →
          (NVMainPort.recvTimingResp true d pkt).1.queuedPackets = rest
            ∧ (NVMainPort.recvTimingResp false d pkt).1.queuedPackets
                = next :: rest ++ [next])
      ∧ (∀ d : Device, (NVMainPort.recvReqRetry (fun _ => true) d).queuedPackets = [])
      ∧ (∀ (ops : List Op) (s : State),
        ∃ recs, (run cfg s ops).writeQueue = s.writeQueue ++ recs)
      ∧ (∀ (ops : List Op) (s : State),
        s.writeQueue.length ≤ (run cfg s ops).writeQueue.length) := by
  refine ⟨?_, ?_, ?_, ?_, run_queue_grows cfg, ?_⟩
  · intro accepted d pkt
    unfold NVMainPort.recvTimingResp NVMainPort.sendTimingReq
    cases d.queuedPackets with
    | nil => rfl
    | cons next rest => cases accepted <;> rfl
  · intro accepted d
    rfl
  · intro d pkt next rest h
    unfold NVMainPort.recvTimingResp NVMainPort.sendTimingReq
    rw [h]
    simp [h]
  · intro d
    exact retryLoop_all_accepted 0 d.queuedPackets
  · intro ops s
    obtain ⟨recs, h⟩ := run_queue_grows cfg ops s
    rw [h, List.length_append]
    omega

/-! ## Latency of the NVM controller -/

/-- C28, as stated, fails on the code while a request is in flight: a controller with
`tRCD = 10`, `tCL = 20`, `tWR = 30` accepts a write at tick 0 and schedules its response at
tick 30; a read that arrives at tick 5 is refused (`false`, `retryReq` set) and no response
is scheduled for it: `responseEvent` stays at tick 30, not `5 + 0 + 0 + 30`. -/
theorem busy_controller_schedules_nothing :
    NVMainControl.recvTimingReq 0 (NVMainControl.init 10 20 30)
        { isRead := false, isWrite := true, cacheResponding := false, size := 8,
          headerDelay := 0, payloadDelay := 0 }
      = Except.ok
          ({ NVMainControl.init 10 20 30 with
              pendingRequest := some
                { isRead := false, isWrite := true, cacheResponding := false, size := 8,
                  headerDelay := 0, payloadDelay := 0 }
              responseAt := some 30
              stats := { numReads := 0, numWrites := 1, bytesRead := 0, bytesWritten := 8,
                         readLatency := [], writeLatency := [30] } }, true)
      ∧ NVMainControl.recvTimingReq 5
          { NVMainControl.init 10 20 30 with
              pendingRequest := some
                { isRead := false, isWrite := true, cacheResponding := false, size := 8,
                  headerDelay := 0, payloadDelay := 0 }
              responseAt := some 30
              stats := { numReads := 0, numWrites := 1, bytesRead := 0, bytesWritten := 8,
                         readLatency := [], writeLatency := [30] } }
          { isRead := true, isWrite := false, cacheResponding := false, size := 8,
            headerDelay := 0, payloadDelay := 0 }
        = Except.ok
          ({ NVMainControl.init 10 20 30 with
              pendingRequest := some
                { isRead := false, isWrite := true, cacheResponding := false, size := 8,
                  headerDelay := 0, payloadDelay := 0 }
              responseAt := some 30
              retryReq := true
              stats := { numReads := 0, numWrites := 1, bytesRead := 0, bytesWritten := 8,
                         readLatency := [], writeLatency := [30] } }, false) :=
  ⟨rfl, rfl⟩

/-- C28, amended. `packetLatency` returns `tRCD + tCL` (a 64-bit sum) for a read and `tWR`
for a write that is not a read. `recvAtomic` panics on a packet to which a cache responds
and otherwise returns exactly that latency. `recvTimingReq`, for a read or write to which no
cache responds, refuses the packet (returns `false`, sets `retryReq`, schedules nothing)
while a request is pending or a response waits for a retry; otherwise it accepts the packet,
clears its delays, and schedules the response at
`now + (headerDelay + payloadDelay) + latency`, the delays summed in 32 bits and the ticks in
64 bits, which is `now + headerDelay + payloadDelay + latency` when nothing wraps. -/
theorem nvm_sink_latency (c : NVMainControl) (pkt : Packet) (now : Nat) :
    (pkt.isRead = true → c.packetLatency pkt = (c.tRCD + c.tCL) % 2 ^ 64)
      ∧ (pkt.isRead = false → pkt.isWrite = true → c.packetLatency pkt = c.tWR)
      ∧ (pkt.cacheResponding = true → ∃ msg, c.recvAtomic pkt = Except.error msg)
      ∧ (pkt.cacheResponding = false →
          c.recvAtomic pkt
            = Except.ok (c.recordStats pkt (c.packetLatency pkt), c.packetLatency pkt))
      ∧ (pkt.cacheResponding = false → (pkt.isRead || pkt.isWrite) = true →
          (c.pendingRequest ≠ none ∨ c.retryRespPkt ≠ none) →
          c.recvTimingReq now pkt = Except.ok ({ c with retryReq := true }, false))
      ∧ (pkt.cacheResponding = false → (pkt.isRead || pkt.isWrite) = true →
          c.pendingRequest = none → c.retryRespPkt = none → c.responseAt = none →
          ∃ c1, c.recvTimingReq now pkt = Except.ok (c1, true)
            ∧ c1.pendingRequest = some { pkt with headerDelay := 0, payloadDelay := 0 }
            ∧ c1.responseAt = some ((now + ((pkt.headerDelay + pkt.payloadDelay) % 2 ^ 32
                + c.packetLatency pkt) % 2 ^ 64) % 2 ^ 64)
            ∧ (pkt.headerDelay + pkt.payloadDelay < 2 ^ 32 →
                now + pkt.headerDelay + pkt.payloadDelay + c.packetLatency pkt < 2 ^ 64 →
                c1.responseAt
                  = some (now + pkt.headerDelay + pkt.payloadDelay + c.packetLatency pkt))) := by
  refine ⟨?_, ?_, ?_, ?_, ?_, ?_⟩
  · intro h
    simp [NVMainControl.packetLatency, h]
  · intro h1 h2
    simp [NVMainControl.packetLatency, h1, h2]
  · intro h
    exact ⟨"Should not see packets where cache is responding",
      by simp [NVMainControl.recvAtomic, h]⟩
  · intro h
    simp [NVMainControl.recvAtomic, h]
  · intro h1 h2 h3
    have hbusy : (c.pendingRequest.isSome || c.retryRespPkt.isSome) = true := by
      rcases h3 with h3 | h3
      · cases hp : c.pendingRequest with
        | none => exact absurd hp h3
        | some p => simp
      · cases hp : c.retryRespPkt with
        | none => exact absurd hp h3
        | some p => simp
    unfold NVMainControl.recvTimingReq
    simp [h1, h2, hbusy]
  · intro h1 h2 h3 h4 h5
    have hlat : NVMainControl.packetLatency
        { c with pendingRequest := some { pkt with headerDelay := 0, payloadDelay := 0 } }
        { pkt with headerDelay := 0, payloadDelay := 0 } = c.packetLatency pkt := rfl
    have hsched : (NVMainControl.recordStats
        { c with pendingRequest := some { pkt with headerDelay := 0, payloadDelay := 0 } }
        { pkt with headerDelay := 0, payloadDelay := 0 }
        (((pkt.headerDelay + pkt.payloadDelay) % 2 ^ 32 + c.packetLatency pkt) % 2 ^ 64)
        ).responseAt = none := by
      unfold NVMainControl.recordStats
      split
      · exact h5
      · split
        · exact h5
        · exact h5
    have hpend : (NVMainControl.recordStats
        { c with pendingRequest := some { pkt with headerDelay := 0, payloadDelay := 0 } }
        { pkt with headerDelay := 0, payloadDelay := 0 }
        (((pkt.headerDelay + pkt.payloadDelay) % 2 ^ 32 + c.packetLatency pkt) % 2 ^ 64)
        ).pendingRequest = some { pkt with headerDelay := 0, payloadDelay := 0 } := by
      unfold NVMainControl.recordStats
      split
      · rfl
      · split
        · rfl
        · rfl
    refine ⟨{ (NVMainControl.recordStats
        { c with pendingRequest := some { pkt with headerDelay := 0, payloadDelay := 0 } }
        { pkt with headerDelay := 0, payloadDelay := 0 }
        (((pkt.headerDelay + pkt.payloadDelay) % 2 ^ 32 + c.packetLatency pkt) % 2 ^ 64))
        with responseAt := some ((now + ((pkt.headerDelay + pkt.payloadDelay) % 2 ^ 32
                + c.packetLatency pkt) % 2 ^ 64) % 2 ^ 64) }, ?_, hpend, rfl, ?_⟩
    · unfold NVMainControl.recvTimingReq
      rw [if_neg (by simp [h1]), if_neg (by simp [h2]), if_neg (by simp [h3, h4])]
      have hns : ¬ ((NVMainControl.recordStats
          { c with pendingRequest := some { pkt with headerDelay := 0, payloadDelay := 0 } }
          { pkt with headerDelay := 0, payloadDelay := 0 }
          (((pkt.headerDelay + pkt.payloadDelay) % 2 ^ 32 + c.packetLatency pkt) % 2 ^ 64)
          ).responseAt.isSome = true) := by
        rw [hsched]
        simp
      exact if_neg hns
    · intro hd ht
      show some _ = some _
      congr 1
      rw [Nat.mod_eq_of_lt hd, Nat.mod_eq_of_lt (by omega), Nat.mod_eq_of_lt (by omega)]
      omega

/-! ## The flags `valid` and `dirty` of the cache lines -/

theorem init_invalidClean (cfg : Config) : InvalidClean (State.init cfg) := by
  intro S i _
  unfold getWay
  simp only [State.init, getD_replicate]
  split
  · simp only [CacheSet.init, getD_replicate]
    split <;> rfl
  · simp only [CacheSet.init, getD_replicate]
    split <;> rfl

theorem lookup_invalidClean (cfg : Config) (now : Nat) (s : State) (addr : Nat)
    (h : InvalidClean s) : InvalidClean (lookup cfg now s addr).1 :=
  lookup_lines (fun l => l.valid = false → l.dirty = false) cfg now s addr
    (fun _ => rfl) (fun _ hl => hl) h

theorem insert_invalidClean (cfg : Config) (now : Nat) (s : State) (addr data : Nat)
    (h : InvalidClean s) : InvalidClean (insert cfg now s addr data) := by
  rcases hfh : findHit cfg s (getSetIndex cfg addr) (getTag cfg addr) with _ | i
  · rcases hfi : findInvalid cfg s (getSetIndex cfg addr) with _ | i
    · rw [insert_evict cfg now s addr data hfh hfi]
      apply setWay_lines (fun l => l.valid = false → l.dirty = false) _ _ _ _ (fun _ => rfl)
      · intro hv
        exact absurd hv (by simp)
      · intro S i hne
        rw [getWay_evict_other cfg now s _ _ S i hne]
        exact h S i
    · rw [insert_fill cfg now s addr data i hfh hfi]
      apply setWay_lines (fun l => l.valid = false → l.dirty = false) _ _ _ _ (fun _ => rfl)
      · intro hv
        exact absurd hv (by simp)
      · exact fun S i _ => h S i
  · rw [insert_hit cfg now s addr data i hfh]
    obtain ⟨_, hhit, _⟩ := (findHit_eq_some _ _ _ _ _).mp hfh
    apply setWay_lines (fun l => l.valid = false → l.dirty = false) _ _ _ _ (fun _ => rfl)
    · intro hv
      have : (getWay s (getSetIndex cfg addr) i).valid = false := hv
      rw [hhit.1] at this
      exact absurd this (by simp)
    · exact fun S i _ => h S i

/-- C24, as stated, fails on the code for `evict`: in the 1-set 1-way cache, after
`insert(0x0, 5)` the invariant holds (the only line is valid and dirty); `evict(0, 0)` then
clears `valid` and leaves `dirty` set, so the invalidated way is dirty and the invariant is
broken. -/
theorem evict_leaves_dirty :
    InvalidClean (insert (Config.source 1 1 64 1 64) 1
        (State.init (Config.source 1 1 64 1 64)) 0x0 5)
      ∧ (getWay (evict (Config.source 1 1 64 1 64) 2
          (insert (Config.source 1 1 64 1 64) 1
            (State.init (Config.source 1 1 64 1 64)) 0x0 5) 0 0) 0 0).valid = false
      ∧ (getWay (evict (Config.source 1 1 64 1 64) 2
          (insert (Config.source 1 1 64 1 64) 1
            (State.init (Config.source 1 1 64 1 64)) 0x0 5) 0 0) 0 0).dirty = true
      ∧ ¬ InvalidClean (evict (Config.source 1 1 64 1 64) 2
          (insert (Config.source 1 1 64 1 64) 1
            (State.init (Config.source 1 1 64 1 64)) 0x0 5) 0 0) := by
  have hv : (getWay (evict (Config.source 1 1 64 1 64) 2
      (insert (Config.source 1 1 64 1 64) 1
        (State.init (Config.source 1 1 64 1 64)) 0x0 5) 0 0) 0 0).valid = false := by
    decide
  have hd : (getWay (evict (Config.source 1 1 64 1 64) 2
      (insert (Config.source 1 1 64 1 64) 1
        (State.init (Config.source 1 1 64 1 64)) 0x0 5) 0 0) 0 0).dirty = true := by
    decide
  refine ⟨insert_invalidClean _ _ _ _ _ (init_invalidClean _), hv, hd, ?_⟩
  intro hcon
  have := hcon 0 0 hv
  rw [hd] at this
  exact Bool.noConfusion this

/-- C24, amended, for the block size 64 of the cache geometry (the word index `getOffset`
of every address is then below 8, inside the 8 words of a line): `lookup` and `insert`,
applied to any state in which every line that is not valid is not dirty, give such a state
again. `evict(set, way)` clears only `valid`: the way it invalidates keeps its `dirty` flag
(so it is dirty when the evicted line was) and every other way is unchanged; `insert`, the
only caller of `evict`, stores a valid line into that way right after, which is how it keeps
the invariant. -/
theorem invalid_lines_clean (cfg : Config) (now : Nat) (s : State)
    (hB : cfg.blockSize = 64) (h : InvalidClean s) :
    (∀ addr, getOffset cfg addr < 8)
      ∧ (∀ addr, InvalidClean (lookup cfg now s addr).1)
      ∧ (∀ addr data, InvalidClean (insert cfg now s addr data))
      ∧ (∀ S i, S < s.cacheSets.length →
          i < (s.cacheSets.getD S (CacheSet.init 0)).ways.length →
          (getWay (evict cfg now s S i) S i).valid = false
            ∧ (getWay (evict cfg now s S i) S i).dirty = (getWay s S i).dirty)
      ∧ (∀ S i S' j, (S' ≠ S ∨ j ≠ i) →
          getWay (evict cfg now s S i) S' j = getWay s S' j) := by
  refine ⟨fun addr => getOffset_lt cfg addr hB,
    fun addr => lookup_invalidClean cfg now s addr h,
    fun addr data => insert_invalidClean cfg now s addr data h, ?_, ?_⟩
  · intro S i hS hi
    rw [getWay_evict_same cfg now s S i hS hi]
    exact ⟨rfl, rfl⟩
  · intro S i S' j hne
    exact getWay_evict_other cfg now s S i S' j hne

/-- Witness of C24: the constructor state of a cache of 64-byte blocks and an `insert` into
it. -/
theorem invalid_lines_clean_witness :
    (Config.source 4 2 64 1 16).blockSize = 64
      ∧ InvalidClean (State.init (Config.source 4 2 64 1 16))
      ∧ InvalidClean (insert (Config.source 4 2 64 1 16) 5
          (State.init (Config.source 4 2 64 1 16)) 0x48 7) :=
  ⟨rfl, init_invalidClean _,
    (invalid_lines_clean (Config.source 4 2 64 1 16) 5
      (State.init (Config.source 4 2 64 1 16)) rfl (init_invalidClean _)).2.2.1 0x48 7⟩

theorem flushPCB_cacheSets (cfg : Config) (now : Nat) (s : State) :
    (flushPCB cfg now s).cacheSets = s.cacheSets := by
  apply flushPCB_invariant cfg (fun st => st.cacheSets = s.cacheSets)
  · intro st e h
    unfold flushEntry
    split
    · split
      · show (sendToNVMain cfg st e).cacheSets = s.cacheSets
        rw [sendToNVMain_cacheSets]
        exact h
      · show (sendToNVMain cfg st e).cacheSets = s.cacheSets
        rw [sendToNVMain_cacheSets]
        exact h
    · exact h
  · exact fun st t h => h
  · rfl

theorem validDirty_congr (s s' : State) (h : s'.cacheSets = s.cacheSets)
    (hs : ValidDirty s) : ValidDirty s' := by
  intro S i
  rw [getWay_congr s s' h]
  exact hs S i

theorem init_validDirty (cfg : Config) : ValidDirty (State.init cfg) := by
  intro S i hv
  rw [init_invalid] at hv
  exact Bool.noConfusion hv

theorem lookup_validDirty (cfg : Config) (now : Nat) (s : State) (addr : Nat)
    (h : ValidDirty s) : ValidDirty (lookup cfg now s addr).1 :=
  lookup_lines (fun l => l.valid = true → l.dirty = true) cfg now s addr
    (fun hv => Bool.noConfusion hv) (fun _ hl => hl) h

theorem evict_validDirty (cfg : Config) (now : Nat) (s : State) (S i : Nat)
    (h : ValidDirty s) : ValidDirty (evict cfg now s S i) := by
  apply validDirty_congr _ _ (evict_cacheSets cfg now s S i)
  apply setWay_lines (fun l => l.valid = true → l.dirty = true) _ _ _ _
    (fun hv => Bool.noConfusion hv)
  · intro hv
    exact Bool.noConfusion hv
  · exact fun S' j _ => h S' j

theorem insert_validDirty (cfg : Config) (now : Nat) (s : State) (addr data : Nat)
    (h : ValidDirty s) : ValidDirty (insert cfg now s addr data) := by
  rcases hfh : findHit cfg s (getSetIndex cfg addr) (getTag cfg addr) with _ | i
  · rcases hfi : findInvalid cfg s (getSetIndex cfg addr) with _ | i
    · rw [insert_evict cfg now s addr data hfh hfi]
      apply setWay_lines (fun l => l.valid = true → l.dirty = true) _ _ _ _
        (fun hv => Bool.noConfusion hv) (fun _ => rfl)
      exact fun S i _ => evict_validDirty cfg now s _ _ h S i
    · rw [insert_fill cfg now s addr data i hfh hfi]
      exact setWay_lines (fun l => l.valid = true → l.dirty = true) _ _ _ _
        (fun hv => Bool.noConfusion hv) (fun _ => rfl) (fun S i _ => h S i)
  · rw [insert_hit cfg now s addr data i hfh]
    exact setWay_lines (fun l => l.valid = true → l.dirty = true) _ _ _ _
      (fun hv => Bool.noConfusion hv) (fun _ => rfl) (fun S i _ => h S i)

theorem step_validDirty (cfg : Config) (s : State) (op : Op) (h : ValidDirty s) :
    ValidDirty (step cfg s op) := by
  cases op with
  | request now req =>
    cases req with
    | read addr =>
      have hl := lookup_validDirty cfg now s addr h
      simp only [step, recvTimingReq]
      rcases hlk : lookup cfg now s addr with ⟨s1, _ | d⟩
      · rw [hlk] at hl
        exact insert_validDirty cfg now _ addr 0 (validDirty_congr s1 _ rfl hl)
      · rw [hlk] at hl
        exact validDirty_congr s1 _ rfl hl
    | write addr data =>
      simp only [step, recvTimingReq]
      exact insert_validDirty cfg now _ addr data
        (validDirty_congr s _ (coalescePartial_cacheSets cfg now s addr data) h)
  | evict now setIdx wayIdx => exact evict_validDirty cfg now s setIdx wayIdx h
  | coalesce now addr data =>
    exact validDirty_congr s _ (coalescePartial_cacheSets cfg now s addr data) h
  | flush now => exact validDirty_congr s _ (flushPCB_cacheSets cfg now s) h

theorem run_validDirty (cfg : Config) (ops : List Op) (s : State) (h : ValidDirty s) :
    ValidDirty (run cfg s ops) := by
  induction ops generalizing s with
  | nil => exact h
  | cons op t ih => exact ih _ (step_validDirty cfg s op h)

/-- After `insert(addr, data)` on a miss, the scan of the addressed set for the tag of `addr`
stops at a way that is valid and dirty and holds `data` at the offset of `addr`. -/
theorem insert_miss_line (cfg : Config) (now : Nat) (s : State) (addr data : Nat)
    (hwf : cacheWF cfg s) (hsets : 1 ≤ cfg.numSets) (hways : 1 ≤ cfg.numWays)
    (hbs : cfg.blockSize = 64)
    (hfh : findHit cfg s (getSetIndex cfg addr) (getTag cfg addr) = none) :
    ∃ i, i < cfg.numWays
      ∧ findHit cfg (insert cfg now s addr data) (getSetIndex cfg addr) (getTag cfg addr)
          = some i
      ∧ (getWay (insert cfg now s addr data) (getSetIndex cfg addr) i).valid = true
      ∧ (getWay (insert cfg now s addr data) (getSetIndex cfg addr) i).tag = getTag cfg addr
      ∧ (getWay (insert cfg now s addr data) (getSetIndex cfg addr) i).dirty = true
      ∧ (getWay (insert cfg now s addr data) (getSetIndex cfg addr) i).data.getD
          (getOffset cfg addr) 0 = data := by
  have hS := getSetIndex_lt cfg addr hsets
  have hO := getOffset_lt cfg addr hbs
  have hmiss := (findHit_eq_none _ _ _ _).mp hfh
  rcases hfi : findInvalid cfg s (getSetIndex cfg addr) with _ | i
  · have hV := findVictim_lt cfg s (getSetIndex cfg addr) hways
    obtain ⟨b1, b2, b3, _⟩ := cacheWF_way cfg s _ _ hwf hS hV
    have c1 : getSetIndex cfg addr
        < (evict cfg now s (getSetIndex cfg addr)
            (findVictim cfg s (getSetIndex cfg addr))).cacheSets.length := by
      rw [evict_cacheSets, setWay_length]
      exact b1
    have c2 : findVictim cfg s (getSetIndex cfg addr)
        < ((evict cfg now s (getSetIndex cfg addr)
            (findVictim cfg s (getSetIndex cfg addr))).cacheSets.getD
              (getSetIndex cfg addr) (CacheSet.init 0)).ways.length := by
      rw [evict_cacheSets, setWay_ways_length]
      omega
    have c3 : (getWay (evict cfg now s (getSetIndex cfg addr)
            (findVictim cfg s (getSetIndex cfg addr)))
          (getSetIndex cfg addr) (findVictim cfg s (getSetIndex cfg addr))).data.length
        = 8 := by
      rw [getWay_evict_same cfg now s _ _ b1 (by omega)]
      exact b3
    refine ⟨findVictim cfg s (getSetIndex cfg addr), hV, ?_, ?_, ?_, ?_, ?_⟩
    · rw [insert_evict cfg now s addr data hfh hfi]
      apply findHit_setWay cfg _ _ _ _ _ c1 c2 hV rfl rfl
      intro j hj
      unfold hitAt
      rw [getWay_evict_other cfg now s _ _ _ j (Or.inr (by omega))]
      exact hmiss j (by omega)
    · rw [insert_evict cfg now s addr data hfh hfi, getWay_setWay_same _ _ _ _ c1 c2]
    · rw [insert_evict cfg now s addr data hfh hfi, getWay_setWay_same _ _ _ _ c1 c2]
    · rw [insert_evict cfg now s addr data hfh hfi, getWay_setWay_same _ _ _ _ c1 c2]
    · rw [insert_evict cfg now s addr data hfh hfi, getWay_setWay_same _ _ _ _ c1 c2]
      exact getD_set_same _ _ _ _ (by omega)
  · obtain ⟨hi, hinv, hfirst⟩ := (findInvalid_eq_some _ _ _ _).mp hfi
    obtain ⟨b1, b2, b3, _⟩ := cacheWF_way cfg s _ i hwf hS hi
    refine ⟨i, hi, ?_, ?_, ?_, ?_, ?_⟩
    · rw [insert_fill cfg now s addr data i hfh hfi]
      exact findHit_setWay cfg s _ _ i _ b1 (by omega) hi rfl rfl
        (fun j hj => hmiss j (by omega))
    · rw [insert_fill cfg now s addr data i hfh hfi, getWay_setWay_same _ _ _ _ b1 (by omega)]
    · rw [insert_fill cfg now s addr data i hfh hfi, getWay_setWay_same _ _ _ _ b1 (by omega)]
    · rw [insert_fill cfg now s addr data i hfh hfi, getWay_setWay_same _ _ _ _ b1 (by omega)]
    · rw [insert_fill cfg now s addr data i hfh hfi, getWay_setWay_same _ _ _ _ b1 (by omega)]
      exact getD_set_same _ _ _ _ (by omega)

/-- C25, as stated, fails on the code: a read of `0x0` in the initial 1-set 1-way cache
misses, the line is filled through `insert(0x0, 0)`, and the filled line is valid and
dirty, although nothing was written. -/
theorem read_fill_is_dirty :
    (lookup (Config.source 1 1 64 1 64) 1 (State.init (Config.source 1 1 64 1 64)) 0x0).2
        = none
      ∧ (getWay (recvTimingReq (Config.source 1 1 64 1 64) 1
          (State.init (Config.source 1 1 64 1 64)) (Request.read 0x0)).1 0 0).valid = true
      ∧ (getWay (recvTimingReq (Config.source 1 1 64 1 64) 1
          (State.init (Config.source 1 1 64 1 64)) (Request.read 0x0)).1 0 0).dirty = true := by
  decide

/-- C25, amended: when a read request misses in a cache of at least one set and one way with
block size 64, the line is filled through `insert(addr, 0)`: the response carries 0, and the
line for that address (the way at which the scan for its tag stops) is valid, carries the
tag, holds 0 at the offset, and is dirty. `insert` is the only operation that validates a
line and it always sets `dirty`: in every state reached from the constructor state every
valid line is dirty, whether it was filled by a read or by a write. -/
theorem read_miss_fills_dirty (cfg : Config) (now : Nat) (s : State) (addr : Nat)
    (hwf : cacheWF cfg s) (hsets : 1 ≤ cfg.numSets) (hways : 1 ≤ cfg.numWays)
    (hbs : cfg.blockSize = 64) (hmiss : (lookup cfg now s addr).2 = none) :
    (recvTimingReq cfg now s (Request.read addr)).2 = some 0
      ∧ (recvTimingReq cfg now s (Request.read addr)).1.stats.misses = s.stats.misses + 1
      ∧ (∃ i, i < cfg.numWays
          ∧ findHit cfg (recvTimingReq cfg now s (Request.read addr)).1
              (getSetIndex cfg addr) (getTag cfg addr) = some i
          ∧ (getWay (recvTimingReq cfg now s (Request.read addr)).1
              (getSetIndex cfg addr) i).valid = true
          ∧ (getWay (recvTimingReq cfg now s (Request.read addr)).1
              (getSetIndex cfg addr) i).tag = getTag cfg addr
          ∧ (getWay (recvTimingReq cfg now s (Request.read addr)).1
              (getSetIndex cfg addr) i).dirty = true
          ∧ (getWay (recvTimingReq cfg now s (Request.read addr)).1
              (getSetIndex cfg addr) i).data.getD (getOffset cfg addr) 0 = 0)
      ∧ ∀ ops : List Op, ValidDirty (run cfg (State.init cfg) ops) := by
  have hfh : findHit cfg s (getSetIndex cfg addr) (getTag cfg addr) = none := by
    unfold lookup at hmiss
    simp only [] at hmiss
    rcases hf : findHit cfg s (getSetIndex cfg addr) (getTag cfg addr) with _ | i
    · rfl
    · rw [hf] at hmiss
      simp at hmiss
  have hlk : lookup cfg now s addr = (s, none) := by
    unfold lookup
    simp only [hfh]
  have hreq : recvTimingReq cfg now s (Request.read addr)
      = (insert cfg now
          { s with stats := { s.stats with misses := s.stats.misses + 1 } } addr 0,
        some 0) := by
    simp only [recvTimingReq, hlk]
  rw [hreq]
  refine ⟨rfl, ?_, ?_, fun ops => run_validDirty cfg ops _ (init_validDirty cfg)⟩
  · exact (insert_hits cfg now _ addr 0).2
  · exact insert_miss_line cfg now
      { s with stats := { s.stats with misses := s.stats.misses + 1 } } addr 0
      hwf hsets hways hbs hfh

theorem read_miss_fills_dirty_witness :
    (lookup (Config.source 4 2 64 1 16) 5 (State.init (Config.source 4 2 64 1 16)) 0x48).2
        = none
      ∧ (recvTimingReq (Config.source 4 2 64 1 16) 5
          (State.init (Config.source 4 2 64 1 16)) (Request.read 0x48)).2 = some 0 :=
  ⟨by decide,
    (read_miss_fills_dirty (Config.source 4 2 64 1 16) 5
      (State.init (Config.source 4 2 64 1 16)) 0x48
      (by unfold cacheWF; decide) (by decide) (by decide) (by decide) (by decide)).1⟩

/-! ## Bounds on the write amplification -/

theorem pcbInsert_length_le (m : List (Nat × PCBEntry)) (k : Nat) (e : PCBEntry) :
    (pcbInsert m k e).length ≤ m.length + 1 := by
  induction m with
  | nil => simp [pcbInsert]
  | cons p t ih =>
    obtain ⟨k1, e1⟩ := p
    unfold pcbInsert
    by_cases h3 : k < k1
    · simp [h3]
    · by_cases h2 : k = k1
      · simp [h2]
      · simp only [h3, h2, if_false, List.length_cons]
        omega

/-- One `coalescePartial` keeps `nvmWrites + |pcbMap| ≤ pcbTotalPartials`. -/
theorem coalescePartial_writes_le (cfg : Config) (now : Nat) (s : State) (addr data : Nat)
    (h : s.stats.nvmWrites + s.pcbMap.length ≤ s.stats.pcbTotalPartials) :
    (coalescePartial cfg now s addr data).stats.nvmWrites
        + (coalescePartial cfg now s addr data).pcbMap.length
      ≤ (coalescePartial cfg now s addr data).stats.pcbTotalPartials := by
  by_cases hb : s.pcbMap.length ≥ cfg.pcbCapacity
      ∧ pcbFind s.pcbMap (PCBEntry.getBase addr) = none
  · rw [coalescePartial_overflow cfg now s addr data hb.1 hb.2]
    unfold sendToPLUB countPartial
    split <;> simp only [] <;> omega
  · by_cases hf : (mergedEntry now s addr data).isFull = true
    · rw [coalescePartial_full cfg now s addr data hb hf]
      have h1 := pcbInsert_length_le s.pcbMap (PCBEntry.getBase addr)
        (mergedEntry now s addr data)
      have h2 := pcbErase_length_lt
        (pcbInsert s.pcbMap (PCBEntry.getBase addr) (mergedEntry now s addr data))
        (PCBEntry.getBase addr) (by rw [pcbFind_insert_same]; simp)
      unfold sendToNVMain countPartial
      split <;> simp only [] <;> omega
    · have hf' : (mergedEntry now s addr data).isFull = false := by simpa using hf
      rw [coalescePartial_stage cfg now s addr data hb hf']
      have h1 := pcbInsert_length_le s.pcbMap (PCBEntry.getBase addr)
        (mergedEntry now s addr data)
      unfold countPartial
      simp only []
      omega

theorem flushEntry_writes_le (cfg : Config) (s : State) (e : PCBEntry) :
    (flushEntry cfg s e).stats.nvmWrites ≤ s.stats.nvmWrites + 1
      ∧ (flushEntry cfg s e).stats.pcbTotalPartials = s.stats.pcbTotalPartials := by
  unfold flushEntry sendToNVMain
  split
  · split <;> split <;> exact ⟨by dsimp only; omega, rfl⟩
  · exact ⟨by omega, rfl⟩

theorem flushPCB_writes_le (cfg : Config) (now : Nat) (s : State)
    (h : s.stats.nvmWrites + s.pcbMap.length ≤ s.stats.pcbTotalPartials) :
    (flushPCB cfg now s).stats.nvmWrites + (flushPCB cfg now s).pcbMap.length
      ≤ (flushPCB cfg now s).stats.pcbTotalPartials := by
  have key : ∀ (m : List (Nat × PCBEntry)) (st : State),
      (m.foldl (fun st p => flushEntry cfg st p.2) st).stats.nvmWrites
          ≤ st.stats.nvmWrites + m.length
        ∧ (m.foldl (fun st p => flushEntry cfg st p.2) st).stats.pcbTotalPartials
          = st.stats.pcbTotalPartials := by
    intro m
    induction m with
    | nil => exact fun st => ⟨le_refl _, rfl⟩
    | cons p t ih =>
      intro st
      obtain ⟨h1, h2⟩ := ih (flushEntry cfg st p.2)
      obtain ⟨h3, h4⟩ := flushEntry_writes_le cfg st p.2
      rw [List.foldl_cons, h2, h4, List.length_cons]
      exact ⟨by omega, rfl⟩
  obtain ⟨h1, h2⟩ := key s.pcbMap s
  show (s.pcbMap.foldl (fun st p => flushEntry cfg st p.2) s).stats.nvmWrites + 0
    ≤ (s.pcbMap.foldl (fun st p => flushEntry cfg st p.2) s).stats.pcbTotalPartials
  omega

/-- In every state reached from the constructor state there are at most as many NVM writes
as counted partials. -/
theorem run_writes_le (cfg : Config) (ops : List Op) :
    (run cfg (State.init cfg) ops).stats.nvmWrites
      ≤ (run cfg (State.init cfg) ops).stats.pcbTotalPartials := by
  have h := run_invariant cfg
    (fun s => s.stats.nvmWrites + s.pcbMap.length ≤ s.stats.pcbTotalPartials)
    (fun now s addr data hs => coalescePartial_writes_le cfg now s addr data hs)
    (fun now s hs => flushPCB_writes_le cfg now s hs)
    (fun s S i l hs => hs) (fun s hs => hs) (fun s hs => hs) (fun s hs => hs)
    ops (State.init cfg) (by simp [State.init, Stats.init])
  simp only at h
  omega

theorem maskBits_setSlot_length (m i : Nat) (hm : m < 256) (hi : i < 8)
    (hclear : m.testBit i = false) :
    (maskBits ((m ||| (1 <<< i)) % 256)).length = (maskBits m).length + 1 := by
  unfold maskBits
  apply filter_length_succ (List.range 8) (fun j => m.testBit j)
    (fun j => ((m ||| (1 <<< i)) % 256).testBit j) i (List.nodup_range 8)
    (List.mem_range.mpr hi) hclear
  · rw [testBit_setSlot m i i hm hi]
    simp
  · intro x _ hx
    rw [testBit_setSlot m i x hm hi]
    have : decide (i = x) = false := by
      simp only [decide_eq_false_iff_not]
      exact fun h => hx h.symm
    rw [this, Bool.or_false]

theorem maskBits_length_le (m : Nat) : (maskBits m).length ≤ 8 := by
  unfold maskBits
  have := List.length_filter_le (fun i => m.testBit i) (List.range 8)
  simpa using this

theorem pcbErase_not_mem (m : List (Nat × PCBEntry)) (k : Nat)
    (h : k ∉ m.map Prod.fst) : pcbErase m k = m := by
  unfold pcbErase
  rw [List.filter_eq_self]
  intro p hp
  simp only [bne_iff_ne, ne_eq]
  intro hk
  exact h (List.mem_map.mpr ⟨p, hp, hk⟩)

theorem pcbFind_lt_head (k k1 : Nat) (e1 : PCBEntry) (t : List (Nat × PCBEntry))
    (hs : pcbSorted ((k1, e1) :: t)) (hk : k < k1) : pcbFind ((k1, e1) :: t) k = none := by
  rw [pcbFind_eq_none_iff]
  unfold pcbSorted at hs
  simp only [List.map_cons, List.pairwise_cons] at hs
  simp only [List.map_cons, List.mem_cons, not_or]
  refine ⟨by omega, fun hmem => ?_⟩
  have := hs.1 k hmem
  omega

/-- A store into the ordered map replaces the partials of the entry found by those of the
new entry. -/
theorem stagedPartials_insert (m : List (Nat × PCBEntry)) (k : Nat) (e : PCBEntry)
    (hs : pcbSorted m) :
    stagedPartials (pcbInsert m k e)
        + (maskBits ((pcbFind m k).getD PCBEntry.init).validMask).length
      = stagedPartials m + (maskBits e.validMask).length := by
  induction m with
  | nil =>
    simp [pcbInsert, pcbFind, stagedPartials, PCBEntry.init, maskBits_zero]
  | cons p t ih =>
    obtain ⟨k1, e1⟩ := p
    have hs' := hs
    unfold pcbSorted at hs'
    simp only [List.map_cons, List.pairwise_cons] at hs'
    by_cases h3 : k < k1
    · rw [pcbFind_lt_head k k1 e1 t hs h3]
      unfold pcbInsert
      simp only [h3, if_true, stagedPartials_cons, Option.getD_none]
      have : (maskBits PCBEntry.init.validMask).length = 0 := by
        simp [PCBEntry.init, maskBits_zero]
      omega
    · by_cases h2 : k = k1
      · subst h2
        unfold pcbInsert pcbFind
        simp only [lt_irrefl, if_false, if_true, stagedPartials_cons, Option.getD_some]
        omega
      · have h1 : ¬ k1 = k := fun h => h2 h.symm
        have := ih hs'.2
        unfold pcbInsert pcbFind
        simp only [h3, h2, h1, if_false, stagedPartials_cons]
        omega

/-- Erasing the entry found under a key removes its partials. -/
theorem stagedPartials_erase (m : List (Nat × PCBEntry)) (k : Nat) (e : PCBEntry)
    (hs : pcbSorted m) (hf : pcbFind m k = some e) :
    stagedPartials (pcbErase m k) + (maskBits e.validMask).length = stagedPartials m := by
  induction m with
  | nil => simp [pcbFind] at hf
  | cons p t ih =>
    obtain ⟨k1, e1⟩ := p
    have hs' := hs
    unfold pcbSorted at hs'
    simp only [List.map_cons, List.pairwise_cons] at hs'
    by_cases h1 : k1 = k
    · subst h1
      have he : e1 = e := by
        unfold pcbFind at hf
        simpa using hf
      have hnot : k1 ∉ t.map Prod.fst := by
        intro hmem
        have := hs'.1 k1 hmem
        omega
      have herase : pcbErase ((k1, e1) :: t) k1 = t := by
        have h0 := pcbErase_not_mem t k1 hnot
        unfold pcbErase at h0 ⊢
        simp [List.filter_cons, h0]
      rw [herase, stagedPartials_cons, he]
      dsimp only
      omega
    · have hft : pcbFind t k = some e := by
        unfold pcbFind at hf
        simpa [h1] using hf
      have := ih hs'.2 hft
      have herase : pcbErase ((k1, e1) :: t) k = (k1, e1) :: pcbErase t k := by
        unfold pcbErase
        simp [List.filter_cons, h1]
      rw [herase, stagedPartials_cons, stagedPartials_cons]
      omega

/-- One `coalescePartial` into a slot that is not staged keeps `Accounted`. -/
theorem coalescePartial_accounted (cfg : Config) (now : Nat) (s : State) (addr data : Nat)
    (hA : Accounted s) (hfree : slotStaged s.pcbMap addr = false) :
    Accounted (coalescePartial cfg now s addr data) := by
  obtain ⟨hs, hent, hcount⟩ := hA
  by_cases hb : s.pcbMap.length ≥ cfg.pcbCapacity
      ∧ pcbFind s.pcbMap (PCBEntry.getBase addr) = none
  · rw [coalescePartial_overflow cfg now s addr data hb.1 hb.2]
    unfold sendToPLUB countPartial
    split
    · exact ⟨hs, hent, by dsimp only; omega⟩
    · exact ⟨hs, hent, by dsimp only; omega⟩
  · have hm0 : ((pcbFind s.pcbMap (PCBEntry.getBase addr)).getD PCBEntry.init).validMask
        < 256 := by
      rcases hf : pcbFind s.pcbMap (PCBEntry.getBase addr) with _ | e
      · simp [PCBEntry.init]
      · exact (hent _ (pcbFind_mem hf)).1
    have hclear : ((pcbFind s.pcbMap (PCBEntry.getBase addr)).getD PCBEntry.init
        ).validMask.testBit ((addr - PCBEntry.getBase addr) / 8) = false := by
      unfold slotStaged at hfree
      rcases hf : pcbFind s.pcbMap (PCBEntry.getBase addr) with _ | e
      · simp [PCBEntry.init]
      · rw [hf] at hfree
        exact hfree
    have hmask : (mergedEntry now s addr data).validMask
        = (((pcbFind s.pcbMap (PCBEntry.getBase addr)).getD PCBEntry.init).validMask
            ||| (1 <<< ((addr - PCBEntry.getBase addr) / 8))) % 256 := by
      unfold mergedEntry
      exact mergePartial_validMask _ _ _ _ _
    have hlen : (maskBits (mergedEntry now s addr data).validMask).length
        = (maskBits ((pcbFind s.pcbMap (PCBEntry.getBase addr)).getD
            PCBEntry.init).validMask).length + 1 := by
      rw [hmask]
      exact maskBits_setSlot_length _ _ hm0 (slot_lt addr) hclear
    have hmlt : (mergedEntry now s addr data).validMask < 256 := by
      rw [hmask]
      exact setSlot_lt _ _
    have hins := stagedPartials_insert s.pcbMap (PCBEntry.getBase addr)
      (mergedEntry now s addr data) hs
    have hsi := pcbSorted_insert s.pcbMap (PCBEntry.getBase addr)
      (mergedEntry now s addr data) hs
    have henti : ∀ p ∈ pcbInsert s.pcbMap (PCBEntry.getBase addr)
        (mergedEntry now s addr data), p.2.validMask < 256 ∧ p.2.dirty = true := by
      intro p hp
      rcases pcbInsert_mem hp with rfl | hp'
      · exact ⟨hmlt, mergedEntry_dirty now s addr data⟩
      · exact hent p hp'
    by_cases hf : (mergedEntry now s addr data).isFull = true
    · have h255 : (mergedEntry now s addr data).validMask = 255 := by
        unfold PCBEntry.isFull at hf
        simpa using hf
      have h8 : (maskBits (mergedEntry now s addr data).validMask).length = 8 := by
        rw [h255, maskBits_255]
        rfl
      have herase := stagedPartials_erase
        (pcbInsert s.pcbMap (PCBEntry.getBase addr) (mergedEntry now s addr data))
        (PCBEntry.getBase addr) (mergedEntry now s addr data) hsi
        (pcbFind_insert_same _ _ _)
      rw [coalescePartial_full cfg now s addr data hb hf]
      refine ⟨pcbSorted_erase _ _ hsi, fun p hp => henti p (pcbErase_mem hp).1, ?_⟩
      unfold sendToNVMain countPartial
      split
      · dsimp only
        omega
      · dsimp only
        omega
    · have hf' : (mergedEntry now s addr data).isFull = false := by simpa using hf
      rw [coalescePartial_stage cfg now s addr data hb hf']
      refine ⟨hsi, henti, ?_⟩
      unfold countPartial
      dsimp only
      omega

theorem flushEntry_accounted (cfg : Config) (s : State) (e : PCBEntry)
    (hm : e.validMask < 256) :
    (flushEntry cfg s e).stats.pcbTotalPartials = s.stats.pcbTotalPartials
      ∧ (flushEntry cfg s e).stats.pcbOverflows = s.stats.pcbOverflows
      ∧ (e.dirty = true →
          8 * s.stats.nvmWrites + 8 * s.stats.writeQueueFull + (maskBits e.validMask).length
            ≤ 8 * (flushEntry cfg s e).stats.nvmWrites
              + 8 * (flushEntry cfg s e).stats.writeQueueFull) := by
  have h8 := maskBits_length_le e.validMask
  unfold flushEntry sendToNVMain
  split
  · split <;> split <;> exact ⟨rfl, rfl, fun _ => by dsimp only; omega⟩
  · rename_i hcond
    refine ⟨rfl, rfl, fun hd => ?_⟩
    have h0 : e.numPartials = 0 := by
      by_contra hne
      exact hcond ⟨hd, by omega⟩
    unfold PCBEntry.numPartials at h0
    rw [← maskBits_length _ hm] at h0
    omega

theorem flushPCB_accounted (cfg : Config) (now : Nat) (s : State) (hA : Accounted s) :
    Accounted (flushPCB cfg now s) := by
  obtain ⟨hs, hent, hcount⟩ := hA
  have key : ∀ (m : List (Nat × PCBEntry)) (st : State),
      (∀ p ∈ m, p.2.validMask < 256 ∧ p.2.dirty = true) →
      (m.foldl (fun st p => flushEntry cfg st p.2) st).stats.pcbTotalPartials
          = st.stats.pcbTotalPartials
        ∧ (m.foldl (fun st p => flushEntry cfg st p.2) st).stats.pcbOverflows
          = st.stats.pcbOverflows
        ∧ 8 * st.stats.nvmWrites + 8 * st.stats.writeQueueFull + stagedPartials m
          ≤ 8 * (m.foldl (fun st p => flushEntry cfg st p.2) st).stats.nvmWrites
            + 8 * (m.foldl (fun st p => flushEntry cfg st p.2) st).stats.writeQueueFull := by
    intro m
    induction m with
    | nil =>
      intro st _
      exact ⟨rfl, rfl, by simp [stagedPartials]⟩
    | cons p t ih =>
      intro st hm
      obtain ⟨h1, h2, h3⟩ := ih (flushEntry cfg st p.2)
        (fun q hq => hm q (List.mem_cons_of_mem _ hq))
      obtain ⟨h4, h5, h6⟩ := flushEntry_accounted cfg st p.2 (hm p (List.mem_cons_self _ _)).1
      have h7 := h6 (hm p (List.mem_cons_self _ _)).2
      rw [List.foldl_cons, h1, h2, h4, h5, stagedPartials_cons]
      exact ⟨rfl, rfl, by omega⟩
  obtain ⟨h1, h2, h3⟩ := key s.pcbMap s hent
  refine ⟨by simp [flushPCB, pcbSorted], ?_, ?_⟩
  · intro p hp
    exact absurd hp (List.not_mem_nil _)
  · show (s.pcbMap.foldl (fun st p => flushEntry cfg st p.2) s).stats.pcbTotalPartials
      ≤ 8 * (s.pcbMap.foldl (fun st p => flushEntry cfg st p.2) s).stats.nvmWrites
        + stagedPartials []
        + (s.pcbMap.foldl (fun st p => flushEntry cfg st p.2) s).stats.pcbOverflows
        + 8 * (s.pcbMap.foldl (fun st p => flushEntry cfg st p.2) s).stats.writeQueueFull
    have h0 : stagedPartials [] = 0 := rfl
    omega

theorem runPcb_accounted (cfg : Config) (ops : List PcbOp) (s : State) (hA : Accounted s)
    (hfresh : overwrites cfg s ops = false) : Accounted (runPcb cfg s ops) := by
  induction ops generalizing s with
  | nil => exact hA
  | cons op t ih =>
    cases op with
    | coalesce now addr data =>
      simp only [overwrites, Bool.or_eq_false_iff] at hfresh
      exact ih _ (coalescePartial_accounted cfg now s addr data hA hfresh.1) hfresh.2
    | flush now =>
      simp only [overwrites] at hfresh
      exact ih _ (flushPCB_accounted cfg now s hA) hfresh

theorem runPcb_writes_le (cfg : Config) (ops : List PcbOp) (s : State)
    (h : s.stats.nvmWrites + s.pcbMap.length ≤ s.stats.pcbTotalPartials) :
    (runPcb cfg s ops).stats.nvmWrites + (runPcb cfg s ops).pcbMap.length
      ≤ (runPcb cfg s ops).stats.pcbTotalPartials := by
  induction ops generalizing s with
  | nil => exact h
  | cons op t ih =>
    cases op with
    | coalesce now addr data => exact ih _ (coalescePartial_writes_le cfg now s addr data h)
    | flush now => exact ih _ (flushPCB_writes_le cfg now s h)

theorem writeAmplification_pos (st : Stats) (hpos : 0 < st.pcbTotalPartials) :
    writeAmplification st
      = some ((st.nvmWrites : ℚ) / (((st.pcbTotalPartials : ℚ) * 8) / 64)) := by
  unfold writeAmplification
  rw [if_neg (by omega)]

theorem writeAmplification_le (st : Stats) (hpos : 0 < st.pcbTotalPartials)
    (h : st.nvmWrites ≤ st.pcbTotalPartials) :
    ∃ w, writeAmplification st = some w ∧ 0 ≤ w ∧ w ≤ 8 := by
  refine ⟨_, writeAmplification_pos st hpos, ?_, ?_⟩
  · positivity
  · have ht : (0 : ℚ) < (st.pcbTotalPartials : ℚ) := by exact_mod_cast hpos
    have hn : (st.nvmWrites : ℚ) ≤ (st.pcbTotalPartials : ℚ) := by exact_mod_cast h
    rw [div_le_iff₀ (by positivity)]
    linarith

theorem writeAmplification_ge (st : Stats) (hpos : 0 < st.pcbTotalPartials)
    (h : st.pcbTotalPartials ≤ 8 * st.nvmWrites) :
    ∃ w, writeAmplification st = some w ∧ 1 ≤ w := by
  refine ⟨_, writeAmplification_pos st hpos, ?_⟩
  have ht : (0 : ℚ) < (st.pcbTotalPartials : ℚ) := by exact_mod_cast hpos
  have hn : (st.pcbTotalPartials : ℚ) ≤ 8 * (st.nvmWrites : ℚ) := by exact_mod_cast h
  rw [le_div_iff₀ (by positivity)]
  linarith

/-- C21, as stated, fails on the code. After one `coalescePartial(0x0, 1)` the partial is
staged, `pcbTotalPartials = 1`, `nvmWrites = 0`, and the ratio is 0. After nine writes to
the address `0x8` and a flush the buffer is empty, nothing overflowed and the queue never
was full, `pcbTotalPartials = 9`, `nvmWrites = 1`, and the ratio is `8 / 9`. -/
theorem write_amplification_below_one :
    (runPcb (Config.source 4 4 64 1 64) (State.init (Config.source 4 4 64 1 64))
        [PcbOp.coalesce 0 0x0 1]).stats.pcbTotalPartials = 1
      ∧ writeAmplification (runPcb (Config.source 4 4 64 1 64)
          (State.init (Config.source 4 4 64 1 64)) [PcbOp.coalesce 0 0x0 1]).stats
          = some 0
      ∧ (runPcb (Config.source 4 4 64 1 64) (State.init (Config.source 4 4 64 1 64))
          ((List.replicate 9 (PcbOp.coalesce 0 0x8 1)) ++ [PcbOp.flush 1])).pcbMap = []
      ∧ (runPcb (Config.source 4 4 64 1 64) (State.init (Config.source 4 4 64 1 64))
          ((List.replicate 9 (PcbOp.coalesce 0 0x8 1)) ++ [PcbOp.flush 1])).stats
          = { Stats.init with
              pcbTotalPartials := 9, pcbPartialFlushes := 1, nvmWrites := 1,
              nvmBytesWritten := 64 }
      ∧ writeAmplification (runPcb (Config.source 4 4 64 1 64)
          (State.init (Config.source 4 4 64 1 64))
          ((List.replicate 9 (PcbOp.coalesce 0 0x8 1)) ++ [PcbOp.flush 1])).stats
          = some (8 / 9) := by
  have h1 : (runPcb (Config.source 4 4 64 1 64) (State.init (Config.source 4 4 64 1 64))
      [PcbOp.coalesce 0 0x0 1]).stats = { Stats.init with pcbTotalPartials := 1 } := by
    decide
  have h2 : (runPcb (Config.source 4 4 64 1 64) (State.init (Config.source 4 4 64 1 64))
      ((List.replicate 9 (PcbOp.coalesce 0 0x8 1)) ++ [PcbOp.flush 1])).stats
      = { Stats.init with
          pcbTotalPartials := 9, pcbPartialFlushes := 1, nvmWrites := 1,
          nvmBytesWritten := 64 } := by
    decide
  refine ⟨by rw [h1], ?_, by decide, h2, ?_⟩
  · rw [h1, writeAmplification_pos _ (by decide)]
    norm_num [Stats.init]
  · rw [h2, writeAmplification_pos _ (by decide)]
    norm_num [Stats.init]

/-- C21, amended. In every state reached from the constructor state by requests, evictions,
`coalescePartial` and `flushPCB` calls, the write amplification
`nvmWrites / (pcbTotalPartials * 8 / 64)` has a value exactly when `pcbTotalPartials > 0`,
and the value lies between 0 and 8: every NVM write emits an entry that holds at least one
counted partial. It is at least 1 in a state reached by `coalescePartial` and `flushPCB`
calls of which none overwrote a staged partial, when the buffer is empty (everything was
emitted or flushed), nothing overflowed to PLUB and the write queue never was full. -/
theorem write_amplification_bounds (cfg : Config) (evs : List Op) (ops : List PcbOp) :
    ((run cfg (State.init cfg) evs).stats.pcbTotalPartials = 0 →
        writeAmplification (run cfg (State.init cfg) evs).stats = none)
      ∧ (0 < (run cfg (State.init cfg) evs).stats.pcbTotalPartials →
          ∃ w, writeAmplification (run cfg (State.init cfg) evs).stats = some w
            ∧ 0 ≤ w ∧ w ≤ 8)
      ∧ (overwrites cfg (State.init cfg) ops = false →
          (runPcb cfg (State.init cfg) ops).pcbMap = [] →
          (runPcb cfg (State.init cfg) ops).stats.pcbOverflows = 0 →
          (runPcb cfg (State.init cfg) ops).stats.writeQueueFull = 0 →
          0 < (runPcb cfg (State.init cfg) ops).stats.pcbTotalPartials →
          ∃ w, writeAmplification (runPcb cfg (State.init cfg) ops).stats = some w
            ∧ 1 ≤ w ∧ w ≤ 8) := by
  refine ⟨fun h0 => ?_, fun hp => writeAmplification_le _ hp (run_writes_le cfg evs), ?_⟩
  · unfold writeAmplification
    rw [if_pos h0]
  · intro hfresh hdrained hov hwq hpos
    have hinit : Accounted (State.init cfg) :=
      ⟨by simp [State.init, pcbSorted], fun p hp => absurd hp (List.not_mem_nil _),
        by simp [State.init, Stats.init]⟩
    obtain ⟨_, _, hcount⟩ := runPcb_accounted cfg ops (State.init cfg) hinit hfresh
    rw [hdrained, hov, hwq] at hcount
    have hle := runPcb_writes_le cfg ops (State.init cfg) (by simp [State.init, Stats.init])
    have h0 : stagedPartials [] = 0 := rfl
    obtain ⟨w, hw, hw1⟩ := writeAmplification_ge _ hpos (by omega)
    obtain ⟨w2, hw2, _, hw8⟩ := writeAmplification_le _ hpos (by omega)
    rw [hw] at hw2
    have : w = w2 := Option.some.inj hw2
    exact ⟨w, hw, hw1, by rw [this]; exact hw8⟩

/-- Witness of C21: two partials of one block staged and then flushed (ratio at least 1), and
the run of the single event `coalescePartial(0x0, 1)` (ratio between 0 and 8). -/
theorem write_amplification_bounds_witness :
    overwrites (Config.source 4 4 64 1 64) (State.init (Config.source 4 4 64 1 64))
        [PcbOp.coalesce 0 0x0 1, PcbOp.coalesce 1 0x8 2, PcbOp.flush 2] = false
      ∧ (∃ w, writeAmplification (runPcb (Config.source 4 4 64 1 64)
          (State.init (Config.source 4 4 64 1 64))
          [PcbOp.coalesce 0 0x0 1, PcbOp.coalesce 1 0x8 2, PcbOp.flush 2]).stats = some w
            ∧ 1 ≤ w ∧ w ≤ 8)
      ∧ ∃ w, writeAmplification (run (Config.source 4 4 64 1 64)
          (State.init (Config.source 4 4 64 1 64)) [Op.coalesce 0 0x0 1]).stats = some w
            ∧ 0 ≤ w ∧ w ≤ 8 :=
  ⟨by decide,
    (write_amplification_bounds (Config.source 4 4 64 1 64) [Op.coalesce 0 0x0 1]
      [PcbOp.coalesce 0 0x0 1, PcbOp.coalesce 1 0x8 2, PcbOp.flush 2]).2.2
      (by decide) (by decide) (by decide) (by decide) (by decide),
    (write_amplification_bounds (Config.source 4 4 64 1 64) [Op.coalesce 0 0x0 1]
      [PcbOp.coalesce 0 0x0 1, PcbOp.coalesce 1 0x8 2, PcbOp.flush 2]).2.1 (by decide)⟩

/-! ## Outcome of a dirty eviction -/

theorem pcbErase_insert (m : List (Nat × PCBEntry)) (k : Nat) (e : PCBEntry) :
    pcbErase (pcbInsert m k e) k = pcbErase m k := by
  induction m with
  | nil => simp [pcbInsert, pcbErase]
  | cons p t ih =>
    obtain ⟨k1, e1⟩ := p
    unfold pcbInsert
    by_cases h3 : k < k1
    · simp [h3, pcbErase, List.filter_cons]
    · by_cases h2 : k = k1
      · subst h2
        simp [pcbErase, List.filter_cons]
      · have h1 : ¬ k1 = k := fun h => h2 h.symm
        unfold pcbErase at ih ⊢
        simp [h3, h2, h1, List.filter_cons, ih]

/-- The merged entry when slot `i < 7` or slot 7 is written during `Refilling`. -/
theorem refilling_merged (cfg : Config) (s st : State) (b : Nat) (v : Nat → Nat)
    (now k : Nat) (hF : Refilling cfg s st b v k) (hk : k < 8) (hvk : v k < 2 ^ 64) :
    (mergePartial now ((pcbFind st.pcbMap b).getD PCBEntry.init) b k (v k)).baseAddr = b
      ∧ (mergePartial now ((pcbFind st.pcbMap b).getD PCBEntry.init) b k (v k)).data.length
          = 64
      ∧ (mergePartial now ((pcbFind st.pcbMap b).getD PCBEntry.init) b k (v k)).validMask
          < 256
      ∧ ((mergePartial now ((pcbFind st.pcbMap b).getD PCBEntry.init) b k
            (v k)).validMask.testBit 7 = decide (k = 7))
      ∧ (∀ j, j < k + 1 →
          (mergePartial now ((pcbFind st.pcbMap b).getD PCBEntry.init) b k
              (v k)).validMask.testBit j = true
            ∧ loadU64 (mergePartial now ((pcbFind st.pcbMap b).getD PCBEntry.init) b k
                (v k)).data (8 * j) = v j) := by
  obtain ⟨_, _, _, _, hbase, hlen, hmask, h7, hvals⟩ := hF
  refine ⟨mergePartial_baseAddr _ _ _ _ _ hbase, ?_, ?_, ?_, ?_⟩
  · rw [mergePartial_data, storeU64_length, hlen]
  · rw [mergePartial_validMask]
    exact setSlot_lt _ _
  · rw [mergePartial_validMask, testBit_setSlot _ _ _ hmask hk, h7, Bool.false_or]
  · intro j hj
    rw [mergePartial_validMask, testBit_setSlot _ _ _ hmask hk, mergePartial_data]
    by_cases hjk : j = k
    · subst hjk
      refine ⟨by simp, ?_⟩
      rw [Nat.mul_comm j 8, loadU64_storeU64_same _ _ _ (by omega), Nat.mod_eq_of_lt hvk]
    · have hlt : j < k := by omega
      obtain ⟨h1, h2⟩ := hvals j hlt
      refine ⟨by simp [h1], ?_⟩
      rw [loadU64_storeU64_other _ _ _ _ (by omega)]
      exact h2

/-- Forwarding slot `k < 7` keeps `Refilling`: slot 7 is still clear, nothing is emitted. -/
theorem refilling_step (cfg : Config) (s st : State) (b : Nat) (v : Nat → Nat)
    (now k : Nat) (hb : b % 64 = 0) (hF : Refilling cfg s st b v k) (hk : k < 7)
    (hvk : v k < 2 ^ 64) :
    Refilling cfg s (coalescePartial cfg now st (b + 8 * k) (v k)) b v (k + 1) := by
  have hk8 : k < 8 := by omega
  obtain ⟨m1, m2, m3, m4, m5⟩ := refilling_merged cfg s st b v now k hF hk8 hvk
  obtain ⟨hq, hst, hadm, herase, _, _, _, _, _⟩ := hF
  have hn : ¬ (st.pcbMap.length ≥ cfg.pcbCapacity
      ∧ pcbFind st.pcbMap (PCBEntry.getBase (b + 8 * k)) = none) := by
    rw [getBase_slot b k hb hk8]
    rintro ⟨h1, h2⟩
    rcases hadm with h | h
    · exact h h2
    · omega
  have hnf : (mergedEntry now st (b + 8 * k) (v k)).isFull = false := by
    rw [mergedEntry_slot now st b k (v k) hb hk8]
    unfold PCBEntry.isFull
    rw [beq_eq_false_iff_ne]
    intro h255
    have := (mask_full_iff _ m3).mp h255 7 (by norm_num)
    rw [m4] at this
    have hne : k ≠ 7 := by omega
    simp [hne] at this
  rw [coalescePartial_stage cfg now st _ _ hn hnf, getBase_slot b k hb hk8,
    mergedEntry_slot now st b k (v k) hb hk8]
  unfold Refilling
  simp only [pcbFind_insert_same, Option.getD_some]
  refine ⟨hq, ?_, Or.inl (by simp), ?_, Or.inl m1, m2, m3, ?_, m5⟩
  · simp only [countPartial, hst]
    simp [Nat.add_assoc]
  · show pcbErase (pcbInsert st.pcbMap b _) b = _
    rw [pcbErase_insert, herase]
  · rw [m4]
    have hne : k ≠ 7 := by omega
    simp [hne]

/-- Forwarding slot 7 after slots `0 … 6` completes the block and emits it. -/
theorem refilling_last (cfg : Config) (s st : State) (b : Nat) (v : Nat → Nat)
    (now : Nat) (hb : b % 64 = 0) (hb64 : b + 56 < 2 ^ 64)
    (hF : Refilling cfg s st b v 7) (hv7 : v 7 < 2 ^ 64)
    (hroom : s.writeQueue.length < sizeT cfg.writeQueueCapacity) :
    (coalescePartial cfg now st (b + 8 * 7) (v 7)).writeQueue
        = s.writeQueue ++ (List.range 8).map (fun j => (b + 8 * j, v j))
      ∧ (coalescePartial cfg now st (b + 8 * 7) (v 7)).pcbMap = pcbErase s.pcbMap b
      ∧ (coalescePartial cfg now st (b + 8 * 7) (v 7)).stats
          = { s.stats with
              pcbTotalPartials := s.stats.pcbTotalPartials + 8
              pcbCoalescedBlocks := s.stats.pcbCoalescedBlocks + 1
              nvmWrites := s.stats.nvmWrites + 1
              nvmBytesWritten := s.stats.nvmBytesWritten + 64 } := by
  obtain ⟨m1, m2, m3, m4, m5⟩ := refilling_merged cfg s st b v now 7 hF (by norm_num) hv7
  obtain ⟨hq, hst, hadm, herase, _, _, _, _, _⟩ := hF
  have hn : ¬ (st.pcbMap.length ≥ cfg.pcbCapacity
      ∧ pcbFind st.pcbMap (PCBEntry.getBase (b + 8 * 7)) = none) := by
    rw [getBase_slot b 7 hb (by norm_num)]
    rintro ⟨h1, h2⟩
    rcases hadm with h | h
    · exact h h2
    · omega
  have h255 : (mergePartial now ((pcbFind st.pcbMap b).getD PCBEntry.init) b 7
      (v 7)).validMask = 255 :=
    (mask_full_iff _ m3).mpr (fun j hj => (m5 j (by omega)).1)
  have hfull : (mergedEntry now st (b + 8 * 7) (v 7)).isFull = true := by
    rw [mergedEntry_slot now st b 7 (v 7) hb (by norm_num)]
    unfold PCBEntry.isFull
    rw [h255]
    rfl
  have hrec : entryRecords (mergePartial now ((pcbFind st.pcbMap b).getD PCBEntry.init) b 7
      (v 7)) = (List.range 8).map (fun j => (b + 8 * j, v j)) := by
    unfold entryRecords
    rw [h255, maskBits_255, m1]
    apply List.map_congr_left
    intro j hj
    rw [(m5 j (by have := List.mem_range.mp hj; omega)).2]
  have hqr : (countPartial st).writeQueue.length < sizeT cfg.writeQueueCapacity := by
    rw [countPartial_writeQueue, hq]
    exact hroom
  rw [coalescePartial_full cfg now st _ _ hn hfull, getBase_slot b 7 hb (by norm_num),
    mergedEntry_slot now st b 7 (v 7) hb (by norm_num),
    sendToNVMain_room cfg _ _ (by rw [m1]; omega) hqr, hrec]
  refine ⟨by simp [hq], ?_, ?_⟩
  · show pcbErase (pcbInsert st.pcbMap b _) b = _
    rw [pcbErase_insert, herase]
  · simp only [countPartial, hst, Nat.add_assoc]

theorem slotRun_succ (cfg : Config) (s : State) (now b : Nat) (v : Nat → Nat) (k : Nat) :
    runCoalesce cfg s ((List.range (k + 1)).map
        (fun i => ({ now := now, addr := b + 8 * i, data := v i } : Coalesce)))
      = coalescePartial cfg now
          (runCoalesce cfg s ((List.range k).map
            (fun i => ({ now := now, addr := b + 8 * i, data := v i } : Coalesce))))
          (b + 8 * k) (v k) := by
  rw [List.range_succ, List.map_append, runCoalesce_append]
  rfl

/-- Forwarding the slots `0 … k - 1`, `k ≤ 7`, of a line to an admitted base whose slot 7 is
not staged keeps `Refilling`. -/
theorem refilling_run (cfg : Config) (s : State) (now b : Nat) (v : Nat → Nat)
    (hb : b % 64 = 0) (hv : ∀ i, i < 8 → v i < 2 ^ 64) (hwf : pcbWF s.pcbMap)
    (hadm : pcbFind s.pcbMap b ≠ none ∨ s.pcbMap.length < cfg.pcbCapacity)
    (h7 : slotStaged s.pcbMap (b + 56) = false) (k : Nat) (hk : k ≤ 7) :
    Refilling cfg s
      (runCoalesce cfg s ((List.range k).map
        (fun i => ({ now := now, addr := b + 8 * i, data := v i } : Coalesce)))) b v k := by
  induction k with
  | zero =>
    obtain ⟨f1, f2, f3⟩ := found_entry s.pcbMap b hwf
    have hbit : ((pcbFind s.pcbMap b).getD PCBEntry.init).validMask.testBit 7 = false := by
      unfold slotStaged at h7
      have hbase : PCBEntry.getBase (b + 56) = b := by
        unfold PCBEntry.getBase
        omega
      rw [hbase] at h7
      rcases hf : pcbFind s.pcbMap b with _ | e
      · simp [PCBEntry.init]
      · rw [hf] at h7
        have hslot : (b + 56 - b) / 8 = 7 := by omega
        rw [hslot] at h7
        exact h7
    exact ⟨rfl, rfl, hadm, rfl, f1, f2, f3, hbit, fun j hj => absurd hj (by omega)⟩
  | succ k ih =>
    rw [slotRun_succ]
    exact refilling_step cfg s _ b v now k hb (ih (by omega)) (by omega) (hv k (by omega))

/-- Forwarding the slots `0 … k - 1` of a line to a base that is refused by a full buffer:
every partial goes to PLUB. -/
theorem overflow_run (cfg : Config) (s : State) (now b : Nat) (v : Nat → Nat)
    (hb : b % 64 = 0) (hfull : s.pcbMap.length ≥ cfg.pcbCapacity)
    (hnew : pcbFind s.pcbMap b = none) (k : Nat) (hk : k ≤ 8)
    (hroom : s.writeQueue.length + k ≤ sizeT cfg.writeQueueCapacity) :
    (runCoalesce cfg s ((List.range k).map
        (fun i => ({ now := now, addr := b + 8 * i, data := v i } : Coalesce)))).pcbMap
        = s.pcbMap
      ∧ (runCoalesce cfg s ((List.range k).map
        (fun i => ({ now := now, addr := b + 8 * i, data := v i } : Coalesce)))).writeQueue
        = s.writeQueue ++ (List.range k).map (fun j => (b + 8 * j, v j))
      ∧ (runCoalesce cfg s ((List.range k).map
        (fun i => ({ now := now, addr := b + 8 * i, data := v i } : Coalesce)))).stats
        = { s.stats with
            pcbTotalPartials := s.stats.pcbTotalPartials + k
            pcbOverflows := s.stats.pcbOverflows + k
            plubPartials := s.stats.plubPartials + k } := by
  induction k with
  | zero => exact ⟨rfl, by simp [runCoalesce], rfl⟩
  | succ k ih =>
    obtain ⟨h1, h2, h3⟩ := ih (by omega) (by omega)
    rw [slotRun_succ]
    generalize runCoalesce cfg s ((List.range k).map
        (fun i => ({ now := now, addr := b + 8 * i, data := v i } : Coalesce))) = st
      at h1 h2 h3
    have hbase : PCBEntry.getBase (b + 8 * k) = b := getBase_slot b k hb (by omega)
    have hq : (countPartial st).writeQueue.length < sizeT cfg.writeQueueCapacity := by
      rw [countPartial_writeQueue, h2, List.length_append, List.length_map,
        List.length_range]
      omega
    rw [coalescePartial_overflow cfg now st _ _ (by rw [h1]; exact hfull)
      (by rw [hbase, h1]; exact hnew), sendToPLUB_room cfg _ _ _ hq]
    refine ⟨h1, ?_, ?_⟩
    · show st.writeQueue ++ [(b + 8 * k, v k)] = _
      rw [h2, List.range_succ, List.map_append, List.append_assoc]
      rfl
    · show { st.stats with
        pcbTotalPartials := st.stats.pcbTotalPartials + 1
        plubPartials := st.stats.plubPartials + 1
        pcbOverflows := st.stats.pcbOverflows + 1 } = _
      rw [h3]
      simp [Nat.add_assoc]

/-- The eviction of a dirty line whose base fits 64 bits, as a run of `coalescePartial`
calls followed by the store that clears `valid`. -/
theorem evict_dirty_run (cfg : Config) (now : Nat) (s : State) (setIdx wayIdx : Nat)
    (hd : (getWay s setIdx wayIdx).dirty = true)
    (hov : evictBase cfg s setIdx wayIdx + 56 < 2 ^ 64) :
    evict cfg now s setIdx wayIdx
      = setWay
          { runCoalesce cfg s (lineWrites now (evictBase cfg s setIdx wayIdx)
              (getWay s setIdx wayIdx)) with
            stats := { (runCoalesce cfg s (lineWrites now (evictBase cfg s setIdx wayIdx)
                (getWay s setIdx wayIdx))).stats with
              evictions := s.stats.evictions + 1 } }
          setIdx wayIdx { getWay s setIdx wayIdx with valid := false } := by
  unfold evictBase at hov ⊢
  have hbase : (((getWay s setIdx wayIdx).tag * cfg.numSets + setIdx) % 2 ^ 64
        * cfg.blockSize) % 2 ^ 64
      = ((getWay s setIdx wayIdx).tag * cfg.numSets + setIdx) * cfg.blockSize := by
    by_cases hb0 : cfg.blockSize = 0
    · simp [hb0]
    · have hpos : 1 ≤ cfg.blockSize := by omega
      have hle : (getWay s setIdx wayIdx).tag * cfg.numSets + setIdx
          ≤ ((getWay s setIdx wayIdx).tag * cfg.numSets + setIdx) * cfg.blockSize :=
        Nat.le_mul_of_pos_right _ hpos
      rw [Nat.mod_eq_of_lt (a := (getWay s setIdx wayIdx).tag * cfg.numSets + setIdx)
        (by omega), Nat.mod_eq_of_lt (by omega)]
  unfold evict
  simp only [hbase]
  rw [if_pos hd, evictLoop_eq cfg now s _ _ hov]
  simp only [getWay, runCoalesce_cacheSets, runCoalesce_evictions]

/-- C30, as stated, fails on the code when slot 7 of the base is staged. In the 1-set 1-way
cache a write request to `0x38` stages slot 7 of base `0x0` and leaves a dirty line of block
`0x0`; `evict(0, 0)` then forwards the 8 slots: the entry is full after slot 6 and is
emitted and erased, and the call for slot 7 stages a new entry. After the eviction base
`0x0` is a key of the buffer again, with mask `0x80`. -/
theorem eviction_restages_base :
    (getWay (recvTimingReq (Config.source 1 1 64 1 64) 1
        (State.init (Config.source 1 1 64 1 64)) (Request.write 0x38 9)).1 0 0).dirty = true
      ∧ evictBase (Config.source 1 1 64 1 64)
          (recvTimingReq (Config.source 1 1 64 1 64) 1
            (State.init (Config.source 1 1 64 1 64)) (Request.write 0x38 9)).1 0 0 = 0
      ∧ (pcbFind (recvTimingReq (Config.source 1 1 64 1 64) 1
          (State.init (Config.source 1 1 64 1 64)) (Request.write 0x38 9)).1.pcbMap 0).map
            (fun e => e.validMask) = some 0x80
      ∧ (pcbFind (evict (Config.source 1 1 64 1 64) 2
          (recvTimingReq (Config.source 1 1 64 1 64) 1
            (State.init (Config.source 1 1 64 1 64)) (Request.write 0x38 9)).1 0 0).pcbMap
          0).map (fun e => e.validMask) = some 0x80
      ∧ (evict (Config.source 1 1 64 1 64) 2
          (recvTimingReq (Config.source 1 1 64 1 64) 1
            (State.init (Config.source 1 1 64 1 64)) (Request.write 0x38 9)).1 0 0
          ).stats.pcbCoalescedBlocks = 1
      ∧ (evict (Config.source 1 1 64 1 64) 2
          (recvTimingReq (Config.source 1 1 64 1 64) 1
            (State.init (Config.source 1 1 64 1 64)) (Request.write 0x38 9)).1 0 0
          ).writeQueue
          = [(0x0, 0), (0x8, 0), (0x10, 0), (0x18, 0), (0x20, 0), (0x28, 0), (0x30, 0),
             (0x38, 9)] := by
  decide

/-- C30, amended with the condition that slot 7 of the base is not staged. Let the line in
way `wayIdx` of set `setIdx` be dirty, with block size 64, 64-bit words, a base
`b = (tag * numSets + setIdx) * 64` that fits 64 bits, a well-formed buffer and room for 8
records in the write queue. If `b` is admitted (staged, or the buffer is below capacity) and
slot 7 of `b` is not staged, then after `evict` exactly one full block has been emitted:
`b` is not a key, the other entries are untouched, the 8 records `(b + 8 i, line.data[i])`
are appended (staged partials of `b` are overwritten by the line), and the counters moved by
`pcbTotalPartials + 8`, `pcbCoalescedBlocks + 1`, `nvmWrites + 1`, `nvmBytesWritten + 64`,
`evictions + 1`. If the buffer is at capacity without `b`, the 8 partials go to PLUB: the
buffer is unchanged, the same 8 records are appended, and the counters moved by
`pcbTotalPartials + 8`, `pcbOverflows + 8`, `plubPartials + 8`, `evictions + 1`. -/
theorem dirty_eviction_outcome (cfg : Config) (now : Nat) (s : State) (setIdx wayIdx : Nat)
    (hd : (getWay s setIdx wayIdx).dirty = true) (hbs : cfg.blockSize = 64)
    (hov : evictBase cfg s setIdx wayIdx + 56 < 2 ^ 64)
    (hdata : ∀ i, i < 8 → (getWay s setIdx wayIdx).data.getD i 0 < 2 ^ 64)
    (hwf : pcbWF s.pcbMap)
    (hroom : s.writeQueue.length + 8 ≤ sizeT cfg.writeQueueCapacity) :
    ((pcbFind s.pcbMap (evictBase cfg s setIdx wayIdx) ≠ none
          ∨ s.pcbMap.length < cfg.pcbCapacity) →
        slotStaged s.pcbMap (evictBase cfg s setIdx wayIdx + 56) = false →
        pcbFind (evict cfg now s setIdx wayIdx).pcbMap (evictBase cfg s setIdx wayIdx) = none
          ∧ (evict cfg now s setIdx wayIdx).pcbMap
              = pcbErase s.pcbMap (evictBase cfg s setIdx wayIdx)
          ∧ (evict cfg now s setIdx wayIdx).writeQueue
              = s.writeQueue ++ (List.range 8).map
                  (fun i => (evictBase cfg s setIdx wayIdx + 8 * i,
                    (getWay s setIdx wayIdx).data.getD i 0))
          ∧ (evict cfg now s setIdx wayIdx).stats
              = { s.stats with
                  pcbTotalPartials := s.stats.pcbTotalPartials + 8
                  pcbCoalescedBlocks := s.stats.pcbCoalescedBlocks + 1
                  nvmWrites := s.stats.nvmWrites + 1
                  nvmBytesWritten := s.stats.nvmBytesWritten + 64
                  evictions := s.stats.evictions + 1 })
      ∧ (s.pcbMap.length ≥ cfg.pcbCapacity
          ∧ pcbFind s.pcbMap (evictBase cfg s setIdx wayIdx) = none →
        (evict cfg now s setIdx wayIdx).pcbMap = s.pcbMap
          ∧ (evict cfg now s setIdx wayIdx).writeQueue
              = s.writeQueue ++ (List.range 8).map
                  (fun i => (evictBase cfg s setIdx wayIdx + 8 * i,
                    (getWay s setIdx wayIdx).data.getD i 0))
          ∧ (evict cfg now s setIdx wayIdx).stats
              = { s.stats with
                  pcbTotalPartials := s.stats.pcbTotalPartials + 8
                  pcbOverflows := s.stats.pcbOverflows + 8
                  plubPartials := s.stats.plubPartials + 8
                  evictions := s.stats.evictions + 1 }) := by
  have hb : evictBase cfg s setIdx wayIdx % 64 = 0 := by
    unfold evictBase
    rw [hbs]
    omega
  have hlw : lineWrites now (evictBase cfg s setIdx wayIdx) (getWay s setIdx wayIdx)
      = (List.range 8).map (fun i =>
          ({ now := now, addr := evictBase cfg s setIdx wayIdx + 8 * i,
             data := (getWay s setIdx wayIdx).data.getD i 0 } : Coalesce)) := rfl
  have hev' : evict cfg now s setIdx wayIdx
      = setWay
          { runCoalesce cfg s (lineWrites now (evictBase cfg s setIdx wayIdx)
              (getWay s setIdx wayIdx)) with
            stats := { (runCoalesce cfg s (lineWrites now (evictBase cfg s setIdx wayIdx)
                (getWay s setIdx wayIdx))).stats with
              evictions := s.stats.evictions + 1 } }
          setIdx wayIdx { getWay s setIdx wayIdx with valid := false } :=
    evict_dirty_run cfg now s setIdx wayIdx hd hov
  rw [hev', hlw]
  simp only [setWay_pcbMap, setWay_writeQueue, setWay_stats]
  refine ⟨fun hadm h7 => ?_, fun hfull => ?_⟩
  · have hF := refilling_run cfg s now (evictBase cfg s setIdx wayIdx)
      (fun i => (getWay s setIdx wayIdx).data.getD i 0) hb hdata hwf hadm h7 7 (le_refl _)
    obtain ⟨h1, h2, h3⟩ := refilling_last cfg s _ (evictBase cfg s setIdx wayIdx)
      (fun i => (getWay s setIdx wayIdx).data.getD i 0) now hb hov hF
      (hdata 7 (by norm_num)) (by omega)
    rw [slotRun_succ]
    refine ⟨?_, h2, h1, ?_⟩
    · rw [h2]
      exact pcbFind_erase_same _ _
    · rw [h3]
  · obtain ⟨h1, h2, h3⟩ := overflow_run cfg s now (evictBase cfg s setIdx wayIdx)
      (fun i => (getWay s setIdx wayIdx).data.getD i 0) hb hfull.1 hfull.2 8 (le_refl _)
      hroom
    refine ⟨h1, h2, ?_⟩
    rw [h3]

/-- Witness of C30: eviction of a dirty line with tag 1 in set 0 of a 4-set cache with an
empty buffer. -/
theorem dirty_eviction_outcome_witness :
    (evict (Config.source 4 1 64 1 16) 3
        (setWay (State.init (Config.source 4 1 64 1 16)) 0 0
          { CacheLine.init with valid := true, tag := 1, dirty := true }) 0 0).pcbMap
      = pcbErase
          (setWay (State.init (Config.source 4 1 64 1 16)) 0 0
            { CacheLine.init with valid := true, tag := 1, dirty := true }).pcbMap
          (evictBase (Config.source 4 1 64 1 16)
            (setWay (State.init (Config.source 4 1 64 1 16)) 0 0
              { CacheLine.init with valid := true, tag := 1, dirty := true }) 0 0) :=
  ((dirty_eviction_outcome (Config.source 4 1 64 1 16) 3
    (setWay (State.init (Config.source 4 1 64 1 16)) 0 0
      { CacheLine.init with valid := true, tag := 1, dirty := true }) 0 0
    (by decide) rfl (by decide) (by decide)
    ⟨List.Pairwise.nil, fun p hp => absurd hp (List.not_mem_nil _)⟩ (by decide)).1
    (Or.inr (by decide)) (by decide)).2.1

/-! ## Conservation of emissions -/

/-- C31. Sink conservation: in every state reached from the constructor state by requests,
evictions, `coalescePartial` calls and `flushPCB` calls,
`nvmWrites + plubPartials + writeQueueFull
  = pcbCoalescedBlocks + pcbPartialFlushes + pcbOverflows`
and `nvmBytesWritten = 64 * nvmWrites`. Each entry handed to `sendToNVMain` counts once, in
`nvmWrites` when the queue has room and in `writeQueueFull` otherwise, and each partial handed
to `sendToPLUB` counts once, in `plubPartials` or in `writeQueueFull`. -/
theorem sink_conservation (cfg : Config) (ops : List Op) :
    (run cfg (State.init cfg) ops).stats.nvmWrites
        + (run cfg (State.init cfg) ops).stats.plubPartials
        + (run cfg (State.init cfg) ops).stats.writeQueueFull
      = (run cfg (State.init cfg) ops).stats.pcbCoalescedBlocks
        + (run cfg (State.init cfg) ops).stats.pcbPartialFlushes
        + (run cfg (State.init cfg) ops).stats.pcbOverflows
      ∧ (run cfg (State.init cfg) ops).stats.nvmBytesWritten
        = 64 * (run cfg (State.init cfg) ops).stats.nvmWrites
      ∧ (∀ (s : State) (e : PCBEntry),
          (sendToNVMain cfg s e).stats.nvmWrites + (sendToNVMain cfg s e).stats.writeQueueFull
              = s.stats.nvmWrites + s.stats.writeQueueFull + 1
            ∧ (sendToNVMain cfg s e).stats.plubPartials = s.stats.plubPartials)
      ∧ (∀ (s : State) (addr data : Nat),
          (sendToPLUB cfg s addr data).stats.plubPartials
              + (sendToPLUB cfg s addr data).stats.writeQueueFull
              = s.stats.plubPartials + s.stats.writeQueueFull + 1
            ∧ (sendToPLUB cfg s addr data).stats.nvmWrites = s.stats.nvmWrites) := by
  have h := run_balanced cfg ops (State.init cfg) (by
    unfold Stats.Balanced
    simp [State.init, Stats.init])
  refine ⟨h.2.1, h.1, ?_, ?_⟩
  · intro s e
    unfold sendToNVMain
    split
    · exact ⟨by dsimp only; omega, rfl⟩
    · exact ⟨by dsimp only; omega, rfl⟩
  · intro s addr data
    unfold sendToPLUB
    split
    · exact ⟨by dsimp only; omega, rfl⟩
    · exact ⟨by dsimp only; omega, rfl⟩

/-! ## Invariant of the staged entries -/

/-- The entry that `coalescePartial` holds after its merge step, over a map of staged
entries: it has all the properties of a staged entry but, possibly, a full mask. -/
theorem mergedEntry_staged (now : Nat) (s : State) (addr data : Nat)
    (h : ∀ p ∈ s.pcbMap, p.2.Staged p.1) :
    (mergedEntry now s addr data).baseAddr = PCBEntry.getBase addr
      ∧ (mergedEntry now s addr data).baseAddr % 64 = 0
      ∧ (mergedEntry now s addr data).dirty = true
      ∧ (mergedEntry now s addr data).validMask ≠ 0
      ∧ (mergedEntry now s addr data).validMask < 256 := by
  have h0 : ((pcbFind s.pcbMap (PCBEntry.getBase addr)).getD PCBEntry.init).baseAddr
        = PCBEntry.getBase addr
      ∨ ((pcbFind s.pcbMap (PCBEntry.getBase addr)).getD PCBEntry.init).baseAddr = 0 := by
    rcases hf : pcbFind s.pcbMap (PCBEntry.getBase addr) with _ | e
    · exact Or.inr rfl
    · exact Or.inl (h _ (pcbFind_mem hf)).1
  have hm0 : ((pcbFind s.pcbMap (PCBEntry.getBase addr)).getD PCBEntry.init).validMask
      < 256 := by
    rcases hf : pcbFind s.pcbMap (PCBEntry.getBase addr) with _ | e
    · simp [PCBEntry.init]
    · exact (h _ (pcbFind_mem hf)).2.2.2.2.2
  have hbase : (mergedEntry now s addr data).baseAddr = PCBEntry.getBase addr := by
    unfold mergedEntry
    exact mergePartial_baseAddr _ _ _ _ _ h0
  have hmask : (mergedEntry now s addr data).validMask
      = (((pcbFind s.pcbMap (PCBEntry.getBase addr)).getD PCBEntry.init).validMask
          ||| (1 <<< ((addr - PCBEntry.getBase addr) / 8))) % 256 := by
    unfold mergedEntry
    exact mergePartial_validMask _ _ _ _ _
  refine ⟨hbase, by rw [hbase]; exact getBase_aligned addr, mergedEntry_dirty now s addr data,
    ?_, by rw [hmask]; exact setSlot_lt _ _⟩
  intro hz
  have hbit : (mergedEntry now s addr data).validMask.testBit
      ((addr - PCBEntry.getBase addr) / 8) = true := by
    rw [hmask, testBit_setSlot _ _ _ hm0 (slot_lt addr)]
    simp
  rw [hz, Nat.zero_testBit] at hbit
  exact Bool.noConfusion hbit

theorem coalescePartial_staged (cfg : Config) (now : Nat) (s : State) (addr data : Nat)
    (h : ∀ p ∈ s.pcbMap, p.2.Staged p.1) :
    ∀ p ∈ (coalescePartial cfg now s addr data).pcbMap, p.2.Staged p.1 := by
  by_cases hb : s.pcbMap.length ≥ cfg.pcbCapacity
      ∧ pcbFind s.pcbMap (PCBEntry.getBase addr) = none
  · rw [coalescePartial_overflow cfg now s addr data hb.1 hb.2]
    simpa using h
  · obtain ⟨m1, m2, m3, m4, m5⟩ := mergedEntry_staged now s addr data h
    rw [coalescePartial_merge_pcbMap cfg now s addr data hb]
    by_cases hf : (mergedEntry now s addr data).isFull = true
    · rw [if_pos hf]
      intro p hp
      obtain ⟨hp1, hp2⟩ := pcbErase_mem hp
      rcases pcbInsert_mem hp1 with rfl | hp3
      · exact absurd rfl hp2
      · exact h p hp3
    · rw [if_neg hf]
      intro p hp
      rcases pcbInsert_mem hp with rfl | hp3
      · refine ⟨m1, m2, m3, m4, ?_, m5⟩
        intro h255
        apply hf
        unfold PCBEntry.isFull
        rw [h255]
        rfl
      · exact h p hp3

/-- In every state reached from the constructor state all staged entries satisfy the
invariant. -/
theorem run_staged (cfg : Config) (ops : List Op) :
    ∀ p ∈ (run cfg (State.init cfg) ops).pcbMap, p.2.Staged p.1 := by
  apply run_invariant cfg (fun s => ∀ p ∈ s.pcbMap, p.2.Staged p.1)
  · exact fun now s addr data h => coalescePartial_staged cfg now s addr data h
  · intro now s _ p hp
    exact absurd hp (List.not_mem_nil _)
  · exact fun s S i l h => h
  · exact fun s h => h
  · exact fun s h => h
  · exact fun s h => h
  · intro p hp
    exact absurd hp (List.not_mem_nil _)

/-- A staged entry is handed to `sendToNVMain` by the flush loop and counted as a partial
flush. -/
theorem flushEntry_staged (cfg : Config) (s : State) (k : Nat) (e : PCBEntry)
    (h : e.Staged k) :
    flushEntry cfg s e
      = { sendToNVMain cfg s e with
          stats := { (sendToNVMain cfg s e).stats with
            pcbPartialFlushes := (sendToNVMain cfg s e).stats.pcbPartialFlushes + 1 } } := by
  obtain ⟨_, _, hd, h0, h255, hlt⟩ := h
  have hp : e.dirty = true ∧ e.numPartials > 0 :=
    ⟨hd, (numPartials_pos_iff e hlt).mpr h0⟩
  have hnf : e.isFull = false := by
    unfold PCBEntry.isFull
    rw [beq_eq_false_iff_ne]
    exact h255
  unfold flushEntry
  rw [if_pos hp]
  simp [hnf]

theorem flushLoop_staged (cfg : Config) (m : List (Nat × PCBEntry)) (s : State)
    (h : ∀ p ∈ m, p.2.Staged p.1) :
    (m.foldl (fun st p => flushEntry cfg st p.2) s).stats.pcbCoalescedBlocks
        = s.stats.pcbCoalescedBlocks
      ∧ (m.foldl (fun st p => flushEntry cfg st p.2) s).stats.pcbPartialFlushes
        = s.stats.pcbPartialFlushes + m.length
      ∧ (m.foldl (fun st p => flushEntry cfg st p.2) s).stats.nvmWrites
          + (m.foldl (fun st p => flushEntry cfg st p.2) s).stats.writeQueueFull
        = s.stats.nvmWrites + s.stats.writeQueueFull + m.length := by
  induction m generalizing s with
  | nil => exact ⟨rfl, rfl, rfl⟩
  | cons p t ih =>
    obtain ⟨h1, h2, h3⟩ := ih (flushEntry cfg s p.2)
      (fun q hq => h q (List.mem_cons_of_mem _ hq))
    have he := flushEntry_staged cfg s p.1 p.2 (h p (List.mem_cons_self _ _))
    rw [List.foldl_cons, h1, h2, h3, he, List.length_cons]
    unfold sendToNVMain
    split
    · exact ⟨rfl, by dsimp only; omega, by dsimp only; omega⟩
    · exact ⟨rfl, by dsimp only; omega, by dsimp only; omega⟩

theorem flushed_staged (m : List (Nat × PCBEntry)) (h : ∀ p ∈ m, p.2.Staged p.1) :
    flushed m = m.map Prod.snd := by
  unfold flushed
  rw [List.filter_eq_self]
  intro e he
  obtain ⟨p, hp, rfl⟩ := List.mem_map.mp he
  obtain ⟨_, _, hd, h0, _, _⟩ := h p hp
  simp [hd, h0]

/-- C32. Invariant of the staged entries: in every state reached from the constructor state
by requests, evictions, `coalescePartial` and `flushPCB` calls, every entry of the buffer
carries its map key as `baseAddr`, a multiple of 64, is dirty, and has a mask that is neither
0 nor `0xFF`. Consequently a flush from such a state leaves `pcbCoalescedBlocks` as it is,
finds every entry dirty and non-empty, hands it to `sendToNVMain` (one more `nvmWrites`, or
one more `writeQueueFull` when the queue is full) and counts it in `pcbPartialFlushes`. -/
theorem staged_entry_invariant (cfg : Config) (ops : List Op) :
    (∀ p ∈ (run cfg (State.init cfg) ops).pcbMap,
        p.2.baseAddr = p.1 ∧ p.2.baseAddr % 64 = 0 ∧ p.2.dirty = true
          ∧ p.2.validMask ≠ 0 ∧ p.2.validMask ≠ 0xFF)
      ∧ flushed (run cfg (State.init cfg) ops).pcbMap
          = (run cfg (State.init cfg) ops).pcbMap.map Prod.snd
      ∧ ∀ now,
          (flushPCB cfg now (run cfg (State.init cfg) ops)).stats.pcbCoalescedBlocks
              = (run cfg (State.init cfg) ops).stats.pcbCoalescedBlocks
            ∧ (flushPCB cfg now (run cfg (State.init cfg) ops)).stats.pcbPartialFlushes
              = (run cfg (State.init cfg) ops).stats.pcbPartialFlushes
                + (run cfg (State.init cfg) ops).pcbMap.length
            ∧ (flushPCB cfg now (run cfg (State.init cfg) ops)).stats.nvmWrites
                + (flushPCB cfg now (run cfg (State.init cfg) ops)).stats.writeQueueFull
              = (run cfg (State.init cfg) ops).stats.nvmWrites
                + (run cfg (State.init cfg) ops).stats.writeQueueFull
                + (run cfg (State.init cfg) ops).pcbMap.length := by
  have h := run_staged cfg ops
  refine ⟨fun p hp => ?_, flushed_staged _ h, fun now => ?_⟩
  · obtain ⟨h1, h2, h3, h4, h5, _⟩ := h p hp
    exact ⟨h1, h2, h3, h4, h5⟩
  · exact flushLoop_staged cfg _ _ h

/-! ## Frame of an admitted coalesce -/

theorem setSlot_mod (m i : Nat) (hm : m < 256) (hi : i < 8) :
    (m ||| (1 <<< i)) % 256 = m ||| (1 <<< i) := by
  have h2 : (1 <<< i) < 2 ^ 8 := by
    rw [Nat.one_shiftLeft]
    exact Nat.pow_lt_pow_right (by norm_num) hi
  have hlt : m ||| (1 <<< i) < 2 ^ 8 := Nat.or_lt_two_pow (by simpa using hm) h2
  exact Nat.mod_eq_of_lt (by simpa using hlt)

/-- C33. Frame of an admitted coalesce that does not complete the block, over a well-formed
buffer. With `i = (addr - getBase addr) / 8` and `e0` the entry found under `getBase addr`
(the fresh entry that `pcbMap[baseAddr]` creates when there is none), the entry under
`getBase addr` after the call is `e0` with `baseAddr` set to the key (its value already for
an entry that was found), bytes `[8 i, 8 i + 8)` replaced by the little-endian bytes of
`data`, mask `old ||| 1 <<< i`, `dirty` set and `lastUpdate = now`: every other byte and
every other mask bit is as in `e0`. Every other entry of the buffer, the write queue and the
cache sets are unchanged; of the counters only `pcbTotalPartials` moves, by one. -/
theorem coalesce_frame (cfg : Config) (now : Nat) (s : State) (addr data : Nat)
    (hwf : pcbWF s.pcbMap)
    (hadm : ¬ (s.pcbMap.length ≥ cfg.pcbCapacity
      ∧ pcbFind s.pcbMap (PCBEntry.getBase addr) = none))
    (hnf : (mergedEntry now s addr data).isFull = false) :
    pcbFind (coalescePartial cfg now s addr data).pcbMap (PCBEntry.getBase addr)
        = some (mergedEntry now s addr data)
      ∧ mergedEntry now s addr data
        = { (pcbFind s.pcbMap (PCBEntry.getBase addr)).getD PCBEntry.init with
            baseAddr := PCBEntry.getBase addr
            data := storeU64 ((pcbFind s.pcbMap (PCBEntry.getBase addr)).getD
              PCBEntry.init).data ((addr - PCBEntry.getBase addr) / 8 * 8) data
            validMask := ((pcbFind s.pcbMap (PCBEntry.getBase addr)).getD
              PCBEntry.init).validMask ||| (1 <<< ((addr - PCBEntry.getBase addr) / 8))
            dirty := true
            lastUpdate := now }
      ∧ (∀ e0, pcbFind s.pcbMap (PCBEntry.getBase addr) = some e0 →
          (mergedEntry now s addr data).baseAddr = e0.baseAddr)
      ∧ (∀ k, k < 8 →
          (mergedEntry now s addr data).data.getD
              ((addr - PCBEntry.getBase addr) / 8 * 8 + k) 0 = data / 256 ^ k % 256)
      ∧ (∀ p, (p < (addr - PCBEntry.getBase addr) / 8 * 8
            ∨ (addr - PCBEntry.getBase addr) / 8 * 8 + 8 ≤ p) →
          (mergedEntry now s addr data).data.getD p 0
            = ((pcbFind s.pcbMap (PCBEntry.getBase addr)).getD PCBEntry.init).data.getD p 0)
      ∧ (mergedEntry now s addr data).data.length = 64
      ∧ (∀ j, j ≠ (addr - PCBEntry.getBase addr) / 8 →
          (mergedEntry now s addr data).validMask.testBit j
            = ((pcbFind s.pcbMap (PCBEntry.getBase addr)).getD
                PCBEntry.init).validMask.testBit j)
      ∧ (mergedEntry now s addr data).validMask.testBit
          ((addr - PCBEntry.getBase addr) / 8) = true
      ∧ (∀ k, k ≠ PCBEntry.getBase addr →
          pcbFind (coalescePartial cfg now s addr data).pcbMap k = pcbFind s.pcbMap k)
      ∧ pcbErase (coalescePartial cfg now s addr data).pcbMap (PCBEntry.getBase addr)
          = pcbErase s.pcbMap (PCBEntry.getBase addr)
      ∧ (coalescePartial cfg now s addr data).writeQueue = s.writeQueue
      ∧ (coalescePartial cfg now s addr data).cacheSets = s.cacheSets
      ∧ (coalescePartial cfg now s addr data).flushAt = s.flushAt
      ∧ (coalescePartial cfg now s addr data).stats
          = { s.stats with pcbTotalPartials := s.stats.pcbTotalPartials + 1 } := by
  obtain ⟨f1, f2, f3⟩ := found_entry s.pcbMap (PCBEntry.getBase addr) hwf
  have hi := slot_lt addr
  have heq : mergedEntry now s addr data
      = { (pcbFind s.pcbMap (PCBEntry.getBase addr)).getD PCBEntry.init with
          baseAddr := PCBEntry.getBase addr
          data := storeU64 ((pcbFind s.pcbMap (PCBEntry.getBase addr)).getD
            PCBEntry.init).data ((addr - PCBEntry.getBase addr) / 8 * 8) data
          validMask := ((pcbFind s.pcbMap (PCBEntry.getBase addr)).getD
            PCBEntry.init).validMask ||| (1 <<< ((addr - PCBEntry.getBase addr) / 8))
          dirty := true
          lastUpdate := now } := by
    unfold mergedEntry mergePartial
    rcases f1 with h | h
    · by_cases h0 : ((pcbFind s.pcbMap (PCBEntry.getBase addr)).getD PCBEntry.init).baseAddr
          = 0
      · simp only [h0, if_true]
        rw [setSlot_mod _ _ f3 hi]
      · simp only [h0, if_false]
        rw [setSlot_mod _ _ f3 hi, h]
    · simp only [h, if_true]
      rw [setSlot_mod _ _ f3 hi]
  have hmask : (mergedEntry now s addr data).validMask
      = (((pcbFind s.pcbMap (PCBEntry.getBase addr)).getD PCBEntry.init).validMask
          ||| (1 <<< ((addr - PCBEntry.getBase addr) / 8))) % 256 := by
    unfold mergedEntry
    exact mergePartial_validMask _ _ _ _ _
  have hdata : (mergedEntry now s addr data).data
      = storeU64 ((pcbFind s.pcbMap (PCBEntry.getBase addr)).getD PCBEntry.init).data
          ((addr - PCBEntry.getBase addr) / 8 * 8) data := by
    unfold mergedEntry
    exact mergePartial_data _ _ _ _ _
  have hst := coalescePartial_stage cfg now s addr data hadm hnf
  refine ⟨?_, heq, ?_, ?_, ?_, ?_, ?_, ?_, ?_, ?_, ?_, ?_, ?_, ?_⟩
  · rw [hst]
    exact pcbFind_insert_same _ _ _
  · intro e0 he0
    have hb := (hwf.2 _ (pcbFind_mem he0)).1
    rw [heq]
    exact hb.symm
  · intro k hk
    rw [hdata]
    exact getD_storeU64_in _ _ _ k hk (by omega)
  · intro p hp
    rw [hdata]
    exact getD_storeU64_out _ _ _ p hp
  · rw [hdata, storeU64_length]
    exact f2
  · intro j hj
    rw [hmask, testBit_setSlot _ _ _ f3 hi]
    have : decide ((addr - PCBEntry.getBase addr) / 8 = j) = false := by
      simp only [decide_eq_false_iff_not]
      exact fun h => hj h.symm
    rw [this, Bool.or_false]
  · rw [hmask, testBit_setSlot _ _ _ f3 hi]
    simp
  · intro k hk
    rw [hst]
    exact pcbFind_insert_other _ _ _ _ hk
  · rw [hst]
    exact pcbErase_insert _ _ _
  · rw [hst]
    rfl
  · rw [hst]
    rfl
  · rw [hst]
    rfl
  · rw [hst]
    rfl

/-- Witness of C33: the partial `(0x8, 0x22)` coalesced into the empty buffer. -/
theorem coalesce_frame_witness :
    pcbFind (coalescePartial (Config.source 4 4 64 1 64) 5
        (State.init (Config.source 4 4 64 1 64)) 0x8 0x22).pcbMap (PCBEntry.getBase 0x8)
      = some (mergedEntry 5 (State.init (Config.source 4 4 64 1 64)) 0x8 0x22) :=
  (coalesce_frame (Config.source 4 4 64 1 64) 5 (State.init (Config.source 4 4 64 1 64))
    0x8 0x22 ⟨List.Pairwise.nil, fun p hp => absurd hp (List.not_mem_nil _)⟩
    (by decide) (by decide)).1

/-! ## Frame of `lookup` -/

/-- A valid way lies inside the stored sets. -/
theorem valid_in_bounds (s : State) (setIdx i : Nat)
    (hv : (getWay s setIdx i).valid = true) :
    setIdx < s.cacheSets.length
      ∧ i < (s.cacheSets.getD setIdx (CacheSet.init 0)).ways.length := by
  have hi : i < (s.cacheSets.getD setIdx (CacheSet.init 0)).ways.length := by
    by_contra hcon
    rw [getWay_oob s setIdx i (by omega)] at hv
    exact absurd hv (by simp [CacheLine.init])
  refine ⟨?_, hi⟩
  by_contra hcon
  rw [List.getD_eq_getElem?_getD, List.getElem?_eq_none (by omega)] at hi
  simp [CacheSet.init] at hi

theorem setWay_other_set (s : State) (setIdx i S : Nat) (line : CacheLine)
    (h : S ≠ setIdx) :
    (setWay s setIdx i line).cacheSets.getD S (CacheSet.init 0)
      = s.cacheSets.getD S (CacheSet.init 0) := by
  unfold setWay
  exact getD_set_other _ _ _ _ _ (fun hc => h hc.symm)

/-- A hit of `lookup`: the hit way gets `lastAccess = now` and the value read is word
`offset` of its data. -/
theorem lookup_hit (cfg : Config) (now : Nat) (s : State) (addr i : Nat)
    (h : findHit cfg s (getSetIndex cfg addr) (getTag cfg addr) = some i) :
    lookup cfg now s addr
      = (setWay s (getSetIndex cfg addr) i
          { getWay s (getSetIndex cfg addr) i with lastAccess := now },
        some ((getWay s (getSetIndex cfg addr) i).data.getD (getOffset cfg addr) 0)) := by
  unfold lookup
  simp only [h]

theorem lookup_miss (cfg : Config) (now : Nat) (s : State) (addr : Nat)
    (h : findHit cfg s (getSetIndex cfg addr) (getTag cfg addr) = none) :
    lookup cfg now s addr = (s, none) := by
  unfold lookup
  simp only [h]

/-- C34. Frame of `lookup`, for every state and address: a miss (result `none`) leaves the
whole state unchanged; in every case each way of each set keeps its `valid`, `tag`, `data`
and `dirty`; a way that differs from before is the way that was hit, in the addressed set,
and it differs only by `lastAccess = now`; every other set is unchanged as a whole, the
number of sets and of ways is unchanged, and so are the buffer, the write queue, the
counters and the flush deadline. -/
theorem lookup_frame (cfg : Config) (now : Nat) (s : State) (addr : Nat) :
    ((lookup cfg now s addr).2 = none → (lookup cfg now s addr).1 = s)
      ∧ ((lookup cfg now s addr).2 = none
          ↔ findHit cfg s (getSetIndex cfg addr) (getTag cfg addr) = none)
      ∧ (∀ S i, (getWay (lookup cfg now s addr).1 S i).valid = (getWay s S i).valid
          ∧ (getWay (lookup cfg now s addr).1 S i).tag = (getWay s S i).tag
          ∧ (getWay (lookup cfg now s addr).1 S i).data = (getWay s S i).data
          ∧ (getWay (lookup cfg now s addr).1 S i).dirty = (getWay s S i).dirty)
      ∧ (∀ S i, getWay (lookup cfg now s addr).1 S i ≠ getWay s S i →
          S = getSetIndex cfg addr
            ∧ findHit cfg s (getSetIndex cfg addr) (getTag cfg addr) = some i)
      ∧ (∀ i, findHit cfg s (getSetIndex cfg addr) (getTag cfg addr) = some i →
          getWay (lookup cfg now s addr).1 (getSetIndex cfg addr) i
            = { getWay s (getSetIndex cfg addr) i with lastAccess := now })
      ∧ (∀ S, S ≠ getSetIndex cfg addr →
          (lookup cfg now s addr).1.cacheSets.getD S (CacheSet.init 0)
            = s.cacheSets.getD S (CacheSet.init 0))
      ∧ (lookup cfg now s addr).1.cacheSets.length = s.cacheSets.length
      ∧ (∀ S, ((lookup cfg now s addr).1.cacheSets.getD S (CacheSet.init 0)).ways.length
          = (s.cacheSets.getD S (CacheSet.init 0)).ways.length)
      ∧ (lookup cfg now s addr).1.pcbMap = s.pcbMap
      ∧ (lookup cfg now s addr).1.writeQueue = s.writeQueue
      ∧ (lookup cfg now s addr).1.stats = s.stats
      ∧ (lookup cfg now s addr).1.flushAt = s.flushAt := by
  rcases hf : findHit cfg s (getSetIndex cfg addr) (getTag cfg addr) with _ | i0
  · rw [lookup_miss cfg now s addr hf]
    refine ⟨fun _ => rfl, ⟨fun _ => rfl, fun _ => rfl⟩, fun S i => ⟨rfl, rfl, rfl, rfl⟩,
      fun S i h => absurd rfl h, fun i h => absurd h (by simp), fun S _ => rfl, rfl,
      fun S => rfl, rfl, rfl, rfl, rfl⟩
  · rw [lookup_hit cfg now s addr i0 hf]
    have hv := ((findHit_eq_some cfg s _ _ i0).mp hf).2.1.1
    obtain ⟨hb1, hb2⟩ := valid_in_bounds s _ i0 hv
    have hsame := getWay_setWay_same s (getSetIndex cfg addr) i0
      { getWay s (getSetIndex cfg addr) i0 with lastAccess := now } hb1 hb2
    have hcases : ∀ S i, (S = getSetIndex cfg addr ∧ i = i0) ∨
        getWay (setWay s (getSetIndex cfg addr) i0
          { getWay s (getSetIndex cfg addr) i0 with lastAccess := now }) S i
          = getWay s S i := by
      intro S i
      by_cases h : S ≠ getSetIndex cfg addr ∨ i ≠ i0
      · exact Or.inr (getWay_setWay_other s _ _ S i _ h)
      · left
        constructor
        · by_contra hc
          exact h (Or.inl hc)
        · by_contra hc
          exact h (Or.inr hc)
    refine ⟨fun h => absurd h (by simp), ⟨fun h => absurd h (by simp),
      fun h => absurd h (by simp)⟩, ?_, ?_, ?_, ?_, ?_, ?_, rfl, rfl, rfl, rfl⟩
    · intro S i
      rcases hcases S i with ⟨hS, hi⟩ | h
      · subst hS
        subst hi
        show (getWay (setWay s _ _ _) _ _).valid = _ ∧ _
        rw [hsame]
        exact ⟨rfl, rfl, rfl, rfl⟩
      · show (getWay (setWay s _ _ _) _ _).valid = _ ∧ _
        rw [h]
        exact ⟨rfl, rfl, rfl, rfl⟩
    · intro S i hne
      rcases hcases S i with ⟨hS, hi⟩ | h
      · exact ⟨hS, by rw [hi]⟩
      · exact absurd h hne
    · intro i hi
      have : i = i0 := by
        simpa using hi.symm
      subst this
      exact hsame
    · intro S hS
      exact setWay_other_set s _ _ S _ hS
    · exact setWay_length s _ _ _
    · intro S
      exact setWay_ways_length s _ _ S _

/-! ## Reconstruction of the block address at eviction -/

/-- The block number splits into tag and set index. -/
theorem tag_set_split (cfg : Config) (a : Nat) (hprod : cfg.blockSize * cfg.numSets < 2 ^ 64) :
    getTag cfg a * cfg.numSets + getSetIndex cfg a = a / cfg.blockSize := by
  unfold getTag getSetIndex
  rw [Nat.mod_eq_of_lt hprod, ← Nat.div_div_eq_div_mul, Nat.mul_comm]
  exact Nat.div_add_mod _ _

theorem lineWrites_addrs (now base : Nat) (line : CacheLine) :
    (lineWrites now base line).map (fun c => c.addr)
      = (List.range 8).map (fun i => base + 8 * i) := by
  unfold lineWrites
  rw [List.map_map]
  rfl

/-- C35. Reconstruction of the block address at eviction. For `numSets ≥ 1`, `blockSize ≥ 1`,
a product `blockSize * numSets` and an address `a` that fit in 64 bits:
`(getTag a * numSets + getSetIndex a) * blockSize = (a / blockSize) * blockSize`, the 64-bit
computation of `evict` yields that value without wrapping, and the reconstructed address has
the set index and the tag of `a`, the set index being below `numSets`. With
`blockSize = 64`, for a way of set `getSetIndex a` whose tag is `getTag a`, the address
`evict` computes is `PCBEntry::getBase(a)`, the eight addresses it forwards are
`getBase(a) + 8 i`, none wraps, and for a dirty line `evict` is the run of these eight calls
followed by the count of the eviction and the invalidation. -/
theorem evict_address_reconstruction (cfg : Config) (a : Nat)
    (hN : 1 ≤ cfg.numSets) (hB : 1 ≤ cfg.blockSize)
    (hprod : cfg.blockSize * cfg.numSets < 2 ^ 64) (ha : a < 2 ^ 64) :
    (getTag cfg a * cfg.numSets + getSetIndex cfg a) * cfg.blockSize
        = a / cfg.blockSize * cfg.blockSize
      ∧ ((getTag cfg a * cfg.numSets + getSetIndex cfg a) % 2 ^ 64 * cfg.blockSize) % 2 ^ 64
        = a / cfg.blockSize * cfg.blockSize
      ∧ getSetIndex cfg ((getTag cfg a * cfg.numSets + getSetIndex cfg a) * cfg.blockSize)
        = getSetIndex cfg a
      ∧ getTag cfg ((getTag cfg a * cfg.numSets + getSetIndex cfg a) * cfg.blockSize)
        = getTag cfg a
      ∧ getSetIndex cfg a < cfg.numSets
      ∧ (cfg.blockSize = 64 → ∀ (now : Nat) (s : State) (w : Nat),
          (getWay s (getSetIndex cfg a) w).tag = getTag cfg a →
            evictBase cfg s (getSetIndex cfg a) w = PCBEntry.getBase a
              ∧ (lineWrites now (evictBase cfg s (getSetIndex cfg a) w)
                  (getWay s (getSetIndex cfg a) w)).map (fun c => c.addr)
                = (List.range 8).map (fun i => PCBEntry.getBase a + 8 * i)
              ∧ (∀ i, i < 8 → (PCBEntry.getBase a + i * 8) % 2 ^ 64
                  = PCBEntry.getBase a + 8 * i)
              ∧ ((getWay s (getSetIndex cfg a) w).dirty = true →
                  evict cfg now s (getSetIndex cfg a) w
                    = setWay
                        { runCoalesce cfg s (lineWrites now (PCBEntry.getBase a)
                            (getWay s (getSetIndex cfg a) w)) with
                          stats := { (runCoalesce cfg s (lineWrites now (PCBEntry.getBase a)
                              (getWay s (getSetIndex cfg a) w))).stats with
                            evictions := s.stats.evictions + 1 } }
                        (getSetIndex cfg a) w
                        { getWay s (getSetIndex cfg a) w with valid := false })) := by
  have hsplit := tag_set_split cfg a hprod
  have hdiv : a / cfg.blockSize * cfg.blockSize / cfg.blockSize = a / cfg.blockSize :=
    Nat.mul_div_cancel _ (by omega)
  have hle : a / cfg.blockSize * cfg.blockSize ≤ a := Nat.div_mul_le_self a cfg.blockSize
  have hq : a / cfg.blockSize ≤ a := Nat.div_le_self a cfg.blockSize
  refine ⟨by rw [hsplit], ?_, ?_, ?_, getSetIndex_lt cfg a hN, ?_⟩
  · have h1 : a / cfg.blockSize % 2 ^ 64 = a / cfg.blockSize := Nat.mod_eq_of_lt (by omega)
    rw [hsplit, h1]
    exact Nat.mod_eq_of_lt (by omega)
  · rw [hsplit]
    unfold getSetIndex
    rw [hdiv]
  · rw [hsplit]
    unfold getTag
    rw [Nat.mod_eq_of_lt hprod, ← Nat.div_div_eq_div_mul, ← Nat.div_div_eq_div_mul, hdiv]
  · intro h64 now s w htag
    have hbase : evictBase cfg s (getSetIndex cfg a) w = PCBEntry.getBase a := by
      unfold evictBase PCBEntry.getBase
      rw [htag, hsplit, h64]
    have hfit : PCBEntry.getBase a + 56 < 2 ^ 64 := by
      unfold PCBEntry.getBase
      omega
    refine ⟨hbase, ?_, ?_, ?_⟩
    · rw [hbase]
      exact lineWrites_addrs now _ _
    · intro i hi
      rw [Nat.mod_eq_of_lt (by omega)]
      omega
    · intro hd
      have h := evict_dirty_run cfg now s (getSetIndex cfg a) w hd (by rw [hbase]; exact hfit)
      rw [hbase] at h
      exact h

/-- Witness of C35: address `0x1238` in the cache of 4 sets of 64-byte blocks. -/
theorem evict_address_reconstruction_witness :
    (getTag (Config.source 4 4 64 1 64) 0x1238 * 4
        + getSetIndex (Config.source 4 4 64 1 64) 0x1238) * 64 = 0x1238 / 64 * 64
      ∧ getSetIndex (Config.source 4 4 64 1 64)
          ((getTag (Config.source 4 4 64 1 64) 0x1238 * 4
            + getSetIndex (Config.source 4 4 64 1 64) 0x1238) * 64)
        = getSetIndex (Config.source 4 4 64 1 64) 0x1238 :=
  ⟨(evict_address_reconstruction (Config.source 4 4 64 1 64) 0x1238
      (by decide) (by decide) (by decide) (by decide)).1,
   (evict_address_reconstruction (Config.source 4 4 64 1 64) 0x1238
      (by decide) (by decide) (by decide) (by decide)).2.2.1⟩

/-! ## Back-pressure of the NVM controller -/

theorem recordStats_fields (c : NVMainControl) (pkt : Packet) (latency : Nat) :
    (c.recordStats pkt latency).pendingRequest = c.pendingRequest
      ∧ (c.recordStats pkt latency).retryRespPkt = c.retryRespPkt
      ∧ (c.recordStats pkt latency).retryReq = c.retryReq
      ∧ (c.recordStats pkt latency).responseAt = c.responseAt := by
  unfold NVMainControl.recordStats
  split
  · exact ⟨rfl, rfl, rfl, rfl⟩
  · split
    · exact ⟨rfl, rfl, rfl, rfl⟩
    · exact ⟨rfl, rfl, rfl, rfl⟩

/-- A busy controller refuses a well-formed request. -/
theorem recvTimingReq_busy (now : Nat) (c : NVMainControl) (pkt : Packet)
    (hresp : pkt.cacheResponding = false) (hrw : (pkt.isRead || pkt.isWrite) = true)
    (hbusy : (c.pendingRequest.isSome || c.retryRespPkt.isSome) = true) :
    c.recvTimingReq now pkt = Except.ok ({ c with retryReq := true }, false) := by
  unfold NVMainControl.recvTimingReq
  rw [if_neg (by simp [hresp]), if_neg (by simp [hrw]), if_pos hbusy]

theorem recordStats_pendingRequest (c : NVMainControl) (pkt : Packet) (latency : Nat) :
    (c.recordStats pkt latency).pendingRequest = c.pendingRequest :=
  (recordStats_fields c pkt latency).1

theorem recordStats_retryRespPkt (c : NVMainControl) (pkt : Packet) (latency : Nat) :
    (c.recordStats pkt latency).retryRespPkt = c.retryRespPkt :=
  (recordStats_fields c pkt latency).2.1

theorem recordStats_retryReq (c : NVMainControl) (pkt : Packet) (latency : Nat) :
    (c.recordStats pkt latency).retryReq = c.retryReq :=
  (recordStats_fields c pkt latency).2.2.1

theorem recordStats_responseAt (c : NVMainControl) (pkt : Packet) (latency : Nat) :
    (c.recordStats pkt latency).responseAt = c.responseAt :=
  (recordStats_fields c pkt latency).2.2.2

/-- An idle controller with no response scheduled accepts a well-formed request: the packet,
its delays cleared, becomes the pending request and the response event is scheduled. -/
theorem recvTimingReq_idle (now : Nat) (c : NVMainControl) (pkt : Packet)
    (hresp : pkt.cacheResponding = false) (hrw : (pkt.isRead || pkt.isWrite) = true)
    (hidle : (c.pendingRequest.isSome || c.retryRespPkt.isSome) = false)
    (hns : c.responseAt = none) :
    ∃ c1, c.recvTimingReq now pkt = Except.ok (c1, true)
      ∧ c1.pendingRequest = some { pkt with headerDelay := 0, payloadDelay := 0 }
      ∧ c1.retryRespPkt = c.retryRespPkt
      ∧ c1.retryReq = c.retryReq
      ∧ c1.responseAt.isSome = true := by
  unfold NVMainControl.recvTimingReq
  rw [if_neg (by simp [hresp]), if_neg (by simp [hrw]), if_neg (by simp [hidle])]
  simp only [recordStats_responseAt, hns, Option.isSome_none, Bool.false_eq_true, if_false]
  exact ⟨_, rfl, recordStats_pendingRequest _ _ _, recordStats_retryRespPkt _ _ _,
    recordStats_retryReq _ _ _, rfl⟩

theorem oneInFlight_init (tRCD tCL tWR : Nat) :
    (NVMainControl.init tRCD tCL tWR).OneInFlight :=
  ⟨rfl, Or.inl rfl⟩

theorem oneInFlight_idle (c : NVMainControl) (h : c.OneInFlight)
    (hidle : (c.pendingRequest.isSome || c.retryRespPkt.isSome) = false) :
    c.responseAt = none := by
  have hp : c.pendingRequest.isSome = false := by
    cases hq : c.pendingRequest.isSome
    · rfl
    · rw [hq] at hidle
      simp at hidle
  have := h.1
  rw [hp] at this
  cases hr : c.responseAt with
  | none => rfl
  | some t =>
    rw [hr] at this
    simp at this

theorem trySendRetry_oneInFlight (c : NVMainControl) (h : c.OneInFlight) :
    c.trySendRetry.1.OneInFlight := by
  unfold NVMainControl.trySendRetry
  split
  · exact h
  · exact h

theorem ctrlStep_oneInFlight (c c1 : NVMainControl) (e : CtrlEvent) (h : c.OneInFlight)
    (hstep : ctrlStep c e = Except.ok c1) : c1.OneInFlight := by
  cases e with
  | request now pkt =>
    simp only [ctrlStep] at hstep
    by_cases hresp : pkt.cacheResponding = true
    · unfold NVMainControl.recvTimingReq at hstep
      rw [if_pos hresp] at hstep
      exact absurd hstep (by simp)
    · have hresp1 : pkt.cacheResponding = false := by simpa using hresp
      by_cases hrw : (pkt.isRead || pkt.isWrite) = true
      · cases hbusy : (c.pendingRequest.isSome || c.retryRespPkt.isSome)
        · obtain ⟨c2, hc2, hpend, hrp2, _, hsched⟩ := recvTimingReq_idle now c pkt hresp1 hrw
            hbusy (oneInFlight_idle c h hbusy)
          rw [hc2] at hstep
          simp only [Except.ok.injEq] at hstep
          subst hstep
          have hrp : c.retryRespPkt = none := by
            cases hq : c.retryRespPkt with
            | none => rfl
            | some p =>
              rw [hq] at hbusy
              simp at hbusy
          refine ⟨?_, Or.inr (by rw [hrp2]; exact hrp)⟩
          rw [hpend, hsched]
          rfl
        · rw [recvTimingReq_busy now c pkt hresp1 hrw hbusy] at hstep
          simp only [Except.ok.injEq] at hstep
          subst hstep
          exact h
      · unfold NVMainControl.recvTimingReq at hstep
        rw [if_neg hresp, if_pos (by simpa using hrw)] at hstep
        exact absurd hstep (by simp)
  | fire needsResponse accepted =>
    simp only [ctrlStep] at hstep
    split at hstep
    · unfold NVMainControl.sendResponse at hstep
      cases hp : c.pendingRequest with
      | none =>
        rw [hp] at hstep
        exact absurd hstep (by simp)
      | some p =>
        rw [hp] at hstep
        have hf : NVMainControl.OneInFlight
            (NVMainControl.trySendRetry
              { c with pendingRequest := none, responseAt := none }).1 :=
          trySendRetry_oneInFlight _ ⟨rfl, Or.inl rfl⟩
        cases needsResponse <;> cases accepted <;>
          simp only [Bool.false_eq_true, if_false, if_true, Bool.not_false, Bool.not_true,
            Except.ok.injEq] at hstep <;> subst hstep
        · exact hf
        · exact hf
        · exact ⟨rfl, Or.inl rfl⟩
        · exact hf
    · simp only [Except.ok.injEq] at hstep
      subst hstep
      exact h
  | respRetry accepted =>
    simp only [ctrlStep] at hstep
    simp only [Except.ok.injEq] at hstep
    subst hstep
    unfold NVMainControl.recvRespRetry
    cases hr : c.retryRespPkt with
    | none => exact h
    | some p =>
      cases accepted
      · exact h
      · simp only [if_true]
        exact trySendRetry_oneInFlight _ ⟨h.1, Or.inr rfl⟩

theorem runCtrl_oneInFlight (evs : List CtrlEvent) (c0 c : NVMainControl)
    (h : c0.OneInFlight) (hrun : runCtrl c0 evs = Except.ok c) : c.OneInFlight := by
  induction evs generalizing c0 with
  | nil =>
    unfold runCtrl at hrun
    simp only [Except.ok.injEq] at hrun
    subst hrun
    exact h
  | cons e es ih =>
    unfold runCtrl at hrun
    cases hs : ctrlStep c0 e with
    | error msg =>
      rw [hs] at hrun
      exact absurd hrun (by simp)
    | ok c1 =>
      rw [hs] at hrun
      exact ih c1 (ctrlStep_oneInFlight c0 c1 e h hs) hrun

/-- C36. Back-pressure of `NVMainControl`, in every state `c` reached from the constructor by
a history of timing requests, firings of the response event and response retries, for a read
or write packet to which no cache responds. `recvTimingReq` returns; it accepts the packet
(returns `true`) if and only if no request is pending and no response waits for a retry; when
it refuses, it returns `false` and the controller is `c` with `retryReq` set, nothing else
changed; when it accepts, the packet (delays cleared) becomes the pending request and
`retryReq` is untouched. A pending request is never replaced, and the controller never holds
a pending request and a waiting response together. `trySendRetry` sends the retry exactly
when `retryReq` is set and the controller is idle; it then clears `retryReq` and changes
nothing else, and otherwise changes nothing. -/
theorem backpressure_state_machine (tRCD tCL tWR : Nat) (evs : List CtrlEvent)
    (c : NVMainControl) (now : Nat) (pkt : Packet)
    (hreach : runCtrl (NVMainControl.init tRCD tCL tWR) evs = Except.ok c)
    (hresp : pkt.cacheResponding = false) (hrw : (pkt.isRead || pkt.isWrite) = true) :
    (∃ c1 b, c.recvTimingReq now pkt = Except.ok (c1, b)
        ∧ (b = true ↔ c.pendingRequest = none ∧ c.retryRespPkt = none)
        ∧ (b = false → c1 = { c with retryReq := true })
        ∧ (b = true →
            c1.pendingRequest = some { pkt with headerDelay := 0, payloadDelay := 0 }
              ∧ c1.retryRespPkt = none ∧ c1.retryReq = c.retryReq)
        ∧ (∀ p, c.pendingRequest = some p → c1.pendingRequest = some p))
      ∧ (c.pendingRequest = none ∨ c.retryRespPkt = none)
      ∧ c.pendingRequest.isSome = c.responseAt.isSome
      ∧ (c.trySendRetry.2 = true
          ↔ c.retryReq = true ∧ c.pendingRequest = none ∧ c.retryRespPkt = none)
      ∧ (c.trySendRetry.2 = true → c.trySendRetry.1 = { c with retryReq := false })
      ∧ (c.trySendRetry.2 = false → c.trySendRetry.1 = c) := by
  have hinv := runCtrl_oneInFlight evs _ c (oneInFlight_init tRCD tCL tWR) hreach
  refine ⟨?_, hinv.2, hinv.1, ?_, ?_, ?_⟩
  · cases hbusy : (c.pendingRequest.isSome || c.retryRespPkt.isSome)
    · obtain ⟨c2, hc2, hpend, hrp2, hrq, _⟩ := recvTimingReq_idle now c pkt hresp hrw
        hbusy (oneInFlight_idle c hinv hbusy)
      have hp : c.pendingRequest = none := by
        cases hq : c.pendingRequest with
        | none => rfl
        | some p =>
          rw [hq] at hbusy
          simp at hbusy
      have hr : c.retryRespPkt = none := by
        cases hq : c.retryRespPkt with
        | none => rfl
        | some p =>
          rw [hq, hp] at hbusy
          simp at hbusy
      refine ⟨c2, true, hc2, ⟨fun _ => ⟨hp, hr⟩, fun _ => rfl⟩,
        fun h => absurd h (by simp), fun _ => ⟨hpend, by rw [hrp2]; exact hr, hrq⟩, ?_⟩
      intro p hpp
      rw [hp] at hpp
      exact absurd hpp (by simp)
    · refine ⟨{ c with retryReq := true }, false,
        recvTimingReq_busy now c pkt hresp hrw hbusy, ⟨fun h => absurd h (by simp), ?_⟩,
        fun _ => rfl, fun h => absurd h (by simp), fun p hpp => hpp⟩
      rintro ⟨hp, hr⟩
      rw [hp, hr] at hbusy
      simp at hbusy
  · unfold NVMainControl.trySendRetry
    constructor
    · intro h
      split at h
      · rename_i hc
        simpa [Option.isNone_iff_eq_none, and_assoc] using hc
      · exact absurd h (by simp)
    · rintro ⟨h1, h2, h3⟩
      rw [if_pos (by simp [h1, h2, h3])]
  · intro h
    unfold NVMainControl.trySendRetry at h ⊢
    split
    · rfl
    · rename_i hc
      rw [if_neg hc] at h
      exact absurd h (by simp)
  · intro h
    unfold NVMainControl.trySendRetry at h ⊢
    split
    · rename_i hc
      rw [if_pos hc] at h
      exact absurd h (by simp)
    · rfl

/-- Witness of C36: the controller that has accepted a write at tick 0, and a read arriving
at tick 5. -/
theorem backpressure_state_machine_witness :
    runCtrl (NVMainControl.init 10 20 30)
        [CtrlEvent.request 0
          { isRead := false, isWrite := true, cacheResponding := false, size := 8,
            headerDelay := 0, payloadDelay := 0 }]
      = Except.ok
          { NVMainControl.init 10 20 30 with
              pendingRequest := some
                { isRead := false, isWrite := true, cacheResponding := false, size := 8,
                  headerDelay := 0, payloadDelay := 0 }
              responseAt := some 30
              stats := { numReads := 0, numWrites := 1, bytesRead := 0, bytesWritten := 8,
                         readLatency := [], writeLatency := [30] } }
      ∧ ∃ c1 b, NVMainControl.recvTimingReq 5
          { NVMainControl.init 10 20 30 with
              pendingRequest := some
                { isRead := false, isWrite := true, cacheResponding := false, size := 8,
                  headerDelay := 0, payloadDelay := 0 }
              responseAt := some 30
              stats := { numReads := 0, numWrites := 1, bytesRead := 0, bytesWritten := 8,
                         readLatency := [], writeLatency := [30] } }
          { isRead := true, isWrite := false, cacheResponding := false, size := 8,
            headerDelay := 0, payloadDelay := 0 } = Except.ok (c1, b) ∧ b = false :=
  ⟨rfl,
   match (backpressure_state_machine 10 20 30
      [CtrlEvent.request 0
        { isRead := false, isWrite := true, cacheResponding := false, size := 8,
          headerDelay := 0, payloadDelay := 0 }]
      { NVMainControl.init 10 20 30 with
          pendingRequest := some
            { isRead := false, isWrite := true, cacheResponding := false, size := 8,
              headerDelay := 0, payloadDelay := 0 }
          responseAt := some 30
          stats := { numReads := 0, numWrites := 1, bytesRead := 0, bytesWritten := 8,
                     readLatency := [], writeLatency := [30] } }
      5
      { isRead := true, isWrite := false, cacheResponding := false, size := 8,
        headerDelay := 0, payloadDelay := 0 } rfl rfl rfl).1 with
   | ⟨c1, b, h1, h2, _⟩ =>
     ⟨c1, b, h1, by
       cases b
       · rfl
       · exact absurd (h2.mp rfl).1 (by simp [NVMainControl.init])⟩⟩

end MetadataCache
